import Mathlib

/-!
# The Merkle reference vector `Refs` of `skyobject/registry/refs.go`

A shallow embedding of the live part of `refs.go` (everything before the
commented-out previous version of the file) and theorems about it.

## Memory model

The Go code is a graph of mutable objects linked by pointers
(`*refsElement`, `*refsNode`, the `upper` back-links, the hash-table index
that stores `*refsElement`).  The embedding keeps that shape: a `Mem` holds the
single `Refs` object under consideration plus two object stores, one for
`refsElement`s and one for `refsNode`s.  A pointer is the position of the
object in its store, `nil` is `none`, `new(T)` appends to the store, and a
field assignment through a pointer rewrites the object in place.

Go `int` values (lengths, indices, counters) are `Int`, for an `int` of 64
bits.  Lengths enter the program as `uint32` fields of a decoded record, which
`int(...)` converts exactly, and only change by `++`/`--`, so 64-bit wrap-around
plays no role.  Depths enter as `uint32` and are only ever decremented above
zero, they are `Nat`.

Two allocations take their capacity from a field of a decoded record,
`make([]*refsElement, 0, r.length)` in `load` and `make([]*refsElement, 0,
rn.length)` in `loadRefsNodes`.  The run-time stops the program when it cannot
get that many words; the memory carries the largest capacity it can still
serve (`room`) and the panic flag is raised where the request is larger.

The file `refs.go` does not compile as it stands.  Where a name is an evident
typing slip the embedding follows the only reading that type-checks:
`r.iterating` in `startIterating`/`stopIterating` is `r.iterators` (and
`r.iterating > 0` in `Rebuild` is `len(r.iterators) > 0`), `res`/`rn`
in `delElementFromIndex` are a local `res` and the parameter `re`, and the
parameter of `loadRootRefsNodes` is the decoded `[]refsElement`.
-/

namespace Registry

/-! ## Data model -/

/-- The `cipher.SHA256` type: only equality and the zero value are used. -/
abbrev SHA256 := Nat

/-- The package level error values, plus `other` for any error coming from the
`Pack` or from a user callback. -/
inductive Error where
  | ErrNotFound
  | ErrIndexOutOfRange
  | ErrInvalidSliceIndex
  | ErrInvalidEncodedRefs
  | ErrInvalidRefs
  | ErrRefsElementIsNil
  | ErrRefsIsIterating
  | ErrStopIteration
  | other (code : Nat)
deriving DecidableEq, Repr

/-- The `refsElement` struct. `upper` is a pointer to a `refsNode`. -/
structure RefsElement where
  Deleted : Bool
  Hash : SHA256
  upper : Option Nat
deriving DecidableEq, Repr, Inhabited

/-- The `refsNode` struct. `leafs` are pointers to elements, `branches` and
`upper` are pointers to nodes.  The `root *Refs` field is left out: it is only
ever assigned the one `Refs` of the `Mem` and never read. -/
structure RefsNode where
  hash : SHA256
  length : Int
  leafs : List Nat
  branches : List Nat
  upper : Option Nat
deriving DecidableEq, Repr, Inhabited

/-- The `Refs` struct. `index` is the Go map (`none` is the nil map, a key
mapped to `none` is an absent key). `iterators` grows at its end. -/
structure Refs where
  Hash : SHA256
  depth : Nat
  degree : Int
  index : Option (SHA256 → Option (List Nat))
  length : Int
  leafs : List Nat
  branches : List Nat
  flags : Nat
  modified : Bool
  iterators : List Bool

/-- The memory: the `Refs`, the store of elements, the store of nodes, a flag
that is raised where the Go program would stop with a run-time panic (a write
to a nil map, an index into an empty slice, an allocation that the run-time
cannot serve) or loop forever, and `room`, the largest capacity for which
`make` still gets a slice of pointers on this machine. -/
structure Mem where
  r : Refs
  els : List RefsElement
  nodes : List RefsNode
  panicked : Bool
  room : Nat

/-- Dereference an element pointer. -/
def Mem.el (m : Mem) (a : Nat) : RefsElement := m.els.getD a default

/-- Dereference a node pointer. -/
def Mem.node (m : Mem) (a : Nat) : RefsNode := m.nodes.getD a default

/-- Write through an element pointer. -/
def Mem.setEl (m : Mem) (a : Nat) (e : RefsElement) : Mem :=
  { m with els := m.els.set a e }

/-- Write through a node pointer. -/
def Mem.setNode (m : Mem) (a : Nat) (n : RefsNode) : Mem :=
  { m with nodes := m.nodes.set a n }

/-- Allocate an element, returning its pointer. -/
def Mem.allocEl (m : Mem) (e : RefsElement) : Nat × Mem :=
  (m.els.length, { m with els := m.els ++ [e] })

/-- Allocate a node, returning its pointer. -/
def Mem.allocNode (m : Mem) (n : RefsNode) : Nat × Mem :=
  (m.nodes.length, { m with nodes := m.nodes ++ [n] })

/-- Replace the `Refs` of the memory. -/
def Mem.setR (m : Mem) (r : Refs) : Mem := { m with r := r }

/-- The allocation `make([]*refsElement, 0, n)` of an empty slice of capacity
`n`: the run-time panics on a negative capacity and stops the program when it
cannot get `n` words.  The panic flag is raised; as at the other panics, the
functions of the model then go on with the memory they have, and what they
return says nothing about the Go program. -/
def Mem.makeCap (m : Mem) (n : Int) : Mem :=
  if n < 0 ∨ (m.room : Int) < n then { m with panicked := true } else m

/-! ## The `Pack` and the encoded records -/

/-- The encoded fields of a `refsElement` (`upper` is tagged `enc:"-"`). -/
structure EncodedElement where
  Deleted : Bool
  Hash : SHA256
deriving DecidableEq, Repr

/-- The `encodedRefs` struct; `Depth`, `Degree` and `Length` are `uint32` in
the source, so a decoded record has them below `2^32`. -/
structure EncodedRefs where
  Depth : Nat
  Degree : Nat
  Length : Nat
  Elements : List EncodedElement
deriving DecidableEq, Repr

/-- The `encodedRefsNode` struct; `Length` is `uint32` in the source. -/
structure EncodedRefsNode where
  Length : Nat
  Elements : List EncodedElement
deriving DecidableEq, Repr

/-- Modelled from the spec: the `Pack` interface and the helper `get(pack, hash,
&obj)` are declared outside `refs.go`.  A pack reports its flags and answers a
read of a hash either with an error or with the record decoded at the type the
caller asked for: a root record, a branch record, or the payload of an element
(`getValue`, the decoded payload being a number). -/
structure Pack where
  flags : Nat
  getRefs : SHA256 → Except Error EncodedRefs
  getNode : SHA256 → Except Error EncodedRefsNode
  getValue : SHA256 → Except Error Nat := fun _ => .error (Error.other 1)

/-- Modelled from the spec: the internal "initialized" bit of `Flags`; the
constant is declared outside `refs.go`. -/
def flagIsSet : Nat := 1

/-- Modelled from the spec: the `HashTableIndex` bit of `Flags`; the constant is
declared outside `refs.go`. -/
def HashTableIndex : Nat := 2

/-- Modelled from the spec: the `EntireRefs` bit of `Flags`; the constant is
declared outside `refs.go`. -/
def EntireRefs : Nat := 4

/-! ## Hash-table index -/

/-- `Refs.addElementToIndex`: `r.index[hash] = append(r.index[hash], re)`. -/
def addElementToIndex (hash : SHA256) (re : Nat) (m : Mem) : Mem :=
  match m.r.index with
  | none => { m with panicked := true }
  | some idx =>
    m.setR { m.r with
      index := some (fun h => if h = hash then some ((idx hash).getD [] ++ [re]) else idx h) }

/-- `Refs.delElementFromIndex`: drop the first occurrence of `re` from the
bucket of `hash`, deleting the key if the bucket becomes empty. -/
def delElementFromIndex (hash : SHA256) (re : Nat) (m : Mem) : Mem :=
  match m.r.index with
  | none => m
  | some idx =>
    let res := ((idx hash).getD []).erase re
    if res.length = 0 then
      m.setR { m.r with index := some (fun h => if h = hash then none else idx h) }
    else
      m.setR { m.r with index := some (fun h => if h = hash then some res else idx h) }

/-- `refsElement.makeDeleted`. -/
def makeDeleted (el : Nat) (m : Mem) : Mem :=
  m.setEl el { m.el el with Deleted := true, Hash := 0 }

/-! ## Loading -/

/-- The loop of `Refs.load` for `depth == 0`: every non-deleted element of the
record becomes a leaf of the `Refs` (its `upper` stays nil). -/
def loadRootLeafs : List EncodedElement → Mem → Mem
  | [], m => m
  | e :: rest, m =>
    if e.Deleted = true then loadRootLeafs rest m
    else
      let (el, m1) := m.allocEl { Deleted := e.Deleted, Hash := e.Hash, upper := none }
      let m2 := m1.setR { m1.r with leafs := m1.r.leafs ++ [el] }
      let m3 := if m2.r.flags &&& HashTableIndex ≠ 0 then addElementToIndex e.Hash el m2 else m2
      loadRootLeafs rest m3

/-- The loop of `Refs.loadRefsNodes` for `depth == 0`: every non-deleted
element gets its `upper` set and is put into the index under the hash of the
node `rn`; it is not appended to `rn.leafs`. -/
def loadNodeLeafs (hash : SHA256) (rn : Nat) : List EncodedElement → Mem → Mem
  | [], m => m
  | e :: rest, m =>
    if e.Deleted = true then loadNodeLeafs hash rn rest m
    else
      let (el, m1) := m.allocEl { Deleted := e.Deleted, Hash := e.Hash, upper := some rn }
      let m2 := if m1.r.flags &&& HashTableIndex ≠ 0 then addElementToIndex hash el m1 else m1
      loadNodeLeafs hash rn rest m2

/-- The loop of `Refs.loadRefsNodes` for `depth > 0`; `sub upper hash` is the
recursive call at `depth-1`. -/
def loadNodeBranches (sub : Option Nat → SHA256 → Mem → Nat × Option Error × Mem)
    (rn : Nat) : List EncodedElement → Mem → Option Error × Mem
  | [], m => (none, m)
  | e :: rest, m =>
    if e.Deleted = true then loadNodeBranches sub rn rest m
    else
      match sub (some rn) e.Hash m with
      | (_, some err, m1) => (some err, m1)
      | (sn, none, m1) =>
        let n := m1.node rn
        loadNodeBranches sub rn rest (m1.setNode rn { n with branches := n.branches ++ [sn] })

/-- `Refs.loadRefsNodes(pack, depth, upper, hash)`: returns the pointer to the
new node and the error. -/
def loadRefsNodes (pack : Pack) : Nat → Option Nat → SHA256 → Mem → Nat × Option Error × Mem
  | depth, upper, hash, m =>
    let (rn, m1) := m.allocNode { hash := hash, length := 0, leafs := [], branches := [], upper := upper }
    if hash = 0 then (rn, none, m1)
    else if m1.r.flags &&& (EntireRefs ||| HashTableIndex) = 0 then (rn, none, m1)
    else
      match pack.getNode hash with
      | .error err => (rn, some err, m1)
      | .ok ern =>
        let m2 := m1.setNode rn { m1.node rn with length := (ern.Length : Int) }
        match depth with
        | 0 => (rn, none, loadNodeLeafs hash rn ern.Elements (m2.makeCap (m2.node rn).length))
        | d + 1 =>
          let res := loadNodeBranches (loadRefsNodes pack d) rn ern.Elements m2
          (rn, res.1, res.2)

/-- `Refs.loadRootRefsNodes`: the loop over the elements of the root record
(`r.branches` has been reset by the caller part of the function). -/
def loadRootRefsNodesLoop (pack : Pack) (depth : Nat) : List EncodedElement → Mem → Option Error × Mem
  | [], m => (none, m)
  | e :: rest, m =>
    if e.Deleted = true then loadRootRefsNodesLoop pack depth rest m
    else
      match loadRefsNodes pack (depth - 1) none e.Hash m with
      | (_, some err, m1) => (some err, m1)
      | (rn, none, m1) =>
        loadRootRefsNodesLoop pack depth rest (m1.setR { m1.r with branches := m1.r.branches ++ [rn] })

/-- `Refs.loadRootRefsNodes`. -/
def loadRootRefsNodes (pack : Pack) (elements : List EncodedElement) (m : Mem) : Option Error × Mem :=
  let depth := m.r.depth
  loadRootRefsNodesLoop pack depth elements (m.setR { m.r with branches := [] })

/-- `Refs.load`. -/
def load (pack : Pack) (m : Mem) : Option Error × Mem :=
  match pack.getRefs m.r.Hash with
  | .error err => (some err, m)
  | .ok er =>
    let m1 := m.setR { m.r with depth := er.Depth, degree := (er.Degree : Int), length := (er.Length : Int) }
    if m1.r.length = 0 ∨ m1.r.degree < 2 then (some Error.ErrInvalidEncodedRefs, m1)
    else
      let m2 := if m1.r.flags &&& HashTableIndex ≠ 0 then m1.setR { m1.r with index := some (fun _ => none) } else m1
      if m2.r.depth = 0 then
        let m3 := m2.makeCap m2.r.length
        (none, loadRootLeafs er.Elements (m3.setR { m3.r with leafs := [] }))
      else
        loadRootRefsNodes pack er.Elements m2

/-- `Refs.initialize` (the Go name is a reserved word here). -/
def initRefs (pack : Pack) (m : Mem) : Option Error × Mem :=
  if m.r.flags ≠ 0 then (none, m)
  else
    let m1 := m.setR { m.r with flags := pack.flags ||| flagIsSet }
    if m1.r.Hash = 0 then (none, m1)
    else if m1.r.length = 0 then load pack m1
    else (none, m1)

/-- `Refs.Len`. -/
def Len (pack : Pack) (m : Mem) : Int × Option Error × Mem :=
  match initRefs pack m with
  | (some err, m1) => (0, some err, m1)
  | (none, m1) => (m1.r.length, none, m1)

/-! ## Lookup and mutation by index -/

/-- `validateIndex`. -/
def validateIndex (i : Int) (length : Int) : Option Error :=
  if i < 0 ∨ i ≥ length then some Error.ErrIndexOutOfRange else none

/-- `Refs.loadRefsNodeIfNeed`: a node with a non-blank hash and zero length is
loaded and overwritten in place (`*rn = *ln`). -/
def loadRefsNodeIfNeed (pack : Pack) (rn : Nat) (depth : Nat) (upper : Option Nat)
    (m : Mem) : Option Error × Mem :=
  if (m.node rn).hash ≠ 0 ∧ (m.node rn).length = 0 then
    match loadRefsNodes pack depth upper (m.node rn).hash m with
    | (_, some err, m1) => (some err, m1)
    | (ln, none, m1) => (none, m1.setNode rn (m1.node ln))
  else (none, m)

/-- The leaf loop of `Refs.hashByIndex` (`depth == 0`). -/
def hashByIndexLeafs (m : Mem) : Int → List Nat → SHA256 × Option Error
  | _, [] => (0, some Error.ErrInvalidRefs)
  | i, el :: rest =>
    if (m.el el).Deleted = true then hashByIndexLeafs m i rest
    else if i = 0 then ((m.el el).Hash, none)
    else hashByIndexLeafs m (i - 1) rest

/-- The branch loop of `Refs.hashByIndex` (`depth > 0`); `sub i br` is the
recursive call `r.hashByIndex(pack, i, depth-1, br, br.leafs, br.branches)`. -/
def hashByIndexBranches (pack : Pack) (depth : Nat) (upper : Option Nat)
    (sub : Int → Nat → Mem → SHA256 × Option Error × Mem) :
    Int → List Nat → Mem → SHA256 × Option Error × Mem
  | _, [], m => (0, some Error.ErrInvalidRefs, m)
  | i, br :: rest, m =>
    match loadRefsNodeIfNeed pack br depth upper m with
    | (some err, m1) => (0, some err, m1)
    | (none, m1) =>
      if i > (m1.node br).length then
        hashByIndexBranches pack depth upper sub (i - (m1.node br).length) rest m1
      else sub i br m1

/-- `Refs.hashByIndex`. -/
def hashByIndex (pack : Pack) : Nat → Int → Option Nat → List Nat → List Nat → Mem →
    SHA256 × Option Error × Mem
  | 0, i, _, leafs, _, m => ((hashByIndexLeafs m i leafs).1, (hashByIndexLeafs m i leafs).2, m)
  | d + 1, i, upper, _, branches, m =>
    hashByIndexBranches pack (d + 1) upper
      (fun j br m1 => hashByIndex pack d j (some br) (m1.node br).leafs (m1.node br).branches m1)
      i branches m

/-- `Refs.HashByIndex`. -/
def HashByIndex (pack : Pack) (i : Int) (m : Mem) : SHA256 × Option Error × Mem :=
  match initRefs pack m with
  | (some err, m1) => (0, some err, m1)
  | (none, m1) =>
    match validateIndex i m1.r.length with
    | some err => (0, some err, m1)
    | none => hashByIndex pack m1.r.depth i none m1.r.leafs m1.r.branches m1

/-- The leaf loop of `Refs.setHashByIndex` (`depth == 0`). -/
def setHashByIndexLeafs (hash : SHA256) : Int → List Nat → Mem → Option Error × Mem
  | _, [], m => (some Error.ErrInvalidRefs, m)
  | i, el :: rest, m =>
    if (m.el el).Deleted = true then setHashByIndexLeafs hash i rest m
    else if i = 0 then
      let m1 := if m.r.flags &&& HashTableIndex ≠ 0 then
          addElementToIndex hash el (delElementFromIndex (m.el el).Hash el m)
        else m
      (none, m1.setEl el { m1.el el with Hash := hash })
    else setHashByIndexLeafs hash (i - 1) rest m

/-- The branch loop of `Refs.setHashByIndex` (`depth > 0`). -/
def setHashByIndexBranches (pack : Pack) (depth : Nat) (upper : Option Nat)
    (sub : Int → Nat → Mem → Option Error × Mem) :
    Int → List Nat → Mem → Option Error × Mem
  | _, [], m => (some Error.ErrInvalidRefs, m)
  | i, br :: rest, m =>
    match loadRefsNodeIfNeed pack br depth upper m with
    | (some err, m1) => (some err, m1)
    | (none, m1) =>
      if i > (m1.node br).length then
        setHashByIndexBranches pack depth upper sub (i - (m1.node br).length) rest m1
      else sub i br m1

/-- `Refs.setHashByIndex`. -/
def setHashByIndex (pack : Pack) (hash : SHA256) : Nat → Int → Option Nat → List Nat →
    List Nat → Mem → Option Error × Mem
  | 0, i, _, leafs, _, m => setHashByIndexLeafs hash i leafs m
  | d + 1, i, upper, _, branches, m =>
    setHashByIndexBranches pack (d + 1) upper
      (fun j br m1 => setHashByIndex pack hash d j (some br) (m1.node br).leafs (m1.node br).branches m1)
      i branches m

/-- `Refs.SetHashByIndex`. -/
def SetHashByIndex (pack : Pack) (i : Int) (hash : SHA256) (m : Mem) : Option Error × Mem :=
  match initRefs pack m with
  | (some err, m1) => (some err, m1)
  | (none, m1) =>
    match validateIndex i m1.r.length with
    | some err => (some err, m1)
    | none => setHashByIndex pack hash m1.r.depth i none m1.r.leafs m1.r.branches m1

/-- `Refs.deleteElement`. -/
def deleteElement (el : Nat) (m : Mem) : Mem :=
  let m1 := if m.r.flags &&& HashTableIndex ≠ 0 then delElementFromIndex (m.el el).Hash el m else m
  let m2 := makeDeleted el m1
  let m3 := m2.setR { m2.r with modified := true }
  if m3.r.iterators.length > 0 then
    m3.setR { m3.r with iterators := m3.r.iterators.set (m3.r.iterators.length - 1) true }
  else m3

/-- The leaf loop of `Refs.deleteByIndex` (`depth == 0`). -/
def deleteByIndexLeafs : Int → List Nat → Mem → Option Error × Mem
  | _, [], m => (some Error.ErrInvalidRefs, m)
  | i, el :: rest, m =>
    if (m.el el).Deleted = true then deleteByIndexLeafs i rest m
    else if i = 0 then (none, deleteElement el m)
    else deleteByIndexLeafs (i - 1) rest m

/-- The branch loop of `Refs.deleteByIndex` (`depth > 0`).  After a successful
recursive call the length of the branch is decremented and, there being no
`return`, the loop goes on with the next branch and the same `i`; falling out
of the loop returns `ErrInvalidRefs`. -/
def deleteByIndexBranches (pack : Pack) (depth : Nat) (upper : Option Nat)
    (sub : Int → Nat → Mem → Option Error × Mem) :
    Int → List Nat → Mem → Option Error × Mem
  | _, [], m => (some Error.ErrInvalidRefs, m)
  | i, br :: rest, m =>
    match loadRefsNodeIfNeed pack br depth upper m with
    | (some err, m1) => (some err, m1)
    | (none, m1) =>
      if i > (m1.node br).length then
        deleteByIndexBranches pack depth upper sub (i - (m1.node br).length) rest m1
      else
        match sub i br m1 with
        | (some err, m2) => (some err, m2)
        | (none, m2) =>
          let n := m2.node br
          deleteByIndexBranches pack depth upper sub i rest
            (m2.setNode br { n with length := n.length - 1 })

/-- `Refs.deleteByIndex`. -/
def deleteByIndex (pack : Pack) : Nat → Int → Option Nat → List Nat → List Nat → Mem →
    Option Error × Mem
  | 0, i, _, leafs, _, m => deleteByIndexLeafs i leafs m
  | d + 1, i, upper, _, branches, m =>
    deleteByIndexBranches pack (d + 1) upper
      (fun j br m1 => deleteByIndex pack d j (some br) (m1.node br).leafs (m1.node br).branches m1)
      i branches m

/-- `Refs.DeleteByIndex`. -/
def DeleteByIndex (pack : Pack) (i : Int) (m : Mem) : Option Error × Mem :=
  match initRefs pack m with
  | (some err, m1) => (some err, m1)
  | (none, m1) =>
    match validateIndex i m1.r.length with
    | some err => (some err, m1)
    | none =>
      match deleteByIndex pack m1.r.depth i none m1.r.leafs m1.r.branches m1 with
      | (some err, m2) => (some err, m2)
      | (none, m2) => (none, m2.setR { m2.r with length := m2.r.length - 1 })

/-- `Refs.AppendHashes`: the body after `initialize` is empty. -/
def AppendHashes (pack : Pack) (_hash : List SHA256) (m : Mem) : Option Error × Mem :=
  match initRefs pack m with
  | (some err, m1) => (some err, m1)
  | (none, m1) => (none, m1)

/-! ## Traversal -/

/-- `IterateFunc`: a Go closure.  It receives the index and the hash, may read
and change the memory and its own captured variables (`U`), and returns an
error or nil. -/
abbrev IterateFunc (U : Type) := Int → SHA256 → Mem × U → Option Error × (Mem × U)

/-- `Refs.startIterating`. -/
def startIterating (m : Mem) : Mem :=
  m.setR { m.r with iterators := m.r.iterators ++ [false] }

/-- `Refs.stopIterating`. -/
def stopIterating (m : Mem) : Mem :=
  if m.r.iterators.length = 0 then { m with panicked := true }
  else m.setR { m.r with iterators := m.r.iterators.dropLast }

/-- `Refs.isFindingIteratorsIndexFromRootRequired`. -/
def isFindingIteratorsIndexFromRootRequired (m : Mem) : Bool × Mem :=
  let its := m.r.iterators
  if its.length = 0 then (false, { m with panicked := true })
  else if its.getD (its.length - 1) false = true then
    let its1 := if its.length > 1 then its.set (its.length - 2) true else its
    (true, m.setR { m.r with iterators := its1.set (its1.length - 1) false })
  else (false, m)

/-- The loop of `Refs.ascendLeafs`; the arguments after the list are the
current values of `i`, `skip` and `pass`.  The result is `(pass, rewind, err)`
and the state. -/
def ascendLeafsLoop {U : Type} (ascendFunc : IterateFunc U) :
    List Nat → Int → Int → Int → Mem × U → Int × Bool × Option Error × (Mem × U)
  | [], _, _, pass, s => (pass, false, none, s)
  | el :: rest, i, skip, pass, s =>
    if (s.1.el el).Deleted = true then ascendLeafsLoop ascendFunc rest i skip pass s
    else if skip < i then ascendLeafsLoop ascendFunc rest i (skip + 1) pass s
    else
      match ascendFunc i (s.1.el el).Hash s with
      | (some err, s1) => (pass, false, some err, s1)
      | (none, s1) =>
        match isFindingIteratorsIndexFromRootRequired s1.1 with
        | (true, m2) => (pass + 1, true, none, (m2, s1.2))
        | (false, m2) => ascendLeafsLoop ascendFunc rest (i + 1) (skip + 1) (pass + 1) (m2, s1.2)

/-- `Refs.ascendLeafs`. -/
def ascendLeafs {U : Type} (i : Int) (ascendFunc : IterateFunc U) (leafs : List Nat)
    (s : Mem × U) : Int × Bool × Option Error × (Mem × U) :=
  ascendLeafsLoop ascendFunc leafs i 0 0 s

/-- The loop of `Refs.ascendBranches`; the arguments after the list are the
current values of `i`, `skip` and `pass`; `sub i br` is the recursive call
`r.ascend(pack, i, ascendFunc, depth-1, br, br.leafs, br.branches)`. -/
def ascendBranchesLoop {U : Type} (pack : Pack) (depth : Nat) (upper : Option Nat)
    (sub : Int → Nat → Mem × U → Int × Bool × Option Error × (Mem × U)) :
    List Nat → Int → Int → Int → Mem × U → Int × Bool × Option Error × (Mem × U)
  | [], _, _, pass, s => (pass, false, none, s)
  | br :: rest, i, skip, pass, s =>
    match loadRefsNodeIfNeed pack br depth upper s.1 with
    | (some err, m1) => (pass, false, some err, (m1, s.2))
    | (none, m1) =>
      if (m1.node br).length = 0 then
        ascendBranchesLoop pack depth upper sub rest i skip pass (m1, s.2)
      else if skip + (m1.node br).length < i then
        ascendBranchesLoop pack depth upper sub rest i (skip + (m1.node br).length) pass (m1, s.2)
      else
        match sub i br (m1, s.2) with
        | (subpass, rewind, err, s2) =>
          if err ≠ none ∨ rewind = true then (pass + subpass, rewind, err, s2)
          else ascendBranchesLoop pack depth upper sub rest (i + subpass) (skip + subpass)
            (pass + subpass) s2

/-- `Refs.ascend` with `Refs.ascendBranches` inlined for `depth > 0`. -/
def ascend {U : Type} (pack : Pack) (ascendFunc : IterateFunc U) :
    Nat → Int → Option Nat → List Nat → List Nat → Mem × U →
    Int × Bool × Option Error × (Mem × U)
  | 0, i, _, leafs, _, s => ascendLeafs i ascendFunc leafs s
  | d + 1, i, upper, _, branches, s =>
    ascendBranchesLoop pack (d + 1) upper
      (fun j br s1 =>
        ascend pack ascendFunc d j (some br) (s1.1.node br).leafs (s1.1.node br).branches s1)
      branches i 0 0 s

/-- The `for` loop of `Refs.ascendFrom`.  It runs as long as the traversal asks
for a rewind; `none` means that the fuel did not suffice. -/
def ascendFromLoop {U : Type} (pack : Pack) (ascendFunc : IterateFunc U) :
    Nat → Int → Mem × U → Option (Option Error × (Mem × U))
  | 0, _, _ => none
  | fuel + 1, i, s =>
    match ascend pack ascendFunc s.1.r.depth i none s.1.r.leafs s.1.r.branches s with
    | (pass, true, _, s1) => ascendFromLoop pack ascendFunc fuel (i + pass) s1
    | (_, false, err, s1) => some (err, s1)

/-- `Refs.ascendFrom`; `stopIterating` is deferred to the end. -/
def ascendFrom {U : Type} (fuel : Nat) (pack : Pack) (start : Int) (ascendFunc : IterateFunc U)
    (s : Mem × U) : Option (Option Error × (Mem × U)) :=
  match initRefs pack s.1 with
  | (some err, m1) => some (some err, (m1, s.2))
  | (none, m1) =>
    match validateIndex start m1.r.length with
    | some err => some (some err, (m1, s.2))
    | none =>
      if m1.r.length = 0 then some (none, (m1, s.2))
      else
        match ascendFromLoop pack ascendFunc fuel start (startIterating m1, s.2) with
        | none => none
        | some (err, s2) =>
          some (if err = some Error.ErrStopIteration then none else err,
            (stopIterating s2.1, s2.2))

/-- `Refs.Ascend`. -/
def Ascend {U : Type} (fuel : Nat) (pack : Pack) (ascendFunc : IterateFunc U) (s : Mem × U) :
    Option (Option Error × (Mem × U)) :=
  ascendFrom fuel pack 0 ascendFunc s

/-- The loop of `Refs.descendLeafs` over the leafs from the last to the first;
the arguments after the list are the current values of `i`, `si` and `pass`. -/
def descendLeafsLoop {U : Type} (descendFunc : IterateFunc U) :
    List Nat → Int → Int → Int → Mem × U → Int × Bool × Option Error × (Mem × U)
  | [], _, _, pass, s => (pass, false, none, s)
  | el :: rest, i, si, pass, s =>
    if (s.1.el el).Deleted = true then descendLeafsLoop descendFunc rest i si pass s
    else if i < si then descendLeafsLoop descendFunc rest i (si - 1) pass s
    else
      match descendFunc i (s.1.el el).Hash s with
      | (some err, s1) => (pass, false, some err, s1)
      | (none, s1) =>
        match isFindingIteratorsIndexFromRootRequired s1.1 with
        | (true, m2) => (pass + 1, true, none, (m2, s1.2))
        | (false, m2) => descendLeafsLoop descendFunc rest (i - 1) (si - 1) (pass + 1) (m2, s1.2)

/-- `Refs.descendLeafs`: `k` runs from `len(leafs)-1` down to `0`. -/
def descendLeafs {U : Type} (si i : Int) (descendFunc : IterateFunc U) (leafs : List Nat)
    (s : Mem × U) : Int × Bool × Option Error × (Mem × U) :=
  descendLeafsLoop descendFunc leafs.reverse i si 0 s

/-- The loop of `Refs.descendBranches` over the branches from the last to the
first; the arguments after the list are the current values of `i`, `si` and
`pass`; `sub si i br` is the recursive call
`r.descend(pack, si, i, descendFunc, depth-1, br, br.leafs, br.branches)`. -/
def descendBranchesLoop {U : Type} (pack : Pack) (depth : Nat) (upper : Option Nat)
    (sub : Int → Int → Nat → Mem × U → Int × Bool × Option Error × (Mem × U)) :
    List Nat → Int → Int → Int → Mem × U → Int × Bool × Option Error × (Mem × U)
  | [], _, _, pass, s => (pass, false, none, s)
  | br :: rest, i, si, pass, s =>
    match loadRefsNodeIfNeed pack br depth upper s.1 with
    | (some err, m1) => (pass, false, some err, (m1, s.2))
    | (none, m1) =>
      if (m1.node br).length = 0 then
        descendBranchesLoop pack depth upper sub rest i si pass (m1, s.2)
      else if i < si - (m1.node br).length then
        descendBranchesLoop pack depth upper sub rest i (si - (m1.node br).length) pass (m1, s.2)
      else
        match sub si i br (m1, s.2) with
        | (subpass, rewind, err, s2) =>
          if err ≠ none ∨ rewind = true then (pass + subpass, rewind, err, s2)
          else descendBranchesLoop pack depth upper sub rest (i - subpass) (si - subpass)
            (pass + subpass) s2

/-- `Refs.descend` with `Refs.descendBranches` inlined for `depth > 0`. -/
def descend {U : Type} (pack : Pack) (descendFunc : IterateFunc U) :
    Nat → Int → Int → Option Nat → List Nat → List Nat → Mem × U →
    Int × Bool × Option Error × (Mem × U)
  | 0, si, i, _, leafs, _, s => descendLeafs si i descendFunc leafs s
  | d + 1, si, i, upper, _, branches, s =>
    descendBranchesLoop pack (d + 1) upper
      (fun sj j br s1 =>
        descend pack descendFunc d sj j (some br) (s1.1.node br).leafs (s1.1.node br).branches s1)
      branches.reverse i si 0 s

/-- The `for` loop of `Refs.descendFrom`: `si` is computed once before the
loop; `none` means that the fuel did not suffice. -/
def descendFromLoop {U : Type} (pack : Pack) (descendFunc : IterateFunc U) (si : Int) :
    Nat → Int → Mem × U → Option (Option Error × (Mem × U))
  | 0, _, _ => none
  | fuel + 1, i, s =>
    match descend pack descendFunc s.1.r.depth si i none s.1.r.leafs s.1.r.branches s with
    | (pass, true, _, s1) => descendFromLoop pack descendFunc si fuel (i - pass) s1
    | (_, false, err, s1) => some (err, s1)

/-- `Refs.descendFrom`; `stopIterating` is deferred to the end. -/
def descendFrom {U : Type} (fuel : Nat) (pack : Pack) (start : Int) (descendFunc : IterateFunc U)
    (s : Mem × U) : Option (Option Error × (Mem × U)) :=
  match validateIndex start s.1.r.length with
  | some err => some (some err, s)
  | none =>
    if s.1.r.length = 0 then some (none, s)
    else
      match descendFromLoop pack descendFunc (s.1.r.length - 1) fuel start
          (startIterating s.1, s.2) with
      | none => none
      | some (err, s2) =>
        some (if err = some Error.ErrStopIteration then none else err,
          (stopIterating s2.1, s2.2))

/-- `Refs.Descend`. -/
def Descend {U : Type} (fuel : Nat) (pack : Pack) (descendFunc : IterateFunc U) (s : Mem × U) :
    Option (Option Error × (Mem × U)) :=
  match initRefs pack s.1 with
  | (some err, m1) => some (some err, (m1, s.2))
  | (none, m1) => descendFrom fuel pack (m1.r.length - 1) descendFunc (m1, s.2)

/-! ## Lookup and deletion by hash -/

/-- The map read `res, ok := r.index[hash]`: `none` when the map is nil or has
no such key. -/
def Mem.bucket (m : Mem) (hash : SHA256) : Option (List Nat) :=
  match m.r.index with
  | none => none
  | some idx => idx hash

/-- The loop `for up := el.upper; up != nil; up = up.upper { up.length-- }` of
`Refs.delElementBubbling`.  The fuel bounds the length of the chain; a chain
that outlasts it is cyclic and the Go loop would not end. -/
def bubbleLengths : Nat → Option Nat → Mem → Mem
  | _, none, m => m
  | 0, some _, m => { m with panicked := true }
  | fuel + 1, some up, m =>
    bubbleLengths fuel (m.node up).upper
      (m.setNode up { m.node up with length := (m.node up).length - 1 })

/-- `Refs.delElementBubbling`. -/
def delElementBubbling (el : Nat) (m : Mem) : Mem :=
  let m1 := bubbleLengths m.nodes.length (m.el el).upper m
  let m2 := m1.setR { m1.r with length := m1.r.length - 1 }
  deleteElement el m2

/-- The loop `for _, el := range res { r.delElementBubbling(el) }` of
`Refs.DeleteByHash`.  The arguments are the number of iterations left, the
position `k` and the backing array `arr` of the slice `res`, which the loop
reads at every iteration.  `res` is the slice stored in `r.index[hash]`, and
`delElementFromIndex` removes an element from that slice in place
(`copy(res[k:], res[k+1:])`, `res[len(res)-1] = nil`): when the element it
removes is in the bucket of `hash`, the array becomes the shortened bucket
followed by nil and by what was behind the bucket.  Reading nil makes
`delElementBubbling` dereference a nil pointer. -/
def deleteByHashIndexLoop (hash : SHA256) : Nat → Nat → List (Option Nat) → Mem → Mem
  | 0, _, _, m => m
  | n + 1, k, arr, m =>
    match arr.getD k none with
    | none => { m with panicked := true }
    | some el =>
      let bucket := (m.bucket hash).getD []
      let arr1 :=
        if (m.el el).Hash = hash ∧ el ∈ bucket then
          (bucket.erase el).map some ++ [none] ++ arr.drop bucket.length
        else arr
      deleteByHashIndexLoop hash n (k + 1) arr1 (delElementBubbling el m)

/-- The closure passed to `Descend` by `Refs.DeleteByHash`; its captured
variable is `deleted`. -/
def deleteByHashFunc (pack : Pack) (hash : SHA256) : IterateFunc Bool :=
  fun i elHash s =>
    if elHash = hash then ((DeleteByIndex pack i s.1).1, ((DeleteByIndex pack i s.1).2, true))
    else (none, s)

/-- `Refs.DeleteByHash`. -/
def DeleteByHash (fuel : Nat) (pack : Pack) (hash : SHA256) (m : Mem) :
    Option (Option Error × Mem) :=
  match initRefs pack m with
  | (some err, m1) => some (some err, m1)
  | (none, m1) =>
    if m1.r.flags &&& HashTableIndex ≠ 0 then
      match m1.bucket hash with
      | none => some (some Error.ErrNotFound, m1)
      | some res => some (none, deleteByHashIndexLoop hash res.length 0 (res.map some) m1)
    else
      match Descend fuel pack (deleteByHashFunc pack hash) (m1, false) with
      | none => none
      | some (err, s1) =>
        some (if err = none ∧ s1.2 = false then some Error.ErrNotFound else err, s1.1)

/-- The closure passed to `Ascend` by `Refs.HasHash`; its captured variable is
`ok`. -/
def hasHashFunc (hash : SHA256) : IterateFunc Bool :=
  fun _ elHash s =>
    if elHash = hash then (some Error.ErrStopIteration, (s.1, true)) else (none, s)

/-- `Refs.HasHash`. -/
def HasHash (fuel : Nat) (pack : Pack) (hash : SHA256) (m : Mem) :
    Option (Bool × Option Error × Mem) :=
  match initRefs pack m with
  | (some err, m1) => some (false, some err, m1)
  | (none, m1) =>
    if m1.r.flags &&& HashTableIndex ≠ 0 then some ((m1.bucket hash).isSome, none, m1)
    else
      match Ascend fuel pack (hasHashFunc hash) (m1, false) with
      | none => none
      | some (err, s1) => some (s1.2, err, s1.1)

/-- `Refs.ValueByHash`: the decoded value (if any) and the error. -/
def ValueByHash (fuel : Nat) (pack : Pack) (hash : SHA256) (m : Mem) :
    Option (Option Nat × Option Error × Mem) :=
  match HasHash fuel pack hash m with
  | none => none
  | some (_, some err, m1) => some (none, some err, m1)
  | some (ok, none, m1) =>
    if ok = false then some (none, some Error.ErrNotFound, m1)
    else if hash = 0 then some (none, some Error.ErrRefsElementIsNil, m1)
    else
      match pack.getValue hash with
      | .error err => some (none, some err, m1)
      | .ok v => some (some v, none, m1)

/-- The loop of `Refs.indexInLeafs`; the last argument is the current `i`. -/
def indexInLeafsLoop (m : Mem) (re : Nat) : List Nat → Int → Int × Option Error
  | [], i => (i, some Error.ErrInvalidRefs)
  | el :: rest, i =>
    if (m.el el).Deleted = true then indexInLeafsLoop m re rest i
    else if el = re then (i, none)
    else indexInLeafsLoop m re rest (i + 1)

/-- `Refs.indexInLeafs`. -/
def indexInLeafs (re : Nat) (leafs : List Nat) (m : Mem) : Int × Option Error :=
  indexInLeafsLoop m re leafs 0

/-- The loop `for _, br := range branches { if br == down { break }; i +=
br.length }`: the sum of the lengths of the branches in front of `down`. -/
def lengthsBefore (m : Mem) (down : Nat) : List Nat → Int
  | [] => 0
  | br :: rest => if br = down then 0 else (m.node br).length + lengthsBefore m down rest

/-- The loop `for ; up != nil; down, up = up, up.upper` of `Refs.indexOfLeaf`
and `Refs.indicesOfLeaf`: it returns the last `down` and the sum of the lengths
to add to the index, or `none` when the fuel is used up (a cyclic chain). -/
def climb (m : Mem) : Nat → Nat → Option Nat → Int → Option (Nat × Int)
  | _, down, none, acc => some (down, acc)
  | 0, _, some _, _ => none
  | fuel + 1, down, some up, acc =>
    climb m fuel up (m.node up).upper (acc + lengthsBefore m down (m.node up).branches)

/-- The part of `Refs.indexOfLeaf` and `Refs.indicesOfLeaf` after the leaf
loop: the offset of the leafs of the node `re.upper` in the whole `Refs`. -/
def offsetOfNode (upper : Nat) (m : Mem) : Option Int :=
  match climb m m.nodes.length upper (m.node upper).upper 0 with
  | none => none
  | some (down, acc) => some (acc + lengthsBefore m down m.r.branches)

/-- `Refs.indexOfLeaf`; the memory is returned to carry the panic flag (a nil
`re.upper`, a cyclic chain of `upper` links). -/
def indexOfLeaf (re : Nat) (m : Mem) : Int × Option Error × Mem :=
  match (m.el re).upper with
  | none => (0, none, { m with panicked := true })
  | some upper =>
    match indexInLeafs re (m.node upper).leafs m with
    | (i, some err) => (i, some err, m)
    | (i, none) =>
      match offsetOfNode upper m with
      | none => (i, none, { m with panicked := true })
      | some off => (i + off, none, m)

/-- The closure passed to `Ascend` by `Refs.IndexOfHash`; its captured
variables are `found` and the result `i`. -/
def indexOfHashFunc (hash : SHA256) : IterateFunc (Bool × Int) :=
  fun index elHash s =>
    if elHash = hash then (some Error.ErrStopIteration, (s.1, (true, index))) else (none, s)

/-- `Refs.IndexOfHash`. -/
def IndexOfHash (fuel : Nat) (pack : Pack) (hash : SHA256) (m : Mem) :
    Option (Int × Option Error × Mem) :=
  match initRefs pack m with
  | (some err, m1) => some (0, some err, m1)
  | (none, m1) =>
    if m1.r.flags &&& HashTableIndex ≠ 0 then
      match m1.bucket hash with
      | none => some (0, some Error.ErrNotFound, m1)
      | some res =>
        match res.getLast? with
        | none => some (0, none, { m1 with panicked := true })
        | some re =>
          match (m1.el re).upper with
          | none => some ((indexInLeafs re m1.r.leafs m1).1, (indexInLeafs re m1.r.leafs m1).2, m1)
          | some _ => some (indexOfLeaf re m1)
    else
      match Ascend fuel pack (indexOfHashFunc hash) (m1, (false, 0)) with
      | none => none
      | some (err, s1) =>
        some (s1.2.2, if err = none ∧ s1.2.1 = false then some Error.ErrNotFound else err, s1.1)

/-- The loop of `Refs.indicesInLeafs`; the last arguments are the current `i`
and `is`. -/
def indicesInLeafsLoop (m : Mem) (re : Nat) : List Nat → Int → List Int → List Int
  | [], _, is => is
  | el :: rest, i, is =>
    if (m.el el).Deleted = true then indicesInLeafsLoop m re rest i is
    else indicesInLeafsLoop m re rest (i + 1) (if el = re then is ++ [i] else is)

/-- `Refs.indicesInLeafs`: the loop ranges over `r.leafs`, whatever the
argument `leafs` is. -/
def indicesInLeafs (re : Nat) (_leafs : List Nat) (m : Mem) : List Int × Option Error :=
  let is := indicesInLeafsLoop m re m.r.leafs 0 []
  (is, if is.length = 0 then some Error.ErrInvalidRefs else none)

/-- `Refs.indicesOfLeaf`. -/
def indicesOfLeaf (re : Nat) (m : Mem) : List Int × Option Error × Mem :=
  match (m.el re).upper with
  | none => ([], none, { m with panicked := true })
  | some upper =>
    match indicesInLeafs re (m.node upper).leafs m with
    | (is, some err) => (is, some err, m)
    | (is, none) =>
      match offsetOfNode upper m with
      | none => (is, none, { m with panicked := true })
      | some off => (is.map (fun i => i + off), none, m)

/-- The loop over the bucket in `Refs.IndicesByHash`; `is = append(is, js)` is
read as appending the elements of `js`. -/
def indicesByHashLoop : List Nat → List Int → Mem → List Int × Option Error × Mem
  | [], is, m => (is, none, m)
  | re :: rest, is, m =>
    match (m.el re).upper with
    | none =>
      match indicesInLeafs re m.r.leafs m with
      | (_, some err) => (is, some err, m)
      | (js, none) => indicesByHashLoop rest (is ++ js) m
    | some _ =>
      match indicesOfLeaf re m with
      | (_, some err, m1) => (is, some err, m1)
      | (js, none, m1) => indicesByHashLoop rest (is ++ js) m1

/-- The closure passed to `Ascend` by `Refs.IndicesByHash`; its captured
variable is `is`. -/
def indicesByHashFunc (hash : SHA256) : IterateFunc (List Int) :=
  fun index elHash s => if elHash = hash then (none, (s.1, s.2 ++ [index])) else (none, s)

/-- `Refs.IndicesByHash`. -/
def IndicesByHash (fuel : Nat) (pack : Pack) (hash : SHA256) (m : Mem) :
    Option (List Int × Option Error × Mem) :=
  match initRefs pack m with
  | (some err, m1) => some ([], some err, m1)
  | (none, m1) =>
    if m1.r.flags &&& HashTableIndex ≠ 0 then
      match m1.bucket hash with
      | none => some ([], some Error.ErrNotFound, m1)
      | some res => some (indicesByHashLoop res [] m1)
    else
      match Ascend fuel pack (indicesByHashFunc hash) (m1, []) with
      | none => none
      | some (err, s1) =>
        some (s1.2, if err = none ∧ s1.2.length = 0 then some Error.ErrNotFound else err, s1.1)

/-! ## Traversal from an index, slices, clearing and rebuilding -/

/-- `Refs.AscendFrom`. -/
def AscendFrom {U : Type} (fuel : Nat) (pack : Pack) (start : Int) (ascendFunc : IterateFunc U)
    (s : Mem × U) : Option (Option Error × (Mem × U)) :=
  ascendFrom fuel pack start ascendFunc s

/-- `Refs.DescendFrom`. -/
def DescendFrom {U : Type} (fuel : Nat) (pack : Pack) (start : Int) (descendFunc : IterateFunc U)
    (s : Mem × U) : Option (Option Error × (Mem × U)) :=
  match initRefs pack s.1 with
  | (some err, m1) => some (some err, (m1, s.2))
  | (none, m1) => descendFrom fuel pack start descendFunc (m1, s.2)

/-- `Refs.Flags`: `r.flags &^ flagIsSet`. -/
def Flags (m : Mem) : Nat :=
  m.r.flags ^^^ (m.r.flags &&& flagIsSet)

/-- `validateSliceIndices`. -/
def validateSliceIndices (i j length : Int) : Option Error :=
  if i < 0 ∨ j < 0 ∨ i > length ∨ j > length then some Error.ErrIndexOutOfRange
  else if i > j then some Error.ErrInvalidSliceIndex
  else none

/-- `Refs.Slice`: the result is the new `Refs` (`none` is the nil pointer), the
error and the memory of the receiver.  After the validation the new `Refs`
gets the degree, an empty index if the receiver has one, and the flags; the
part that would fill it is absent, so both branches of `i == j` return the
same. -/
def Slice (pack : Pack) (i j : Int) (m : Mem) : Option Refs × Option Error × Mem :=
  match initRefs pack m with
  | (some err, m1) => (none, some err, m1)
  | (none, m1) =>
    match validateSliceIndices i j m1.r.length with
    | some err => (none, some err, m1)
    | none =>
      let slice : Refs :=
        { Hash := 0
          depth := 0
          degree := m1.r.degree
          index := if m1.r.flags &&& HashTableIndex ≠ 0 then some (fun _ => none) else none
          length := 0
          leafs := []
          branches := []
          flags := m1.r.flags
          modified := false
          iterators := [] }
      if i = j then (some slice, none, m1)
      else (some slice, none, m1)

/-- `Refs.Clear`: every field but `iterators` is assigned its zero value. -/
def Clear (m : Mem) : Option Error × Mem :=
  (none, m.setR { m.r with
    Hash := 0
    depth := 0
    degree := 0
    index := none
    length := 0
    leafs := []
    branches := []
    flags := 0
    modified := false })

/-- `Refs.Rebuild`: the guard reads `r.iterating > 0`, which is taken as
`len(r.iterators) > 0` (there is no field `iterating`); the body after the
guard is empty. -/
def Rebuild (_pack : Pack) (m : Mem) : Option Error × Mem :=
  if m.r.iterators.length > 0 then (some Error.ErrRefsIsIterating, m)
  else (none, m)

/-! ## Abstraction of a tree in memory -/

/-- The non-deleted leafs among a list of element pointers. -/
def liveLeafs (m : Mem) (leafs : List Nat) : List Nat :=
  leafs.filter (fun a => !(m.el a).Deleted)

/-- The hashes of the non-deleted leafs below a node of the given depth (its
`leafs` at depth 0, its `branches` above), read from left to right. -/
def liveHashes (m : Mem) : Nat → List Nat → List Nat → List SHA256
  | 0, leafs, _ => (liveLeafs m leafs).map (fun a => (m.el a).Hash)
  | d + 1, _, branches =>
    branches.flatMap (fun b => liveHashes m d (m.node b).leafs (m.node b).branches)

/-- The live hash sequence of the `Refs`. -/
def Mem.liveSeq (m : Mem) : List SHA256 :=
  liveHashes m m.r.depth m.r.leafs m.r.branches

/-- Every branch below a node of the given depth records as its length the
number of non-deleted leafs below it. -/
def lengthsOk (m : Mem) : Nat → List Nat → Bool
  | 0, _ => true
  | d + 1, branches =>
    branches.all (fun b =>
      decide ((m.node b).length = ((liveHashes m d (m.node b).leafs (m.node b).branches).length : Int)) &&
      lengthsOk m d (m.node b).branches)

/-- Every branch below a node of the given depth is loaded: none is a stub (a
non-blank hash with zero length), which `loadRefsNodeIfNeed` would fetch. -/
def fullyLoaded (m : Mem) : Nat → List Nat → Bool
  | 0, _ => true
  | d + 1, branches =>
    branches.all (fun b =>
      (decide ((m.node b).hash = 0) || decide ((m.node b).length ≠ 0)) &&
      fullyLoaded m d (m.node b).branches)

/-- The sum of the recorded lengths of the children of the root, or the number
of its non-deleted leafs at depth 0. -/
def Mem.childrenLength (m : Mem) : Int :=
  match m.r.depth with
  | 0 => ((liveLeafs m m.r.leafs).length : Int)
  | _ + 1 => (m.r.branches.map (fun b => (m.node b).length)).sum

/-- Length conservation: the length of every branch is the number of
non-deleted leafs in its subtree and the length of the root is the sum of the
lengths of its children (the number of non-deleted root leafs at depth 0). -/
def Mem.lengthConserved (m : Mem) : Bool :=
  lengthsOk m m.r.depth m.r.branches && decide (m.r.length = m.childrenLength)

/-- A well-formed, fully loaded `Refs`: it is initialized, none of its branches
is a stub, and its lengths are conserved. -/
def Mem.wellFormed (m : Mem) : Bool :=
  decide (m.r.flags ≠ 0) && fullyLoaded m m.r.depth m.r.branches && m.lengthConserved

/-- The calls `(k, h)` a traversal owes for a sequence of hashes whose first
element has index `k`. -/
def indexedFrom : Int → List SHA256 → List (Int × SHA256)
  | _, [] => []
  | k, h :: t => (k, h) :: indexedFrom (k + 1) t

/-- Run a callback on a list of calls in order, in the memory `m`, and return
the final value of its captured variables. -/
def runCalls {U : Type} (fn : IterateFunc U) (m : Mem) : List (Int × SHA256) → U → U
  | [], u => u
  | c :: rest, u => runCalls fn m rest (fn c.1 c.2 (m, u)).2.2

/-- The calls `(k, h)` of a descending traversal for a sequence of hashes given
in visiting order, the first of which has index `k`. -/
def indexedDown : Int → List SHA256 → List (Int × SHA256)
  | _, [] => []
  | k, h :: t => (k, h) :: indexedDown (k - 1) t

/-- The hashes of the non-deleted leafs of an encoded tree of the given depth
whose top record has the given elements, read from left to right out of the
pack. -/
def encodedLive (pack : Pack) : Nat → List EncodedElement → List SHA256
  | 0, elements => (elements.filter (fun e => !e.Deleted)).map (fun e => e.Hash)
  | d + 1, elements =>
    (elements.filter (fun e => !e.Deleted)).flatMap (fun e =>
      match pack.getNode e.Hash with
      | .ok ern => encodedLive pack d ern.Elements
      | .error _ => [])

/-- The number of non-deleted elements of a record. -/
def liveCount (elements : List EncodedElement) : Nat :=
  (elements.filter (fun e => !e.Deleted)).length

/-- The children of the root: its leafs at depth 0, its branches above. -/
def Mem.rootChildren (m : Mem) : List Nat :=
  match m.r.depth with
  | 0 => m.r.leafs
  | _ + 1 => m.r.branches

/-- A callback that appends every call it receives to a log, changes nothing
else and returns nil. -/
def logCalls : IterateFunc (List (Int × SHA256)) :=
  fun i h s => (none, (s.1, s.2 ++ [(i, h)]))

/-- The `Refs` of `m2` differs from the `Refs` of `m1` at most in its index. -/
def sameButIndex (m1 m2 : Mem) : Prop :=
  ∃ idx, m2.r = { m1.r with index := idx }

/-- Run a callback on a list of calls in order, in the memory `m`, up to and
including the first call that returns an error; the result is that error (or
nil) and the final value of the captured variables. -/
def runUntil {U : Type} (fn : IterateFunc U) (m : Mem) :
    List (Int × SHA256) → U → Option Error × U
  | [], u => (none, u)
  | c :: rest, u =>
    match fn c.1 c.2 (m, u) with
    | (some err, s1) => (some err, s1.2)
    | (none, s1) => runUntil fn m rest s1.2

/-- A well-formed `Refs` whose leafs hang directly off the root: it is
initialized, has depth 0, its length is the number of its non-deleted leafs, no
leaf occurs twice, every leaf pointer is valid and every leaf has a nil
`upper`. -/
def Mem.flat (m : Mem) : Bool :=
  decide (m.r.flags ≠ 0) && decide (m.r.depth = 0) &&
  decide (m.r.length = ((liveLeafs m m.r.leafs).length : Int)) &&
  decide m.r.leafs.Nodup &&
  m.r.leafs.all (fun a => decide (a < m.els.length) && decide ((m.el a).upper = none))

/-- The index of a `Refs` of depth 0 is exhaustive and exact: a hash has a
bucket if and only if a non-deleted leaf carries it, and the bucket holds
exactly the non-deleted leafs with that hash, each once. -/
def Mem.indexExact (m : Mem) : Prop :=
  ∀ h : SHA256,
    match m.bucket h with
    | none => ∀ a ∈ liveLeafs m m.r.leafs, (m.el a).Hash ≠ h
    | some l =>
      l ≠ [] ∧ l.Perm ((liveLeafs m m.r.leafs).filter (fun a => decide ((m.el a).Hash = h)))

/-- The leaf that the leaf loop of `hashByIndex`, `setHashByIndex` and
`deleteByIndex` stops at for the index `i`. -/
def leafAt (m : Mem) : Int → List Nat → Option Nat
  | _, [] => none
  | i, el :: rest =>
    if (m.el el).Deleted = true then leafAt m i rest
    else if i = 0 then some el
    else leafAt m (i - 1) rest

/-- The leaf that the branch loop of `hashByIndex` and `setHashByIndex` reaches
for the index `i` when every branch is loaded; `sub` is the search below a
branch. -/
def leafAtBranches (m : Mem) (sub : Int → Nat → Option Nat) : Int → List Nat → Option Nat
  | _, [] => none
  | i, br :: rest =>
    if i > (m.node br).length then leafAtBranches m sub (i - (m.node br).length) rest
    else sub i br

/-- The leaf that `hashByIndex` and `setHashByIndex` reach for the index `i` in
a fully loaded tree. -/
def leafAtDepth (m : Mem) : Nat → Int → List Nat → List Nat → Option Nat
  | 0, i, leafs, _ => leafAt m i leafs
  | d + 1, i, _, branches =>
    leafAtBranches m
      (fun j br => leafAtDepth m d j (m.node br).leafs (m.node br).branches) i branches

/-- All leaf pointers below a node of the given depth, deleted ones included,
from left to right. -/
def allLeafs (m : Mem) : Nat → List Nat → List Nat → List Nat
  | 0, leafs, _ => leafs
  | d + 1, _, branches =>
    branches.flatMap (fun b => allLeafs m d (m.node b).leafs (m.node b).branches)

/-- The leafs of the `Refs` form a tree of valid pointers: no leaf is reached
along two paths from the root and every leaf pointer is in the store. -/
def Mem.treeShaped (m : Mem) : Bool :=
  decide (allLeafs m m.r.depth m.r.leafs m.r.branches).Nodup &&
  (allLeafs m m.r.depth m.r.leafs m.r.branches).all (fun a => decide (a < m.els.length))

/-- What the leaf loop of `setHashByIndex` does to the leaf it stops at. -/
def setLeafHash (hash : SHA256) (el : Nat) (m : Mem) : Mem :=
  let m1 :=
    if m.r.flags &&& HashTableIndex ≠ 0 then
      addElementToIndex hash el (delElementFromIndex (m.el el).Hash el m)
    else m
  m1.setEl el { m1.el el with Hash := hash }

/-- Modelled from the spec: the root record `(depth, degree, length, elements)`
of the tree in memory, whose content hash is the hash of the `Refs`.  The
elements are the leafs of the root with their deletion marks at depth 0 and
the hashes of its branches above; the encoder is outside `refs.go`. -/
def encodeRoot (m : Mem) : EncodedRefs :=
  { Depth := m.r.depth
    Degree := m.r.degree.toNat
    Length := m.r.length.toNat
    Elements :=
      match m.r.depth with
      | 0 => m.r.leafs.map (fun a => ⟨(m.el a).Deleted, (m.el a).Hash⟩)
      | _ + 1 => m.r.branches.map (fun b => ⟨false, (m.node b).hash⟩) }

/-- An instrumented callback for the error protocol of the traversals: next to
the captured variables of `fn` it keeps the first error that `fn` has returned
and a mark that is raised when `fn` is invoked after it has returned an
error.  On memory and captured variables it acts as `fn`. -/
def guarded {U : Type} (fn : IterateFunc U) : IterateFunc (U × Option Error × Bool) :=
  fun i h s =>
    ((fn i h (s.1, s.2.1)).1,
      ((fn i h (s.1, s.2.1)).2.1,
        ((fn i h (s.1, s.2.1)).2.2,
          (if s.2.2.1 = none then (fn i h (s.1, s.2.1)).1 else s.2.2.1),
          (s.2.2.2 || s.2.2.1.isSome))))

/-- The `for` loop of `Refs.ascendFrom` run for `n` rounds: the error and state
it has returned with (right), or the index and state with which its next
round starts (left). -/
def ascendFromRounds {U : Type} (pack : Pack) (ascendFunc : IterateFunc U) :
    Nat → Int → Mem × U → (Int × (Mem × U)) ⊕ (Option Error × (Mem × U))
  | 0, i, s => .inl (i, s)
  | n + 1, i, s =>
    match ascend pack ascendFunc s.1.r.depth i none s.1.r.leafs s.1.r.branches s with
    | (pass, true, _, s1) => ascendFromRounds pack ascendFunc n (i + pass) s1
    | (_, false, err, s1) => .inr (err, s1)

/-- The `for` loop of `Refs.descendFrom` run for `n` rounds, as
`ascendFromRounds`. -/
def descendFromRounds {U : Type} (pack : Pack) (descendFunc : IterateFunc U) (si : Int) :
    Nat → Int → Mem × U → (Int × (Mem × U)) ⊕ (Option Error × (Mem × U))
  | 0, i, s => .inl (i, s)
  | n + 1, i, s =>
    match descend pack descendFunc s.1.r.depth si i none s.1.r.leafs s.1.r.branches s with
    | (pass, true, _, s1) => descendFromRounds pack descendFunc si n (i - pass) s1
    | (_, false, err, s1) => .inr (err, s1)

/-- What one round of a traversal with a `guarded` callback returns: the
callback was not invoked after an error, and if it has returned the error `e`
then the round returns `e` and asks for no rewind. -/
def passOk {U : Type} (res : Int × Bool × Option Error × (Mem × (U × Option Error × Bool))) :
    Prop :=
  res.2.2.2.2.2.2 = false ∧
    ∀ e, res.2.2.2.2.2.1 = some e → res.2.2.1 = some e ∧ res.2.1 = false

/-- The error protocol on the result of a traversal with a `guarded` callback:
the callback was not invoked again after it had returned an error, the result
is not `ErrStopIteration`, and if the callback has returned the error `e` the
result is nil for `e = ErrStopIteration` and `e` otherwise. -/
def errorProtocol {U : Type} (r : Option Error × (Mem × (U × Option Error × Bool))) : Prop :=
  r.2.2.2.2 = false ∧ r.1 ≠ some Error.ErrStopIteration ∧
    ∀ e, r.2.2.2.1 = some e → r.1 = if e = Error.ErrStopIteration then none else some e

/-- The two operations through which a callback may change the `Refs` it is
traversing. -/
inductive RefsOp where
  | delete (i : Int)
  | setHash (i : Int) (hash : SHA256)

/-- Run a sequence of `DeleteByIndex` and `SetHashByIndex` calls, whatever each
of them returns. -/
def applyOps (pack : Pack) : List RefsOp → Mem → Mem
  | [], m => m
  | RefsOp.delete i :: rest, m => applyOps pack rest (DeleteByIndex pack i m).2
  | RefsOp.setHash i hash :: rest, m => applyOps pack rest (SetHashByIndex pack i hash m).2

/-- The callback changes the memory only through `DeleteByIndex` and
`SetHashByIndex`: the memory it returns is the one it was given after some
sequence of these calls. -/
def mutatesByOps {U : Type} (pack : Pack) (fn : IterateFunc U) : Prop :=
  ∀ i h s, ∃ ops, (fn i h s).2.1 = applyOps pack ops s.1

/-- What a callback of that kind does to a memory `m` inside a traversal: the
depth, the list of root leafs, the flags and the height of the rewind stack
stay, no deleted element comes back, a raised rewind mark stays raised, and
if the rewind mark is not raised afterwards no element was deleted. -/
def mutatedFrom (m m1 : Mem) : Prop :=
  m1.r.depth = m.r.depth ∧ m1.r.leafs = m.r.leafs ∧ m1.r.flags = m.r.flags ∧
  m1.r.iterators.length = m.r.iterators.length ∧
  (∀ a, (m.el a).Deleted = true → (m1.el a).Deleted = true) ∧
  ((isFindingIteratorsIndexFromRootRequired m).1 = true →
    (isFindingIteratorsIndexFromRootRequired m1).1 = true) ∧
  ((isFindingIteratorsIndexFromRootRequired m1).1 = false →
    ∀ a, (m1.el a).Deleted = (m.el a).Deleted)

/-- The callback is well behaved on every memory of depth 0 that is
initialized and inside a traversal. -/
def wellBehaved {U : Type} (fn : IterateFunc U) : Prop :=
  ∀ i h s, s.1.r.depth = 0 → s.1.r.flags ≠ 0 → s.1.r.iterators ≠ [] →
    mutatedFrom s.1 (fn i h s).2.1

/-- An ascending traversal of a `Refs` of depth 0 told call by call: with `i`
the next index, the callback is given `i` and the hash of the `i`-th
non-deleted leaf of the tree as it is at that moment; an error ends the
traversal, otherwise the rewind mark is taken down and the traversal goes on
with `i + 1`.  It ends when there is no `i`-th non-deleted leaf. -/
def ascendSteps {U : Type} (fn : IterateFunc U) : Nat → Int → Mem × U → Option Error × (Mem × U)
  | 0, _, s => (none, s)
  | n + 1, i, s =>
    match leafAt s.1 i s.1.r.leafs with
    | none => (none, s)
    | some e =>
      match fn i (s.1.el e).Hash s with
      | (some err, s1) => (some err, s1)
      | (none, s1) =>
        ascendSteps fn n (i + 1) ((isFindingIteratorsIndexFromRootRequired s1.1).2, s1.2)

/-- An instrumented callback that records every invocation: the index, the
hash and the memory at the moment of the call.  On memory and captured
variables it acts as `fn`. -/
def traced {U : Type} (fn : IterateFunc U) : IterateFunc (U × List (Int × SHA256 × Mem)) :=
  fun i h s =>
    ((fn i h (s.1, s.2.1)).1,
      ((fn i h (s.1, s.2.1)).2.1, ((fn i h (s.1, s.2.1)).2.2, s.2.2 ++ [(i, h, s.1)])))

/-- The leaf a recorded invocation was made for: the non-deleted leaf with the
recorded index in the recorded memory. -/
def passedLeaf (c : Int × SHA256 × Mem) : Option Nat :=
  leafAt c.2.2 c.1 c.2.2.r.leafs

/-- What the record of a traversal has to show: the invocation number `k`
(counted from 0) was given the index `k` and the hash of the `k`-th
non-deleted leaf of the root in the memory of that moment, and no two
invocations were made for the same leaf. -/
def traceOk (T : List (Int × SHA256 × Mem)) : Prop :=
  (∀ (k : Nat) (c : Int × SHA256 × Mem), T[k]? = some c → c.1 = (k : Int) ∧
    ∃ e, (liveLeafs c.2.2 c.2.2.r.leafs)[k]? = some e ∧ (c.2.2.el e).Deleted = false ∧
      c.2.1 = (c.2.2.el e).Hash ∧ passedLeaf c = some e) ∧
  (T.map passedLeaf).Nodup

/-- The scenario "delete while ascending" in numbers: starting with the next
index `i` and `n` live elements, the number of invocations and the final
number of live elements, when an invocation is made as long as `i < n` and
an invocation with an even index removes one element. -/
def evenDeleteRun : Nat → Nat → Nat → Nat × Nat
  | 0, _, n => (0, n)
  | f + 1, i, n =>
    if i < n then
      ((evenDeleteRun f (i + 1) (if i % 2 = 0 then n - 1 else n)).1 + 1,
        (evenDeleteRun f (i + 1) (if i % 2 = 0 then n - 1 else n)).2)
    else (0, n)

/-- An instrumented callback that records the number of entries of the rewind
stack at each of its invocations.  On memory and captured variables it acts as
`fn`. -/
def heights {U : Type} (fn : IterateFunc U) : IterateFunc (U × List Nat) :=
  fun i h s =>
    ((fn i h (s.1, s.2.1)).1,
      ((fn i h (s.1, s.2.1)).2.1,
        ((fn i h (s.1, s.2.1)).2.2, s.2.2 ++ [s.1.r.iterators.length])))

/-- The callback returns with as many entries on the rewind stack as it was
invoked with. -/
def keepsHeight {U : Type} (fn : IterateFunc U) : Prop :=
  ∀ i h s, (fn i h s).2.1.r.iterators.length = s.1.r.iterators.length

/-- The bucket of a hash in the index as a list (empty when the hash has no
entry). -/
def Mem.bucketList (m : Mem) (h : SHA256) : List Nat := (m.bucket h).getD []

/-- The non-deleted leafs of the root that carry the hash `h`, from left to
right. -/
def Mem.carriers (m : Mem) (h : SHA256) : List Nat :=
  (liveLeafs m m.r.leafs).filter (fun a => decide ((m.el a).Hash = h))

/-- The non-deleted leafs below a node of the given depth (its `leafs` at
depth 0, its `branches` above), from left to right. -/
def liveAll (m : Mem) : Nat → List Nat → List Nat → List Nat
  | 0, leafs, _ => liveLeafs m leafs
  | d + 1, _, branches =>
    branches.flatMap (fun b => liveAll m d (m.node b).leafs (m.node b).branches)

/-- The parent back-links below a node of the given depth agree with the child
lists: every leaf of a node and every branch of a node has that node as its
`upper`; `parent` is `none` for the children of the `Refs` itself. -/
def linked (m : Mem) : Nat → Option Nat → List Nat → List Nat → Bool
  | 0, parent, leafs, _ => leafs.all (fun a => decide ((m.el a).upper = parent))
  | d + 1, parent, _, branches =>
    branches.all (fun b =>
      decide ((m.node b).upper = parent) &&
      linked m d (some b) (m.node b).leafs (m.node b).branches)

/-- The nodes `ups` are the chain of `upper` links that starts above the node
`b` and ends at a node whose `upper` is `parent`. -/
def chainTo (m : Mem) (parent : Option Nat) : Nat → List Nat → Prop
  | b, [] => (m.node b).upper = parent
  | b, c :: rest => (m.node b).upper = some c ∧ chainTo m parent c rest

/-- The last node of the chain `b :: ups`. -/
def chainTop : Nat → List Nat → Nat
  | b, [] => b
  | _, c :: rest => chainTop c rest

/-- The sum, along the chain `b :: ups`, of the lengths of the branches in
front of each node of the chain among the branches of the next one. -/
def chainOffset (m : Mem) : Nat → List Nat → Int
  | _, [] => 0
  | b, c :: rest => lengthsBefore m b (m.node c).branches + chainOffset m c rest

/-- The non-deleted elements of a record, in the order of the record. -/
def liveElements (elements : List EncodedElement) : List EncodedElement :=
  elements.filter (fun e => !e.Deleted)

/-- What a call that loads a node does to the store of nodes: the new node is
put at the end of the store with the given hash and `upper`, and the nodes that
were there are left as they were. -/
def allocatesNode (sub : Option Nat → SHA256 → Mem → Nat × Option Error × Mem) : Prop :=
  ∀ up h m, (sub up h m).1 = m.nodes.length ∧
    m.nodes.length < (sub up h m).2.2.nodes.length ∧
    (∀ b, b < m.nodes.length → (sub up h m).2.2.nodes[b]? = m.nodes[b]?) ∧
    ((sub up h m).2.2.node m.nodes.length).hash = h ∧
    ((sub up h m).2.2.node m.nodes.length).upper = up

/-- Modelled from the spec: the depth that `Rebuild` is to choose for degree
`D` and length `L`, the smallest `H` with `D^(H+1) ≥ L` (searched up to `L`,
which suffices for `D ≥ 2`). -/
def bestDepth (D L : Nat) : Nat :=
  ((List.range (L + 1)).find? (fun H => decide (L ≤ D ^ (H + 1)))).getD 0

/-- The half of the emptiness invariant that every operation keeps: a `Refs`
of positive length has a non-zero root hash. -/
def Mem.hashedIfNonEmpty (m : Mem) : Prop := 0 < m.r.length → m.r.Hash ≠ 0

/-- The property `P` of the memory is kept by every public operation on the
`Refs`, whatever its arguments and its result: by the initialization (which is
all that `Depth`, `Degree` and `AppendRefs` do to the `Refs`), by `Len`,
`HashByIndex`, `SetHashByIndex`, `DeleteByIndex`, `AppendHashes`, `Clear`,
`Rebuild` and `Slice`, by `HasHash`, `ValueByHash`, `IndexOfHash`,
`IndicesByHash` and `DeleteByHash` whenever they return, and by `Ascend`,
`AscendFrom`, `Descend` and `DescendFrom` whenever they return and the callback
keeps `P`.  The wrappers `ValueByIndex`, `SetValueByIndex`,
`ValueOfHashWithIndex` and `AppendValues` touch the `Refs` only through
`HashByIndex`, `SetHashByIndex`, `IndexOfHash` and `AppendHashes`. -/
def keptByOperations (P : Mem → Prop) : Prop :=
  ∀ (m : Mem), P m →
    ∀ (pack : Pack) (i j : Int) (hash : SHA256) (hashes : List SHA256) (fuel : Nat),
      P (initRefs pack m).2 ∧ P (Len pack m).2.2 ∧ P (HashByIndex pack i m).2.2 ∧
      P (SetHashByIndex pack i hash m).2 ∧ P (DeleteByIndex pack i m).2 ∧
      P (AppendHashes pack hashes m).2 ∧ P (Clear m).2 ∧ P (Rebuild pack m).2 ∧
      P (Slice pack i j m).2.2 ∧
      (∀ r, HasHash fuel pack hash m = some r → P r.2.2) ∧
      (∀ r, ValueByHash fuel pack hash m = some r → P r.2.2) ∧
      (∀ r, IndexOfHash fuel pack hash m = some r → P r.2.2) ∧
      (∀ r, IndicesByHash fuel pack hash m = some r → P r.2.2) ∧
      (∀ r, DeleteByHash fuel pack hash m = some r → P r.2) ∧
      ∀ (U : Type) (fn : IterateFunc U) (u : U), (∀ k h s, P s.1 → P (fn k h s).2.1) →
        (∀ r, Ascend fuel pack fn (m, u) = some r → P r.2.1) ∧
        (∀ r, AscendFrom fuel pack i fn (m, u) = some r → P r.2.1) ∧
        (∀ r, Descend fuel pack fn (m, u) = some r → P r.2.1) ∧
        (∀ r, DescendFrom fuel pack i fn (m, u) = some r → P r.2.1)

/-! ## Concrete states used to evaluate the code -/

/-- A pack that fails every read. -/
def emptyPack : Pack :=
  { flags := 0
    getRefs := fun _ => .error (Error.other 1)
    getNode := fun _ => .error (Error.other 1) }

/-- A blank, not yet initialized `Refs` with the given root hash, in an empty
memory. -/
def blankMem (hash : SHA256) : Mem :=
  { r :=
      { Hash := hash, depth := 0, degree := 0, index := none, length := 0, leafs := [],
        branches := [], flags := 0, modified := false, iterators := [] }
    els := []
    nodes := []
    panicked := false
    room := 1048576 }

/-- A loaded tree of depth 1 and degree 2 with two branches of two leafs each:
the live hash sequence is `11, 12, 13, 14`. -/
def twoByTwo : Mem :=
  { r :=
      { Hash := 100, depth := 1, degree := 2, index := none, length := 4, leafs := [],
        branches := [0, 1], flags := flagIsSet, modified := false, iterators := [] }
    els := [⟨false, 11, some 0⟩, ⟨false, 12, some 0⟩, ⟨false, 13, some 1⟩, ⟨false, 14, some 1⟩]
    nodes := [⟨101, 2, [0, 1], [], none⟩, ⟨102, 2, [2, 3], [], none⟩]
    panicked := false
    room := 1048576 }

/-- A pack with the `EntireRefs` flag holding a tree of depth 1: the root
record `100` has the single branch `101`, whose record has the leafs `11` and
`12`. -/
def depthOnePack : Pack :=
  { flags := EntireRefs
    getRefs := fun h =>
      if h = 100 then .ok { Depth := 1, Degree := 2, Length := 2, Elements := [⟨false, 101⟩] }
      else .error (Error.other 1)
    getNode := fun h =>
      if h = 101 then .ok { Length := 2, Elements := [⟨false, 11⟩, ⟨false, 12⟩] }
      else .error (Error.other 1) }

/-- A pack holding under `100` a root record of depth 0 and degree 2 with
three elements. -/
def widePack : Pack :=
  { flags := 0
    getRefs := fun h =>
      if h = 100 then
        .ok { Depth := 0, Degree := 2, Length := 3, Elements := [⟨false, 11⟩, ⟨false, 12⟩, ⟨false, 13⟩] }
      else .error (Error.other 1)
    getNode := fun _ => .error (Error.other 1) }

/-- A pack holding under `100` a root record of length 0. -/
def zeroLengthPack : Pack :=
  { flags := 0
    getRefs := fun h =>
      if h = 100 then .ok { Depth := 0, Degree := 2, Length := 0, Elements := [] }
      else .error (Error.other 1)
    getNode := fun _ => .error (Error.other 1) }

/-- The pack `depthOnePack` without any flag: the tree of depth 1 is to be
loaded on demand. -/
def lazyPack : Pack := { depthOnePack with flags := 0 }

/-- The `Refs` with root hash `100` after its initialization from `lazyPack`:
the root has one branch, the stub of the record `101`. -/
def lazyLoaded : Mem := (initRefs lazyPack (blankMem 100)).2

/-- The pack `depthOnePack` with the `HashTableIndex` flag instead of
`EntireRefs`. -/
def indexPack : Pack := { depthOnePack with flags := HashTableIndex }

/-- The `Refs` with root hash `100` after its initialization from
`indexPack`. -/
def indexLoaded : Mem := (initRefs indexPack (blankMem 100)).2

/-- An initialized `Refs` of depth 0 whose leafs, none deleted, carry the given
hashes; the leaf with position `k` is the element `k` of the store. -/
def flatMem (hashes : List SHA256) (flags : Nat)
    (index : Option (SHA256 → Option (List Nat))) : Mem :=
  { r :=
      { Hash := if hashes = [] then 0 else 100, depth := 0, degree := 4, index := index,
        length := hashes.length, leafs := List.range hashes.length, branches := [],
        flags := flags, modified := false, iterators := [] }
    els := hashes.map (fun h => ⟨false, h, none⟩)
    nodes := []
    panicked := false
    room := 1048576 }

/-- The tree `twoByTwo` with the `HashTableIndex` flag and the index that holds
every leaf under its hash. -/
def twoByTwoIndexed : Mem :=
  { twoByTwo with
    r :=
      { twoByTwo.r with
        flags := flagIsSet ||| HashTableIndex
        index := some (fun h =>
          if h = 11 then some [0] else if h = 12 then some [1]
          else if h = 13 then some [2] else if h = 14 then some [3] else none) } }

/-- A flat `Refs` with the `HashTableIndex` flag, live sequence `7, 8, 7` and the
index that holds the leafs 0 and 2 under `7` and the leaf 1 under `8`. -/
def sevenEightSeven : Mem :=
  flatMem [7, 8, 7] (flagIsSet ||| HashTableIndex)
    (some (fun h => if h = 7 then some [0, 2] else if h = 8 then some [1] else none))

/-- A pack that holds the value `70` under the hash `7` and nothing else. -/
def valuePack : Pack :=
  { emptyPack with
    getValue := fun h => if h = 7 then .ok 70 else .error (Error.other 2) }

/-- A pack holding under `100` a root record of depth 0 and degree 2 with the
single element `7`. -/
def onePack : Pack :=
  { flags := 0
    getRefs := fun h =>
      if h = 100 then .ok { Depth := 0, Degree := 2, Length := 1, Elements := [⟨false, 7⟩] }
      else .error (Error.other 1)
    getNode := fun _ => .error (Error.other 1) }

/-- The flat `Refs` with leafs `7, 8, 9` after `DeleteByIndex(1)`: the leaf `8`
is kept in the list, marked deleted. -/
def withHole : Mem := (DeleteByIndex emptyPack 1 (flatMem [7, 8, 9] flagIsSet none)).2

/-- The `Refs` with root hash `100` after its initialization from `onePack`:
depth 0, one leaf `7`. -/
def oneLoaded : Mem := (initRefs onePack (blankMem 100)).2

/-- A callback that counts its invocations and returns the error `e` when it
is given the index `k`, nil otherwise. -/
def stopAt (k : Int) (e : Error) : IterateFunc Nat :=
  fun i _ s => (if i = k then some e else none, (s.1, s.2 + 1))

/-- The callback of the scenario "delete while ascending": it counts its
invocations, calls `DeleteByIndex` on the index it is given when that index is
even and returns what the call returned, and does nothing else. -/
def evenDeleteFunc (pack : Pack) : IterateFunc Nat :=
  fun i _ s =>
    if i % 2 = 0 then ((DeleteByIndex pack i s.1).1, ((DeleteByIndex pack i s.1).2, s.2 + 1))
    else (none, (s.1, s.2 + 1))

/-- A pack holding under `100` a root record of depth 0 with degree 1 (which
`load` rejects), length 3 and three elements. -/
def badDegreePack : Pack :=
  { flags := 0
    getRefs := fun h =>
      if h = 100 then
        .ok { Depth := 0, Degree := 1, Length := 3,
              Elements := [⟨false, 11⟩, ⟨false, 12⟩, ⟨false, 13⟩] }
      else .error (Error.other 1)
    getNode := fun _ => .error (Error.other 1) }

/-- A callback that calls `DeleteByIndex` on the index it is given and then
returns `e`, whatever the call returned. -/
def deleteAndReturn (pack : Pack) (e : Option Error) : IterateFunc Unit :=
  fun i _ s => (e, ((DeleteByIndex pack i s.1).2, s.2))

/-- A pack holding under `100` a root record of depth 0 and degree 2 that
announces the length `4294967295`, the largest `uint32`, and has the single
element `7`. -/
def hugeLengthPack : Pack :=
  { flags := 0
    getRefs := fun h =>
      if h = 100 then .ok { Depth := 0, Degree := 2, Length := 4294967295, Elements := [⟨false, 7⟩] }
      else .error (Error.other 1)
    getNode := fun _ => .error (Error.other 1) }

/-- A pack holding under `100` a root record of depth 0 and degree 2 with the
five elements `11` to `15`: a tree that has grown horizontally. -/
def fiveWidePack : Pack :=
  { flags := 0
    getRefs := fun h =>
      if h = 100 then
        .ok { Depth := 0, Degree := 2, Length := 5,
              Elements := [⟨false, 11⟩, ⟨false, 12⟩, ⟨false, 13⟩, ⟨false, 14⟩, ⟨false, 15⟩] }
      else .error (Error.other 1)
    getNode := fun _ => .error (Error.other 1) }

/-- The `Refs` with root hash `100` after its initialization from
`fiveWidePack` and `DeleteByIndex(1)`: depth 0, degree 2, leafs `11`, deleted,
`13`, `14`, `15`, length 4, marked as modified. -/
def fiveWideWithHole : Mem :=
  (DeleteByIndex fiveWidePack 1 (initRefs fiveWidePack (blankMem 100)).2).2

/-- A tree of depth 1 and degree 2 with a single branch of two leafs, the
second of them deleted: the branch and the `Refs` have length 1 and the `Refs`
is marked as modified; the live hash sequence is `11`. -/
def thinnedBranch : Mem :=
  { r :=
      { Hash := 100, depth := 1, degree := 2, index := none, length := 1, leafs := [],
        branches := [0], flags := flagIsSet, modified := true, iterators := [] }
    els := [⟨false, 11, some 0⟩, ⟨true, 0, some 0⟩]
    nodes := [⟨101, 1, [0, 1], [], none⟩]
    panicked := false
    room := 1048576 }

/-! ## Theorems -/

/-- C1, evaluated where it fails.  `twoByTwo` is well-formed and fully loaded
with live sequence `11, 12, 13, 14`, yet `HashByIndex(2)` returns
`ErrInvalidRefs` and no hash: the branch loop skips a branch only when
`i > br.length`, so `i == br.length` descends into the first branch, which has
no third leaf. -/
theorem hashByIndex_fails_at_branch_boundary :
    twoByTwo.wellFormed = true ∧ twoByTwo.liveSeq = [11, 12, 13, 14] ∧
    twoByTwo.r.length = 4 ∧
    (HashByIndex emptyPack 2 twoByTwo).1 = 0 ∧
    (HashByIndex emptyPack 2 twoByTwo).2.1 = some Error.ErrInvalidRefs := by
  decide

/-- C2, evaluated where it fails.  Loading the encoded tree of `depthOnePack`
(depth 1, leafs `11, 12`) with `EntireRefs` succeeds and installs depth, degree
and length, but the in-memory tree has no leaf at all: `loadRefsNodes` never
appends the elements of a depth-0 record to `rn.leafs`. -/
theorem load_entire_forgets_leafs :
    (initRefs depthOnePack (blankMem 100)).1 = none ∧
    (initRefs depthOnePack (blankMem 100)).2.r.depth = 1 ∧
    (initRefs depthOnePack (blankMem 100)).2.r.degree = 2 ∧
    (initRefs depthOnePack (blankMem 100)).2.r.length = 2 ∧
    encodedLive depthOnePack 1 [⟨false, 101⟩] = [11, 12] ∧
    (initRefs depthOnePack (blankMem 100)).2.liveSeq = [] ∧
    ((initRefs depthOnePack (blankMem 100)).2.node 0).leafs = [] := by
  decide

/-- C3, evaluated where it fails.  On the well-formed `twoByTwo`,
`DeleteByIndex(0)` returns `ErrInvalidRefs`, marks two leafs (one in each
branch) as deleted, decrements both branch lengths and leaves `Len` at 4: the
branch loop has no `return` after the successful recursive call. -/
theorem deleteByIndex_deletes_in_every_branch :
    twoByTwo.wellFormed = true ∧
    (DeleteByIndex emptyPack 0 twoByTwo).1 = some Error.ErrInvalidRefs ∧
    (DeleteByIndex emptyPack 0 twoByTwo).2.r.length = 4 ∧
    (DeleteByIndex emptyPack 0 twoByTwo).2.els.map (fun e => e.Deleted) =
      [true, false, true, false] ∧
    (DeleteByIndex emptyPack 0 twoByTwo).2.nodes.map (fun n => n.length) = [1, 1] := by
  decide

/-- C4, evaluated where it fails.  `AppendHashes` of the hash `15` to the
initialized `twoByTwo` (live sequence `11, 12, 13, 14`) returns nil, after which
`Len` is still 4 and `HashByIndex(4)` is out of range: the body of
`AppendHashes` is empty. -/
theorem appendHashes_appends_nothing :
    twoByTwo.r.flags ≠ 0 ∧ twoByTwo.liveSeq = [11, 12, 13, 14] ∧
    (AppendHashes emptyPack [15] twoByTwo).1 = none ∧
    (Len emptyPack (AppendHashes emptyPack [15] twoByTwo).2).1 = 4 ∧
    (Len emptyPack (AppendHashes emptyPack [15] twoByTwo).2).2.1 = none ∧
    (HashByIndex emptyPack 4 (AppendHashes emptyPack [15] twoByTwo).2).2.1 =
      some Error.ErrIndexOutOfRange := by
  decide

/-- C5, evaluated where it fails.  On the well-formed `twoByTwo` (length 4) an
`Ascend` with a callback that only logs its calls returns nil after two calls,
`(0, 11)` and `(1, 12)`: the second branch is entered with the global index 2,
which `ascendLeafs` uses as the number of leafs of that branch to skip. -/
theorem ascend_stops_after_first_branch :
    twoByTwo.wellFormed = true ∧ twoByTwo.liveSeq = [11, 12, 13, 14] ∧
    (Ascend 1 emptyPack logCalls (twoByTwo, [])).map (fun x => (x.1, x.2.2)) =
      some (none, [(0, 11), (1, 12)]) := by
  decide

/-- C7, evaluated where it fails.  Lengths are conserved in `twoByTwo`; after
`DeleteByIndex(0)`, which returns `ErrInvalidRefs`, the root length is 4 while
the lengths of its children sum up to 2. -/
theorem deleteByIndex_breaks_length_conservation :
    twoByTwo.wellFormed = true ∧ twoByTwo.lengthConserved = true ∧
    (DeleteByIndex emptyPack 0 twoByTwo).1 = some Error.ErrInvalidRefs ∧
    (DeleteByIndex emptyPack 0 twoByTwo).2.lengthConserved = false ∧
    (DeleteByIndex emptyPack 0 twoByTwo).2.r.length = 4 ∧
    (DeleteByIndex emptyPack 0 twoByTwo).2.childrenLength = 2 := by
  decide

/-- C8.  On an initialized `Refs` an index outside `[0, length)` makes
`HashByIndex`, `SetHashByIndex` and `DeleteByIndex` return `ErrIndexOutOfRange`
with the whole memory (the `Refs` with its length, leafs, branches, index,
modified flag and rewind stack, and every element and node) unchanged. -/
theorem out_of_range_index_is_rejected (pack : Pack) (m : Mem) (i : Int) (h : SHA256)
    (hinit : m.r.flags ≠ 0) (hi : i < 0 ∨ i ≥ m.r.length) :
    HashByIndex pack i m = (0, some Error.ErrIndexOutOfRange, m) ∧
    SetHashByIndex pack i h m = (some Error.ErrIndexOutOfRange, m) ∧
    DeleteByIndex pack i m = (some Error.ErrIndexOutOfRange, m) := by
  have hv : validateIndex i m.r.length = some Error.ErrIndexOutOfRange := by
    simp [validateIndex, hi]
  have h0 : initRefs pack m = (none, m) := by
    simp [initRefs, hinit]
  refine ⟨?_, ?_, ?_⟩
  · simp [HashByIndex, h0, hv]
  · simp [SetHashByIndex, h0, hv]
  · simp [DeleteByIndex, h0, hv]

/-- The theorem of C8 at `twoByTwo` (length 4) and the index 4. -/
theorem out_of_range_index_is_rejected_witness :
    (twoByTwo.r.flags ≠ 0 ∧ ((4 : Int) < 0 ∨ (4 : Int) ≥ twoByTwo.r.length)) ∧
    (HashByIndex emptyPack 4 twoByTwo = (0, some Error.ErrIndexOutOfRange, twoByTwo) ∧
     SetHashByIndex emptyPack 4 9 twoByTwo = (some Error.ErrIndexOutOfRange, twoByTwo) ∧
     DeleteByIndex emptyPack 4 twoByTwo = (some Error.ErrIndexOutOfRange, twoByTwo)) :=
  ⟨by decide, out_of_range_index_is_rejected emptyPack twoByTwo 4 9 (by decide) (by decide)⟩

/-! ### What loading does to the fields of the `Refs` -/

theorem makeCap_r (m : Mem) (n : Int) : (m.makeCap n).r = m.r := by
  unfold Mem.makeCap
  split <;> rfl

theorem makeCap_els (m : Mem) (n : Int) : (m.makeCap n).els = m.els := by
  unfold Mem.makeCap
  split <;> rfl

theorem makeCap_nodes (m : Mem) (n : Int) : (m.makeCap n).nodes = m.nodes := by
  unfold Mem.makeCap
  split <;> rfl

theorem makeCap_fits (m : Mem) (n : Int) (h0 : 0 ≤ n) (h1 : n ≤ (m.room : Int)) :
    m.makeCap n = m := by
  unfold Mem.makeCap
  rw [if_neg (by omega)]

theorem sameButIndex_refl (m : Mem) : sameButIndex m m :=
  ⟨m.r.index, rfl⟩

theorem sameButIndex_trans {m1 m2 m3 : Mem} (h12 : sameButIndex m1 m2)
    (h23 : sameButIndex m2 m3) : sameButIndex m1 m3 := by
  obtain ⟨i2, e2⟩ := h12
  obtain ⟨i3, e3⟩ := h23
  exact ⟨i3, by rw [e3, e2]⟩

theorem sameButIndex_of_r_eq {m1 m2 : Mem} (h : m2.r = m1.r) : sameButIndex m1 m2 :=
  ⟨m1.r.index, by rw [h]⟩

theorem addElementToIndex_same (hash : SHA256) (re : Nat) (m : Mem) :
    sameButIndex m (addElementToIndex hash re m) := by
  unfold addElementToIndex
  split
  · exact sameButIndex_refl m
  · exact ⟨_, rfl⟩

theorem addElementToIndex_stores (hash : SHA256) (re : Nat) (m : Mem) :
    (addElementToIndex hash re m).els = m.els ∧
    (addElementToIndex hash re m).nodes = m.nodes := by
  unfold addElementToIndex
  split <;> exact ⟨rfl, rfl⟩

theorem loadNodeLeafs_same (hash : SHA256) (rn : Nat) (elements : List EncodedElement) :
    ∀ m : Mem, sameButIndex m (loadNodeLeafs hash rn elements m) := by
  induction elements with
  | nil => intro m; exact sameButIndex_refl m
  | cons e rest ih =>
    intro m
    unfold loadNodeLeafs
    split
    · exact ih m
    · refine sameButIndex_trans ?_ (ih _)
      simp only [Mem.allocEl]
      split
      · exact addElementToIndex_same _ _ _
      · exact sameButIndex_refl _

theorem loadNodeBranches_same
    (sub : Option Nat → SHA256 → Mem → Nat × Option Error × Mem)
    (hsub : ∀ up h m, sameButIndex m (sub up h m).2.2) (rn : Nat)
    (elements : List EncodedElement) :
    ∀ m : Mem, sameButIndex m (loadNodeBranches sub rn elements m).2 := by
  induction elements with
  | nil => intro m; exact sameButIndex_refl m
  | cons e rest ih =>
    intro m
    unfold loadNodeBranches
    split
    · exact ih m
    · have h1 := hsub (some rn) e.Hash m
      split
      · next _ err m1 heq =>
        rw [heq] at h1
        exact h1
      · next sn m1 heq =>
        rw [heq] at h1
        exact sameButIndex_trans h1 (ih _)

theorem loadRefsNodes_same (pack : Pack) :
    ∀ (depth : Nat) (upper : Option Nat) (hash : SHA256) (m : Mem),
      sameButIndex m (loadRefsNodes pack depth upper hash m).2.2 := by
  intro depth
  induction depth with
  | zero =>
    intro upper hash m
    unfold loadRefsNodes
    simp only [Mem.allocNode]
    split
    · exact sameButIndex_refl _
    · split
      · exact sameButIndex_refl _
      · split
        · exact sameButIndex_refl _
        · next ern _ =>
          have h := loadNodeLeafs_same hash m.nodes.length ern.Elements
            (Mem.makeCap
              (Mem.setNode { m with nodes := m.nodes ++ [⟨hash, 0, [], [], upper⟩] } m.nodes.length
                { Mem.node { m with nodes := m.nodes ++ [⟨hash, 0, [], [], upper⟩] }
                    m.nodes.length with length := (ern.Length : Int) })
              (Mem.node
                (Mem.setNode { m with nodes := m.nodes ++ [⟨hash, 0, [], [], upper⟩] }
                  m.nodes.length
                  { Mem.node { m with nodes := m.nodes ++ [⟨hash, 0, [], [], upper⟩] }
                      m.nodes.length with length := (ern.Length : Int) })
                m.nodes.length).length)
          unfold sameButIndex at h ⊢
          rw [makeCap_r] at h
          exact h
  | succ d ih =>
    intro upper hash m
    unfold loadRefsNodes
    simp only [Mem.allocNode]
    split
    · exact sameButIndex_refl _
    · split
      · exact sameButIndex_refl _
      · split
        · exact sameButIndex_refl _
        · exact loadNodeBranches_same _ (ih) _ _ _

theorem sameButIndex_fields {m1 m2 : Mem} (h : sameButIndex m1 m2) :
    m2.r.leafs = m1.r.leafs ∧ m2.r.branches = m1.r.branches ∧ m2.r.depth = m1.r.depth ∧
    m2.r.degree = m1.r.degree ∧ m2.r.length = m1.r.length ∧ m2.r.flags = m1.r.flags := by
  obtain ⟨idx, hr⟩ := h
  rw [hr]
  exact ⟨rfl, rfl, rfl, rfl, rfl, rfl⟩

theorem loadRootLeafs_fields (elements : List EncodedElement) :
    ∀ m : Mem,
      (loadRootLeafs elements m).r.leafs.length = m.r.leafs.length + liveCount elements ∧
      (loadRootLeafs elements m).r.depth = m.r.depth ∧
      (loadRootLeafs elements m).r.degree = m.r.degree := by
  induction elements with
  | nil => intro m; simp [loadRootLeafs, liveCount]
  | cons e rest ih =>
    intro m
    unfold loadRootLeafs
    split
    · next hdel =>
      have := ih m
      simp [liveCount, hdel] at this ⊢
      exact this
    · next hdel =>
      have hl : liveCount (e :: rest) = liveCount rest + 1 := by simp [liveCount, hdel]
      simp only [Mem.allocEl]
      split
      · obtain ⟨h1, h2, h3⟩ := ih (addElementToIndex e.Hash m.els.length
          (Mem.setR { m with els := m.els ++ [{ Deleted := e.Deleted, Hash := e.Hash, upper := none }] }
            { m.r with leafs := m.r.leafs ++ [m.els.length] }))
        obtain ⟨f1, _, f3, f4, _, _⟩ := sameButIndex_fields (addElementToIndex_same e.Hash m.els.length
          (Mem.setR { m with els := m.els ++ [{ Deleted := e.Deleted, Hash := e.Hash, upper := none }] }
            { m.r with leafs := m.r.leafs ++ [m.els.length] }))
        rw [h1, h2, h3, f1, f3, f4, hl]
        simp [Mem.setR]
        omega
      · obtain ⟨h1, h2, h3⟩ := ih
          (Mem.setR { m with els := m.els ++ [{ Deleted := e.Deleted, Hash := e.Hash, upper := none }] }
            { m.r with leafs := m.r.leafs ++ [m.els.length] })
        rw [h1, h2, h3, hl]
        simp [Mem.setR]
        omega

theorem loadRootRefsNodesLoop_fields (pack : Pack) (depth : Nat)
    (elements : List EncodedElement) :
    ∀ m : Mem, (loadRootRefsNodesLoop pack depth elements m).1 = none →
      (loadRootRefsNodesLoop pack depth elements m).2.r.branches.length =
        m.r.branches.length + liveCount elements ∧
      (loadRootRefsNodesLoop pack depth elements m).2.r.depth = m.r.depth ∧
      (loadRootRefsNodesLoop pack depth elements m).2.r.degree = m.r.degree := by
  induction elements with
  | nil => intro m _; simp [loadRootRefsNodesLoop, liveCount]
  | cons e rest ih =>
    intro m
    unfold loadRootRefsNodesLoop
    split
    · next hdel =>
      intro hok
      have := ih m hok
      simp [liveCount, hdel] at this ⊢
      exact this
    · next hdel =>
      have hl : liveCount (e :: rest) = liveCount rest + 1 := by simp [liveCount, hdel]
      have hsame := loadRefsNodes_same pack (depth - 1) none e.Hash m
      split
      · next _ err m1 heq =>
        intro hok
        simp at hok
      · next rn m1 heq =>
        intro hok
        rw [heq] at hsame
        replace hsame : sameButIndex m m1 := hsame
        obtain ⟨_, f2, f3, f4, _, _⟩ := sameButIndex_fields hsame
        obtain ⟨h1, h2, h3⟩ := ih _ hok
        rw [h1, h2, h3, hl]
        simp only [Mem.setR, f2, f3, f4, List.length_append, List.length_singleton]
        exact ⟨by omega, trivial, trivial⟩

/-- C10 as stated fails: `load` accepts the depth-0 root record of `widePack`,
whose degree is 2 and which has three elements, and installs all three as
leafs of the root. -/
theorem load_accepts_more_children_than_degree :
    (load widePack (blankMem 100)).1 = none ∧
    (load widePack (blankMem 100)).2.r.degree = 2 ∧
    (load widePack (blankMem 100)).2.rootChildren.length = 3 ∧
    ¬ (((load widePack (blankMem 100)).2.rootChildren.length : Int) ≤
        (load widePack (blankMem 100)).2.r.degree) := by
  decide

theorem addElementToIndex_panicked (hash : SHA256) (re : Nat) (m : Mem)
    (h : m.r.index.isSome = true) :
    (addElementToIndex hash re m).panicked = m.panicked ∧
    (addElementToIndex hash re m).r.index.isSome = true := by
  unfold addElementToIndex
  cases hi : m.r.index with
  | none => rw [hi] at h; cases h
  | some idx => exact ⟨rfl, rfl⟩

theorem addElementToIndex_panicked_mono (hash : SHA256) (re : Nat) (m : Mem)
    (h : m.panicked = true) : (addElementToIndex hash re m).panicked = true := by
  unfold addElementToIndex
  split
  · rfl
  · exact h

theorem loadRootLeafs_panicked_mono (elements : List EncodedElement) :
    ∀ m : Mem, m.panicked = true → (loadRootLeafs elements m).panicked = true := by
  induction elements with
  | nil => intro m h; exact h
  | cons e rest ih =>
    intro m h
    unfold loadRootLeafs
    split
    · exact ih m h
    · simp only [Mem.allocEl]
      split
      · exact ih _ (addElementToIndex_panicked_mono _ _ _ h)
      · exact ih _ h

theorem loadRootLeafs_panicked (elements : List EncodedElement) :
    ∀ m : Mem, (m.r.flags &&& HashTableIndex ≠ 0 → m.r.index.isSome = true) →
      (loadRootLeafs elements m).panicked = m.panicked := by
  induction elements with
  | nil => intro m _; rfl
  | cons e rest ih =>
    intro m h
    unfold loadRootLeafs
    split
    · exact ih m h
    · simp only [Mem.allocEl]
      split
      · next hflag =>
        have hidx : m.r.index.isSome = true := h hflag
        obtain ⟨a1, a2⟩ := addElementToIndex_panicked e.Hash m.els.length
          (Mem.setR { m with els := m.els ++ [{ Deleted := e.Deleted, Hash := e.Hash, upper := none }] }
            { m.r with leafs := m.r.leafs ++ [m.els.length] }) hidx
        rw [ih _ (fun _ => a2), a1]
        rfl
      · next hflag =>
        rw [ih _ (fun hc => absurd hc hflag)]
        rfl

/-- The guard of `load` and the allocation behind it.  When the pack returns
the root record `er`, `load` fails with `ErrInvalidEncodedRefs` if the length
of the record is 0 or its degree is less than 2.  For a record of depth 0 with
degree at least 2 and a length from 1 up to the capacity the run-time can
serve, both below `2^31` (where `int(...)` is exact also for an `int` of 32
bits), `load` returns nil without a panic; for a longer length the allocation
of the leaf slice stops the program. -/
theorem load_validates_length_and_degree (pack : Pack) (m : Mem) (er : EncodedRefs)
    (hget : pack.getRefs m.r.Hash = .ok er) :
    ((er.Length = 0 ∨ er.Degree < 2) →
      (load pack m).1 = some Error.ErrInvalidEncodedRefs ∧
      (load pack m).2.panicked = m.panicked) ∧
    (er.Depth = 0 → 1 ≤ er.Length → er.Length ≤ m.room → er.Length < 2147483648 →
      2 ≤ er.Degree → er.Degree < 2147483648 →
      (load pack m).1 = none ∧ (load pack m).2.panicked = m.panicked) ∧
    (er.Depth = 0 → m.room < er.Length → 2 ≤ er.Degree →
      (load pack m).2.panicked = true) := by
  refine ⟨?_, ?_, ?_⟩
  · intro hbad
    simp [load, hget, Mem.setR, hbad]
  · intro hd hl hroom _ hg _
    have hgood : ¬ ((er.Length : Int) = 0 ∨ (er.Degree : Int) < 2) := by omega
    unfold load
    rw [hget]
    simp only [Mem.setR]
    rw [if_neg hgood]
    split_ifs with hflag
    · refine ⟨rfl, ?_⟩
      simp only []
      rw [makeCap_fits _ _ (by simp) (by simp; exact_mod_cast hroom)]
      refine Eq.trans (loadRootLeafs_panicked _ _ ?_) rfl
      intro _
      rfl
    · refine ⟨rfl, ?_⟩
      simp only []
      rw [makeCap_fits _ _ (by simp) (by simp; exact_mod_cast hroom)]
      refine Eq.trans (loadRootLeafs_panicked _ _ ?_) rfl
      intro hc
      exact absurd hc hflag
  · intro hd hroom hg
    have hgood : ¬ ((er.Length : Int) = 0 ∨ (er.Degree : Int) < 2) := by omega
    unfold load
    rw [hget]
    simp only [Mem.setR]
    rw [if_neg hgood]
    split_ifs <;>
    · simp only []
      apply loadRootLeafs_panicked_mono
      unfold Mem.makeCap
      rw [if_pos (Or.inr (by simp; exact_mod_cast hroom))]

/-- The lemma above at three packs: `zeroLengthPack` holds a record of length
0, `widePack` one of depth 0, length 3 and degree 2, and `hugeLengthPack` one
whose length is beyond the room of `blankMem`. -/
theorem load_validates_length_and_degree_witness :
    (load zeroLengthPack (blankMem 100)).1 = some Error.ErrInvalidEncodedRefs ∧
    (load widePack (blankMem 100)).1 = none ∧
    (load hugeLengthPack (blankMem 100)).2.panicked = true :=
  ⟨((load_validates_length_and_degree zeroLengthPack (blankMem 100)
      { Depth := 0, Degree := 2, Length := 0, Elements := [] } rfl).1 (Or.inl rfl)).1,
   ((load_validates_length_and_degree widePack (blankMem 100)
      { Depth := 0, Degree := 2, Length := 3,
        Elements := [⟨false, 11⟩, ⟨false, 12⟩, ⟨false, 13⟩] } rfl).2.1
      rfl (by decide) (by decide) (by decide) (by decide) (by decide)).1,
   (load_validates_length_and_degree hugeLengthPack (blankMem 100)
      { Depth := 0, Degree := 2, Length := 4294967295, Elements := [⟨false, 7⟩] } rfl).2.2
      rfl (by decide) (by decide)⟩

/-- C9, evaluated where it fails.  The record that `hugeLengthPack` holds under
`100` has depth 0, degree 2 and length `4294967295`, so it passes the guard of
`load`.  `load` then asks the run-time for a slice of that capacity before it
looks at the elements: on a machine that cannot serve it (`blankMem` has room
for `1048576` pointers, and one more pointer than the room is enough) the
program stops in the allocation instead of returning nil, also when the load
is made by the first `Len`.  On a machine with room for all of them the record
is loaded with the length `4294967295` over a single leaf.  With a length
within the room (`widePack`) `load` returns nil, and a record of length 0
(`zeroLengthPack`) is rejected with `ErrInvalidEncodedRefs`. -/
theorem load_aborts_on_untrusted_length :
    (blankMem 100).panicked = false ∧
    (load hugeLengthPack (blankMem 100)).2.panicked = true ∧
    (Len hugeLengthPack (blankMem 100)).2.2.panicked = true ∧
    (load hugeLengthPack { blankMem 100 with room := 4294967294 }).2.panicked = true ∧
    (load hugeLengthPack { blankMem 100 with room := 4294967295 }).2.panicked = false ∧
    (load hugeLengthPack { blankMem 100 with room := 4294967295 }).2.r.length = 4294967295 ∧
    (load hugeLengthPack { blankMem 100 with room := 4294967295 }).2.rootChildren.length = 1 ∧
    (load widePack (blankMem 100)).1 = none ∧
    (load widePack (blankMem 100)).2.panicked = false ∧
    (load zeroLengthPack (blankMem 100)).1 = some Error.ErrInvalidEncodedRefs := by
  decide

theorem liveElements_cons_deleted (e : EncodedElement) (rest : List EncodedElement)
    (h : e.Deleted = true) : liveElements (e :: rest) = liveElements rest := by
  simp [liveElements, h]

theorem liveElements_cons_live (e : EncodedElement) (rest : List EncodedElement)
    (h : ¬ e.Deleted = true) : liveElements (e :: rest) = e :: liveElements rest := by
  simp [liveElements, h]

theorem liveElements_not_deleted (elements : List EncodedElement) :
    ∀ e ∈ liveElements elements, e.Deleted = false := by
  intro e he
  simpa [liveElements] using (List.mem_filter.mp he).2

theorem liveCount_liveElements (elements : List EncodedElement) :
    liveCount elements = (liveElements elements).length := rfl

theorem loadRootLeafs_stores (elements : List EncodedElement) :
    ∀ m : Mem,
      (loadRootLeafs elements m).els =
        m.els ++ (liveElements elements).map (fun e => ⟨e.Deleted, e.Hash, none⟩) ∧
      (loadRootLeafs elements m).r.leafs =
        m.r.leafs ++ List.range' m.els.length (liveElements elements).length := by
  induction elements with
  | nil => intro m; simp [loadRootLeafs, liveElements]
  | cons e rest ih =>
    intro m
    unfold loadRootLeafs
    split
    · next hdel =>
      rw [liveElements_cons_deleted e rest hdel]
      exact ih m
    · next hdel =>
      rw [liveElements_cons_live e rest hdel]
      simp only [Mem.allocEl]
      generalize hm2 : (Mem.setR { m with els := m.els ++ [{ Deleted := e.Deleted, Hash := e.Hash, upper := none }] }
            { m.r with leafs := m.r.leafs ++ [m.els.length] }) = m2
      have e2 : m2.els = m.els ++ [{ Deleted := e.Deleted, Hash := e.Hash, upper := none }] := by
        rw [← hm2]; rfl
      have l2 : m2.r.leafs = m.r.leafs ++ [m.els.length] := by rw [← hm2]; rfl
      have key : ∀ m3 : Mem, m3.els = m2.els → m3.r.leafs = m2.r.leafs →
          (loadRootLeafs rest m3).els =
            m.els ++ List.map (fun e => ({ Deleted := e.Deleted, Hash := e.Hash, upper := none } : RefsElement))
              (e :: liveElements rest) ∧
          (loadRootLeafs rest m3).r.leafs =
            m.r.leafs ++ List.range' m.els.length (e :: liveElements rest).length := by
        intro m3 h3e h3l
        obtain ⟨h1, h2⟩ := ih m3
        rw [h1, h2, h3e, h3l, e2, l2]
        refine ⟨by simp, ?_⟩
        simp only [List.length_append, List.length_singleton, List.length_cons, List.append_assoc,
          List.singleton_append]
        rw [List.range'_succ]
        rfl
      split
      · exact key _ (addElementToIndex_stores _ _ _).1
          (sameButIndex_fields (addElementToIndex_same _ _ _)).1
      · exact key _ rfl rfl

theorem map_getD_range' {α : Type} (d : α) (l2 : List α) :
    ∀ l1 : List α,
      (List.range' l1.length l2.length).map (fun a => (l1 ++ l2).getD a d) = l2 := by
  induction l2 with
  | nil => intro l1; simp
  | cons x rest ih =>
    intro l1
    rw [List.length_cons, List.range'_succ, List.map_cons]
    have h1 : (l1 ++ x :: rest).getD l1.length d = x := by
      rw [List.getD_eq_getElem?_getD, List.getElem?_append_right (Nat.le_refl _)]
      simp
    have h2 := ih (l1 ++ [x])
    simp only [List.length_append, List.length_singleton, List.append_assoc,
      List.singleton_append] at h2
    rw [h1, h2]


theorem loadNodeLeafs_nodes (hash : SHA256) (rn : Nat) (elements : List EncodedElement) :
    ∀ m : Mem, (loadNodeLeafs hash rn elements m).nodes = m.nodes := by
  induction elements with
  | nil => intro m; rfl
  | cons e rest ih =>
    intro m
    unfold loadNodeLeafs
    split
    · exact ih m
    · simp only [Mem.allocEl]
      split
      · rw [ih, (addElementToIndex_stores _ _ _).2]
      · rw [ih]

theorem node_congr (m1 m2 : Mem) (b : Nat) (h : m2.nodes[b]? = m1.nodes[b]?) :
    m2.node b = m1.node b := by
  simp only [Mem.node, List.getD_eq_getElem?_getD, h]

theorem loadNodeBranches_nodes
    (sub : Option Nat → SHA256 → Mem → Nat × Option Error × Mem) (hsub : allocatesNode sub)
    (rn : Nat) (elements : List EncodedElement) :
    ∀ m : Mem, rn < m.nodes.length →
      m.nodes.length ≤ (loadNodeBranches sub rn elements m).2.nodes.length ∧
      (∀ b, b < m.nodes.length → b ≠ rn →
        (loadNodeBranches sub rn elements m).2.nodes[b]? = m.nodes[b]?) ∧
      ((loadNodeBranches sub rn elements m).2.node rn).hash = (m.node rn).hash ∧
      ((loadNodeBranches sub rn elements m).2.node rn).upper = (m.node rn).upper := by
  induction elements with
  | nil => intro m _; exact ⟨Nat.le_refl _, fun _ _ _ => rfl, rfl, rfl⟩
  | cons e rest ih =>
    intro m hrn
    unfold loadNodeBranches
    split
    · exact ih m hrn
    · obtain ⟨s1, s2, s3, _, _⟩ := hsub (some rn) e.Hash m
      split
      · next _ err m1 heq =>
        rw [heq] at s2 s3
        simp only at s2 s3 ⊢
        have hn := node_congr m m1 rn (s3 rn hrn)
        exact ⟨Nat.le_of_lt s2, fun b hb _ => s3 b hb, by rw [hn], by rw [hn]⟩
      · next sn m1 heq =>
        rw [heq] at s2 s3
        simp only at s2 s3 ⊢
        have hn := node_congr m m1 rn (s3 rn hrn)
        generalize hm2 : m1.setNode rn
          { m1.node rn with branches := (m1.node rn).branches ++ [sn] } = m2
        have hnodes : m2.nodes = m1.nodes.set rn
            { m1.node rn with branches := (m1.node rn).branches ++ [sn] } := by
          rw [← hm2]; rfl
        have hlen : m2.nodes.length = m1.nodes.length := by rw [hnodes, List.length_set]
        have hrn1 : rn < m1.nodes.length := Nat.lt_trans hrn s2
        obtain ⟨i1, i2, i3, i4⟩ := ih m2 (by rw [hlen]; exact hrn1)
        have hnode2 : m2.node rn =
            { m1.node rn with branches := (m1.node rn).branches ++ [sn] } := by
          simp only [Mem.node, List.getD_eq_getElem?_getD, hnodes, List.getElem?_set, hrn1]
          simp
        refine ⟨by omega, ?_, ?_, ?_⟩
        · intro b hb hne
          rw [i2 b (by omega) hne, hnodes, List.getElem?_set]
          rw [if_neg (fun hc => hne hc.symm)]
          exact s3 b hb
        · rw [i3, hnode2, ← hn]
        · rw [i4, hnode2, ← hn]

theorem loadRefsNodes_allocates (pack : Pack) :
    ∀ depth : Nat, allocatesNode (loadRefsNodes pack depth) := by
  intro depth
  induction depth with
  | zero =>
    intro up h m
    unfold loadRefsNodes
    simp only [Mem.allocNode]
    have base : ∀ x : RefsNode, x.hash = h → x.upper = up →
        ∀ m1 : Mem, m1.nodes = m.nodes ++ [x] →
        m.nodes.length < m1.nodes.length ∧
        (∀ b, b < m.nodes.length → m1.nodes[b]? = m.nodes[b]?) ∧
        (m1.node m.nodes.length).hash = h ∧ (m1.node m.nodes.length).upper = up := by
      intro x hx hu m1 hm1
      refine ⟨by rw [hm1]; simp, fun b hb => by rw [hm1, List.getElem?_append_left hb], ?_, ?_⟩
      · simp [Mem.node, List.getD_eq_getElem?_getD, hm1, hx]
      · simp [Mem.node, List.getD_eq_getElem?_getD, hm1, hu]
    split
    · exact ⟨rfl, base _ rfl rfl _ rfl⟩
    · split
      · exact ⟨rfl, base _ rfl rfl _ rfl⟩
      · split
        · exact ⟨rfl, base _ rfl rfl _ rfl⟩
        · next ern _ =>
          refine ⟨rfl, base ⟨h, (ern.Length : Int), [], [], up⟩ rfl rfl _ ?_⟩
          rw [loadNodeLeafs_nodes, makeCap_nodes]
          simp [Mem.setNode, Mem.node, List.getD_eq_getElem?_getD]
  | succ d ih =>
    intro up h m
    unfold loadRefsNodes
    simp only [Mem.allocNode]
    have base : ∀ x : RefsNode, x.hash = h → x.upper = up →
        ∀ m1 : Mem, m1.nodes = m.nodes ++ [x] →
        m.nodes.length < m1.nodes.length ∧
        (∀ b, b < m.nodes.length → m1.nodes[b]? = m.nodes[b]?) ∧
        (m1.node m.nodes.length).hash = h ∧ (m1.node m.nodes.length).upper = up := by
      intro x hx hu m1 hm1
      refine ⟨by rw [hm1]; simp, fun b hb => by rw [hm1, List.getElem?_append_left hb], ?_, ?_⟩
      · simp [Mem.node, List.getD_eq_getElem?_getD, hm1, hx]
      · simp [Mem.node, List.getD_eq_getElem?_getD, hm1, hu]
    split
    · exact ⟨rfl, base _ rfl rfl _ rfl⟩
    · split
      · exact ⟨rfl, base _ rfl rfl _ rfl⟩
      · split
        · exact ⟨rfl, base _ rfl rfl _ rfl⟩
        · next ern _ =>
          simp only
          generalize hm2 : Mem.setNode { m with nodes := m.nodes ++ [⟨h, 0, [], [], up⟩] }
            m.nodes.length
            { Mem.node { m with nodes := m.nodes ++ [⟨h, 0, [], [], up⟩] } m.nodes.length with
              length := (ern.Length : Int) } = m2
          have hnodes : m2.nodes = m.nodes ++ [⟨h, (ern.Length : Int), [], [], up⟩] := by
            rw [← hm2]
            simp [Mem.setNode, Mem.node, List.getD_eq_getElem?_getD]
          obtain ⟨b1, b2, b3, b4⟩ := base _ rfl rfl m2 hnodes
          obtain ⟨l1, l2, l3, l4⟩ := loadNodeBranches_nodes (loadRefsNodes pack d) ih
            m.nodes.length ern.Elements m2 b1
          refine ⟨trivial, by omega, ?_, by rw [l3, b3], by rw [l4, b4]⟩
          intro b hb
          rw [l2 b (by omega) (by omega), b2 b hb]

theorem loadRootRefsNodesLoop_branches (pack : Pack) (depth : Nat)
    (elements : List EncodedElement) :
    ∀ m : Mem, (∀ b ∈ m.r.branches, b < m.nodes.length) →
      (loadRootRefsNodesLoop pack depth elements m).1 = none →
      (loadRootRefsNodesLoop pack depth elements m).2.r.branches.map
          (fun b => (((loadRootRefsNodesLoop pack depth elements m).2.node b).hash,
            ((loadRootRefsNodesLoop pack depth elements m).2.node b).upper)) =
        m.r.branches.map (fun b => ((m.node b).hash, (m.node b).upper)) ++
          (liveElements elements).map (fun e => (e.Hash, none)) := by
  induction elements with
  | nil => intro m _ _; simp [loadRootRefsNodesLoop, liveElements]
  | cons e rest ih =>
    intro m hin
    unfold loadRootRefsNodesLoop
    split
    · next hdel =>
      intro hok
      rw [liveElements_cons_deleted e rest hdel]
      exact ih m hin hok
    · next hdel =>
      rw [liveElements_cons_live e rest hdel]
      obtain ⟨s1, s2, s3, s4, s5⟩ := loadRefsNodes_allocates pack (depth - 1) none e.Hash m
      have hsame := loadRefsNodes_same pack (depth - 1) none e.Hash m
      split
      · next _ err m1 heq =>
        intro hok
        simp at hok
      · next rn m1 heq =>
        intro hok
        rw [heq] at s1 s2 s3 s4 s5 hsame
        simp only at s1 s2 s3 s4 s5 hok ⊢
        replace hsame : sameButIndex m m1 := hsame
        obtain ⟨_, f2, _⟩ := sameButIndex_fields hsame
        generalize hm2 : m1.setR { m1.r with branches := m1.r.branches ++ [rn] } = m2 at hok ⊢
        have hb2 : m2.r.branches = m.r.branches ++ [rn] := by rw [← hm2]; simp [Mem.setR, f2]
        have hn2 : m2.nodes = m1.nodes := by rw [← hm2]; rfl
        have hnode2 : ∀ b, m2.node b = m1.node b := fun b => by simp only [Mem.node, hn2]
        have hin2 : ∀ b ∈ m2.r.branches, b < m2.nodes.length := by
          intro b hb
          rw [hb2] at hb
          rw [hn2]
          rcases List.mem_append.mp hb with h1 | h1
          · exact Nat.lt_trans (hin b h1) s2
          · simp only [List.mem_singleton] at h1
            rw [h1, s1]
            exact s2
        rw [ih m2 hin2 hok, hb2, List.map_append, List.map_cons, List.append_assoc]
        congr 1
        · apply List.map_congr_left
          intro b hb
          rw [hnode2, node_congr m m1 b (s3 b (hin b hb))]
        · simp only [List.map_cons, List.map_nil, List.singleton_append, hnode2, s1, s4, s5]

theorem loadNodeBranches_error
    (sub : Option Nat → SHA256 → Mem → Nat × Option Error × Mem) (P : Error → Prop)
    (hsub : ∀ up h m err, (sub up h m).2.1 = some err → P err)
    (rn : Nat) (elements : List EncodedElement) :
    ∀ (m : Mem) (err : Error), (loadNodeBranches sub rn elements m).1 = some err → P err := by
  induction elements with
  | nil => intro m err h; simp [loadNodeBranches] at h
  | cons e rest ih =>
    intro m err
    unfold loadNodeBranches
    split
    · exact ih m err
    · have h1 := hsub (some rn) e.Hash m
      split
      · next _ err1 m1 heq =>
        intro h
        rw [heq] at h1
        simp only [Option.some.injEq] at h
        rw [← h]
        exact h1 err1 rfl
      · next sn m1 heq => exact ih _ err

theorem loadRefsNodes_error (pack : Pack) :
    ∀ (depth : Nat) (upper : Option Nat) (hash : SHA256) (m : Mem) (err : Error),
      (loadRefsNodes pack depth upper hash m).2.1 = some err →
      ∃ h, pack.getNode h = .error err := by
  intro depth
  induction depth with
  | zero =>
    intro upper hash m err
    unfold loadRefsNodes
    simp only [Mem.allocNode]
    split
    · intro h; simp at h
    · split
      · intro h; simp at h
      · split
        · next err1 hget =>
          intro h
          simp only [Option.some.injEq] at h
          exact ⟨hash, by rw [hget, h]⟩
        · intro h; simp at h
  | succ d ih =>
    intro upper hash m err
    unfold loadRefsNodes
    simp only [Mem.allocNode]
    split
    · intro h; simp at h
    · split
      · intro h; simp at h
      · split
        · next err1 hget =>
          intro h
          simp only [Option.some.injEq] at h
          exact ⟨hash, by rw [hget, h]⟩
        · next ern _ =>
          intro h
          exact loadNodeBranches_error (loadRefsNodes pack d)
            (fun e => ∃ h, pack.getNode h = .error e) ih _ _ _ err h

theorem loadRootRefsNodesLoop_error (pack : Pack) (depth : Nat)
    (elements : List EncodedElement) :
    ∀ (m : Mem) (err : Error), (loadRootRefsNodesLoop pack depth elements m).1 = some err →
      ∃ h, pack.getNode h = .error err := by
  induction elements with
  | nil => intro m err h; simp [loadRootRefsNodesLoop] at h
  | cons e rest ih =>
    intro m err
    unfold loadRootRefsNodesLoop
    split
    · exact ih m err
    · have h1 := loadRefsNodes_error pack (depth - 1) none e.Hash m
      split
      · next _ err1 m1 heq =>
        intro h
        rw [heq] at h1
        simp only [Option.some.injEq] at h
        rw [← h]
        exact h1 err1 rfl
      · next rn m1 heq => exact ih _ err


theorem load_guard (pack : Pack) (m : Mem) (er : EncodedRefs)
    (hget : pack.getRefs m.r.Hash = .ok er) (hbad : er.Length = 0 ∨ er.Degree < 2) :
    (load pack m).1 = some Error.ErrInvalidEncodedRefs := by
  simp [load, hget, Mem.setR, hbad]

theorem load_shape (pack : Pack) (m : Mem) (er : EncodedRefs)
    (hget : pack.getRefs m.r.Hash = .ok er) (hgood : ¬ (er.Length = 0 ∨ er.Degree < 2)) :
    (er.Depth = 0 → ∃ m3 : Mem, m3.els = m.els ∧ m3.r.depth = 0 ∧
      m3.r.degree = (er.Degree : Int) ∧ m3.r.leafs = [] ∧
      load pack m = (none, loadRootLeafs er.Elements m3)) ∧
    (0 < er.Depth → ∃ m3 : Mem, m3.nodes = m.nodes ∧ m3.r.depth = er.Depth ∧
      m3.r.degree = (er.Degree : Int) ∧ m3.r.branches = [] ∧
      load pack m = loadRootRefsNodesLoop pack er.Depth er.Elements m3) := by
  have hg : ¬ ((er.Length : Int) = 0 ∨ (er.Degree : Int) < 2) := by omega
  constructor
  · intro hd
    unfold load
    rw [hget]
    simp only [Mem.setR]
    rw [if_neg hg]
    split_ifs <;>
    · refine ⟨_, ?_, ?_, ?_, ?_, rfl⟩
      · show (Mem.makeCap _ _).els = _
        rw [makeCap_els]
      · show (Mem.makeCap _ _).r.depth = 0
        rw [makeCap_r]
        exact hd
      · show (Mem.makeCap _ _).r.degree = _
        rw [makeCap_r]
      · rfl
  · intro hd
    have hne : ¬ er.Depth = 0 := by omega
    unfold load
    rw [hget]
    simp only [Mem.setR]
    rw [if_neg hg]
    split_ifs <;>
    · refine ⟨_, ?_, ?_, ?_, ?_, rfl⟩ <;> rfl

/-- C10 as amended.  Let the pack return the root record `er`.  `load` fails
only with `ErrInvalidEncodedRefs` for a length 0 or a degree below 2, or, above
depth 0, with an error that the pack returned for a node: no record is rejected
for the number of its elements.  At depth 0 a record of degree at least 2 and
of a length from 1 up to what the run-time can allocate (both below `2^31`,
where `int(...)` is exact also for an `int` of 32 bits) is loaded without
error or panic, however many elements it has.  When `load` returns nil, the
degree and the depth of the `Refs` are those of the record and the children of
the root are exactly the non-deleted elements of the record in their order: at
depth 0 one leaf per element with its hash, not deleted and with a nil `upper`,
above depth 0 one branch per element with its hash and a nil `upper`; their
number is the number of non-deleted elements, whether or not that exceeds the
degree. -/
theorem load_installs_every_live_element (pack : Pack) (m : Mem) (er : EncodedRefs)
    (hget : pack.getRefs m.r.Hash = .ok er) :
    (∀ err, (load pack m).1 = some err →
      (err = Error.ErrInvalidEncodedRefs ∧ (er.Length = 0 ∨ er.Degree < 2)) ∨
      (0 < er.Depth ∧ ∃ h, pack.getNode h = .error err)) ∧
    (er.Depth = 0 → 1 ≤ er.Length → er.Length ≤ m.room → er.Length < 2147483648 →
      2 ≤ er.Degree → er.Degree < 2147483648 →
      (load pack m).1 = none ∧ (load pack m).2.panicked = m.panicked) ∧
    ((load pack m).1 = none →
      (load pack m).2.r.degree = (er.Degree : Int) ∧
      (load pack m).2.r.depth = er.Depth ∧
      (load pack m).2.rootChildren.length = liveCount er.Elements ∧
      (er.Depth = 0 →
        (load pack m).2.rootChildren.map (fun a => (load pack m).2.el a) =
          (liveElements er.Elements).map (fun e => ⟨false, e.Hash, none⟩)) ∧
      (0 < er.Depth →
        (load pack m).2.rootChildren.map
            (fun b => (((load pack m).2.node b).hash, ((load pack m).2.node b).upper)) =
          (liveElements er.Elements).map (fun e => (e.Hash, none)))) := by
  have herr : ∀ err, (load pack m).1 = some err →
      (err = Error.ErrInvalidEncodedRefs ∧ (er.Length = 0 ∨ er.Degree < 2)) ∨
      (0 < er.Depth ∧ ∃ h, pack.getNode h = .error err) := by
    intro err h
    by_cases hbad : er.Length = 0 ∨ er.Degree < 2
    · rw [load_guard pack m er hget hbad] at h
      simp only [Option.some.injEq] at h
      exact Or.inl ⟨h.symm, hbad⟩
    · obtain ⟨s0, s1⟩ := load_shape pack m er hget hbad
      by_cases hd : er.Depth = 0
      · obtain ⟨m3, _, _, _, _, hl⟩ := s0 hd
        rw [hl] at h
        simp at h
      · obtain ⟨m3, _, _, _, _, hl⟩ := s1 (by omega)
        rw [hl] at h
        exact Or.inr ⟨by omega, loadRootRefsNodesLoop_error pack er.Depth er.Elements m3 err h⟩
  refine ⟨herr, (load_validates_length_and_degree pack m er hget).2.1, ?_⟩
  · intro hok
    have hgood : ¬ (er.Length = 0 ∨ er.Degree < 2) := by
      intro hbad
      rw [load_guard pack m er hget hbad] at hok
      simp at hok
    obtain ⟨s0, s1⟩ := load_shape pack m er hget hgood
    by_cases hd : er.Depth = 0
    · obtain ⟨m3, he3, hd3, hg3, hl3, hl⟩ := s0 hd
      obtain ⟨k1, k2, k3⟩ := loadRootLeafs_fields er.Elements m3
      obtain ⟨c1, c2⟩ := loadRootLeafs_stores er.Elements m3
      rw [hl]
      simp only
      have hrc : (loadRootLeafs er.Elements m3).rootChildren =
          List.range' m3.els.length (liveElements er.Elements).length := by
        unfold Mem.rootChildren
        rw [k2, hd3]
        simp only
        rw [c2, hl3, List.nil_append]
      refine ⟨by rw [k3, hg3], by rw [k2, hd3, hd], ?_, ?_, fun h0 => by omega⟩
      · rw [hrc, List.length_range', liveCount_liveElements]
      · intro _
        rw [hrc]
        have hmap := map_getD_range' (default : RefsElement)
          ((liveElements er.Elements).map
            (fun e => (⟨e.Deleted, e.Hash, none⟩ : RefsElement))) m3.els
        rw [List.length_map] at hmap
        have hfun : (fun a => (loadRootLeafs er.Elements m3).el a) =
            (fun a => (m3.els ++ (liveElements er.Elements).map
              (fun e => (⟨e.Deleted, e.Hash, none⟩ : RefsElement))).getD a default) := by
          funext a
          simp only [Mem.el, c1]
        rw [hfun, hmap]
        apply List.map_congr_left
        intro e he
        rw [liveElements_not_deleted er.Elements e he]
    · obtain ⟨m3, hn3, hd3, hg3, hb3, hl⟩ := s1 (by omega)
      rw [hl] at hok ⊢
      obtain ⟨k1, k2, k3⟩ := loadRootRefsNodesLoop_fields pack er.Depth er.Elements m3 hok
      have c1 := loadRootRefsNodesLoop_branches pack er.Depth er.Elements m3
        (by rw [hb3]; intro b hb; cases hb) hok
      obtain ⟨n, hn⟩ : ∃ n, er.Depth = n + 1 := ⟨er.Depth - 1, by omega⟩
      have hrc : (loadRootRefsNodesLoop pack er.Depth er.Elements m3).2.rootChildren =
          (loadRootRefsNodesLoop pack er.Depth er.Elements m3).2.r.branches := by
        unfold Mem.rootChildren
        rw [k2, hd3, hn]
      refine ⟨by rw [k3, hg3], by rw [k2, hd3], ?_, fun h0 => absurd h0 hd, ?_⟩
      · rw [hrc, k1, hb3]
        simp
      · intro _
        rw [hrc, c1, hb3]
        simp

/-- The theorem of C10 (amended) at `widePack`: the record of degree 2 with the
three elements `11, 12, 13` is loaded and the root gets these three leafs. -/
theorem load_installs_every_live_element_witness :
    (load widePack (blankMem 100)).1 = none ∧
    (load widePack (blankMem 100)).2.r.degree = 2 ∧
    (load widePack (blankMem 100)).2.r.depth = 0 ∧
    (load widePack (blankMem 100)).2.rootChildren.length = 3 ∧
    (load widePack (blankMem 100)).2.rootChildren.map
        (fun a => (load widePack (blankMem 100)).2.el a) =
      [⟨false, 11, none⟩, ⟨false, 12, none⟩, ⟨false, 13, none⟩] :=
  ⟨by decide,
   ((load_installs_every_live_element widePack (blankMem 100)
      { Depth := 0, Degree := 2, Length := 3,
        Elements := [⟨false, 11⟩, ⟨false, 12⟩, ⟨false, 13⟩] } rfl).2.2 (by decide)).1,
   by decide, by decide, by decide⟩

/-! ### Descending over a tree that the callback leaves alone -/

theorem runCalls_append {U : Type} (fn : IterateFunc U) (m : Mem) (a b : List (Int × SHA256)) :
    ∀ u : U, runCalls fn m (a ++ b) u = runCalls fn m b (runCalls fn m a u) := by
  induction a with
  | nil => intro u; rfl
  | cons c rest ih => intro u; simp [runCalls, ih]

theorem indexedDown_append (a b : List SHA256) :
    ∀ k : Int, indexedDown k (a ++ b) = indexedDown k a ++ indexedDown (k - a.length) b := by
  induction a with
  | nil => intro k; simp [indexedDown]
  | cons h t ih =>
    intro k
    have e : k - 1 - (t.length : Int) = k - ((t.length : Int) + 1) := by omega
    simp [indexedDown, ih, e]

theorem indexedFrom_reverse (t : List SHA256) :
    ∀ lo : Int, (indexedFrom lo t).reverse = indexedDown (lo + t.length - 1) t.reverse := by
  induction t with
  | nil => intro lo; simp [indexedFrom, indexedDown]
  | cons h t ih =>
    intro lo
    have e1 : lo + 1 + (t.length : Int) - 1 = lo + ((t.length : Int) + 1) - 1 := by omega
    have e2 : lo + ((t.length : Int) + 1) - 1 - (t.length : Int) = lo := by omega
    simp [indexedFrom, ih, indexedDown_append, indexedDown, e1, e2]

theorem loadRefsNodeIfNeed_loaded (pack : Pack) (rn depth : Nat) (upper : Option Nat) (m : Mem)
    (h : (m.node rn).hash = 0 ∨ (m.node rn).length ≠ 0) :
    loadRefsNodeIfNeed pack rn depth upper m = (none, m) := by
  unfold loadRefsNodeIfNeed
  have hn : ¬ ((m.node rn).hash ≠ 0 ∧ (m.node rn).length = 0) := by
    rintro ⟨h1, h2⟩
    rcases h with h | h
    · exact h1 h
    · exact h h2
  rw [if_neg hn]

theorem descendLeafsLoop_readonly {U : Type} (fn : IterateFunc U) (m : Mem)
    (hfn : ∀ i h u, fn i h (m, u) = (none, (m, (fn i h (m, u)).2.2)))
    (hq : isFindingIteratorsIndexFromRootRequired m = (false, m)) (l : List Nat) :
    ∀ (i pass : Int) (u : U),
      descendLeafsLoop fn l i i pass (m, u) =
        (pass + ((liveLeafs m l).length : Int), false, none,
          (m, runCalls fn m (indexedDown i ((liveLeafs m l).map (fun a => (m.el a).Hash))) u)) := by
  induction l with
  | nil => intro i pass u; simp [descendLeafsLoop, liveLeafs, indexedDown, runCalls]
  | cons el rest ih =>
    intro i pass u
    unfold descendLeafsLoop
    by_cases hdel : (m.el el).Deleted = true
    · rw [if_pos hdel, ih]
      simp [liveLeafs, hdel]
    · rw [if_neg hdel, if_neg (lt_irrefl i), hfn]
      simp only [hq]
      rw [ih]
      simp only [liveLeafs, List.filter_cons, hdel, Bool.not_false, if_true, List.map_cons,
        List.length_cons, indexedDown, runCalls, Nat.cast_add, Nat.cast_one, Bool.not_eq_true,
        add_assoc, add_comm (1 : Int)]

theorem descendBranchesLoop_readonly {U : Type} (pack : Pack) (fn : IterateFunc U) (m : Mem)
    (depth : Nat) (upper : Option Nat)
    (sub : Int → Int → Nat → Mem × U → Int × Bool × Option Error × (Mem × U))
    (seq : Nat → List SHA256) (l : List Nat)
    (hload : ∀ b ∈ l, (m.node b).hash = 0 ∨ (m.node b).length ≠ 0)
    (hlen : ∀ b ∈ l, (m.node b).length = ((seq b).length : Int))
    (hsub : ∀ b ∈ l, ∀ (i : Int) (u : U), sub i i b (m, u) =
      (((seq b).length : Int), false, none, (m, runCalls fn m (indexedDown i (seq b)) u))) :
    ∀ (i pass : Int) (u : U),
      descendBranchesLoop pack depth upper sub l i i pass (m, u) =
        (pass + ((l.flatMap seq).length : Int), false, none,
          (m, runCalls fn m (indexedDown i (l.flatMap seq)) u)) := by
  induction l with
  | nil => intro i pass u; simp [descendBranchesLoop, indexedDown, runCalls]
  | cons b rest ih =>
    intro i pass u
    have ih1 := ih (fun c hc => hload c (List.mem_cons_of_mem _ hc))
      (fun c hc => hlen c (List.mem_cons_of_mem _ hc))
      (fun c hc => hsub c (List.mem_cons_of_mem _ hc))
    have hb := hlen b (List.mem_cons_self _ _)
    unfold descendBranchesLoop
    simp only [loadRefsNodeIfNeed_loaded pack b depth upper m (hload b (List.mem_cons_self _ _))]
    by_cases hz : (m.node b).length = 0
    · have hnil : seq b = [] := by
        rw [hz] at hb
        exact List.length_eq_zero.mp (by exact_mod_cast hb.symm)
      simp only [hz, if_true]
      rw [ih1]
      simp [hnil]
    · have hlt : ¬ (i < i - (m.node b).length) := by
        rw [hb] at hz ⊢
        omega
      simp only [hz, if_false, hlt]
      rw [hsub b (List.mem_cons_self _ _)]
      simp only [ne_eq, not_true_eq_false, Bool.false_eq_true, or_self, if_false]
      rw [ih1]
      simp only [List.flatMap_cons, List.length_append, indexedDown_append, runCalls_append,
        Nat.cast_add, add_assoc]

theorem liveHashes_congr (m1 m2 : Mem) (he : m2.els = m1.els) (hn : m2.nodes = m1.nodes) :
    ∀ (d : Nat) (leafs branches : List Nat),
      liveHashes m2 d leafs branches = liveHashes m1 d leafs branches := by
  intro d
  induction d with
  | zero => intro leafs branches; simp [liveHashes, liveLeafs, Mem.el, he]
  | succ d ih => intro leafs branches; simp [liveHashes, Mem.node, hn, ih]

theorem lengthsOk_congr (m1 m2 : Mem) (he : m2.els = m1.els) (hn : m2.nodes = m1.nodes) :
    ∀ (d : Nat) (branches : List Nat), lengthsOk m2 d branches = lengthsOk m1 d branches := by
  intro d
  induction d with
  | zero => intro branches; rfl
  | succ d ih =>
    intro branches
    simp [lengthsOk, Mem.node, hn, ih, liveHashes_congr m1 m2 he hn]

theorem fullyLoaded_congr (m1 m2 : Mem) (hn : m2.nodes = m1.nodes) :
    ∀ (d : Nat) (branches : List Nat), fullyLoaded m2 d branches = fullyLoaded m1 d branches := by
  intro d
  induction d with
  | zero => intro branches; rfl
  | succ d ih => intro branches; simp [fullyLoaded, Mem.node, hn, ih]

theorem lengthsOk_sum (m : Mem) (d : Nat) (branches : List Nat)
    (h : lengthsOk m (d + 1) branches = true) :
    (branches.map (fun b => (m.node b).length)).sum =
      ((liveHashes m (d + 1) [] branches).length : Int) := by
  induction branches with
  | nil => simp [liveHashes]
  | cons b rest ih =>
    simp only [lengthsOk, List.all_cons, Bool.and_eq_true, decide_eq_true_eq] at h
    have ih1 := ih (by simpa [lengthsOk] using h.2)
    simp only [liveHashes, List.flatMap_cons, List.length_append, List.map_cons, List.sum_cons,
      Nat.cast_add] at ih1 ⊢
    rw [ih1, h.1.1]

theorem lengthConserved_length (m : Mem) (h : m.lengthConserved = true) :
    m.r.length = (m.liveSeq.length : Int) := by
  simp only [Mem.lengthConserved, Bool.and_eq_true, decide_eq_true_eq] at h
  obtain ⟨h1, h2⟩ := h
  rw [h2]
  unfold Mem.childrenLength Mem.liveSeq
  cases hd : m.r.depth with
  | zero => simp [liveHashes]
  | succ d =>
    rw [hd] at h1
    simp only
    rw [lengthsOk_sum m d m.r.branches h1]
    rfl

theorem descend_readonly {U : Type} (pack : Pack) (fn : IterateFunc U) (m : Mem)
    (hfn : ∀ i h u, fn i h (m, u) = (none, (m, (fn i h (m, u)).2.2)))
    (hq : isFindingIteratorsIndexFromRootRequired m = (false, m)) :
    ∀ (d : Nat) (upper : Option Nat) (leafs branches : List Nat),
      lengthsOk m d branches = true → fullyLoaded m d branches = true →
      ∀ (i : Int) (u : U),
        descend pack fn d i i upper leafs branches (m, u) =
          (((liveHashes m d leafs branches).length : Int), false, none,
            (m, runCalls fn m (indexedDown i (liveHashes m d leafs branches).reverse) u)) := by
  intro d
  induction d with
  | zero =>
    intro upper leafs branches _ _ i u
    simp only [descend, descendLeafs]
    rw [descendLeafsLoop_readonly fn m hfn hq]
    simp [liveHashes, liveLeafs]
  | succ d ih =>
    intro upper leafs branches hl hf i u
    simp only [lengthsOk, List.all_eq_true, Bool.and_eq_true, decide_eq_true_eq] at hl
    simp only [fullyLoaded, List.all_eq_true, Bool.and_eq_true, Bool.or_eq_true,
      decide_eq_true_eq] at hf
    simp only [descend]
    rw [descendBranchesLoop_readonly pack fn m (d + 1) upper _
      (fun b => (liveHashes m d (m.node b).leafs (m.node b).branches).reverse) branches.reverse
      (fun b hb => (hf b (List.mem_reverse.mp hb)).1)
      (fun b hb => by rw [List.length_reverse]; exact (hl b (List.mem_reverse.mp hb)).1)
      (fun b hb j u1 => by
        have := ih (some b) (m.node b).leafs (m.node b).branches
          (hl b (List.mem_reverse.mp hb)).2 (hf b (List.mem_reverse.mp hb)).2 j u1
        simpa using this)]
    have e : branches.reverse.flatMap
        (fun b => (liveHashes m d (m.node b).leafs (m.node b).branches).reverse) =
        (liveHashes m (d + 1) leafs branches).reverse := by
      simp only [liveHashes]
      rw [List.reverse_flatMap]
      rfl
    rw [e]
    simp

theorem isFinding_after_start (m : Mem) :
    isFindingIteratorsIndexFromRootRequired (startIterating m) = (false, startIterating m) := by
  simp [isFindingIteratorsIndexFromRootRequired, startIterating, Mem.setR, List.getD_append_right]

theorem stop_after_start (m : Mem) : stopIterating (startIterating m) = m := by
  simp [stopIterating, startIterating, Mem.setR]

theorem runCalls_logCalls (m : Mem) (calls : List (Int × SHA256)) :
    ∀ log : List (Int × SHA256), runCalls logCalls m calls log = log ++ calls := by
  induction calls with
  | nil => intro log; simp [runCalls]
  | cons c rest ih => intro log; simp [runCalls, ih, logCalls]

theorem Descend_readonly {U : Type} (pack : Pack) (fn : IterateFunc U)
    (m : Mem) (u : U) (fuel : Nat)
    (hwf : m.wellFormed = true) (hne : 0 < m.r.length)
    (hfn : ∀ i h s, (fn i h s).1 = none ∧ (fn i h s).2.1 = s.1) :
    Descend (fuel + 1) pack fn (m, u) =
      some (none, (m, runCalls fn (startIterating m) (indexedFrom 0 m.liveSeq).reverse u)) := by
  simp only [Mem.wellFormed, Bool.and_eq_true, decide_eq_true_eq] at hwf
  obtain ⟨⟨hflags, hfull⟩, hcons⟩ := hwf
  have hlen := lengthConserved_length m hcons
  have hlok : lengthsOk m m.r.depth m.r.branches = true := by
    simp only [Mem.lengthConserved, Bool.and_eq_true] at hcons
    exact hcons.1
  have hfn1 : ∀ i h u1, fn i h (startIterating m, u1) =
      (none, (startIterating m, (fn i h (startIterating m, u1)).2.2)) := by
    intro i h u1
    obtain ⟨h1, h2⟩ := hfn i h (startIterating m, u1)
    exact Prod.ext h1 (Prod.ext h2 rfl)
  have hd := descend_readonly pack fn (startIterating m) hfn1 (isFinding_after_start m)
    m.r.depth none m.r.leafs m.r.branches
    (by rw [lengthsOk_congr m (startIterating m) rfl rfl]; exact hlok)
    (by rw [fullyLoaded_congr m (startIterating m) rfl]; exact hfull)
    (m.r.length - 1) u
  rw [liveHashes_congr m (startIterating m) rfl rfl] at hd
  have hv : validateIndex (m.r.length - 1) m.r.length = none := by
    simp [validateIndex]
    omega
  have hz : ¬ m.r.length = 0 := by omega
  have hidx : indexedDown (m.r.length - 1) (liveHashes m m.r.depth m.r.leafs m.r.branches).reverse =
      (indexedFrom 0 m.liveSeq).reverse := by
    rw [indexedFrom_reverse, hlen]
    simp [Mem.liveSeq]
  rw [hidx] at hd
  have hloop : descendFromLoop pack fn (m.r.length - 1) (fuel + 1) (m.r.length - 1)
      (startIterating m, u) =
      some (none, (startIterating m,
        runCalls fn (startIterating m) (indexedFrom 0 m.liveSeq).reverse u)) := by
    unfold descendFromLoop
    have hd1 : descend pack fn (startIterating m, u).1.r.depth (m.r.length - 1) (m.r.length - 1)
        none (startIterating m, u).1.r.leafs (startIterating m, u).1.r.branches
        (startIterating m, u) = _ := hd
    rw [hd1]
  simp only [Descend, initRefs, hflags, ne_eq, not_false_eq_true, if_true, descendFrom, hv, hz,
    if_false, hloop, stop_after_start]
  simp

/-- C6.  Let a `Refs` be well-formed, fully loaded and non-empty, with live
hash sequence `s` and length `L`.  Then `L` is the length of `s`, and for a
callback that never changes the memory and never returns an error `Descend`
terminates (any positive fuel suffices for its rewind loop), returns nil,
leaves the memory as it was, and acts on the variables of the callback as the
calls `(L-1, s[L-1])`, ..., `(0, s[0])` made in this order, which is the reverse
of the indexed sequence `(0, s[0])`, ..., `(L-1, s[L-1])`.  In particular the
callback that logs its calls ends with exactly this list as its log. -/
theorem descend_visits_all_in_reverse {U : Type} (pack : Pack) (fn : IterateFunc U)
    (m : Mem) (u : U) (fuel : Nat)
    (hwf : m.wellFormed = true) (hne : 0 < m.r.length)
    (hfn : ∀ i h s, (fn i h s).1 = none ∧ (fn i h s).2.1 = s.1) :
    m.r.length = (m.liveSeq.length : Int) ∧
    Descend (fuel + 1) pack fn (m, u) =
      some (none, (m, runCalls fn (startIterating m) (indexedFrom 0 m.liveSeq).reverse u)) ∧
    Descend (fuel + 1) pack logCalls (m, []) =
      some (none, (m, (indexedFrom 0 m.liveSeq).reverse)) := by
  refine ⟨?_, Descend_readonly pack fn m u fuel hwf hne hfn, ?_⟩
  · simp only [Mem.wellFormed, Bool.and_eq_true] at hwf
    exact lengthConserved_length m hwf.2
  · rw [Descend_readonly pack logCalls m [] fuel hwf hne (fun _ _ _ => ⟨rfl, rfl⟩),
      runCalls_logCalls]
    simp

/-- The theorem of C6 at `twoByTwo` with the logging callback: the log is
`(3, 14), (2, 13), (1, 12), (0, 11)`. -/
theorem descend_visits_all_in_reverse_witness :
    (twoByTwo.wellFormed = true ∧ 0 < twoByTwo.r.length) ∧
    Descend 1 emptyPack logCalls (twoByTwo, []) =
      some (none, (twoByTwo, (indexedFrom 0 twoByTwo.liveSeq).reverse)) ∧
    (indexedFrom 0 twoByTwo.liveSeq).reverse = [(3, 14), (2, 13), (1, 12), (0, 11)] :=
  ⟨by decide,
   (descend_visits_all_in_reverse emptyPack logCalls twoByTwo [] 0 (by decide) (by decide)
     (fun _ _ _ => ⟨rfl, rfl⟩)).2.2,
   by decide⟩

/-! ### Operations by hash, evaluated -/

/-- C11, evaluated where it fails.  After the initialization from `lazyPack`
(no flags) the root of `lazyLoaded` has the stub of the branch record `101`,
which in the pack has length 2 and the leafs `11, 12`.  `loadRefsNodeIfNeed` on
that stub returns nil and leaves it a stub, with length 0 and no children:
`loadRefsNodes` returns before reading the pack when neither `EntireRefs` nor
`HashTableIndex` is set.  `HashByIndex(0)` then fails with `ErrInvalidRefs`. -/
theorem lazy_stub_is_never_loaded :
    (initRefs lazyPack (blankMem 100)).1 = none ∧
    lazyLoaded.r.flags &&& (EntireRefs ||| HashTableIndex) = 0 ∧
    lazyLoaded.r.depth = 1 ∧ lazyLoaded.r.length = 2 ∧ lazyLoaded.r.branches = [0] ∧
    (lazyLoaded.node 0).hash = 101 ∧ (lazyLoaded.node 0).length = 0 ∧
    encodedLive lazyPack 1 [⟨false, 101⟩] = [11, 12] ∧
    (loadRefsNodeIfNeed lazyPack 0 1 none lazyLoaded).1 = none ∧
    ((loadRefsNodeIfNeed lazyPack 0 1 none lazyLoaded).2.node 0).length = 0 ∧
    ((loadRefsNodeIfNeed lazyPack 0 1 none lazyLoaded).2.node 0).leafs = [] ∧
    ((loadRefsNodeIfNeed lazyPack 0 1 none lazyLoaded).2.node 0).branches = [] ∧
    (HashByIndex lazyPack 0 lazyLoaded).2.1 = some Error.ErrInvalidRefs := by
  decide

/-- C14, evaluated where it fails.  Without the index, `DeleteByHash(7)` on the
flat `Refs` with live sequence `7, 9, 7` returns nil and leaves the live
sequence `7` with length 1: the second `DeleteByIndex` it issues removes the
element with hash `9`, and the first element, with hash `7`, stays.  After the
first deletion `descendFrom` goes on with the `si` it computed before the
loop, so `descendLeafs` reports the first leaf under the index 1. -/
theorem deleteByHash_deletes_a_wrong_element :
    (flatMem [7, 9, 7] flagIsSet none).wellFormed = true ∧
    (flatMem [7, 9, 7] flagIsSet none).liveSeq = [7, 9, 7] ∧
    (DeleteByHash 3 emptyPack 7 (flatMem [7, 9, 7] flagIsSet none)).map
      (fun x => (x.1, x.2.liveSeq, x.2.r.length, x.2.els.map (fun e => e.Deleted))) =
      some (none, [7], 1, [false, true, true]) := by
  decide

/-- C15, evaluated where it fails.  With the index, `DeleteByHash(7)` on the
flat `Refs` with live sequence `7, 7`, whose index holds both leafs under `7`,
deletes the first leaf and then reads nil from the slice it ranges over, which
`delElementFromIndex` has shifted in place: the Go program panics on the nil
pointer; the second leaf is still live and still in the index. -/
theorem deleteByHash_indexed_reads_nil :
    (flatMem [7, 7] (flagIsSet ||| HashTableIndex)
      (some (fun h => if h = 7 then some [0, 1] else none))).wellFormed = true ∧
    (DeleteByHash 1 emptyPack 7 (flatMem [7, 7] (flagIsSet ||| HashTableIndex)
      (some (fun h => if h = 7 then some [0, 1] else none)))).map
      (fun x => (x.2.panicked, x.2.liveSeq, x.2.els.map (fun e => e.Deleted), x.2.bucket 7)) =
      some (true, [7], [true, false], some [1]) := by
  decide

/-- C17, evaluated where it fails.  `twoByTwoIndexed` is well-formed, of depth
1, and its index holds the leaf with hash `13` (index 2) under `13`;
`IndicesByHash(13)` returns `ErrInvalidRefs` and no index: `indicesInLeafs`
ranges over `r.leafs`, which is empty at depth 1, instead of the leafs of the
branch it is given. -/
theorem indicesByHash_fails_below_the_root :
    twoByTwoIndexed.wellFormed = true ∧ twoByTwoIndexed.liveSeq = [11, 12, 13, 14] ∧
    twoByTwoIndexed.r.flags &&& HashTableIndex ≠ 0 ∧
    twoByTwoIndexed.bucket 13 = some [2] ∧ (twoByTwoIndexed.el 2).Hash = 13 ∧
    (IndicesByHash 1 emptyPack 13 twoByTwoIndexed).map (fun x => (x.1, x.2.1)) =
      some ([], some Error.ErrInvalidRefs) := by
  decide

/-- C18, evaluated where it fails.  On the blank initialized `Refs` without
index `HasHash` returns `(false, ErrIndexOutOfRange)`, with the index (flag
set) it returns `(false, nil)`: `ascendFrom` validates the start index 0
against the length 0 before it tests for an empty `Refs`. -/
theorem hasHash_fails_on_blank_refs :
    (flatMem [] flagIsSet none).r.Hash = 0 ∧ (flatMem [] flagIsSet none).r.length = 0 ∧
    (HasHash 1 emptyPack 5 (flatMem [] flagIsSet none)).map (fun x => (x.1, x.2.1)) =
      some (false, some Error.ErrIndexOutOfRange) ∧
    (HasHash 1 emptyPack 5 (flatMem [] (flagIsSet ||| HashTableIndex) none)).map
      (fun x => (x.1, x.2.1)) = some (false, none) := by
  decide

/-- C20, evaluated where it fails.  Loading the tree of `indexPack` (depth 1,
leafs `11, 12`) with `HashTableIndex` succeeds, but the index has no entry for
`11` or `12`: both leafs are registered under `101`, the hash of their branch,
and neither is reachable from the root, the branch having no leafs. -/
theorem load_indexes_under_branch_hash :
    (initRefs indexPack (blankMem 100)).1 = none ∧
    indexLoaded.r.flags &&& HashTableIndex ≠ 0 ∧
    encodedLive indexPack 1 [⟨false, 101⟩] = [11, 12] ∧
    indexLoaded.bucket 11 = none ∧ indexLoaded.bucket 12 = none ∧
    indexLoaded.bucket 101 = some [0, 1] ∧
    (indexLoaded.el 0).Hash = 11 ∧ (indexLoaded.el 1).Hash = 12 ∧
    indexLoaded.r.branches = [0] ∧ (indexLoaded.node 0).leafs = [] ∧
    indexLoaded.liveSeq = [] := by
  decide

/-! ### Setting a hash by index -/

theorem hashByIndexLeafs_eq (m : Mem) (leafs : List Nat) :
    ∀ i : Int, hashByIndexLeafs m i leafs =
      match leafAt m i leafs with
      | some e => ((m.el e).Hash, none)
      | none => (0, some Error.ErrInvalidRefs) := by
  induction leafs with
  | nil => intro i; rfl
  | cons el rest ih =>
    intro i
    unfold hashByIndexLeafs leafAt
    split
    · exact ih i
    · split
      · rfl
      · exact ih (i - 1)

theorem setHashByIndexLeafs_eq (hash : SHA256) (m : Mem) (leafs : List Nat) :
    ∀ i : Int, setHashByIndexLeafs hash i leafs m =
      match leafAt m i leafs with
      | some e => (none, setLeafHash hash e m)
      | none => (some Error.ErrInvalidRefs, m) := by
  induction leafs with
  | nil => intro i; rfl
  | cons el rest ih =>
    intro i
    unfold setHashByIndexLeafs leafAt
    split
    · exact ih i
    · split
      · rfl
      · exact ih (i - 1)

theorem hashByIndexBranches_eq (pack : Pack) (m : Mem) (depth : Nat) (upper : Option Nat)
    (sub : Int → Nat → Mem → SHA256 × Option Error × Mem) (loc : Int → Nat → Option Nat)
    (branches : List Nat)
    (hload : ∀ b ∈ branches, (m.node b).hash = 0 ∨ (m.node b).length ≠ 0)
    (hsub : ∀ b ∈ branches, ∀ j : Int, sub j b m =
      match loc j b with
      | some e => ((m.el e).Hash, none, m)
      | none => (0, some Error.ErrInvalidRefs, m)) :
    ∀ i : Int, hashByIndexBranches pack depth upper sub i branches m =
      match leafAtBranches m loc i branches with
      | some e => ((m.el e).Hash, none, m)
      | none => (0, some Error.ErrInvalidRefs, m) := by
  induction branches with
  | nil => intro i; rfl
  | cons b rest ih =>
    intro i
    have ih1 := ih (fun c hc => hload c (List.mem_cons_of_mem _ hc))
      (fun c hc => hsub c (List.mem_cons_of_mem _ hc))
    unfold hashByIndexBranches leafAtBranches
    simp only [loadRefsNodeIfNeed_loaded pack b depth upper m (hload b (List.mem_cons_self _ _))]
    split
    · exact ih1 _
    · exact hsub b (List.mem_cons_self _ _) i

theorem hashByIndex_eq (pack : Pack) (m : Mem) :
    ∀ (d : Nat) (upper : Option Nat) (leafs branches : List Nat),
      fullyLoaded m d branches = true →
      ∀ i : Int, hashByIndex pack d i upper leafs branches m =
        match leafAtDepth m d i leafs branches with
        | some e => ((m.el e).Hash, none, m)
        | none => (0, some Error.ErrInvalidRefs, m) := by
  intro d
  induction d with
  | zero =>
    intro upper leafs branches _ i
    simp only [hashByIndex, leafAtDepth, hashByIndexLeafs_eq]
    split <;> rfl
  | succ d ih =>
    intro upper leafs branches hf i
    simp only [fullyLoaded, List.all_eq_true, Bool.and_eq_true, Bool.or_eq_true,
      decide_eq_true_eq] at hf
    simp only [hashByIndex, leafAtDepth]
    exact hashByIndexBranches_eq pack m (d + 1) upper
      (fun j br m1 => hashByIndex pack d j (some br) (m1.node br).leafs (m1.node br).branches m1)
      (fun j br => leafAtDepth m d j (m.node br).leafs (m.node br).branches) branches
      (fun b hb => (hf b hb).1)
      (fun b hb j => ih (some b) (m.node b).leafs (m.node b).branches (hf b hb).2 j) i

theorem setHashByIndexBranches_eq (pack : Pack) (hash : SHA256) (m : Mem) (depth : Nat)
    (upper : Option Nat)
    (sub : Int → Nat → Mem → Option Error × Mem) (loc : Int → Nat → Option Nat)
    (branches : List Nat)
    (hload : ∀ b ∈ branches, (m.node b).hash = 0 ∨ (m.node b).length ≠ 0)
    (hsub : ∀ b ∈ branches, ∀ j : Int, sub j b m =
      match loc j b with
      | some e => (none, setLeafHash hash e m)
      | none => (some Error.ErrInvalidRefs, m)) :
    ∀ i : Int, setHashByIndexBranches pack depth upper sub i branches m =
      match leafAtBranches m loc i branches with
      | some e => (none, setLeafHash hash e m)
      | none => (some Error.ErrInvalidRefs, m) := by
  induction branches with
  | nil => intro i; rfl
  | cons b rest ih =>
    intro i
    have ih1 := ih (fun c hc => hload c (List.mem_cons_of_mem _ hc))
      (fun c hc => hsub c (List.mem_cons_of_mem _ hc))
    unfold setHashByIndexBranches leafAtBranches
    simp only [loadRefsNodeIfNeed_loaded pack b depth upper m (hload b (List.mem_cons_self _ _))]
    split
    · exact ih1 _
    · exact hsub b (List.mem_cons_self _ _) i

theorem setHashByIndex_eq (pack : Pack) (hash : SHA256) (m : Mem) :
    ∀ (d : Nat) (upper : Option Nat) (leafs branches : List Nat),
      fullyLoaded m d branches = true →
      ∀ i : Int, setHashByIndex pack hash d i upper leafs branches m =
        match leafAtDepth m d i leafs branches with
        | some e => (none, setLeafHash hash e m)
        | none => (some Error.ErrInvalidRefs, m) := by
  intro d
  induction d with
  | zero =>
    intro upper leafs branches _ i
    simp only [setHashByIndex, leafAtDepth, setHashByIndexLeafs_eq]
  | succ d ih =>
    intro upper leafs branches hf i
    simp only [fullyLoaded, List.all_eq_true, Bool.and_eq_true, Bool.or_eq_true,
      decide_eq_true_eq] at hf
    simp only [setHashByIndex, leafAtDepth]
    exact setHashByIndexBranches_eq pack hash m (d + 1) upper
      (fun j br m1 =>
        setHashByIndex pack hash d j (some br) (m1.node br).leafs (m1.node br).branches m1)
      (fun j br => leafAtDepth m d j (m.node br).leafs (m.node br).branches) branches
      (fun b hb => (hf b hb).1)
      (fun b hb j => ih (some b) (m.node b).leafs (m.node b).branches (hf b hb).2 j) i

theorem leafAt_congr (m1 m2 : Mem) (hd : ∀ a, (m2.el a).Deleted = (m1.el a).Deleted)
    (leafs : List Nat) : ∀ i : Int, leafAt m2 i leafs = leafAt m1 i leafs := by
  induction leafs with
  | nil => intro i; rfl
  | cons el rest ih =>
    intro i
    unfold leafAt
    rw [hd el, ih, ih]

theorem leafAtBranches_congr (m1 m2 : Mem) (hn : m2.nodes = m1.nodes)
    (loc1 loc2 : Int → Nat → Option Nat) (hloc : ∀ j b, loc2 j b = loc1 j b)
    (branches : List Nat) :
    ∀ i : Int, leafAtBranches m2 loc2 i branches = leafAtBranches m1 loc1 i branches := by
  induction branches with
  | nil => intro i; rfl
  | cons b rest ih =>
    intro i
    unfold leafAtBranches
    have hb : m2.node b = m1.node b := by simp [Mem.node, hn]
    rw [hb, ih, hloc]

theorem leafAtDepth_congr (m1 m2 : Mem) (hd : ∀ a, (m2.el a).Deleted = (m1.el a).Deleted)
    (hn : m2.nodes = m1.nodes) :
    ∀ (d : Nat) (i : Int) (leafs branches : List Nat),
      leafAtDepth m2 d i leafs branches = leafAtDepth m1 d i leafs branches := by
  intro d
  induction d with
  | zero => intro i leafs branches; exact leafAt_congr m1 m2 hd leafs i
  | succ d ih =>
    intro i leafs branches
    simp only [leafAtDepth]
    apply leafAtBranches_congr m1 m2 hn
    intro j b
    have hb : m2.node b = m1.node b := by simp [Mem.node, hn]
    rw [hb]
    exact ih j _ _

theorem leafAt_mem (m : Mem) (leafs : List Nat) :
    ∀ (i : Int) (e : Nat), leafAt m i leafs = some e → e ∈ leafs := by
  induction leafs with
  | nil => intro i e h; simp [leafAt] at h
  | cons el rest ih =>
    intro i e h
    unfold leafAt at h
    split at h
    · exact List.mem_cons_of_mem _ (ih i e h)
    · split at h
      · simp only [Option.some.injEq] at h
        rw [← h]
        exact List.mem_cons_self _ _
      · exact List.mem_cons_of_mem _ (ih _ e h)

theorem leafAt_inj (m : Mem) (leafs : List Nat) (hnd : leafs.Nodup) :
    ∀ (i j : Int) (e : Nat), leafAt m i leafs = some e → leafAt m j leafs = some e → i = j := by
  induction leafs with
  | nil => intro i j e h; simp [leafAt] at h
  | cons el rest ih =>
    intro i j e hi hj
    rw [List.nodup_cons] at hnd
    unfold leafAt at hi hj
    by_cases hdel : (m.el el).Deleted = true
    · rw [if_pos hdel] at hi hj
      exact ih hnd.2 i j e hi hj
    · rw [if_neg hdel] at hi hj
      by_cases hi0 : i = 0
      · rw [if_pos hi0] at hi
        simp only [Option.some.injEq] at hi
        by_cases hj0 : j = 0
        · rw [hi0, hj0]
        · rw [if_neg hj0] at hj
          exact absurd (hi ▸ leafAt_mem m rest _ e hj) hnd.1
      · rw [if_neg hi0] at hi
        by_cases hj0 : j = 0
        · rw [if_pos hj0] at hj
          simp only [Option.some.injEq] at hj
          exact absurd (hj ▸ leafAt_mem m rest _ e hi) hnd.1
        · rw [if_neg hj0] at hj
          have := ih hnd.2 _ _ e hi hj
          omega

theorem leafAtBranches_mem (m : Mem) (loc : Int → Nat → Option Nat) (leafsOf : Nat → List Nat)
    (branches : List Nat)
    (hmem : ∀ b ∈ branches, ∀ j e, loc j b = some e → e ∈ leafsOf b) :
    ∀ (i : Int) (e : Nat), leafAtBranches m loc i branches = some e →
      e ∈ branches.flatMap leafsOf := by
  induction branches with
  | nil => intro i e h; simp [leafAtBranches] at h
  | cons b rest ih =>
    intro i e h
    have ih1 := ih (fun c hc => hmem c (List.mem_cons_of_mem _ hc))
    unfold leafAtBranches at h
    rw [List.flatMap_cons, List.mem_append]
    split at h
    · exact Or.inr (ih1 _ e h)
    · exact Or.inl (hmem b (List.mem_cons_self _ _) i e h)

theorem leafAtBranches_inj (m : Mem) (loc : Int → Nat → Option Nat) (leafsOf : Nat → List Nat)
    (branches : List Nat)
    (hmem : ∀ b ∈ branches, ∀ j e, loc j b = some e → e ∈ leafsOf b)
    (hinj : ∀ b ∈ branches, (leafsOf b).Nodup →
      ∀ j1 j2 e, loc j1 b = some e → loc j2 b = some e → j1 = j2)
    (hnd : (branches.flatMap leafsOf).Nodup) :
    ∀ (i j : Int) (e : Nat), leafAtBranches m loc i branches = some e →
      leafAtBranches m loc j branches = some e → i = j := by
  induction branches with
  | nil => intro i j e h; simp [leafAtBranches] at h
  | cons b rest ih =>
    intro i j e hi hj
    rw [List.flatMap_cons, List.nodup_append] at hnd
    obtain ⟨hnb, hnr, hdis⟩ := hnd
    have hmemr : ∀ c ∈ rest, ∀ j e, loc j c = some e → e ∈ leafsOf c :=
      fun c hc => hmem c (List.mem_cons_of_mem _ hc)
    have ih1 := ih hmemr (fun c hc => hinj c (List.mem_cons_of_mem _ hc)) hnr
    have hb := hmem b (List.mem_cons_self _ _)
    unfold leafAtBranches at hi hj
    by_cases hci : i > (m.node b).length
    · rw [if_pos hci] at hi
      by_cases hcj : j > (m.node b).length
      · rw [if_pos hcj] at hj
        have := ih1 _ _ e hi hj
        omega
      · rw [if_neg hcj] at hj
        exact absurd (leafAtBranches_mem m loc leafsOf rest hmemr _ e hi) (hdis (hb j e hj))
    · rw [if_neg hci] at hi
      by_cases hcj : j > (m.node b).length
      · rw [if_pos hcj] at hj
        exact absurd (leafAtBranches_mem m loc leafsOf rest hmemr _ e hj) (hdis (hb i e hi))
      · rw [if_neg hcj] at hj
        exact hinj b (List.mem_cons_self _ _) hnb i j e hi hj

theorem leafAtDepth_mem (m : Mem) :
    ∀ (d : Nat) (leafs branches : List Nat) (i : Int) (e : Nat),
      leafAtDepth m d i leafs branches = some e → e ∈ allLeafs m d leafs branches := by
  intro d
  induction d with
  | zero => intro leafs branches i e h; exact leafAt_mem m leafs i e h
  | succ d ih =>
    intro leafs branches i e h
    simp only [leafAtDepth] at h
    simp only [allLeafs]
    exact leafAtBranches_mem m _ (fun b => allLeafs m d (m.node b).leafs (m.node b).branches)
      branches (fun b _ j e1 h1 => ih _ _ j e1 h1) i e h

theorem leafAtDepth_inj (m : Mem) :
    ∀ (d : Nat) (leafs branches : List Nat), (allLeafs m d leafs branches).Nodup →
      ∀ (i j : Int) (e : Nat), leafAtDepth m d i leafs branches = some e →
        leafAtDepth m d j leafs branches = some e → i = j := by
  intro d
  induction d with
  | zero => intro leafs branches hnd i j e hi hj; exact leafAt_inj m leafs hnd i j e hi hj
  | succ d ih =>
    intro leafs branches hnd i j e hi hj
    simp only [leafAtDepth] at hi hj
    simp only [allLeafs] at hnd
    exact leafAtBranches_inj m _ (fun b => allLeafs m d (m.node b).leafs (m.node b).branches)
      branches (fun b _ j1 e1 h1 => leafAtDepth_mem m d _ _ j1 e1 h1)
      (fun b _ hb j1 j2 e1 h1 h2 => ih _ _ hb j1 j2 e1 h1 h2) hnd i j e hi hj

theorem delElementFromIndex_same (hash : SHA256) (re : Nat) (m : Mem) :
    sameButIndex m (delElementFromIndex hash re m) := by
  unfold delElementFromIndex
  split
  · exact sameButIndex_refl m
  · simp only
    split <;> exact ⟨_, rfl⟩

theorem delElementFromIndex_stores (hash : SHA256) (re : Nat) (m : Mem) :
    (delElementFromIndex hash re m).els = m.els ∧
    (delElementFromIndex hash re m).nodes = m.nodes := by
  unfold delElementFromIndex
  split
  · exact ⟨rfl, rfl⟩
  · simp only
    split <;> exact ⟨rfl, rfl⟩

theorem setLeafHash_same (hash : SHA256) (e : Nat) (m : Mem) :
    sameButIndex m (setLeafHash hash e m) := by
  unfold setLeafHash
  simp only [Mem.setEl]
  split
  · exact sameButIndex_trans (delElementFromIndex_same _ _ _) (addElementToIndex_same _ _ _)
  · exact sameButIndex_refl m

theorem setLeafHash_nodes (hash : SHA256) (e : Nat) (m : Mem) :
    (setLeafHash hash e m).nodes = m.nodes := by
  unfold setLeafHash
  simp only [Mem.setEl]
  split
  · rw [(addElementToIndex_stores _ _ _).2, (delElementFromIndex_stores _ _ _).2]
  · rfl

theorem setLeafHash_els (hash : SHA256) (e : Nat) (m : Mem) :
    (setLeafHash hash e m).els = m.els.set e { m.el e with Hash := hash } := by
  unfold setLeafHash
  simp only [Mem.setEl, Mem.el]
  split
  · rw [(addElementToIndex_stores _ _ _).1, (delElementFromIndex_stores _ _ _).1]
  · rfl

theorem setLeafHash_el (hash : SHA256) (e : Nat) (m : Mem) (a : Nat) :
    (setLeafHash hash e m).el a =
      if e = a ∧ e < m.els.length then { m.el e with Hash := hash } else m.el a := by
  simp only [Mem.el, setLeafHash_els, List.getD_eq_getElem?_getD, List.getElem?_set]
  by_cases hea : e = a
  · subst hea
    by_cases hlt : e < m.els.length
    · simp [hlt]
    · have hnone : m.els[e]? = none := List.getElem?_eq_none (by omega)
      simp [hlt, hnone]
  · simp [hea]

theorem setLeafHash_deleted (hash : SHA256) (e : Nat) (m : Mem) (a : Nat) :
    ((setLeafHash hash e m).el a).Deleted = (m.el a).Deleted := by
  rw [setLeafHash_el]
  split
  · next hc => rw [← hc.1]
  · rfl

theorem HashByIndex_eq (pack : Pack) (m : Mem) (j : Int) (hinit : m.r.flags ≠ 0)
    (hfull : fullyLoaded m m.r.depth m.r.branches = true) :
    HashByIndex pack j m =
      match validateIndex j m.r.length with
      | some err => (0, some err, m)
      | none =>
        match leafAtDepth m m.r.depth j m.r.leafs m.r.branches with
        | some e => ((m.el e).Hash, none, m)
        | none => (0, some Error.ErrInvalidRefs, m) := by
  have h0 : initRefs pack m = (none, m) := by simp [initRefs, hinit]
  simp only [HashByIndex, h0]
  split
  · rfl
  · exact hashByIndex_eq pack m m.r.depth none m.r.leafs m.r.branches hfull j

theorem SetHashByIndex_eq (pack : Pack) (m : Mem) (i : Int) (hash : SHA256)
    (hinit : m.r.flags ≠ 0) (hfull : fullyLoaded m m.r.depth m.r.branches = true) :
    SetHashByIndex pack i hash m =
      match validateIndex i m.r.length with
      | some err => (some err, m)
      | none =>
        match leafAtDepth m m.r.depth i m.r.leafs m.r.branches with
        | some e => (none, setLeafHash hash e m)
        | none => (some Error.ErrInvalidRefs, m) := by
  have h0 : initRefs pack m = (none, m) := by simp [initRefs, hinit]
  simp only [SetHashByIndex, h0]
  split
  · rfl
  · exact setHashByIndex_eq pack hash m m.r.depth none m.r.leafs m.r.branches hfull i

/-- C12.  Let a `Refs` be initialized and fully loaded, its leafs forming a
tree of valid pointers.  If `SetHashByIndex(i, h)` returns nil, then the length
(and so `Len`) is unchanged, no element changes its deleted flag,
`HashByIndex(i)` afterwards returns `h` with a nil error, and for every
`j ≠ i` `HashByIndex(j)` returns the hash and the error it returned before. -/
theorem set_then_get (pack : Pack) (m : Mem) (i : Int) (h : SHA256)
    (hinit : m.r.flags ≠ 0) (hfull : fullyLoaded m m.r.depth m.r.branches = true)
    (htree : m.treeShaped = true)
    (hok : (SetHashByIndex pack i h m).1 = none) :
    (SetHashByIndex pack i h m).2.r.length = m.r.length ∧
    (Len pack (SetHashByIndex pack i h m).2).1 = (Len pack m).1 ∧
    (∀ a, ((SetHashByIndex pack i h m).2.el a).Deleted = (m.el a).Deleted) ∧
    (HashByIndex pack i (SetHashByIndex pack i h m).2).1 = h ∧
    (HashByIndex pack i (SetHashByIndex pack i h m).2).2.1 = none ∧
    ∀ j : Int, j ≠ i →
      (HashByIndex pack j (SetHashByIndex pack i h m).2).1 = (HashByIndex pack j m).1 ∧
      (HashByIndex pack j (SetHashByIndex pack i h m).2).2.1 = (HashByIndex pack j m).2.1 := by
  simp only [Mem.treeShaped, Bool.and_eq_true, decide_eq_true_eq, List.all_eq_true] at htree
  obtain ⟨hnd, hvalid⟩ := htree
  have hS := SetHashByIndex_eq pack m i h hinit hfull
  have hv : validateIndex i m.r.length = none := by
    cases hv : validateIndex i m.r.length with
    | none => rfl
    | some err => rw [hv] at hS; rw [hS] at hok; simp at hok
  rw [hv] at hS
  simp only at hS
  obtain ⟨e, hloc⟩ : ∃ e, leafAtDepth m m.r.depth i m.r.leafs m.r.branches = some e := by
    cases hloc : leafAtDepth m m.r.depth i m.r.leafs m.r.branches with
    | some e => exact ⟨e, rfl⟩
    | none => rw [hloc] at hS; rw [hS] at hok; simp at hok
  rw [hloc] at hS
  simp only at hS
  rw [hS]
  simp only
  have body :
      (setLeafHash h e m).r.length = m.r.length ∧
      (Len pack (setLeafHash h e m)).1 = (Len pack m).1 ∧
      (∀ a, ((setLeafHash h e m).el a).Deleted = (m.el a).Deleted) ∧
      (HashByIndex pack i (setLeafHash h e m)).1 = h ∧
      (HashByIndex pack i (setLeafHash h e m)).2.1 = none ∧
      ∀ j : Int, j ≠ i →
        (HashByIndex pack j (setLeafHash h e m)).1 = (HashByIndex pack j m).1 ∧
        (HashByIndex pack j (setLeafHash h e m)).2.1 = (HashByIndex pack j m).2.1 := by
      obtain ⟨_, fb, fd, _, fl, ff⟩ := sameButIndex_fields (setLeafHash_same h e m)
      have fleafs := (sameButIndex_fields (setLeafHash_same h e m)).1
      have hinit1 : (setLeafHash h e m).r.flags ≠ 0 := by rw [ff]; exact hinit
      have hfull1 : fullyLoaded (setLeafHash h e m) (setLeafHash h e m).r.depth
          (setLeafHash h e m).r.branches = true := by
        rw [fd, fb, fullyLoaded_congr m _ (setLeafHash_nodes h e m)]
        exact hfull
      have hloc1 : ∀ j : Int, leafAtDepth (setLeafHash h e m) (setLeafHash h e m).r.depth j
          (setLeafHash h e m).r.leafs (setLeafHash h e m).r.branches =
          leafAtDepth m m.r.depth j m.r.leafs m.r.branches := by
        intro j
        rw [fd, fb, fleafs]
        exact leafAtDepth_congr m _ (setLeafHash_deleted h e m) (setLeafHash_nodes h e m) _ _ _ _
      have hev : e < m.els.length :=
        hvalid e (leafAtDepth_mem m _ _ _ i e hloc)
      have hget : ∀ j : Int, HashByIndex pack j (setLeafHash h e m) =
          match validateIndex j m.r.length with
          | some err => (0, some err, setLeafHash h e m)
          | none =>
            match leafAtDepth m m.r.depth j m.r.leafs m.r.branches with
            | some e1 => (((setLeafHash h e m).el e1).Hash, none, setLeafHash h e m)
            | none => (0, some Error.ErrInvalidRefs, setLeafHash h e m) := by
        intro j
        rw [HashByIndex_eq pack _ j hinit1 hfull1, hloc1, fl]
      have hlen1 : Len pack (setLeafHash h e m) = (m.r.length, none, setLeafHash h e m) := by
        simp [Len, initRefs, hinit1, fl]
      have hlen0 : Len pack m = (m.r.length, none, m) := by
        simp [Len, initRefs, hinit]
      refine ⟨fl, by rw [hlen1, hlen0], setLeafHash_deleted h e m, ?_, ?_, ?_⟩
      · rw [hget, hv, hloc]
        simp [setLeafHash_el, hev]
      · rw [hget, hv, hloc]
      · intro j hj
        rw [hget, HashByIndex_eq pack m j hinit hfull]
        cases hvj : validateIndex j m.r.length with
        | some err => exact ⟨rfl, rfl⟩
        | none =>
          cases hlj : leafAtDepth m m.r.depth j m.r.leafs m.r.branches with
          | none => exact ⟨rfl, rfl⟩
          | some e1 =>
            have hne : e ≠ e1 := by
              intro hee
              rw [← hee] at hlj
              exact hj (leafAtDepth_inj m _ _ _ hnd j i e hlj hloc)
            simp [setLeafHash_el, hne]
  exact body

/-- The theorem of C12 at `twoByTwo`, the index 1 and the hash `99`. -/
theorem set_then_get_witness :
    (twoByTwo.r.flags ≠ 0 ∧ fullyLoaded twoByTwo twoByTwo.r.depth twoByTwo.r.branches = true ∧
      twoByTwo.treeShaped = true ∧ (SetHashByIndex emptyPack 1 99 twoByTwo).1 = none) ∧
    (HashByIndex emptyPack 1 (SetHashByIndex emptyPack 1 99 twoByTwo).2).1 = 99 ∧
    (HashByIndex emptyPack 0 (SetHashByIndex emptyPack 1 99 twoByTwo).2).1 =
      (HashByIndex emptyPack 0 twoByTwo).1 :=
  ⟨by decide,
   (set_then_get emptyPack twoByTwo 1 99 (by decide) (by decide) (by decide) (by decide)).2.2.2.1,
   ((set_then_get emptyPack twoByTwo 1 99 (by decide) (by decide) (by decide)
      (by decide)).2.2.2.2.2 0 (by decide)).1⟩

/-! ### A `Refs` whose leafs hang off the root -/

theorem ascendLeafsLoop_readonly {U : Type} (fn : IterateFunc U) (m : Mem)
    (hro : ∀ i h u, (fn i h (m, u)).2.1 = m)
    (hq : isFindingIteratorsIndexFromRootRequired m = (false, m)) (l : List Nat) :
    ∀ (i pass : Int) (u : U),
      (ascendLeafsLoop fn l i i pass (m, u)).2 =
        (false,
          (runUntil fn m (indexedFrom i ((liveLeafs m l).map (fun a => (m.el a).Hash))) u).1,
          (m, (runUntil fn m (indexedFrom i ((liveLeafs m l).map (fun a => (m.el a).Hash))) u).2)) := by
  induction l with
  | nil => intro i pass u; simp [ascendLeafsLoop, liveLeafs, indexedFrom, runUntil]
  | cons el rest ih =>
    intro i pass u
    unfold ascendLeafsLoop
    by_cases hdel : (m.el el).Deleted = true
    · rw [if_pos hdel, ih]
      simp [liveLeafs, hdel]
    · rw [if_neg hdel, if_neg (lt_irrefl i)]
      have hlive : liveLeafs m (el :: rest) = el :: liveLeafs m rest := by
        simp [liveLeafs, hdel]
      rw [hlive]
      simp only [List.map_cons, indexedFrom, runUntil]
      have hfn := hro i (m.el el).Hash u
      cases hres : fn i (m.el el).Hash (m, u) with
      | mk err s1 =>
        obtain ⟨m1, u1⟩ := s1
        rw [hres] at hfn
        simp only at hfn
        subst hfn
        cases err with
        | some e => rfl
        | none =>
          simp only
          rw [hq]
          exact ih (i + 1) (pass + 1) u1

theorem Ascend_flat {U : Type} (pack : Pack) (fn : IterateFunc U) (m : Mem) (u : U) (fuel : Nat)
    (hinit : m.r.flags ≠ 0) (hdepth : m.r.depth = 0) (hne : 0 < m.r.length)
    (hro : ∀ i h s, (fn i h s).2.1 = s.1) :
    Ascend (fuel + 1) pack fn (m, u) =
      some (if (runUntil fn (startIterating m) (indexedFrom 0 m.liveSeq) u).1 =
            some Error.ErrStopIteration then none
          else (runUntil fn (startIterating m) (indexedFrom 0 m.liveSeq) u).1,
        (m, (runUntil fn (startIterating m) (indexedFrom 0 m.liveSeq) u).2)) := by
  have hv : validateIndex 0 m.r.length = none := by
    simp [validateIndex]
    omega
  have hz : ¬ m.r.length = 0 := by omega
  have hl := ascendLeafsLoop_readonly fn (startIterating m)
    (fun i h u1 => hro i h (startIterating m, u1)) (isFinding_after_start m) m.r.leafs 0 0 u
  have hseq : (liveLeafs (startIterating m) m.r.leafs).map
      (fun a => ((startIterating m).el a).Hash) = m.liveSeq := by
    simp [Mem.liveSeq, hdepth, liveHashes]
    rfl
  rw [hseq] at hl
  have hloop : ascendFromLoop pack fn (fuel + 1) 0 (startIterating m, u) =
      some ((runUntil fn (startIterating m) (indexedFrom 0 m.liveSeq) u).1,
        (startIterating m, (runUntil fn (startIterating m) (indexedFrom 0 m.liveSeq) u).2)) := by
    unfold ascendFromLoop
    have hd0 : (startIterating m, u).1.r.depth = 0 := hdepth
    rw [hd0]
    simp only [ascend, ascendLeafs]
    have hl1 : (ascendLeafsLoop fn (startIterating m).r.leafs 0 0 0 (startIterating m, u)).2 = _ := hl
    cases hres : ascendLeafsLoop fn (startIterating m).r.leafs 0 0 0 (startIterating m, u) with
    | mk p rest =>
      rw [hres] at hl1
      simp only at hl1
      rw [hl1]
  simp only [Ascend, ascendFrom, initRefs, hinit, ne_eq, not_false_eq_true, if_true, hv, hz,
    if_false, hloop, stop_after_start]

theorem indexedFrom_map_snd (s : List SHA256) :
    ∀ k : Int, (indexedFrom k s).map (fun c => c.2) = s := by
  induction s with
  | nil => intro k; rfl
  | cons h t ih => intro k; simp [indexedFrom, ih]

theorem runUntil_hasHashFunc (hash : SHA256) (m : Mem) (calls : List (Int × SHA256)) :
    ∀ ok : Bool, runUntil (hasHashFunc hash) m calls ok =
      if hash ∈ calls.map (fun c => c.2) then (some Error.ErrStopIteration, true)
      else (none, ok) := by
  induction calls with
  | nil => intro ok; simp [runUntil]
  | cons c rest ih =>
    intro ok
    unfold runUntil
    by_cases hc : c.2 = hash
    · simp [hasHashFunc, hc]
    · have hc1 : ¬ hash = c.2 := fun h => hc h.symm
      simp only [hasHashFunc, hc, if_false, ih, List.map_cons]
      by_cases hin : hash ∈ rest.map (fun c => c.2)
      · rw [if_pos hin, if_pos (List.mem_cons_of_mem _ hin)]
      · have hin1 : ¬ hash ∈ c.2 :: rest.map (fun c => c.2) := by
          rw [List.mem_cons]
          exact fun h => h.elim hc1 hin
        rw [if_neg hin, if_neg hin1]

theorem HasHash_flat_plain (pack : Pack) (m : Mem) (hash : SHA256) (fuel : Nat)
    (hinit : m.r.flags ≠ 0) (hflag : m.r.flags &&& HashTableIndex = 0)
    (hdepth : m.r.depth = 0) (hne : 0 < m.r.length) :
    HasHash (fuel + 1) pack hash m = some (decide (hash ∈ m.liveSeq), none, m) := by
  have h0 : initRefs pack m = (none, m) := by simp [initRefs, hinit]
  simp only [HasHash, h0, hflag, ne_eq, not_true_eq_false, if_false]
  rw [Ascend_flat pack (hasHashFunc hash) m false fuel hinit hdepth hne
    (fun i h s => by unfold hasHashFunc; split <;> rfl)]
  rw [runUntil_hasHashFunc, indexedFrom_map_snd]
  by_cases hm : hash ∈ m.liveSeq
  · simp [hm]
  · simp [hm]

theorem flat_facts (m : Mem) (h : m.flat = true) :
    m.r.flags ≠ 0 ∧ m.r.depth = 0 ∧ m.r.length = ((liveLeafs m m.r.leafs).length : Int) ∧
    m.r.leafs.Nodup ∧ ∀ a ∈ m.r.leafs, a < m.els.length ∧ (m.el a).upper = none := by
  simp only [Mem.flat, Bool.and_eq_true, decide_eq_true_eq, List.all_eq_true] at h
  obtain ⟨⟨⟨⟨h1, h2⟩, h3⟩, h4⟩, h5⟩ := h
  exact ⟨h1, h2, h3, h4, h5⟩

theorem liveSeq_flat (m : Mem) (hd : m.r.depth = 0) :
    m.liveSeq = (liveLeafs m m.r.leafs).map (fun a => (m.el a).Hash) := by
  simp [Mem.liveSeq, hd, liveHashes]

theorem liveLeafs_nodup (m : Mem) (leafs : List Nat) (h : leafs.Nodup) :
    (liveLeafs m leafs).Nodup :=
  List.Nodup.filter _ h

theorem liveLeafs_mem (m : Mem) (leafs : List Nat) (a : Nat) :
    a ∈ liveLeafs m leafs ↔ a ∈ leafs ∧ (m.el a).Deleted = false := by
  simp [liveLeafs]

theorem leafAt_nat (m : Mem) (leafs : List Nat) :
    ∀ n : Nat, leafAt m (n : Int) leafs = (liveLeafs m leafs)[n]? := by
  induction leafs with
  | nil => intro n; simp [leafAt, liveLeafs]
  | cons el rest ih =>
    intro n
    unfold leafAt
    by_cases hdel : (m.el el).Deleted = true
    · rw [if_pos hdel, ih]
      simp [liveLeafs, hdel]
    · rw [if_neg hdel]
      have hlive : liveLeafs m (el :: rest) = el :: liveLeafs m rest := by
        simp [liveLeafs, hdel]
      rw [hlive]
      cases n with
      | zero => simp
      | succ k =>
        have hk : ¬ (((k + 1 : Nat) : Int) = 0) := by omega
        have hk1 : ((k + 1 : Nat) : Int) - 1 = (k : Int) := by omega
        rw [if_neg hk, hk1, ih]
        simp

theorem HashByIndex_flat (pack : Pack) (m : Mem) (n : Nat) (hflat : m.flat = true)
    (hn : n < m.liveSeq.length) :
    HashByIndex pack n m = ((m.liveSeq[n]?).getD 0, none, m) := by
  obtain ⟨hinit, hd, hlen, _, _⟩ := flat_facts m hflat
  have hfull : fullyLoaded m m.r.depth m.r.branches = true := by rw [hd]; rfl
  rw [HashByIndex_eq pack m n hinit hfull]
  have hs := liveSeq_flat m hd
  have hn1 : n < (liveLeafs m m.r.leafs).length := by
    rw [hs, List.length_map] at hn
    exact hn
  have hv : validateIndex n m.r.length = none := by
    simp [validateIndex, hlen]
    omega
  rw [hv, hd]
  simp only [leafAtDepth, leafAt_nat]
  rw [hs, List.getElem?_map, List.getElem?_eq_getElem hn1]
  simp

theorem map_eraseIdx {α β : Type} (f : α → β) (l : List α) :
    ∀ i : Nat, (l.eraseIdx i).map f = (l.map f).eraseIdx i := by
  induction l with
  | nil => intro i; rfl
  | cons a t ih =>
    intro i
    cases i with
    | zero => rfl
    | succ k => simp [List.eraseIdx, ih]

theorem not_mem_eraseIdx_of_count_one (s : List SHA256) :
    ∀ (i : Nat) (h : SHA256), s[i]? = some h → s.count h = 1 → h ∉ s.eraseIdx i := by
  induction s with
  | nil => intro i h hi; simp at hi
  | cons a t ih =>
    intro i h hi hc
    cases i with
    | zero =>
      simp only [List.getElem?_cons_zero, Option.some.injEq] at hi
      subst hi
      simp only [List.count_cons_self, Nat.add_left_eq_self] at hc
      simp only [List.eraseIdx_cons_zero]
      exact List.count_eq_zero.mp hc
    | succ k =>
      simp only [List.getElem?_cons_succ] at hi
      have hmem : h ∈ t := List.getElem?_mem hi
      have hpos : 0 < t.count h := List.count_pos_iff.mpr hmem
      have hne : a ≠ h := by
        intro hah
        subst hah
        simp only [List.count_cons_self] at hc
        omega
      rw [List.count_cons_of_ne (fun hh => hne hh.symm)] at hc
      simp only [List.eraseIdx_cons_succ, List.mem_cons, not_or]
      exact ⟨fun hh => hne hh.symm, ih k h hi hc⟩

theorem deleteByIndexLeafs_eq (leafs : List Nat) :
    ∀ (i : Int) (m : Mem), deleteByIndexLeafs i leafs m =
      match leafAt m i leafs with
      | some e => (none, deleteElement e m)
      | none => (some Error.ErrInvalidRefs, m) := by
  induction leafs with
  | nil => intro i m; rfl
  | cons el rest ih =>
    intro i m
    unfold deleteByIndexLeafs leafAt
    split
    · exact ih i m
    · split
      · rfl
      · exact ih (i - 1) m

theorem deleteElement_stores (e : Nat) (m : Mem) :
    (deleteElement e m).els = m.els.set e { m.el e with Deleted := true, Hash := 0 } ∧
    (deleteElement e m).nodes = m.nodes := by
  unfold deleteElement
  simp only [makeDeleted, Mem.setEl, Mem.setR, Mem.el]
  split <;> split <;>
    simp [(delElementFromIndex_stores _ _ _).1, (delElementFromIndex_stores _ _ _).2]

theorem deleteElement_fields (e : Nat) (m : Mem) :
    (deleteElement e m).r.flags = m.r.flags ∧ (deleteElement e m).r.depth = m.r.depth ∧
    (deleteElement e m).r.leafs = m.r.leafs ∧ (deleteElement e m).r.branches = m.r.branches ∧
    (deleteElement e m).r.length = m.r.length := by
  unfold deleteElement
  simp only [makeDeleted, Mem.setEl, Mem.setR]
  split <;> split <;>
    first
    | exact ⟨rfl, rfl, rfl, rfl, rfl⟩
    | (obtain ⟨f1, f2, f3, f4, f5, f6⟩ :=
        sameButIndex_fields (delElementFromIndex_same (m.el e).Hash e m)
       exact ⟨f6, f3, f1, f2, f5⟩)

theorem deleteElement_bucket (e : Nat) (m : Mem) (h : SHA256) :
    (deleteElement e m).bucket h =
      (if m.r.flags &&& HashTableIndex ≠ 0 then delElementFromIndex (m.el e).Hash e m
        else m).bucket h := by
  unfold deleteElement
  simp only [makeDeleted, Mem.setEl, Mem.setR, Mem.bucket]
  generalize (if m.r.flags &&& HashTableIndex ≠ 0 then delElementFromIndex (m.el e).Hash e m
    else m) = m1
  split_ifs <;> rfl

theorem deleteElement_el (e : Nat) (m : Mem) (a : Nat) :
    (deleteElement e m).el a =
      if e = a ∧ e < m.els.length then { m.el e with Deleted := true, Hash := 0 }
      else m.el a := by
  simp only [Mem.el, (deleteElement_stores e m).1, List.getD_eq_getElem?_getD, List.getElem?_set]
  by_cases hea : e = a
  · subst hea
    by_cases hlt : e < m.els.length
    · simp [hlt]
    · have hnone : m.els[e]? = none := List.getElem?_eq_none (by omega)
      simp [hlt, hnone]
  · simp [hea]

theorem DeleteByIndex_flat (pack : Pack) (m : Mem) (i : Nat) (hflat : m.flat = true)
    (hi : i < m.liveSeq.length) :
    ∃ e, (liveLeafs m m.r.leafs)[i]? = some e ∧
      DeleteByIndex pack i m =
        (none, (deleteElement e m).setR
          { (deleteElement e m).r with length := (deleteElement e m).r.length - 1 }) := by
  obtain ⟨hinit, hd, hlen, _, _⟩ := flat_facts m hflat
  have hi1 : i < (liveLeafs m m.r.leafs).length := by
    rw [liveSeq_flat m hd, List.length_map] at hi
    exact hi
  refine ⟨(liveLeafs m m.r.leafs)[i], List.getElem?_eq_getElem hi1, ?_⟩
  have h0 : initRefs pack m = (none, m) := by simp [initRefs, hinit]
  have hv : validateIndex i m.r.length = none := by
    simp [validateIndex, hlen]
    omega
  simp only [DeleteByIndex, h0, hv, hd, deleteByIndex, deleteByIndexLeafs_eq, leafAt_nat,
    List.getElem?_eq_getElem hi1]

theorem liveLeafs_after_delete (m m2 : Mem) (leafs : List Nat) (i e : Nat)
    (hnd : leafs.Nodup) (he : (liveLeafs m leafs)[i]? = some e)
    (hel : ∀ a, (m2.el a).Deleted = if e = a then true else (m.el a).Deleted) :
    liveLeafs m2 leafs = (liveLeafs m leafs).eraseIdx i := by
  obtain ⟨hi, hget⟩ := List.getElem?_eq_some.mp he
  have h1 : (liveLeafs m leafs).erase e = (liveLeafs m leafs).eraseIdx i := by
    rw [← hget]
    exact List.Nodup.erase_getElem (liveLeafs_nodup m leafs hnd) i hi
  rw [← h1, List.Nodup.erase_eq_filter (liveLeafs_nodup m leafs hnd)]
  simp only [liveLeafs, List.filter_filter]
  apply List.filter_congr
  intro a _
  rw [hel a]
  by_cases hea : e = a
  · subst hea
    simp
  · have hae : ¬ a = e := fun h => hea h.symm
    simp [hea, hae]

theorem after_delete (m : Mem) (i e : Nat) (hflat : m.flat = true)
    (he : (liveLeafs m m.r.leafs)[i]? = some e) :
    ((deleteElement e m).setR
      { (deleteElement e m).r with length := (deleteElement e m).r.length - 1 }).flat = true ∧
    ((deleteElement e m).setR
      { (deleteElement e m).r with length := (deleteElement e m).r.length - 1 }).liveSeq =
      m.liveSeq.eraseIdx i ∧
    ((deleteElement e m).setR
      { (deleteElement e m).r with length := (deleteElement e m).r.length - 1 }).r.length =
      m.r.length - 1 := by
  obtain ⟨hinit, hd, hlen, hnd, hval⟩ := flat_facts m hflat
  obtain ⟨ff, fd, fl, fb, fn⟩ := deleteElement_fields e m
  obtain ⟨hi, hget⟩ := List.getElem?_eq_some.mp he
  have hemem : e ∈ liveLeafs m m.r.leafs := hget ▸ List.getElem_mem hi
  have heleafs : e ∈ m.r.leafs := ((liveLeafs_mem m _ e).mp hemem).1
  have hev : e < m.els.length := (hval e heleafs).1
  generalize hm2 : (deleteElement e m).setR
      { (deleteElement e m).r with length := (deleteElement e m).r.length - 1 } = m2
  have hel : ∀ a, m2.el a =
      if e = a then { m.el e with Deleted := true, Hash := 0 } else m.el a := by
    intro a
    have : m2.el a = (deleteElement e m).el a := by rw [← hm2]; rfl
    rw [this, deleteElement_el]
    simp [hev]
  have hdel : ∀ a, (m2.el a).Deleted = if e = a then true else (m.el a).Deleted := by
    intro a
    rw [hel a]
    split <;> rfl
  have hlive := liveLeafs_after_delete m m2 m.r.leafs i e hnd he hdel
  have hr2 : m2.r.flags = m.r.flags ∧ m2.r.depth = m.r.depth ∧ m2.r.leafs = m.r.leafs ∧
      m2.r.length = m.r.length - 1 := by
    rw [← hm2]
    exact ⟨ff, fd, fl, by simp [Mem.setR, fn]⟩
  obtain ⟨g1, g2, g3, g4⟩ := hr2
  have hels : m2.els.length = m.els.length := by
    rw [← hm2]
    simp [Mem.setR, (deleteElement_stores e m).1]
  have hseq : m2.liveSeq = m.liveSeq.eraseIdx i := by
    rw [liveSeq_flat m2 (g2.trans hd), liveSeq_flat m hd, g3, hlive, ← map_eraseIdx]
    apply List.map_congr_left
    intro a ha
    have hane : e ≠ a := by
      intro hea
      subst hea
      rw [← hlive] at ha
      have := ((liveLeafs_mem m2 _ e).mp ha).2
      rw [hdel e] at this
      simp at this
    rw [hel a, if_neg hane]
  refine ⟨?_, hseq, g4⟩
  simp only [Mem.flat, Bool.and_eq_true, decide_eq_true_eq, List.all_eq_true]
  refine ⟨⟨⟨⟨by rw [g1]; exact hinit, g2.trans hd⟩, ?_⟩, by rw [g3]; exact hnd⟩, ?_⟩
  · rw [g4, g3, hlive, hlen, List.length_eraseIdx]
    simp [hi]
    omega
  · intro a ha
    rw [g3] at ha
    refine ⟨by rw [hels]; exact (hval a ha).1, ?_⟩
    rw [hel a]
    split
    · next hea => subst hea; exact (hval e ha).2
    · exact (hval a ha).2

theorem HasHash_indexed (pack : Pack) (m : Mem) (hash : SHA256) (fuel : Nat)
    (hinit : m.r.flags ≠ 0) (hflag : m.r.flags &&& HashTableIndex ≠ 0) :
    HasHash fuel pack hash m = some ((m.bucket hash).isSome, none, m) := by
  have h0 : initRefs pack m = (none, m) := by simp [initRefs, hinit]
  simp only [HasHash, h0, hflag, ne_eq, not_false_eq_true, if_true]

theorem bucket_isSome_iff (m : Mem) (hash : SHA256) (hd : m.r.depth = 0)
    (hexact : m.indexExact) : (m.bucket hash).isSome = true ↔ hash ∈ m.liveSeq := by
  have hx := hexact hash
  rw [liveSeq_flat m hd]
  cases hb : m.bucket hash with
  | none =>
    rw [hb] at hx
    simp only at hx
    simp only [Option.isSome_none, Bool.false_eq_true, List.mem_map, false_iff, not_exists,
      not_and]
    exact fun a ha => hx a ha
  | some l =>
    rw [hb] at hx
    simp only at hx
    obtain ⟨hne, hperm⟩ := hx
    simp only [Option.isSome_some, List.mem_map, true_iff]
    obtain ⟨a, ha⟩ := List.exists_mem_of_ne_nil l hne
    have ha1 := (hperm.mem_iff).mp ha
    simp only [List.mem_filter, decide_eq_true_eq] at ha1
    exact ⟨a, ha1.1, ha1.2⟩

theorem delElementFromIndex_bucket_self (hash : SHA256) (e : Nat) (m : Mem) :
    (delElementFromIndex hash e m).bucket hash =
      match m.bucket hash with
      | none => none
      | some l => if (l.erase e).length = 0 then none else some (l.erase e) := by
  unfold delElementFromIndex Mem.bucket
  cases hidx : m.r.index with
  | none => simp [hidx]
  | some idx =>
    simp only
    cases hb : idx hash with
    | none => simp [Mem.setR]
    | some l =>
      simp only [Option.getD_some]
      by_cases hz : (l.erase e).length = 0
      · rw [if_pos hz, if_pos hz]
        simp [Mem.setR]
      · rw [if_neg hz, if_neg hz]
        simp [Mem.setR]

theorem bucket_after_unique_delete (m : Mem) (i e : Nat) (hd : m.r.depth = 0)
    (hexact : m.indexExact) (he : (liveLeafs m m.r.leafs)[i]? = some e)
    (hcount : m.liveSeq.count (m.el e).Hash = 1) :
    (delElementFromIndex (m.el e).Hash e m).bucket (m.el e).Hash = none := by
  rw [delElementFromIndex_bucket_self]
  have hx := hexact (m.el e).Hash
  have hemem : e ∈ liveLeafs m m.r.leafs := List.getElem?_mem he
  cases hb : m.bucket (m.el e).Hash with
  | none => rfl
  | some l =>
    rw [hb] at hx
    simp only at hx
    obtain ⟨_, hperm⟩ := hx
    have hlen : ((liveLeafs m m.r.leafs).filter
        (fun a => decide ((m.el a).Hash = (m.el e).Hash))).length = 1 := by
      rw [liveSeq_flat m hd, List.count, List.countP_map, List.countP_eq_length_filter] at hcount
      rw [← hcount]
      congr 1
    have hein : e ∈ (liveLeafs m m.r.leafs).filter
        (fun a => decide ((m.el a).Hash = (m.el e).Hash)) := by
      simp [hemem]
    obtain ⟨x, hxeq⟩ := List.length_eq_one.mp hlen
    rw [hxeq] at hein hperm
    simp only [List.mem_singleton] at hein
    subst hein
    have hl : l = [e] := List.perm_singleton.mp hperm
    simp [hl]

theorem sevenEightSeven_indexExact : sevenEightSeven.indexExact := by
  intro h
  by_cases h7 : h = 7
  · subst h7
    have hb : sevenEightSeven.bucket 7 = some [0, 2] := by decide
    rw [hb]
    exact ⟨by decide, by decide⟩
  · by_cases h8 : h = 8
    · subst h8
      have hb : sevenEightSeven.bucket 8 = some [1] := by decide
      rw [hb]
      exact ⟨by decide, by decide⟩
    · have hb : sevenEightSeven.bucket h = none := by
        simp [Mem.bucket, sevenEightSeven, flatMem, h7, h8]
      rw [hb]
      intro a ha
      have ha1 : a ∈ [0, 1, 2] := by
        have : liveLeafs sevenEightSeven sevenEightSeven.r.leafs = [0, 1, 2] := by decide
        rw [this] at ha
        exact ha
      simp only [List.mem_cons, List.mem_singleton, List.not_mem_nil, or_false] at ha1
      rcases ha1 with rfl | rfl | rfl
      · exact fun hh => h7 hh.symm
      · exact fun hh => h8 hh.symm
      · exact fun hh => h7 hh.symm


theorem HasHash_plain_empty (pack : Pack) (m : Mem) (hash : SHA256) (fuel : Nat)
    (hinit : m.r.flags ≠ 0) (hflag : m.r.flags &&& HashTableIndex = 0)
    (hlen : m.r.length = 0) :
    HasHash fuel pack hash m = some (false, some Error.ErrIndexOutOfRange, m) := by
  have h0 : initRefs pack m = (none, m) := by simp [initRefs, hinit]
  simp [HasHash, h0, hflag, Ascend, ascendFrom, validateIndex, hlen]

/-- Deleting by index at depth 0.  Let a `Refs` be well-formed with its leafs
hanging off the root
(`flat`), with live hash sequence `s` of length `L`, and let `i < L`; with the
`HashTableIndex` flag the index is exact.  Then `DeleteByIndex(i)` returns nil,
`Len` becomes `L - 1`, the live sequence becomes `s` without its `i`-th
element, so that `HashByIndex(j)` returns `s[j]` for `j < i` and `s[j+1]` for
`i ≤ j < L - 1`, and if `s[i]` occurs only once in `s` then `HasHash(s[i])`
answers false afterwards, with a nil error whenever the index is used or an
element is left. -/
theorem deleteByIndex_flat (pack : Pack) (m : Mem) (i : Nat) (fuel : Nat)
    (hflat : m.flat = true) (hi : i < m.liveSeq.length)
    (hidx : m.r.flags &&& HashTableIndex ≠ 0 → m.indexExact) :
    (DeleteByIndex pack i m).1 = none ∧
    Len pack (DeleteByIndex pack i m).2 =
      ((m.liveSeq.length : Int) - 1, none, (DeleteByIndex pack i m).2) ∧
    (DeleteByIndex pack i m).2.liveSeq = m.liveSeq.eraseIdx i ∧
    (∀ j : Nat, j + 1 < m.liveSeq.length →
      (HashByIndex pack j (DeleteByIndex pack i m).2).2.1 = none ∧
      some (HashByIndex pack j (DeleteByIndex pack i m).2).1 =
        m.liveSeq[if j < i then j else j + 1]?) ∧
    (m.liveSeq.count ((m.liveSeq[i]?).getD 0) = 1 →
      ∃ err, HasHash (fuel + 1) pack ((m.liveSeq[i]?).getD 0) (DeleteByIndex pack i m).2 =
          some (false, err, (DeleteByIndex pack i m).2) ∧
        ((m.r.flags &&& HashTableIndex ≠ 0 ∨ 2 ≤ m.liveSeq.length) → err = none)) := by
  obtain ⟨hinit, hd, hlen, hnd, hval⟩ := flat_facts m hflat
  obtain ⟨e, he, hdel⟩ := DeleteByIndex_flat pack m i hflat hi
  obtain ⟨hflat2, hseq2, hlen2⟩ := after_delete m i e hflat he
  have hsl : (m.liveSeq.length : Int) = m.r.length := by
    rw [hlen, liveSeq_flat m hd, List.length_map]
  have hsi : m.liveSeq[i]? = some (m.el e).Hash := by
    rw [liveSeq_flat m hd, List.getElem?_map, he]
    rfl
  rw [hdel]
  simp only
  generalize hm2 : (deleteElement e m).setR
      { (deleteElement e m).r with length := (deleteElement e m).r.length - 1 } = m2
    at hflat2 hseq2 hlen2
  obtain ⟨hinit2, hd2, hlenlive2, _, _⟩ := flat_facts m2 hflat2
  have hflags2 : m2.r.flags = m.r.flags := by
    rw [← hm2]
    exact (deleteElement_fields e m).1
  have hl2 : (m2.liveSeq.length : Int) = (m.liveSeq.length : Int) - 1 := by
    rw [hseq2, List.length_eraseIdx]
    simp [hi]
    omega
  refine ⟨trivial, ?_, hseq2, ?_, ?_⟩
  · simp [Len, initRefs, hinit2, hlen2, hsl]
  · intro j hj
    have hj2 : j < m2.liveSeq.length := by omega
    rw [HashByIndex_flat pack m2 j hflat2 hj2]
    refine ⟨rfl, ?_⟩
    simp only
    rw [hseq2, List.getElem?_eraseIdx]
    have hlt : (if j < i then j else j + 1) < m.liveSeq.length := by
      split <;> omega
    by_cases hji : j < i
    · simp only [hji, if_true]
      have : j < m.liveSeq.length := by omega
      rw [List.getElem?_eq_getElem this]
      simp
    · simp only [hji, if_false]
      rw [List.getElem?_eq_getElem hj]
      simp
  · intro hcount
    rw [hsi] at hcount ⊢
    simp only [Option.getD_some] at hcount ⊢
    by_cases hflag : m.r.flags &&& HashTableIndex ≠ 0
    · refine ⟨none, ?_, fun _ => rfl⟩
      rw [HasHash_indexed pack m2 _ (fuel + 1) hinit2 (by rw [hflags2]; exact hflag)]
      have hb : m2.bucket (m.el e).Hash = none := by
        rw [← hm2]
        have := deleteElement_bucket e m (m.el e).Hash
        rw [if_pos hflag] at this
        have hb0 : ((deleteElement e m).setR
            { (deleteElement e m).r with length := (deleteElement e m).r.length - 1 }).bucket
            (m.el e).Hash = (deleteElement e m).bucket (m.el e).Hash := rfl
        rw [hb0, this]
        exact bucket_after_unique_delete m i e hd (hidx hflag) he hcount
      rw [hb]
      rfl
    · have hflag0 : m2.r.flags &&& HashTableIndex = 0 := by
        rw [hflags2]
        exact not_not.mp hflag
      by_cases hlast : m.liveSeq.length = 1
      · refine ⟨some Error.ErrIndexOutOfRange, ?_, ?_⟩
        · have hz : m2.r.length = 0 := by rw [hlen2, ← hsl, hlast]; rfl
          exact HasHash_plain_empty pack m2 _ (fuel + 1) hinit2 hflag0 hz
        · intro hor
          rcases hor with h1 | h2
          · exact absurd h1 hflag
          · omega
      · refine ⟨none, ?_, fun _ => rfl⟩
        have hpos : 0 < m2.r.length := by rw [hlen2, ← hsl]; omega
        rw [HasHash_flat_plain pack m2 _ fuel hinit2 hflag0 hd2 hpos, hseq2]
        have hnot := not_mem_eraseIdx_of_count_one m.liveSeq i (m.el e).Hash hsi hcount
        simp [hnot]

/-- The lemma above at `sevenEightSeven` (indexed, live sequence `7, 8, 7`)
and the index 1, whose hash `8` occurs once. -/
theorem deleteByIndex_flat_witness :
    (sevenEightSeven.flat = true ∧ 1 < sevenEightSeven.liveSeq.length ∧
      sevenEightSeven.liveSeq.eraseIdx 1 = [7, 7] ∧
      sevenEightSeven.liveSeq.count ((sevenEightSeven.liveSeq[1]?).getD 0) = 1) ∧
    (DeleteByIndex emptyPack ((1 : Nat) : Int) sevenEightSeven).2.liveSeq =
      sevenEightSeven.liveSeq.eraseIdx 1 ∧
    ∃ err, HasHash 1 emptyPack ((sevenEightSeven.liveSeq[1]?).getD 0)
        (DeleteByIndex emptyPack ((1 : Nat) : Int) sevenEightSeven).2 =
        some (false, err, (DeleteByIndex emptyPack ((1 : Nat) : Int) sevenEightSeven).2) ∧
      ((sevenEightSeven.r.flags &&& HashTableIndex ≠ 0 ∨ 2 ≤ sevenEightSeven.liveSeq.length) →
        err = none) :=
  ⟨by decide,
   (deleteByIndex_flat emptyPack sevenEightSeven 1 0 (by decide) (by decide)
      (fun _ => sevenEightSeven_indexExact)).2.2.1,
   (deleteByIndex_flat emptyPack sevenEightSeven 1 0 (by decide) (by decide)
      (fun _ => sevenEightSeven_indexExact)).2.2.2.2 (by decide)⟩

/-- C13, evaluated where it fails.  `oneLoaded` is the `Refs` loaded from the
record with the single element `7`, without the hash-table index.
`DeleteByIndex(0)` returns nil and `Len` becomes 0, but `HasHash(7)` then
returns false together with `ErrIndexOutOfRange` instead of a nil error:
without the index `HasHash` ascends from 0, and `ascendFrom` validates the
index 0 against the length 0 before it reaches its return for an empty `Refs`.
With the index, or when an element is left, the error is nil. -/
theorem hasHash_errs_after_deleting_the_only_element :
    oneLoaded.flat = true ∧ oneLoaded.liveSeq = [7] ∧
    oneLoaded.r.flags &&& HashTableIndex = 0 ∧
    (DeleteByIndex onePack 0 oneLoaded).1 = none ∧
    (Len onePack (DeleteByIndex onePack 0 oneLoaded).2).1 = 0 ∧
    (Len onePack (DeleteByIndex onePack 0 oneLoaded).2).2.1 = none ∧
    (HasHash 3 onePack 7 (DeleteByIndex onePack 0 oneLoaded).2).map (fun r => (r.1, r.2.1)) =
      some (false, some Error.ErrIndexOutOfRange) ∧
    (HasHash 3 emptyPack 7
        (DeleteByIndex emptyPack 0 (flatMem [7, 8] flagIsSet none)).2).map
      (fun r => (r.1, r.2.1)) = some (false, none) ∧
    (HasHash 3 emptyPack 7
        (DeleteByIndex emptyPack 0
          (flatMem [7] (flagIsSet ||| HashTableIndex)
            (some (fun h => if h = 7 then some [0] else none)))).2).map
      (fun r => (r.1, r.2.1)) = some (false, none) := by
  decide

theorem HasHash_flat (pack : Pack) (m : Mem) (hash : SHA256) (fuel : Nat)
    (hflat : m.flat = true) (hne : 0 < m.r.length)
    (hidx : m.r.flags &&& HashTableIndex ≠ 0 → m.indexExact) :
    HasHash (fuel + 1) pack hash m = some (decide (hash ∈ m.liveSeq), none, m) := by
  obtain ⟨hinit, hd, _, _, _⟩ := flat_facts m hflat
  by_cases hflag : m.r.flags &&& HashTableIndex ≠ 0
  · rw [HasHash_indexed pack m hash (fuel + 1) hinit hflag]
    have hiff := bucket_isSome_iff m hash hd (hidx hflag)
    by_cases hm : hash ∈ m.liveSeq
    · simp [hm, hiff.mpr hm]
    · have : (m.bucket hash).isSome = false := by
        cases hb : (m.bucket hash).isSome with
        | false => rfl
        | true => exact absurd (hiff.mp hb) hm
      simp [hm, this]
  · exact HasHash_flat_plain pack m hash fuel hinit (not_not.mp hflag) hd hne

/-- C19.  On a non-empty well-formed `Refs` whose leafs hang off the root (with
an exact index when `HashTableIndex` is set), `ValueByHash(h)` returns
`ErrNotFound` when no live element carries `h`; returns `ErrRefsElementIsNil`,
whatever the pack holds, when `h` is the zero hash and a live element carries
it; and otherwise returns the value or the error that the pack gives for `h`.
The memory is left as it was. -/
theorem valueByHash_flat (pack : Pack) (m : Mem) (h : SHA256) (fuel : Nat)
    (hflat : m.flat = true) (hne : 0 < m.r.length)
    (hidx : m.r.flags &&& HashTableIndex ≠ 0 → m.indexExact) :
    (h ∉ m.liveSeq →
      ValueByHash (fuel + 1) pack h m = some (none, some Error.ErrNotFound, m)) ∧
    (h ∈ m.liveSeq → h = 0 →
      ValueByHash (fuel + 1) pack h m = some (none, some Error.ErrRefsElementIsNil, m)) ∧
    (h ∈ m.liveSeq → h ≠ 0 →
      ValueByHash (fuel + 1) pack h m =
        match pack.getValue h with
        | .error err => some (none, some err, m)
        | .ok v => some (some v, none, m)) := by
  have hh := HasHash_flat pack m h fuel hflat hne hidx
  refine ⟨?_, ?_, ?_⟩
  · intro hm
    simp [ValueByHash, hh, hm]
  · intro hm hz
    subst hz
    simp [ValueByHash, hh, hm]
  · intro hm hz
    simp only [ValueByHash, hh, hm, decide_True, Bool.true_eq_false, if_false, hz]

/-- The theorem of C19 at `sevenEightSeven` and `valuePack`: the hash `7` is
carried by a live element and the pack holds `70` under it; the hash `9` is
not carried by any element. -/
theorem valueByHash_flat_witness :
    (sevenEightSeven.flat = true ∧ 0 < sevenEightSeven.r.length ∧
      7 ∈ sevenEightSeven.liveSeq ∧ 9 ∉ sevenEightSeven.liveSeq) ∧
    ValueByHash 1 valuePack 7 sevenEightSeven = some (some 70, none, sevenEightSeven) ∧
    ValueByHash 1 valuePack 9 sevenEightSeven =
      some (none, some Error.ErrNotFound, sevenEightSeven) :=
  ⟨by decide,
   (valueByHash_flat valuePack sevenEightSeven 7 0 (by decide) (by decide)
      (fun _ => sevenEightSeven_indexExact)).2.2 (by decide) (by decide),
   (valueByHash_flat valuePack sevenEightSeven 9 0 (by decide) (by decide)
      (fun _ => sevenEightSeven_indexExact)).1 (by decide)⟩

theorem runUntil_indexOfHashFunc (hash : SHA256) (m : Mem) (s : List SHA256) :
    ∀ (k : Int) (found : Bool) (i0 : Int),
      runUntil (indexOfHashFunc hash) m (indexedFrom k s) (found, i0) =
        if hash ∈ s then (some Error.ErrStopIteration, (true, k + (s.indexOf hash : Int)))
        else (none, (found, i0)) := by
  induction s with
  | nil => intro k found i0; simp [indexedFrom, runUntil]
  | cons a t ih =>
    intro k found i0
    simp only [indexedFrom, runUntil]
    by_cases ha : a = hash
    · subst ha
      simp [indexOfHashFunc]
    · have ha1 : ¬ hash = a := fun h => ha h.symm
      simp only [indexOfHashFunc, ha, if_false, ih, List.indexOf_cons_ne t ha]
      by_cases hin : hash ∈ t
      · rw [if_pos hin, if_pos (List.mem_cons_of_mem _ hin)]
        have e : k + 1 + (t.indexOf hash : Int) = k + ((t.indexOf hash).succ : Int) := by
          push_cast
          omega
        rw [e]
      · have hin1 : ¬ hash ∈ a :: t := by
          rw [List.mem_cons]
          exact fun h => h.elim ha1 hin
        rw [if_neg hin, if_neg hin1]

theorem IndexOfHash_flat_plain (pack : Pack) (m : Mem) (hash : SHA256) (fuel : Nat)
    (hinit : m.r.flags ≠ 0) (hflag : m.r.flags &&& HashTableIndex = 0)
    (hdepth : m.r.depth = 0) (hne : 0 < m.r.length) :
    IndexOfHash (fuel + 1) pack hash m =
      if hash ∈ m.liveSeq then some ((m.liveSeq.indexOf hash : Int), none, m)
      else some (0, some Error.ErrNotFound, m) := by
  have h0 : initRefs pack m = (none, m) := by simp [initRefs, hinit]
  simp only [IndexOfHash, h0, hflag, ne_eq, not_true_eq_false, if_false]
  rw [Ascend_flat pack (indexOfHashFunc hash) m (false, 0) fuel hinit hdepth hne
    (fun i h s => by unfold indexOfHashFunc; split <;> rfl)]
  rw [runUntil_indexOfHashFunc]
  by_cases hm : hash ∈ m.liveSeq
  · simp [hm]
  · simp [hm]

theorem indexInLeafsLoop_mem (m : Mem) (re : Nat) (leafs : List Nat) :
    ∀ k : Int, re ∈ liveLeafs m leafs →
      indexInLeafsLoop m re leafs k = (k + ((liveLeafs m leafs).indexOf re : Int), none) := by
  induction leafs with
  | nil => intro k h; simp [liveLeafs] at h
  | cons el rest ih =>
    intro k h
    unfold indexInLeafsLoop
    by_cases hdel : (m.el el).Deleted = true
    · have hlive : liveLeafs m (el :: rest) = liveLeafs m rest := by simp [liveLeafs, hdel]
      rw [hlive] at h ⊢
      rw [if_pos hdel]
      exact ih k h
    · have hlive : liveLeafs m (el :: rest) = el :: liveLeafs m rest := by
        simp [liveLeafs, hdel]
      rw [hlive] at h ⊢
      rw [if_neg hdel]
      by_cases hel : el = re
      · rw [if_pos hel, List.indexOf_cons_eq _ hel]
        simp
      · rw [if_neg hel, List.indexOf_cons_ne _ hel]
        have hmem : re ∈ liveLeafs m rest := by
          rcases List.mem_cons.mp h with h1 | h1
          · exact absurd h1.symm hel
          · exact h1
        rw [ih (k + 1) hmem]
        have e : k + 1 + ((liveLeafs m rest).indexOf re : Int) =
            k + (((liveLeafs m rest).indexOf re).succ : Int) := by
          push_cast
          omega
        rw [e]

theorem not_before_indexOf (s : List SHA256) (h : SHA256) :
    ∀ j : Nat, j < s.indexOf h → s[j]? ≠ some h := by
  induction s with
  | nil => intro j hj; simp
  | cons a t ih =>
    intro j hj
    by_cases ha : a = h
    · rw [List.indexOf_cons_eq _ ha] at hj
      omega
    · rw [List.indexOf_cons_ne _ ha] at hj
      cases j with
      | zero => simpa using ha
      | succ k =>
        simp only [List.getElem?_cons_succ]
        exact ih k (by omega)

/-- C16.  On a non-empty well-formed `Refs` whose leafs hang off the root (with
an exact index when `HashTableIndex` is set): if a live leaf carries `h`,
`IndexOfHash(h)` returns `(i, nil)` with `0 ≤ i < Len` and `HashByIndex(i) = h`,
and without the index `i` is the first such index; if no live leaf carries
`h`, it returns `ErrNotFound`.  The memory is left as it was. -/
theorem indexOfHash_flat (pack : Pack) (m : Mem) (h : SHA256) (fuel : Nat)
    (hflat : m.flat = true) (hne : 0 < m.r.length)
    (hidx : m.r.flags &&& HashTableIndex ≠ 0 → m.indexExact) :
    (h ∈ m.liveSeq →
      ∃ i : Nat, IndexOfHash (fuel + 1) pack h m = some ((i : Int), none, m) ∧
        (i : Int) < m.r.length ∧ (Len pack m).1 = m.r.length ∧
        HashByIndex pack i m = (h, none, m) ∧
        (m.r.flags &&& HashTableIndex = 0 → ∀ j : Nat, j < i → (HashByIndex pack j m).1 ≠ h)) ∧
    (h ∉ m.liveSeq →
      ∃ i : Int, IndexOfHash (fuel + 1) pack h m = some (i, some Error.ErrNotFound, m)) := by
  obtain ⟨hinit, hd, hlen, hnd, hval⟩ := flat_facts m hflat
  have hs := liveSeq_flat m hd
  have hsl : (m.liveSeq.length : Int) = m.r.length := by
    rw [hlen, hs, List.length_map]
  have hLen : (Len pack m).1 = m.r.length := by simp [Len, initRefs, hinit]
  have h0 : initRefs pack m = (none, m) := by simp [initRefs, hinit]
  by_cases hflag : m.r.flags &&& HashTableIndex ≠ 0
  · have hexact := hidx hflag
    have hiff := bucket_isSome_iff m h hd hexact
    constructor
    · intro hm
      have hsome := hiff.mpr hm
      obtain ⟨l, hb⟩ := Option.isSome_iff_exists.mp hsome
      have hx := hexact h
      rw [hb] at hx
      simp only at hx
      obtain ⟨hlne, hperm⟩ := hx
      obtain ⟨re, hg⟩ : ∃ re, l.getLast? = some re := by
        cases hg : l.getLast? with
        | some re => exact ⟨re, rfl⟩
        | none => exact absurd (List.getLast?_eq_none_iff.mp hg) hlne
      have hre := (hperm.mem_iff).mp (List.mem_of_getLast?_eq_some hg)
      simp only [List.mem_filter, decide_eq_true_eq] at hre
      obtain ⟨hrelive, hrehash⟩ := hre
      have hreleafs : re ∈ m.r.leafs := ((liveLeafs_mem m _ re).mp hrelive).1
      have hup : (m.el re).upper = none := (hval re hreleafs).2
      have hil : (liveLeafs m m.r.leafs).indexOf re < (liveLeafs m m.r.leafs).length :=
        List.indexOf_lt_length.mpr hrelive
      have hil2 : (liveLeafs m m.r.leafs).indexOf re < m.liveSeq.length := by
        rw [hs, List.length_map]
        exact hil
      refine ⟨(liveLeafs m m.r.leafs).indexOf re, ?_, by rw [← hsl]; exact_mod_cast hil2,
        hLen, ?_, fun hc => absurd hc hflag⟩
      · simp only [IndexOfHash, h0, hflag, ne_eq, not_false_eq_true, if_true, hb, hg, hup,
          indexInLeafs, indexInLeafsLoop_mem m re m.r.leafs 0 hrelive]
        simp
      · rw [HashByIndex_flat pack m _ hflat hil2, hs, List.getElem?_map,
          List.getElem?_eq_getElem hil, List.getElem_indexOf hil]
        simp [hrehash]
    · intro hm
      have hnone : m.bucket h = none := by
        cases hb : m.bucket h with
        | none => rfl
        | some l => exact absurd (hiff.mp (by rw [hb]; rfl)) hm
      exact ⟨0, by simp only [IndexOfHash, h0, hflag, ne_eq, not_false_eq_true, if_true, hnone]⟩
  · have hflag0 : m.r.flags &&& HashTableIndex = 0 := not_not.mp hflag
    have hI := IndexOfHash_flat_plain pack m h fuel hinit hflag0 hd hne
    constructor
    · intro hm
      rw [if_pos hm] at hI
      have hil : m.liveSeq.indexOf h < m.liveSeq.length := List.indexOf_lt_length.mpr hm
      refine ⟨m.liveSeq.indexOf h, hI, by rw [← hsl]; exact_mod_cast hil, hLen, ?_, ?_⟩
      · rw [HashByIndex_flat pack m _ hflat hil, List.getElem?_eq_getElem hil,
          List.getElem_indexOf hil]
        rfl
      · intro _ j hj
        have hjl : j < m.liveSeq.length := by omega
        rw [HashByIndex_flat pack m j hflat hjl]
        have hnot := not_before_indexOf m.liveSeq h j hj
        rw [List.getElem?_eq_getElem hjl] at hnot ⊢
        simp only [Option.getD_some]
        exact fun hh => hnot (by rw [hh])
    · intro hm
      rw [if_neg hm] at hI
      exact ⟨0, hI⟩

/-- The theorem of C16 at `sevenEightSeven` and the hash `7`. -/
theorem indexOfHash_flat_witness :
    (sevenEightSeven.flat = true ∧ 0 < sevenEightSeven.r.length ∧
      7 ∈ sevenEightSeven.liveSeq) ∧
    ∃ i : Nat, IndexOfHash 1 emptyPack 7 sevenEightSeven =
        some ((i : Int), none, sevenEightSeven) ∧
      (i : Int) < sevenEightSeven.r.length ∧
      (Len emptyPack sevenEightSeven).1 = sevenEightSeven.r.length ∧
      HashByIndex emptyPack i sevenEightSeven = (7, none, sevenEightSeven) ∧
      (sevenEightSeven.r.flags &&& HashTableIndex = 0 →
        ∀ j : Nat, j < i → (HashByIndex emptyPack j sevenEightSeven).1 ≠ 7) :=
  ⟨by decide,
   (indexOfHash_flat emptyPack sevenEightSeven 7 0 (by decide) (by decide)
      (fun _ => sevenEightSeven_indexExact)).1 (by decide)⟩

/-- C26.  `Rebuild` called while the rewind stack is non-empty returns
`ErrRefsIsIterating` and the memory it was given, unchanged; that is the case
in particular right after `startIterating`, which every traversal runs before
its first callback. -/
theorem rebuild_refused_while_iterating (pack : Pack) (m : Mem) (h : m.r.iterators ≠ []) :
    Rebuild pack m = (some Error.ErrRefsIsIterating, m) ∧
    Rebuild pack (startIterating m) = (some Error.ErrRefsIsIterating, startIterating m) := by
  constructor
  · unfold Rebuild
    rw [if_pos (List.length_pos.mpr h)]
  · unfold Rebuild
    rw [if_pos (by simp [startIterating, Mem.setR])]

/-- C26 at a `Refs` with one leaf inside a traversal; a callback of `Ascend`
that calls `Rebuild` and returns what it got makes `Ascend` return
`ErrRefsIsIterating`. -/
theorem rebuild_refused_while_iterating_witness :
    (startIterating (flatMem [7] flagIsSet none)).r.iterators ≠ [] ∧
    (Ascend 1 emptyPack
        (fun _ _ s => ((Rebuild emptyPack s.1).1, ((Rebuild emptyPack s.1).2, s.2)))
        (flatMem [7] flagIsSet none, ())).map (fun r => r.1) =
      some (some Error.ErrRefsIsIterating) ∧
    Rebuild emptyPack (startIterating (flatMem [7] flagIsSet none)) =
      (some Error.ErrRefsIsIterating, startIterating (flatMem [7] flagIsSet none)) :=
  ⟨by decide, by decide,
   (rebuild_refused_while_iterating emptyPack (startIterating (flatMem [7] flagIsSet none))
     (by decide)).1⟩

/-- C27, evaluated where it fails.  Two trees of degree 2 that hold deleted
leafs, are marked as modified and are not being iterated.  `fiveWideWithHole`
is reached by loading a record of depth 0 with five elements and deleting the
second: its length is 4, for which one level of leafs under a root of degree 2
does not suffice and the depth to choose is 1.  `thinnedBranch` has depth 1, is
well-formed and has length 1, for which the depth to choose is 0.  On both
`Rebuild` returns nil and changes nothing: the deleted leafs are still in the
tree and the stored depth is not the one to choose.  The body of `Rebuild`
after its guard is empty. -/
theorem rebuild_keeps_deleted_leafs :
    fiveWideWithHole.r.iterators = [] ∧ fiveWideWithHole.r.modified = true ∧
    fiveWideWithHole.r.degree = 2 ∧ fiveWideWithHole.r.length = 4 ∧
    fiveWideWithHole.liveSeq = [11, 13, 14, 15] ∧
    (Rebuild fiveWidePack fiveWideWithHole).1 = none ∧
    (Rebuild fiveWidePack fiveWideWithHole).2.r.leafs.map
      (fun a => ((Rebuild fiveWidePack fiveWideWithHole).2.el a).Deleted) =
      [false, true, false, false, false] ∧
    (Rebuild fiveWidePack fiveWideWithHole).2.liveSeq = [11, 13, 14, 15] ∧
    (Rebuild fiveWidePack fiveWideWithHole).2.r.depth = 0 ∧ bestDepth 2 4 = 1 ∧
    thinnedBranch.wellFormed = true ∧ thinnedBranch.treeShaped = true ∧
    thinnedBranch.r.iterators = [] ∧ thinnedBranch.r.modified = true ∧
    thinnedBranch.r.degree = 2 ∧ thinnedBranch.r.length = 1 ∧
    thinnedBranch.liveSeq = [11] ∧
    (Rebuild emptyPack thinnedBranch).1 = none ∧
    (allLeafs (Rebuild emptyPack thinnedBranch).2 1 [] [0]).map
      (fun a => ((Rebuild emptyPack thinnedBranch).2.el a).Deleted) = [false, true] ∧
    (Rebuild emptyPack thinnedBranch).2.liveSeq = [11] ∧
    (Rebuild emptyPack thinnedBranch).2.r.depth = 1 ∧ bestDepth 2 1 = 0 := by
  decide

/-- C28 as stated fails: `Clear` on a `Refs` inside a traversal (rewind stack
`[false]`) returns nil and leaves the rewind stack `[false]`, not empty. -/
theorem clear_keeps_the_rewind_stack :
    (startIterating (flatMem [7] flagIsSet none)).r.iterators = [false] ∧
    (Clear (startIterating (flatMem [7] flagIsSet none))).1 = none ∧
    (Clear (startIterating (flatMem [7] flagIsSet none))).2.r.iterators = [false] := by
  decide

/-- C28, amended.  For every state, `Clear` returns nil and gives every field
but the rewind stack its blank value: zero hash, depth, degree and length, no
leafs, no branches, no index, flags unset (`Flags() = 0`), `modified` false.
The rewind stack is left as it was, so it is empty afterwards exactly when it
was empty before; the element and node stores are untouched and `Clear` takes
no `Pack`. -/
theorem clear_resets_all_but_iterators (m : Mem) :
    (Clear m).1 = none ∧ (Clear m).2.r.Hash = 0 ∧ (Clear m).2.r.depth = 0 ∧
    (Clear m).2.r.degree = 0 ∧ (Clear m).2.r.length = 0 ∧ (Clear m).2.r.leafs = [] ∧
    (Clear m).2.r.branches = [] ∧ (Clear m).2.r.index.isNone = true ∧
    (Clear m).2.r.flags = 0 ∧ Flags (Clear m).2 = 0 ∧ (Clear m).2.r.modified = false ∧
    (Clear m).2.r.iterators = m.r.iterators ∧
    ((Clear m).2.r.iterators = [] ↔ m.r.iterators = []) ∧
    (Clear m).2.els = m.els ∧ (Clear m).2.nodes = m.nodes ∧
    (Clear m).2.panicked = m.panicked := by
  simp [Clear, Mem.setR, Flags]

/-- C29.  For an initialized `Refs` of length `L` and all integers `i`, `j`:
`Slice(i, j)` returns `ErrIndexOutOfRange` exactly when `i < 0`, `j < 0`,
`i > L` or `j > L`; otherwise it returns `ErrInvalidSliceIndex` exactly when
`i > j`; otherwise it returns a nil error and a `Refs`.  Whenever the error is
not nil no `Refs` is returned, and the receiver is unchanged. -/
theorem slice_validates_indices (pack : Pack) (m : Mem) (i j : Int) (hinit : m.r.flags ≠ 0) :
    ((Slice pack i j m).2.1 = some Error.ErrIndexOutOfRange ↔
      (i < 0 ∨ j < 0 ∨ i > m.r.length ∨ j > m.r.length)) ∧
    (¬ (i < 0 ∨ j < 0 ∨ i > m.r.length ∨ j > m.r.length) →
      ((Slice pack i j m).2.1 = some Error.ErrInvalidSliceIndex ↔ i > j)) ∧
    (¬ (i < 0 ∨ j < 0 ∨ i > m.r.length ∨ j > m.r.length) → ¬ i > j →
      (Slice pack i j m).2.1 = none ∧ (Slice pack i j m).1.isSome = true) ∧
    ((Slice pack i j m).2.1 ≠ none → (Slice pack i j m).1.isNone = true) ∧
    (Slice pack i j m).2.2 = m := by
  have hi : initRefs pack m = (none, m) := by unfold initRefs; rw [if_pos hinit]
  unfold Slice
  rw [hi]
  simp only []
  unfold validateSliceIndices
  by_cases h1 : (i < 0 ∨ j < 0 ∨ i > m.r.length ∨ j > m.r.length)
  · rw [if_pos h1]; simp [h1]
  · rw [if_neg h1]
    by_cases h2 : i > j
    · rw [if_pos h2]; simp [h1, h2]
    · rw [if_neg h2]; simp [h1, h2]

/-- C29 at `Slice(2, 1)` of a `Refs` of length 3: in range, `i > j`. -/
theorem slice_validates_indices_witness :
    (flatMem [7, 8, 9] flagIsSet none).r.flags ≠ 0 ∧
    (Slice emptyPack 2 1 (flatMem [7, 8, 9] flagIsSet none)).2.1 =
      some Error.ErrInvalidSliceIndex ∧
    (Slice emptyPack 2 1 (flatMem [7, 8, 9] flagIsSet none)).1.isNone = true :=
  ⟨by decide,
   ((slice_validates_indices emptyPack (flatMem [7, 8, 9] flagIsSet none) 2 1 (by decide)).2.1
      (by decide)).mpr (by decide),
   (slice_validates_indices emptyPack (flatMem [7, 8, 9] flagIsSet none) 2 1 (by decide)).2.2.2.1
      (by decide)⟩

/-- C30, evaluated where it fails.  The flat `Refs` with live sequence
`7, 8, 9` is initialized and well-formed.  `Slice(0, 2)` returns a nil error
and a `Refs` with the degree and the flags of the receiver but length 0 and
no element (its live sequence is empty and `HashByIndex(0)` on it is out of
range), where a `Refs` of length 2 holding `7, 8` is due: the part of `Slice`
that fills the new `Refs` is absent. -/
theorem slice_returns_an_empty_refs :
    (flatMem [7, 8, 9] flagIsSet none).wellFormed = true ∧
    (flatMem [7, 8, 9] flagIsSet none).liveSeq = [7, 8, 9] ∧
    (Slice emptyPack 0 2 (flatMem [7, 8, 9] flagIsSet none)).2.1 = none ∧
    (Slice emptyPack 0 2 (flatMem [7, 8, 9] flagIsSet none)).1.map
      (fun r => (r.degree, r.flags, r.length, r.leafs, r.branches)) = some (4, 1, 0, [], []) ∧
    (Slice emptyPack 0 2 (flatMem [7, 8, 9] flagIsSet none)).1.map
      (fun r => ((flatMem [7, 8, 9] flagIsSet none).setR r).liveSeq) = some [] ∧
    (Slice emptyPack 0 2 (flatMem [7, 8, 9] flagIsSet none)).1.map
      (fun r => (HashByIndex emptyPack 0 ((flatMem [7, 8, 9] flagIsSet none).setR r)).2.1) =
      some (some Error.ErrIndexOutOfRange) := by
  decide

/-! ### The root hash and the root length under loading and mutation -/

theorem sameButIndex_hash {m1 m2 : Mem} (h : sameButIndex m1 m2) : m2.r.Hash = m1.r.Hash := by
  obtain ⟨idx, hr⟩ := h
  rw [hr]

theorem loadRootLeafs_hash (elements : List EncodedElement) :
    ∀ m : Mem, (loadRootLeafs elements m).r.Hash = m.r.Hash := by
  induction elements with
  | nil => intro m; rfl
  | cons e rest ih =>
    intro m
    unfold loadRootLeafs
    split
    · exact ih m
    · simp only [Mem.allocEl, Mem.setR]
      rw [ih]
      split
      · rw [sameButIndex_hash (addElementToIndex_same _ _ _)]
      · rfl

theorem loadRootRefsNodesLoop_hash (pack : Pack) (depth : Nat) (elements : List EncodedElement) :
    ∀ m : Mem, (loadRootRefsNodesLoop pack depth elements m).2.r.Hash = m.r.Hash := by
  induction elements with
  | nil => intro m; rfl
  | cons e rest ih =>
    intro m
    unfold loadRootRefsNodesLoop
    split
    · exact ih m
    · have hs := sameButIndex_hash (loadRefsNodes_same pack (depth - 1) none e.Hash m)
      split
      · next h1 => rw [h1] at hs; exact hs
      · next h1 =>
        rw [h1] at hs
        rw [ih]
        exact hs

theorem load_hash (pack : Pack) (m : Mem) : (load pack m).2.r.Hash = m.r.Hash := by
  unfold load
  cases h : pack.getRefs m.r.Hash with
  | error err => rfl
  | ok er =>
    simp only []
    split_ifs <;>
      first
      | rfl
      | (show (loadRootLeafs _ _).r.Hash = _
         rw [loadRootLeafs_hash]
         simp only [Mem.setR, makeCap_r])
      | (unfold loadRootRefsNodes
         rw [loadRootRefsNodesLoop_hash]
         rfl)

theorem initRefs_hash (pack : Pack) (m : Mem) : (initRefs pack m).2.r.Hash = m.r.Hash := by
  unfold initRefs
  split
  · rfl
  · simp only [Mem.setR]
    split
    · rfl
    · split
      · rw [load_hash]
      · rfl

theorem loadRefsNodeIfNeed_hash (pack : Pack) (rn depth : Nat) (upper : Option Nat) (m : Mem) :
    (loadRefsNodeIfNeed pack rn depth upper m).2.r.Hash = m.r.Hash := by
  unfold loadRefsNodeIfNeed
  split
  · have hs := sameButIndex_hash (loadRefsNodes_same pack depth upper (m.node rn).hash m)
    split
    · next h1 => rw [h1] at hs; exact hs
    · next h1 => rw [h1] at hs; exact hs
  · rfl

theorem setHashByIndexBranches_hash (pack : Pack) (depth : Nat) (upper : Option Nat)
    (sub : Int → Nat → Mem → Option Error × Mem)
    (hsub : ∀ j br m, (sub j br m).2.r.Hash = m.r.Hash) (branches : List Nat) :
    ∀ (i : Int) (m : Mem),
      (setHashByIndexBranches pack depth upper sub i branches m).2.r.Hash = m.r.Hash := by
  induction branches with
  | nil => intro i m; rfl
  | cons br rest ih =>
    intro i m
    unfold setHashByIndexBranches
    have hl := loadRefsNodeIfNeed_hash pack br depth upper m
    split
    · next h1 => rw [h1] at hl; exact hl
    · next h1 =>
      rw [h1] at hl
      split
      · rw [ih]; exact hl
      · rw [hsub]; exact hl

theorem setHashByIndex_hash (pack : Pack) (hash : SHA256) :
    ∀ (depth : Nat) (i : Int) (upper : Option Nat) (leafs branches : List Nat) (m : Mem),
      (setHashByIndex pack hash depth i upper leafs branches m).2.r.Hash = m.r.Hash := by
  intro depth
  induction depth with
  | zero =>
    intro i upper leafs branches m
    unfold setHashByIndex
    rw [setHashByIndexLeafs_eq]
    split
    · exact sameButIndex_hash (setLeafHash_same _ _ _)
    · rfl
  | succ d ih =>
    intro i upper leafs branches m
    unfold setHashByIndex
    exact setHashByIndexBranches_hash pack (d + 1) upper _
      (fun j br m1 => ih j (some br) _ _ m1) branches i m

theorem deleteElement_hash (e : Nat) (m : Mem) : (deleteElement e m).r.Hash = m.r.Hash := by
  unfold deleteElement
  simp only [makeDeleted, Mem.setEl, Mem.setR]
  split <;> split <;>
    first
    | rfl
    | (have h := sameButIndex_hash (delElementFromIndex_same (m.el e).Hash e m)
       exact h)

theorem deleteByIndexBranches_hash (pack : Pack) (depth : Nat) (upper : Option Nat)
    (sub : Int → Nat → Mem → Option Error × Mem)
    (hsub : ∀ j br m, (sub j br m).2.r.Hash = m.r.Hash) (branches : List Nat) :
    ∀ (i : Int) (m : Mem),
      (deleteByIndexBranches pack depth upper sub i branches m).2.r.Hash = m.r.Hash := by
  induction branches with
  | nil => intro i m; rfl
  | cons br rest ih =>
    intro i m
    unfold deleteByIndexBranches
    have hl := loadRefsNodeIfNeed_hash pack br depth upper m
    split
    · next h1 => rw [h1] at hl; exact hl
    · next m1 h1 =>
      rw [h1] at hl
      split
      · rw [ih]; exact hl
      · have hs := hsub i br m1
        split
        · next h2 => rw [h2] at hs; rw [hs]; exact hl
        · next h2 =>
          rw [h2] at hs
          rw [ih]
          simp only [Mem.setNode]
          rw [hs]; exact hl

theorem deleteByIndex_hash (pack : Pack) :
    ∀ (depth : Nat) (i : Int) (upper : Option Nat) (leafs branches : List Nat) (m : Mem),
      (deleteByIndex pack depth i upper leafs branches m).2.r.Hash = m.r.Hash := by
  intro depth
  induction depth with
  | zero =>
    intro i upper leafs branches m
    unfold deleteByIndex
    rw [deleteByIndexLeafs_eq]
    split
    · exact deleteElement_hash _ _
    · rfl
  | succ d ih =>
    intro i upper leafs branches m
    unfold deleteByIndex
    exact deleteByIndexBranches_hash pack (d + 1) upper _
      (fun j br m1 => ih j (some br) _ _ m1) branches i m

theorem SetHashByIndex_hash (pack : Pack) (i : Int) (hash : SHA256) (m : Mem) :
    (SetHashByIndex pack i hash m).2.r.Hash = m.r.Hash := by
  unfold SetHashByIndex
  have hi := initRefs_hash pack m
  split
  · next h1 => rw [h1] at hi; exact hi
  · next h1 =>
    rw [h1] at hi
    split
    · exact hi
    · rw [setHashByIndex_hash]; exact hi

theorem DeleteByIndex_hash (pack : Pack) (i : Int) (m : Mem) :
    (DeleteByIndex pack i m).2.r.Hash = m.r.Hash := by
  unfold DeleteByIndex
  have hi := initRefs_hash pack m
  split
  · next h1 => rw [h1] at hi; exact hi
  · next m1 h1 =>
    rw [h1] at hi
    split
    · exact hi
    · have hd := deleteByIndex_hash pack m1.r.depth i none m1.r.leafs m1.r.branches m1
      split
      · next h2 => rw [h2] at hd; rw [hd]; exact hi
      · next h2 => rw [h2] at hd; simp only [Mem.setR]; rw [hd]; exact hi

theorem AppendHashes_hash (pack : Pack) (hs : List SHA256) (m : Mem) :
    (AppendHashes pack hs m).2.r.Hash = m.r.Hash := by
  unfold AppendHashes
  have hi := initRefs_hash pack m
  split
  · next h1 => rw [h1] at hi; exact hi
  · next h1 => rw [h1] at hi; exact hi

theorem loadRootLeafs_length (elements : List EncodedElement) :
    ∀ m : Mem, (loadRootLeafs elements m).r.length = m.r.length := by
  induction elements with
  | nil => intro m; rfl
  | cons e rest ih =>
    intro m
    unfold loadRootLeafs
    split
    · exact ih m
    · simp only [Mem.allocEl, Mem.setR]
      rw [ih]
      split
      · rw [(sameButIndex_fields (addElementToIndex_same _ _ _)).2.2.2.2.1]
      · rfl

theorem loadRootRefsNodesLoop_length (pack : Pack) (depth : Nat) (elements : List EncodedElement) :
    ∀ m : Mem, (loadRootRefsNodesLoop pack depth elements m).2.r.length = m.r.length := by
  induction elements with
  | nil => intro m; rfl
  | cons e rest ih =>
    intro m
    unfold loadRootRefsNodesLoop
    split
    · exact ih m
    · have hs := (sameButIndex_fields (loadRefsNodes_same pack (depth - 1) none e.Hash m)).2.2.2.2.1
      split
      · next h1 => rw [h1] at hs; exact hs
      · next h1 =>
        rw [h1] at hs
        rw [ih]
        exact hs

theorem load_length (pack : Pack) (m : Mem) (hok : (load pack m).1 = none) :
    (load pack m).2.r.length ≠ 0 := by
  unfold load at hok ⊢
  cases h : pack.getRefs m.r.Hash with
  | error err => rw [h] at hok; simp at hok
  | ok er =>
    rw [h] at hok
    simp only [Mem.setR] at hok ⊢
    by_cases hbad : ((er.Length : Int) = 0 ∨ (er.Degree : Int) < 2)
    · rw [if_pos hbad] at hok; simp at hok
    · rw [if_neg hbad]
      have hlen : (er.Length : Int) ≠ 0 := fun hc => hbad (Or.inl hc)
      split_ifs <;>
        first
        | (show (loadRootLeafs _ _).r.length ≠ 0
           rw [loadRootLeafs_length]
           simp only [makeCap_r]
           exact hlen)
        | (unfold loadRootRefsNodes
           rw [loadRootRefsNodesLoop_length]
           exact hlen)

theorem initRefs_blank (pack : Pack) (hash : SHA256)
    (hok : (initRefs pack (blankMem hash)).1 = none) :
    ((initRefs pack (blankMem hash)).2.r.length = 0 →
      (initRefs pack (blankMem hash)).2.r.Hash = 0 ∧
      (initRefs pack (blankMem hash)).2.r.depth = 0 ∧
      (initRefs pack (blankMem hash)).2.rootChildren = []) ∧
    ((initRefs pack (blankMem hash)).2.r.length ≠ 0 →
      (initRefs pack (blankMem hash)).2.r.Hash ≠ 0) := by
  by_cases hz : hash = 0
  · subst hz
    have h : initRefs pack (blankMem 0) =
        (none, (blankMem 0).setR { (blankMem 0).r with flags := pack.flags ||| flagIsSet }) := by
      simp [initRefs, blankMem, Mem.setR]
    rw [h]
    simp [blankMem, Mem.setR, Mem.rootChildren]
  · have h : initRefs pack (blankMem hash) =
        load pack ((blankMem hash).setR
          { (blankMem hash).r with flags := pack.flags ||| flagIsSet }) := by
      simp [initRefs, blankMem, Mem.setR, hz]
    rw [h] at hok ⊢
    have hl := load_length pack _ hok
    constructor
    · intro h0; exact absurd h0 hl
    · intro _
      rw [load_hash]
      exact hz

/-- C22 as stated fails.  On the flat `Refs` with leafs `7, 8` and root hash
`100`, `SetHashByIndex(0, 9)` and `SetHashByIndex(0, 5)` both succeed and both
leave the root hash `100`, while the root records of the two results differ
(first element `9` against `5`).  So for no hash function that tells these two
records apart is the `Hash` field the content hash of the root record after
both operations. -/
theorem set_hash_leaves_root_hash_stale :
    (flatMem [7, 8] flagIsSet none).r.Hash = 100 ∧
    (SetHashByIndex emptyPack 0 9 (flatMem [7, 8] flagIsSet none)).1 = none ∧
    (SetHashByIndex emptyPack 0 5 (flatMem [7, 8] flagIsSet none)).1 = none ∧
    (SetHashByIndex emptyPack 0 9 (flatMem [7, 8] flagIsSet none)).2.r.Hash = 100 ∧
    (SetHashByIndex emptyPack 0 5 (flatMem [7, 8] flagIsSet none)).2.r.Hash = 100 ∧
    encodeRoot (SetHashByIndex emptyPack 0 9 (flatMem [7, 8] flagIsSet none)).2 =
      ⟨0, 4, 2, [⟨false, 9⟩, ⟨false, 8⟩]⟩ ∧
    encodeRoot (SetHashByIndex emptyPack 0 5 (flatMem [7, 8] flagIsSet none)).2 =
      ⟨0, 4, 2, [⟨false, 5⟩, ⟨false, 8⟩]⟩ ∧
    ∀ sum : EncodedRefs → SHA256,
      sum ⟨0, 4, 2, [⟨false, 9⟩, ⟨false, 8⟩]⟩ ≠ sum ⟨0, 4, 2, [⟨false, 5⟩, ⟨false, 8⟩]⟩ →
      ¬ ((SetHashByIndex emptyPack 0 9 (flatMem [7, 8] flagIsSet none)).2.r.Hash =
          sum (encodeRoot (SetHashByIndex emptyPack 0 9 (flatMem [7, 8] flagIsSet none)).2) ∧
        (SetHashByIndex emptyPack 0 5 (flatMem [7, 8] flagIsSet none)).2.r.Hash =
          sum (encodeRoot (SetHashByIndex emptyPack 0 5 (flatMem [7, 8] flagIsSet none)).2)) := by
  have h9 : encodeRoot (SetHashByIndex emptyPack 0 9 (flatMem [7, 8] flagIsSet none)).2 =
      ⟨0, 4, 2, [⟨false, 9⟩, ⟨false, 8⟩]⟩ := by decide
  have h5 : encodeRoot (SetHashByIndex emptyPack 0 5 (flatMem [7, 8] flagIsSet none)).2 =
      ⟨0, 4, 2, [⟨false, 5⟩, ⟨false, 8⟩]⟩ := by decide
  have k9 : (SetHashByIndex emptyPack 0 9 (flatMem [7, 8] flagIsSet none)).2.r.Hash = 100 := by
    decide
  have k5 : (SetHashByIndex emptyPack 0 5 (flatMem [7, 8] flagIsSet none)).2.r.Hash = 100 := by
    decide
  refine ⟨by decide, by decide, by decide, k9, k5, h9, h5, ?_⟩
  intro sum hne ⟨e9, e5⟩
  rw [h9, k9] at e9
  rw [h5, k5] at e5
  exact hne (e9.symm.trans e5)

/-- C23 as stated fails.  The `Refs` with root hash `100` loaded from `onePack`
has length 1 and the single leaf `7`.  `DeleteByIndex(0)` succeeds, `Len` is 0
afterwards, and the root hash is still `100` and the root still has one child
(the leaf, marked deleted). -/
theorem delete_last_keeps_hash_and_leaf :
    (initRefs onePack (blankMem 100)).1 = none ∧
    oneLoaded.r.length = 1 ∧ oneLoaded.r.Hash = 100 ∧ oneLoaded.liveSeq = [7] ∧
    (DeleteByIndex onePack 0 oneLoaded).1 = none ∧
    (Len onePack (DeleteByIndex onePack 0 oneLoaded).2).1 = 0 ∧
    (Len onePack (DeleteByIndex onePack 0 oneLoaded).2).2.1 = none ∧
    (DeleteByIndex onePack 0 oneLoaded).2.r.Hash = 100 ∧
    (DeleteByIndex onePack 0 oneLoaded).2.rootChildren = [0] ∧
    (DeleteByIndex onePack 0 oneLoaded).2.liveSeq = [] := by
  decide

/-! ### The error protocol of the traversals -/

theorem ascendFromLoop_rounds {U : Type} (pack : Pack) (fn : IterateFunc U) :
    ∀ (n : Nat) (i : Int) (s : Mem × U),
      ascendFromLoop pack fn n i s =
        match ascendFromRounds pack fn n i s with
        | .inl _ => none
        | .inr r => some r := by
  intro n
  induction n with
  | zero => intro i s; rfl
  | succ n ih =>
    intro i s
    unfold ascendFromLoop ascendFromRounds
    split
    · exact ih _ _
    · rfl

theorem descendFromLoop_rounds {U : Type} (pack : Pack) (fn : IterateFunc U) (si : Int) :
    ∀ (n : Nat) (i : Int) (s : Mem × U),
      descendFromLoop pack fn si n i s =
        match descendFromRounds pack fn si n i s with
        | .inl _ => none
        | .inr r => some r := by
  intro n
  induction n with
  | zero => intro i s; rfl
  | succ n ih =>
    intro i s
    unfold descendFromLoop descendFromRounds
    split
    · exact ih _ _
    · rfl

theorem ascendLeafsLoop_guarded {U : Type} (fn : IterateFunc U) (l : List Nat) :
    ∀ (i skip pass : Int) (s : Mem × (U × Option Error × Bool)),
      s.2.2.1 = none → s.2.2.2 = false →
      passOk (ascendLeafsLoop (guarded fn) l i skip pass s) := by
  induction l with
  | nil =>
    intro i skip pass s h1 h2
    exact ⟨h2, fun e he => by rw [show (ascendLeafsLoop (guarded fn) [] i skip pass s).2.2.2.2.2.1
      = s.2.2.1 from rfl, h1] at he; cases he⟩
  | cons el rest ih =>
    intro i skip pass s h1 h2
    unfold ascendLeafsLoop
    split
    · exact ih i skip pass s h1 h2
    · split
      · exact ih i (skip + 1) pass s h1 h2
      · have hfe : (guarded fn i (s.1.el el).Hash s).2.2.2.1 = (guarded fn i (s.1.el el).Hash s).1 := by
          simp [guarded, h1]
        have hag : (guarded fn i (s.1.el el).Hash s).2.2.2.2 = false := by
          simp [guarded, h1, h2]
        split
        · next err s1 hc =>
          rw [hc] at hfe hag
          refine ⟨hag, fun e he => ?_⟩
          simp only [] at hfe he ⊢
          rw [hfe] at he
          exact ⟨he, trivial⟩
        · next s1 hc =>
          rw [hc] at hfe hag
          simp only [] at hfe hag
          split
          · next m2 _ =>
            refine ⟨hag, fun e he => ?_⟩
            simp only [] at he
            rw [hfe] at he
            cases he
          · next m2 _ =>
            exact ih _ _ _ (m2, s1.2) hfe hag


theorem descendLeafsLoop_guarded {U : Type} (fn : IterateFunc U) (l : List Nat) :
    ∀ (i si pass : Int) (s : Mem × (U × Option Error × Bool)),
      s.2.2.1 = none → s.2.2.2 = false →
      passOk (descendLeafsLoop (guarded fn) l i si pass s) := by
  induction l with
  | nil =>
    intro i si pass s h1 h2
    exact ⟨h2, fun e he => by rw [show (descendLeafsLoop (guarded fn) [] i si pass s).2.2.2.2.2.1
      = s.2.2.1 from rfl, h1] at he; cases he⟩
  | cons el rest ih =>
    intro i si pass s h1 h2
    unfold descendLeafsLoop
    split
    · exact ih i si pass s h1 h2
    · split
      · exact ih i (si - 1) pass s h1 h2
      · have hfe : (guarded fn i (s.1.el el).Hash s).2.2.2.1 = (guarded fn i (s.1.el el).Hash s).1 := by
          simp [guarded, h1]
        have hag : (guarded fn i (s.1.el el).Hash s).2.2.2.2 = false := by
          simp [guarded, h1, h2]
        split
        · next err s1 hc =>
          rw [hc] at hfe hag
          refine ⟨hag, fun e he => ?_⟩
          simp only [] at hfe he ⊢
          rw [hfe] at he
          exact ⟨he, trivial⟩
        · next s1 hc =>
          rw [hc] at hfe hag
          simp only [] at hfe hag
          split
          · next m2 _ =>
            refine ⟨hag, fun e he => ?_⟩
            simp only [] at he
            rw [hfe] at he
            cases he
          · next m2 _ =>
            exact ih _ _ _ (m2, s1.2) hfe hag

theorem ascendBranchesLoop_guarded {U : Type} (pack : Pack) (depth : Nat) (upper : Option Nat)
    (sub : Int → Nat → Mem × (U × Option Error × Bool) →
      Int × Bool × Option Error × (Mem × (U × Option Error × Bool)))
    (hsub : ∀ j br s, s.2.2.1 = none → s.2.2.2 = false → passOk (sub j br s))
    (l : List Nat) :
    ∀ (i skip pass : Int) (s : Mem × (U × Option Error × Bool)),
      s.2.2.1 = none → s.2.2.2 = false →
      passOk (ascendBranchesLoop pack depth upper sub l i skip pass s) := by
  induction l with
  | nil =>
    intro i skip pass s h1 h2
    exact ⟨h2, fun e he => by
      rw [show (ascendBranchesLoop pack depth upper sub [] i skip pass s).2.2.2.2.2.1
        = s.2.2.1 from rfl, h1] at he; cases he⟩
  | cons br rest ih =>
    intro i skip pass s h1 h2
    unfold ascendBranchesLoop
    split
    · next err m1 _ =>
      exact ⟨h2, fun e he => by simp only [] at he; rw [h1] at he; cases he⟩
    · next m1 _ =>
      split
      · exact ih _ _ _ (m1, s.2) h1 h2
      · split
        · exact ih _ _ _ (m1, s.2) h1 h2
        · have hs := hsub i br (m1, s.2) h1 h2
          split
          next subpass rewind err s2 hc =>
          rw [hc] at hs
          split
          · exact ⟨hs.1, fun e he => hs.2 e he⟩
          · next hcont =>
            have herr : err = none := by
              by_contra hne
              exact hcont (Or.inl hne)
            have hfe : s2.2.2.1 = none := by
              cases hfe : s2.2.2.1 with
              | none => rfl
              | some e =>
                have := (hs.2 e hfe).1
                simp only [] at this
                rw [herr] at this
                cases this
            exact ih _ _ _ s2 hfe hs.1

theorem descendBranchesLoop_guarded {U : Type} (pack : Pack) (depth : Nat) (upper : Option Nat)
    (sub : Int → Int → Nat → Mem × (U × Option Error × Bool) →
      Int × Bool × Option Error × (Mem × (U × Option Error × Bool)))
    (hsub : ∀ sj j br s, s.2.2.1 = none → s.2.2.2 = false → passOk (sub sj j br s))
    (l : List Nat) :
    ∀ (i si pass : Int) (s : Mem × (U × Option Error × Bool)),
      s.2.2.1 = none → s.2.2.2 = false →
      passOk (descendBranchesLoop pack depth upper sub l i si pass s) := by
  induction l with
  | nil =>
    intro i si pass s h1 h2
    exact ⟨h2, fun e he => by
      rw [show (descendBranchesLoop pack depth upper sub [] i si pass s).2.2.2.2.2.1
        = s.2.2.1 from rfl, h1] at he; cases he⟩
  | cons br rest ih =>
    intro i si pass s h1 h2
    unfold descendBranchesLoop
    split
    · next err m1 _ =>
      exact ⟨h2, fun e he => by simp only [] at he; rw [h1] at he; cases he⟩
    · next m1 _ =>
      split
      · exact ih _ _ _ (m1, s.2) h1 h2
      · split
        · exact ih _ _ _ (m1, s.2) h1 h2
        · have hs := hsub si i br (m1, s.2) h1 h2
          split
          next subpass rewind err s2 hc =>
          rw [hc] at hs
          split
          · exact ⟨hs.1, fun e he => hs.2 e he⟩
          · next hcont =>
            have herr : err = none := by
              by_contra hne
              exact hcont (Or.inl hne)
            have hfe : s2.2.2.1 = none := by
              cases hfe : s2.2.2.1 with
              | none => rfl
              | some e =>
                have := (hs.2 e hfe).1
                simp only [] at this
                rw [herr] at this
                cases this
            exact ih _ _ _ s2 hfe hs.1

theorem ascend_guarded {U : Type} (pack : Pack) (fn : IterateFunc U) :
    ∀ (depth : Nat) (i : Int) (upper : Option Nat) (leafs branches : List Nat)
      (s : Mem × (U × Option Error × Bool)),
      s.2.2.1 = none → s.2.2.2 = false →
      passOk (ascend pack (guarded fn) depth i upper leafs branches s) := by
  intro depth
  induction depth with
  | zero =>
    intro i upper leafs branches s h1 h2
    unfold ascend ascendLeafs
    exact ascendLeafsLoop_guarded fn leafs i 0 0 s h1 h2
  | succ d ih =>
    intro i upper leafs branches s h1 h2
    unfold ascend
    exact ascendBranchesLoop_guarded pack (d + 1) upper _
      (fun j br s1 g1 g2 => ih j (some br) _ _ s1 g1 g2) branches i 0 0 s h1 h2

theorem descend_guarded {U : Type} (pack : Pack) (fn : IterateFunc U) :
    ∀ (depth : Nat) (si i : Int) (upper : Option Nat) (leafs branches : List Nat)
      (s : Mem × (U × Option Error × Bool)),
      s.2.2.1 = none → s.2.2.2 = false →
      passOk (descend pack (guarded fn) depth si i upper leafs branches s) := by
  intro depth
  induction depth with
  | zero =>
    intro si i upper leafs branches s h1 h2
    unfold descend descendLeafs
    exact descendLeafsLoop_guarded fn leafs.reverse i si 0 s h1 h2
  | succ d ih =>
    intro si i upper leafs branches s h1 h2
    unfold descend
    exact descendBranchesLoop_guarded pack (d + 1) upper _
      (fun sj j br s1 g1 g2 => ih sj j (some br) _ _ s1 g1 g2) branches.reverse i si 0 s h1 h2


theorem ascendFromRounds_guarded {U : Type} (pack : Pack) (fn : IterateFunc U) :
    ∀ (n : Nat) (i : Int) (s : Mem × (U × Option Error × Bool)),
      s.2.2.1 = none → s.2.2.2 = false →
      match ascendFromRounds pack (guarded fn) n i s with
      | .inl x => x.2.2.2.1 = none ∧ x.2.2.2.2 = false
      | .inr r => r.2.2.2.2 = false ∧ ∀ e, r.2.2.2.1 = some e → r.1 = some e := by
  intro n
  induction n with
  | zero => intro i s h1 h2; exact ⟨h1, h2⟩
  | succ n ih =>
    intro i s h1 h2
    unfold ascendFromRounds
    have hp := ascend_guarded pack fn s.1.r.depth i none s.1.r.leafs s.1.r.branches s h1 h2
    generalize ascend pack (guarded fn) s.1.r.depth i none s.1.r.leafs s.1.r.branches s = res at hp ⊢
    obtain ⟨pass, rewind, err, s1⟩ := res
    cases rewind with
    | true =>
      have hfe : s1.2.2.1 = none := by
        cases hfe : s1.2.2.1 with
        | none => rfl
        | some e =>
          have := (hp.2 e hfe).2
          simp at this
      exact ih _ s1 hfe hp.1
    | false =>
      exact ⟨hp.1, fun e he => (hp.2 e he).1⟩

theorem descendFromRounds_guarded {U : Type} (pack : Pack) (fn : IterateFunc U) (si : Int) :
    ∀ (n : Nat) (i : Int) (s : Mem × (U × Option Error × Bool)),
      s.2.2.1 = none → s.2.2.2 = false →
      match descendFromRounds pack (guarded fn) si n i s with
      | .inl x => x.2.2.2.1 = none ∧ x.2.2.2.2 = false
      | .inr r => r.2.2.2.2 = false ∧ ∀ e, r.2.2.2.1 = some e → r.1 = some e := by
  intro n
  induction n with
  | zero => intro i s h1 h2; exact ⟨h1, h2⟩
  | succ n ih =>
    intro i s h1 h2
    unfold descendFromRounds
    have hp := descend_guarded pack fn s.1.r.depth si i none s.1.r.leafs s.1.r.branches s h1 h2
    generalize descend pack (guarded fn) s.1.r.depth si i none s.1.r.leafs s.1.r.branches s = res at hp ⊢
    obtain ⟨pass, rewind, err, s1⟩ := res
    cases rewind with
    | true =>
      have hfe : s1.2.2.1 = none := by
        cases hfe : s1.2.2.1 with
        | none => rfl
        | some e =>
          have := (hp.2 e hfe).2
          simp at this
      exact ih _ s1 hfe hp.1
    | false =>
      exact ⟨hp.1, fun e he => (hp.2 e he).1⟩

theorem initRefs_nonempty (pack : Pack) (m : Mem) (hne : m.r.length ≠ 0) :
    (initRefs pack m).1 = none ∧ (initRefs pack m).2.r.length = m.r.length := by
  unfold initRefs
  simp only [Mem.setR]
  split_ifs <;> exact ⟨rfl, rfl⟩

theorem validateIndex_ne_stop (i length : Int) :
    validateIndex i length ≠ some Error.ErrStopIteration := by
  unfold validateIndex
  split <;> simp

theorem protocol_of_rounds {U : Type} (err : Option Error)
    (s2 : Mem × (U × Option Error × Bool)) (m2 : Mem)
    (h : s2.2.2.2 = false ∧ ∀ e, s2.2.2.1 = some e → err = some e) :
    errorProtocol ((if err = some Error.ErrStopIteration then none else err), (m2, s2.2)) := by
  refine ⟨h.1, ?_, fun e he => ?_⟩
  · simp only []
    split
    · simp
    · next hne => exact hne
  · simp only []
    rw [h.2 e he]
    by_cases hs : e = Error.ErrStopIteration
    · simp [hs]
    · simp [hs]

theorem ascendFrom_guarded {U : Type} (fuel : Nat) (pack : Pack) (start : Int)
    (fn : IterateFunc U) (m : Mem) (u : U) (hne : m.r.length ≠ 0) :
    ∀ r, ascendFrom fuel pack start (guarded fn) (m, (u, none, false)) = some r →
      errorProtocol r := by
  intro r hr
  unfold ascendFrom at hr
  obtain ⟨hi1, hi2⟩ := initRefs_nonempty pack m hne
  split at hr
  · next err m1 hc => rw [hc] at hi1; cases hi1
  · next m1 hc =>
    split at hr
    · next err hv =>
      have hstop := validateIndex_ne_stop start m1.r.length
      rw [hv] at hstop
      simp only [Option.some.injEq] at hr
      rw [← hr]
      exact ⟨rfl, hstop, fun e he => by cases he⟩
    · split at hr
      · simp only [Option.some.injEq] at hr
        rw [← hr]
        exact ⟨rfl, by simp, fun e he => by cases he⟩
      · rw [ascendFromLoop_rounds] at hr
        have hro := ascendFromRounds_guarded pack fn fuel start
          (startIterating m1, (u, none, false)) rfl rfl
        cases hrd : ascendFromRounds pack (guarded fn) fuel start
            (startIterating m1, (u, none, false)) with
        | inl x => rw [hrd] at hr; simp at hr
        | inr r1 =>
          rw [hrd] at hr hro
          simp only [Option.some.injEq] at hr
          rw [← hr]
          exact protocol_of_rounds r1.1 r1.2 _ hro

theorem descendFrom_guarded {U : Type} (fuel : Nat) (pack : Pack) (start : Int)
    (fn : IterateFunc U) (m : Mem) (u : U) :
    ∀ r, descendFrom fuel pack start (guarded fn) (m, (u, none, false)) = some r →
      errorProtocol r := by
  intro r hr
  unfold descendFrom at hr
  split at hr
  · next err hv =>
    have hstop := validateIndex_ne_stop start m.r.length
    simp only [] at hv
    rw [hv] at hstop
    simp only [Option.some.injEq] at hr
    rw [← hr]
    exact ⟨rfl, hstop, fun e he => by cases he⟩
  · split at hr
    · simp only [Option.some.injEq] at hr
      rw [← hr]
      exact ⟨rfl, by simp, fun e he => by cases he⟩
    · rw [descendFromLoop_rounds] at hr
      have hro := descendFromRounds_guarded pack fn (m.r.length - 1) fuel start
        (startIterating m, (u, none, false)) rfl rfl
      cases hrd : descendFromRounds pack (guarded fn) (m.r.length - 1) fuel start
          (startIterating m, (u, none, false)) with
      | inl x => simp only [] at hr; rw [hrd] at hr; simp at hr
      | inr r1 =>
        simp only [] at hr
        rw [hrd] at hr hro
        simp only [Option.some.injEq] at hr
        rw [← hr]
        exact protocol_of_rounds r1.1 r1.2 _ hro

theorem DescendFrom_guarded {U : Type} (fuel : Nat) (pack : Pack) (start : Int)
    (fn : IterateFunc U) (m : Mem) (u : U) (hne : m.r.length ≠ 0) :
    ∀ r, DescendFrom fuel pack start (guarded fn) (m, (u, none, false)) = some r →
      errorProtocol r := by
  intro r hr
  unfold DescendFrom at hr
  obtain ⟨hi1, hi2⟩ := initRefs_nonempty pack m hne
  split at hr
  · next err m1 hc => rw [hc] at hi1; cases hi1
  · next m1 hc => exact descendFrom_guarded fuel pack start fn m1 u r hr

theorem Descend_guarded {U : Type} (fuel : Nat) (pack : Pack)
    (fn : IterateFunc U) (m : Mem) (u : U) (hne : m.r.length ≠ 0) :
    ∀ r, Descend fuel pack (guarded fn) (m, (u, none, false)) = some r →
      errorProtocol r := by
  intro r hr
  unfold Descend at hr
  obtain ⟨hi1, hi2⟩ := initRefs_nonempty pack m hne
  split at hr
  · next err m1 hc => rw [hc] at hi1; cases hi1
  · next m1 hc => exact descendFrom_guarded fuel pack _ fn m1 u r hr

theorem ascendFrom_ne_stop {U : Type} (fuel : Nat) (pack : Pack) (start : Int)
    (fn : IterateFunc U) (s : Mem × U) (hne : s.1.r.length ≠ 0) :
    ∀ r, ascendFrom fuel pack start fn s = some r → r.1 ≠ some Error.ErrStopIteration := by
  intro r hr
  unfold ascendFrom at hr
  obtain ⟨hi1, hi2⟩ := initRefs_nonempty pack s.1 hne
  split at hr
  · next err m1 hc => rw [hc] at hi1; cases hi1
  · next m1 hc =>
    split at hr
    · next err hv =>
      have hstop := validateIndex_ne_stop start m1.r.length
      rw [hv] at hstop
      simp only [Option.some.injEq] at hr
      rw [← hr]
      exact hstop
    · split at hr
      · simp only [Option.some.injEq] at hr
        rw [← hr]
        simp
      · split at hr
        · cases hr
        · next err s2 _ =>
          simp only [Option.some.injEq] at hr
          rw [← hr]
          simp only []
          split
          · simp
          · next hn => exact hn

theorem indexInLeafsLoop_ne_stop (m : Mem) (re : Nat) (l : List Nat) :
    ∀ i : Int, (indexInLeafsLoop m re l i).2 ≠ some Error.ErrStopIteration := by
  induction l with
  | nil => intro i; simp [indexInLeafsLoop]
  | cons el rest ih =>
    intro i
    unfold indexInLeafsLoop
    split
    · exact ih i
    · split
      · simp
      · exact ih _

theorem indexOfLeaf_ne_stop (re : Nat) (m : Mem) :
    (indexOfLeaf re m).2.1 ≠ some Error.ErrStopIteration := by
  unfold indexOfLeaf
  split
  · simp
  · next upper _ =>
    have h := indexInLeafsLoop_ne_stop m re (m.node upper).leafs 0
    unfold indexInLeafs
    split
    · next i err hx => rw [hx] at h; exact h
    · split <;> simp

theorem HasHash_ne_stop (fuel : Nat) (pack : Pack) (hash : SHA256) (m : Mem)
    (hne : m.r.length ≠ 0) :
    ∀ r, HasHash fuel pack hash m = some r → r.2.1 ≠ some Error.ErrStopIteration := by
  intro r hr
  unfold HasHash at hr
  obtain ⟨hi1, hi2⟩ := initRefs_nonempty pack m hne
  split at hr
  · next err m1 hc => rw [hc] at hi1; cases hi1
  · next m1 hc =>
    rw [hc] at hi2
    split at hr
    · simp only [Option.some.injEq] at hr
      rw [← hr]
      simp
    · split at hr
      · cases hr
      · next err s1 ha =>
        have := ascendFrom_ne_stop fuel pack 0 (hasHashFunc hash) (m1, false)
          (by simp only []; rw [hi2]; exact hne) _ ha
        simp only [Option.some.injEq] at hr
        rw [← hr]
        exact this

theorem IndexOfHash_ne_stop (fuel : Nat) (pack : Pack) (hash : SHA256) (m : Mem)
    (hne : m.r.length ≠ 0) :
    ∀ r, IndexOfHash fuel pack hash m = some r → r.2.1 ≠ some Error.ErrStopIteration := by
  intro r hr
  unfold IndexOfHash at hr
  obtain ⟨hi1, hi2⟩ := initRefs_nonempty pack m hne
  split at hr
  · next err m1 hc => rw [hc] at hi1; cases hi1
  · next m1 hc =>
    rw [hc] at hi2
    split at hr
    · split at hr
      · simp only [Option.some.injEq] at hr
        rw [← hr]
        simp
      · split at hr
        · simp only [Option.some.injEq] at hr
          rw [← hr]
          simp
        · split at hr
          · simp only [Option.some.injEq] at hr
            rw [← hr]
            exact indexInLeafsLoop_ne_stop m1 _ _ 0
          · simp only [Option.some.injEq] at hr
            rw [← hr]
            exact indexOfLeaf_ne_stop _ m1
    · split at hr
      · cases hr
      · next err s1 ha =>
        have := ascendFrom_ne_stop fuel pack 0 (indexOfHashFunc hash) (m1, (false, 0))
          (by simp only []; rw [hi2]; exact hne) _ ha
        simp only [Option.some.injEq] at hr
        rw [← hr]
        simp only []
        split
        · simp
        · exact this

/-- C21.  For a non-empty `Refs`, any callback `fn` (instrumented by `guarded`),
any start index and any fuel: whenever `Ascend`, `AscendFrom`, `Descend` or
`DescendFrom` returns, the callback was not invoked after it had returned an
error, the result is nil if that error was `ErrStopIteration` and is exactly
that error otherwise, and the result is never `ErrStopIteration`; neither is
the error of `HasHash` or `IndexOfHash`.  The traversal does return once the
callback has returned an error: as long as the loop of `ascendFrom` or
`descendFrom` has not returned after `n` rounds (the fuel `n` does not
suffice), the callback has not yet returned any error. -/
theorem callback_error_ends_traversal {U : Type} (pack : Pack) (fn : IterateFunc U) (m : Mem)
    (u : U) (start : Int) (hash : SHA256) (fuel : Nat) (hne : m.r.length ≠ 0) :
    (∀ r, Ascend fuel pack (guarded fn) (m, (u, none, false)) = some r → errorProtocol r) ∧
    (∀ r, AscendFrom fuel pack start (guarded fn) (m, (u, none, false)) = some r →
      errorProtocol r) ∧
    (∀ r, Descend fuel pack (guarded fn) (m, (u, none, false)) = some r → errorProtocol r) ∧
    (∀ r, DescendFrom fuel pack start (guarded fn) (m, (u, none, false)) = some r →
      errorProtocol r) ∧
    (∀ r, HasHash fuel pack hash m = some r → r.2.1 ≠ some Error.ErrStopIteration) ∧
    (∀ r, IndexOfHash fuel pack hash m = some r → r.2.1 ≠ some Error.ErrStopIteration) ∧
    (∀ n i s, s.2.2.1 = none → s.2.2.2 = false →
      ascendFromLoop pack (guarded fn) n i s = none →
      ∃ x, ascendFromRounds pack (guarded fn) n i s = .inl x ∧
        x.2.2.2.1 = none ∧ x.2.2.2.2 = false) ∧
    (∀ si n i s, s.2.2.1 = none → s.2.2.2 = false →
      descendFromLoop pack (guarded fn) si n i s = none →
      ∃ x, descendFromRounds pack (guarded fn) si n i s = .inl x ∧
        x.2.2.2.1 = none ∧ x.2.2.2.2 = false) := by
  refine ⟨ascendFrom_guarded fuel pack 0 fn m u hne, ascendFrom_guarded fuel pack start fn m u hne,
    Descend_guarded fuel pack fn m u hne, DescendFrom_guarded fuel pack start fn m u hne,
    HasHash_ne_stop fuel pack hash m hne, IndexOfHash_ne_stop fuel pack hash m hne, ?_, ?_⟩
  · intro n i s h1 h2 hnone
    have hro := ascendFromRounds_guarded pack fn n i s h1 h2
    rw [ascendFromLoop_rounds] at hnone
    cases hrd : ascendFromRounds pack (guarded fn) n i s with
    | inl x => rw [hrd] at hro; exact ⟨x, rfl, hro⟩
    | inr r1 => rw [hrd] at hnone; simp at hnone
  · intro si n i s h1 h2 hnone
    have hro := descendFromRounds_guarded pack fn si n i s h1 h2
    rw [descendFromLoop_rounds] at hnone
    cases hrd : descendFromRounds pack (guarded fn) si n i s with
    | inl x => rw [hrd] at hro; exact ⟨x, rfl, hro⟩
    | inr r1 => rw [hrd] at hnone; simp at hnone

/-- C21 at the flat `Refs` with leafs `7, 8, 9`: a callback that returns
`ErrStopIteration` at index 1 is invoked twice and `Ascend` returns nil; one
that returns another error at index 1 of a `Descend` is invoked twice and that
error is returned. -/
theorem callback_error_ends_traversal_witness :
    (flatMem [7, 8, 9] flagIsSet none).r.length ≠ 0 ∧
    (Ascend 1 emptyPack (guarded (stopAt 1 Error.ErrStopIteration))
        (flatMem [7, 8, 9] flagIsSet none, (0, none, false))).map (fun r => (r.1, r.2.2)) =
      some (none, (2, some Error.ErrStopIteration, false)) ∧
    (Descend 1 emptyPack (guarded (stopAt 1 (Error.other 5)))
        (flatMem [7, 8, 9] flagIsSet none, (0, none, false))).map (fun r => (r.1, r.2.2)) =
      some (some (Error.other 5), (2, some (Error.other 5), false)) ∧
    (∀ r, Ascend 1 emptyPack (guarded (stopAt 1 Error.ErrStopIteration))
        (flatMem [7, 8, 9] flagIsSet none, (0, none, false)) = some r → errorProtocol r) :=
  ⟨by decide, by decide, by decide,
   (callback_error_ends_traversal emptyPack (stopAt 1 Error.ErrStopIteration)
      (flatMem [7, 8, 9] flagIsSet none) 0 0 0 1 (by decide)).1⟩

/-! ### An ascending traversal of depth 0 whose callback changes the `Refs` -/

theorem isFinding_false (m : Mem) (hne : m.r.iterators ≠ [])
    (h : (isFindingIteratorsIndexFromRootRequired m).1 = false) :
    isFindingIteratorsIndexFromRootRequired m = (false, m) := by
  unfold isFindingIteratorsIndexFromRootRequired at h ⊢
  have hl : ¬ m.r.iterators.length = 0 := fun hc => hne (List.length_eq_zero.mp hc)
  simp only [] at h ⊢
  rw [if_neg hl] at h ⊢
  split at h
  · simp at h
  · next hf => rw [if_neg hf]

theorem isFinding_true_shape (m : Mem)
    (h : (isFindingIteratorsIndexFromRootRequired m).1 = true) :
    ∃ its1 : List Bool,
      (isFindingIteratorsIndexFromRootRequired m).2 = m.setR { m.r with iterators := its1 } ∧
      its1.length = m.r.iterators.length ∧ its1.length ≠ 0 ∧
      its1.getD (its1.length - 1) false = false := by
  unfold isFindingIteratorsIndexFromRootRequired at h ⊢
  simp only [] at h ⊢
  by_cases hl : m.r.iterators.length = 0
  · rw [if_pos hl] at h; simp at h
  · rw [if_neg hl] at h ⊢
    by_cases ht : m.r.iterators.getD (m.r.iterators.length - 1) false = true
    · rw [if_pos ht]
      have hlen : (if m.r.iterators.length > 1 then
          m.r.iterators.set (m.r.iterators.length - 2) true else m.r.iterators).length =
          m.r.iterators.length := by
        split <;> simp
      refine ⟨_, rfl, ?_, ?_, ?_⟩
      · rw [List.length_set, hlen]
      · rw [List.length_set, hlen]; exact hl
      · rw [List.length_set, hlen, List.getD_eq_getElem?_getD, List.getElem?_set]
        have : m.r.iterators.length - 1 < (if m.r.iterators.length > 1 then
          m.r.iterators.set (m.r.iterators.length - 2) true else m.r.iterators).length := by
          rw [hlen]; omega
        simp [this]
    · rw [if_neg ht] at h; simp at h

theorem isFinding_true (m : Mem)
    (h : (isFindingIteratorsIndexFromRootRequired m).1 = true) :
    (isFindingIteratorsIndexFromRootRequired m).2.els = m.els ∧
    (isFindingIteratorsIndexFromRootRequired m).2.r.depth = m.r.depth ∧
    (isFindingIteratorsIndexFromRootRequired m).2.r.leafs = m.r.leafs ∧
    (isFindingIteratorsIndexFromRootRequired m).2.r.flags = m.r.flags ∧
    (isFindingIteratorsIndexFromRootRequired m).2.r.length = m.r.length ∧
    (isFindingIteratorsIndexFromRootRequired m).2.r.iterators ≠ [] ∧
    (isFindingIteratorsIndexFromRootRequired
      (isFindingIteratorsIndexFromRootRequired m).2).1 = false := by
  obtain ⟨its1, e, hlen, hne, hget⟩ := isFinding_true_shape m h
  rw [e]
  refine ⟨rfl, rfl, rfl, rfl, rfl, ?_, ?_⟩
  · simp only [Mem.setR]
    intro hc
    rw [hc] at hne
    exact hne rfl
  · unfold isFindingIteratorsIndexFromRootRequired
    simp only [Mem.setR]
    rw [if_neg hne, hget]
    simp


theorem liveLeafs_append (m : Mem) (a b : List Nat) :
    liveLeafs m (a ++ b) = liveLeafs m a ++ liveLeafs m b := by
  simp [liveLeafs]

theorem liveLeafs_same_deleted (m m1 : Mem)
    (h : ∀ a, (m1.el a).Deleted = (m.el a).Deleted) (l : List Nat) :
    liveLeafs m1 l = liveLeafs m l := by
  unfold liveLeafs
  apply List.filter_congr
  intro a _
  rw [h]

theorem liveLeafs_mono (m m1 : Mem)
    (h : ∀ a, (m.el a).Deleted = true → (m1.el a).Deleted = true) (l : List Nat) :
    liveLeafs m1 l = (liveLeafs m l).filter (fun a => !(m1.el a).Deleted) := by
  unfold liveLeafs
  rw [List.filter_filter]
  apply List.filter_congr
  intro a _
  cases hd : (m.el a).Deleted with
  | true => rw [h a hd]; rfl
  | false => simp

theorem liveLeafs_mono_length (m m1 : Mem)
    (h : ∀ a, (m.el a).Deleted = true → (m1.el a).Deleted = true) (l : List Nat) :
    (liveLeafs m1 l).length ≤ (liveLeafs m l).length := by
  rw [liveLeafs_mono m m1 h l]
  exact List.length_filter_le _ _

theorem leafAt_split (m : Mem) (pre rest : List Nat) (el : Nat)
    (hdel : ¬ (m.el el).Deleted = true) :
    leafAt m ((liveLeafs m pre).length : Int) (pre ++ el :: rest) = some el := by
  rw [leafAt_nat, liveLeafs_append]
  have : liveLeafs m (el :: rest) = el :: liveLeafs m rest := by
    simp [liveLeafs, hdel]
  rw [this, List.getElem?_append_right (le_refl _)]
  simp

theorem liveLeafs_snoc_deleted (m : Mem) (pre : List Nat) (el : Nat)
    (hdel : (m.el el).Deleted = true) : liveLeafs m (pre ++ [el]) = liveLeafs m pre := by
  rw [liveLeafs_append]
  simp [liveLeafs, hdel]

theorem liveLeafs_snoc_live (m : Mem) (pre : List Nat) (el : Nat)
    (hdel : ¬ (m.el el).Deleted = true) :
    liveLeafs m (pre ++ [el]) = liveLeafs m pre ++ [el] := by
  rw [liveLeafs_append]
  simp [liveLeafs, hdel]

theorem ascend_steps_aux {U : Type} (pack : Pack) (fn : IterateFunc U) (hfn : wellBehaved fn) :
    ∀ (N F : Nat), N < F → ∀ (rest pre : List Nat) (i k : Nat) (pass i0 : Int) (m : Mem) (u : U),
      m.r.depth = 0 → m.r.flags ≠ 0 → m.r.iterators ≠ [] →
      (isFindingIteratorsIndexFromRootRequired m).1 = false →
      m.r.leafs = pre ++ rest →
      (liveLeafs m pre).length = k → k ≤ i →
      (liveLeafs m m.r.leafs).length ≤ i + N →
      i0 + pass = (i : Int) →
      (match ascendLeafsLoop fn rest (i : Int) (k : Int) pass (m, u) with
        | (p, true, _, s1) => ascendFromLoop pack fn F (i0 + p) s1
        | (_, false, err, s1) => some (err, s1)) = some (ascendSteps fn N (i : Int) (m, u)) := by
  intro N
  induction N using Nat.strong_induction_on with
  | _ N IH =>
    intro F hF rest
    induction rest with
    | nil =>
      intro pre i k pass i0 m u hd hf hit htop hls hk hki hN hi0
      have hnone : leafAt m (i : Int) m.r.leafs = none := by
        rw [leafAt_nat, hls, List.append_nil]
        exact List.getElem?_eq_none (by omega)
      have hs : ascendSteps fn N (i : Int) (m, u) = (none, (m, u)) := by
        cases N with
        | zero => rfl
        | succ n =>
          unfold ascendSteps
          simp only [hnone]
      rw [hs]
      rfl
    | cons el rest ih =>
      intro pre i k pass i0 m u hd hf hit htop hls hk hki hN hi0
      have hls1 : m.r.leafs = (pre ++ [el]) ++ rest := by rw [hls]; simp
      unfold ascendLeafsLoop
      simp only []
      by_cases hdel : (m.el el).Deleted = true
      · rw [if_pos hdel]
        exact ih (pre ++ [el]) i k pass i0 m u hd hf hit htop hls1
          (by rw [liveLeafs_snoc_deleted m pre el hdel]; exact hk) hki hN hi0
      · rw [if_neg hdel]
        have hlive1 : (liveLeafs m (pre ++ [el])).length = k + 1 := by
          rw [liveLeafs_snoc_live m pre el hdel, List.length_append, hk]; rfl
        by_cases hsk : (k : Int) < (i : Int)
        · rw [if_pos hsk]
          have := ih (pre ++ [el]) i (k + 1) pass i0 m u hd hf hit htop hls1 hlive1
            (by omega) hN hi0
          rw [Nat.cast_add, Nat.cast_one] at this
          exact this
        · rw [if_neg hsk]
          have hki1 : k = i := by omega
          have hat : leafAt m (i : Int) m.r.leafs = some el := by
            rw [hls, ← hki1, ← hk]
            exact leafAt_split m pre rest el hdel
          have hcount : i + 1 ≤ (liveLeafs m m.r.leafs).length := by
            rw [hls1, liveLeafs_append, List.length_append, hlive1]
            omega
          obtain ⟨N1, rfl⟩ : ∃ N1, N = N1 + 1 := ⟨N - 1, by omega⟩
          have hwb := hfn (i : Int) (m.el el).Hash (m, u) hd hf hit
          unfold ascendSteps
          simp only [hat]
          generalize fn (i : Int) (m.el el).Hash (m, u) = res at hwb ⊢
          obtain ⟨err, m1, u1⟩ := res
          obtain ⟨wd, wl, wf, wi, wmono, wtop, wsame⟩ := hwb
          simp only [] at wd wl wf wi wmono wtop wsame
          have hit1 : m1.r.iterators ≠ [] := by
            intro hc
            rw [hc] at wi
            exact hit (List.length_eq_zero.mp wi.symm)
          cases err with
          | some e => rfl
          | none =>
            simp only []
            by_cases hb : (isFindingIteratorsIndexFromRootRequired m1).1 = true
            · obtain ⟨fe, fd, fl, ff, _, fit, ftop⟩ := isFinding_true m1 hb
              have hpair : isFindingIteratorsIndexFromRootRequired m1 =
                  (true, (isFindingIteratorsIndexFromRootRequired m1).2) := by
                rw [← hb]
              rw [hpair]
              simp only []
              obtain ⟨F1, rfl⟩ : ∃ F1, F = F1 + 1 := ⟨F - 1, by omega⟩
              unfold ascendFromLoop
              have hd2 : (isFindingIteratorsIndexFromRootRequired m1).2.r.depth = 0 := by
                rw [fd, wd, hd]
              simp only [hd2]
              unfold ascend ascendLeafs
              have hel : ∀ a, ((isFindingIteratorsIndexFromRootRequired m1).2.el a) = m1.el a := by
                intro a; simp only [Mem.el, fe]
              have hmono2 : ∀ a, (m.el a).Deleted = true →
                  ((isFindingIteratorsIndexFromRootRequired m1).2.el a).Deleted = true := by
                intro a ha; rw [hel]; exact wmono a ha
              have := IH N1 (by omega) F1 (by omega)
                (isFindingIteratorsIndexFromRootRequired m1).2.r.leafs [] (i + 1) 0 0
                ((i + 1 : Nat) : Int) (isFindingIteratorsIndexFromRootRequired m1).2 u1
                hd2 (by rw [ff, wf]; exact hf) fit ftop (by simp) (by simp [liveLeafs]) (by omega)
                (by
                  have := liveLeafs_mono_length m _ hmono2
                    (isFindingIteratorsIndexFromRootRequired m1).2.r.leafs
                  rw [fl, wl] at this ⊢
                  omega)
                (by simp)
              have e1 : i0 + (pass + 1) = ((i + 1 : Nat) : Int) := by push_cast; omega
              have e2 : (i : Int) + 1 = ((i + 1 : Nat) : Int) := by push_cast; rfl
              rw [e1, e2]
              exact this
            · have hb1 : (isFindingIteratorsIndexFromRootRequired m1).1 = false := by
                cases hx : (isFindingIteratorsIndexFromRootRequired m1).1 with
                | true => exact absurd hx hb
                | false => rfl
              rw [isFinding_false m1 hit1 hb1]
              simp only []
              have hsame := wsame hb1
              have := IH N1 (by omega) F (by omega) rest (pre ++ [el]) (i + 1) (k + 1)
                (pass + 1) i0 m1 u1 (by rw [wd, hd]) (by rw [wf]; exact hf) hit1 hb1
                (by rw [wl]; exact hls1)
                (by rw [liveLeafs_same_deleted m m1 hsame]; exact hlive1) (by omega)
                (by rw [liveLeafs_same_deleted m m1 hsame, wl]; omega)
                (by push_cast; omega)
              rw [Nat.cast_add, Nat.cast_one, Nat.cast_add, Nat.cast_one] at this
              exact this

theorem Ascend_steps {U : Type} (pack : Pack) (fn : IterateFunc U) (hfn : wellBehaved fn)
    (m : Mem) (u : U) (fuel : Nat) (hinit : m.r.flags ≠ 0) (hd : m.r.depth = 0)
    (hlen : 0 < m.r.length) (hfuel : m.r.leafs.length + 2 ≤ fuel) :
    Ascend fuel pack fn (m, u) =
      some (if (ascendSteps fn m.r.leafs.length 0 (startIterating m, u)).1 =
            some Error.ErrStopIteration then none
          else (ascendSteps fn m.r.leafs.length 0 (startIterating m, u)).1,
        (stopIterating (ascendSteps fn m.r.leafs.length 0 (startIterating m, u)).2.1,
          (ascendSteps fn m.r.leafs.length 0 (startIterating m, u)).2.2)) := by
  have hv : validateIndex 0 m.r.length = none := by
    simp [validateIndex]
    omega
  have hz : ¬ m.r.length = 0 := by omega
  obtain ⟨F, rfl⟩ : ∃ F, fuel = F + 1 := ⟨fuel - 1, by omega⟩
  have hloop : ascendFromLoop pack fn (F + 1) 0 (startIterating m, u) =
      some (ascendSteps fn m.r.leafs.length 0 (startIterating m, u)) := by
    unfold ascendFromLoop
    have hd0 : (startIterating m, u).1.r.depth = 0 := hd
    rw [hd0]
    simp only [ascend, ascendLeafs]
    have := ascend_steps_aux pack fn hfn m.r.leafs.length F (by omega)
      (startIterating m).r.leafs [] 0 0 0 0 (startIterating m) u hd hinit
      (by simp [startIterating, Mem.setR])
      (by rw [isFinding_after_start]) (by simp) (by simp [liveLeafs]) (le_refl _)
      (by
        have : (liveLeafs (startIterating m) (startIterating m).r.leafs).length ≤
            (startIterating m).r.leafs.length := List.length_filter_le _ _
        have e : (startIterating m).r.leafs = m.r.leafs := rfl
        rw [e] at this ⊢
        omega)
      (by simp)
    simp only [Nat.cast_zero] at this
    exact this
  simp only [Ascend, ascendFrom, initRefs, hinit, ne_eq, not_false_eq_true, if_true, hv, hz,
    if_false, hloop]

theorem isFinding_fst_congr (m m1 : Mem) (h : m1.r.iterators = m.r.iterators) :
    (isFindingIteratorsIndexFromRootRequired m1).1 =
      (isFindingIteratorsIndexFromRootRequired m).1 := by
  unfold isFindingIteratorsIndexFromRootRequired
  simp only [h]
  split
  · rfl
  · split <;> rfl

theorem mutatedFrom_refl (m : Mem) : mutatedFrom m m :=
  ⟨rfl, rfl, rfl, rfl, fun _ h => h, fun h => h, fun _ _ => rfl⟩

theorem mutatedFrom_trans {m m1 m2 : Mem} (h1 : mutatedFrom m m1) (h2 : mutatedFrom m1 m2) :
    mutatedFrom m m2 := by
  obtain ⟨a1, a2, a3, a4, a5, a6, a7⟩ := h1
  obtain ⟨b1, b2, b3, b4, b5, b6, b7⟩ := h2
  refine ⟨b1.trans a1, b2.trans a2, b3.trans a3, b4.trans a4, fun a h => b5 a (a5 a h),
    fun h => b6 (a6 h), fun h a => ?_⟩
  have h1f : (isFindingIteratorsIndexFromRootRequired m1).1 = false := by
    cases hx : (isFindingIteratorsIndexFromRootRequired m1).1 with
    | false => rfl
    | true => rw [b6 hx] at h; cases h
  rw [b7 h a, a7 h1f a]

theorem sameButIndex_iterators {m1 m2 : Mem} (h : sameButIndex m1 m2) :
    m2.r.iterators = m1.r.iterators := by
  obtain ⟨idx, hr⟩ := h
  rw [hr]

theorem deleteElement_iterators (e : Nat) (m : Mem) :
    (deleteElement e m).r.iterators =
      if m.r.iterators.length > 0 then m.r.iterators.set (m.r.iterators.length - 1) true
      else m.r.iterators := by
  have hs := sameButIndex_iterators (delElementFromIndex_same (m.el e).Hash e m)
  unfold deleteElement
  simp only [makeDeleted, Mem.setEl, Mem.setR]
  split
  · rw [hs]
    split <;> rfl
  · split <;> rfl

theorem mutatedFrom_delete (e : Nat) (m : Mem) (hit : m.r.iterators ≠ []) :
    mutatedFrom m ((deleteElement e m).setR
      { (deleteElement e m).r with length := (deleteElement e m).r.length - 1 }) := by
  obtain ⟨ff, fd, fl, fb, fn⟩ := deleteElement_fields e m
  have hpos : m.r.iterators.length > 0 := List.length_pos.mpr hit
  have hits := deleteElement_iterators e m
  rw [if_pos hpos] at hits
  have htop : (isFindingIteratorsIndexFromRootRequired ((deleteElement e m).setR
      { (deleteElement e m).r with length := (deleteElement e m).r.length - 1 })).1 = true := by
    unfold isFindingIteratorsIndexFromRootRequired
    simp only [Mem.setR, hits, List.length_set]
    rw [if_neg (by omega)]
    have : (m.r.iterators.set (m.r.iterators.length - 1) true).getD
        (m.r.iterators.length - 1) false = true := by
      rw [List.getD_eq_getElem?_getD, List.getElem?_set]
      have : m.r.iterators.length - 1 < m.r.iterators.length := by omega
      simp [this]
    rw [if_pos this]
  refine ⟨fd, fl, ff, ?_, ?_, fun _ => htop, fun h => ?_⟩
  · simp only [Mem.setR, hits, List.length_set]
  · intro a ha
    have : ((deleteElement e m).setR
      { (deleteElement e m).r with length := (deleteElement e m).r.length - 1 }).el a =
        (deleteElement e m).el a := rfl
    rw [this, deleteElement_el]
    split
    · rfl
    · exact ha
  · rw [htop] at h; cases h

theorem mutatedFrom_setLeafHash (hash : SHA256) (e : Nat) (m : Mem) :
    mutatedFrom m (setLeafHash hash e m) := by
  have hs := setLeafHash_same hash e m
  obtain ⟨f1, f2, f3, f4, f5, f6⟩ := sameButIndex_fields hs
  have hi := sameButIndex_iterators hs
  have ht := isFinding_fst_congr m _ hi
  exact ⟨f3, f1, f6, by rw [hi], fun a ha => by rw [setLeafHash_deleted]; exact ha,
    fun h => by rw [ht]; exact h, fun _ a => setLeafHash_deleted hash e m a⟩

theorem DeleteByIndex_mutated (pack : Pack) (j : Int) (m : Mem) (hd : m.r.depth = 0)
    (hf : m.r.flags ≠ 0) (hit : m.r.iterators ≠ []) :
    mutatedFrom m (DeleteByIndex pack j m).2 := by
  have h0 : initRefs pack m = (none, m) := by simp [initRefs, hf]
  unfold DeleteByIndex
  rw [h0]
  simp only []
  split
  · exact mutatedFrom_refl m
  · rw [hd]
    unfold deleteByIndex
    rw [deleteByIndexLeafs_eq]
    cases leafAt m j m.r.leafs with
    | none => exact mutatedFrom_refl m
    | some e => exact mutatedFrom_delete e m hit

theorem SetHashByIndex_mutated (pack : Pack) (j : Int) (hash : SHA256) (m : Mem)
    (hd : m.r.depth = 0) (hf : m.r.flags ≠ 0) :
    mutatedFrom m (SetHashByIndex pack j hash m).2 := by
  have h0 : initRefs pack m = (none, m) := by simp [initRefs, hf]
  unfold SetHashByIndex
  rw [h0]
  simp only []
  split
  · exact mutatedFrom_refl m
  · rw [hd]
    unfold setHashByIndex
    rw [setHashByIndexLeafs_eq]
    cases leafAt m j m.r.leafs with
    | none => exact mutatedFrom_refl m
    | some e => exact mutatedFrom_setLeafHash hash e m

theorem mutatedFrom_inv {m m1 : Mem} (h : mutatedFrom m m1) (hd : m.r.depth = 0)
    (hf : m.r.flags ≠ 0) (hit : m.r.iterators ≠ []) :
    m1.r.depth = 0 ∧ m1.r.flags ≠ 0 ∧ m1.r.iterators ≠ [] := by
  obtain ⟨a1, a2, a3, a4, _, _, _⟩ := h
  refine ⟨a1.trans hd, by rw [a3]; exact hf, ?_⟩
  intro hc
  rw [hc] at a4
  exact hit (List.length_eq_zero.mp a4.symm)

theorem applyOps_mutated (pack : Pack) (ops : List RefsOp) :
    ∀ m : Mem, m.r.depth = 0 → m.r.flags ≠ 0 → m.r.iterators ≠ [] →
      mutatedFrom m (applyOps pack ops m) := by
  induction ops with
  | nil => intro m _ _ _; exact mutatedFrom_refl m
  | cons op rest ih =>
    intro m hd hf hit
    cases op with
    | delete j =>
      have h1 := DeleteByIndex_mutated pack j m hd hf hit
      obtain ⟨d1, f1, i1⟩ := mutatedFrom_inv h1 hd hf hit
      exact mutatedFrom_trans h1 (ih _ d1 f1 i1)
    | setHash j hash =>
      have h1 := SetHashByIndex_mutated pack j hash m hd hf
      obtain ⟨d1, f1, i1⟩ := mutatedFrom_inv h1 hd hf hit
      exact mutatedFrom_trans h1 (ih _ d1 f1 i1)

theorem wellBehaved_of_ops {U : Type} (pack : Pack) (fn : IterateFunc U)
    (h : mutatesByOps pack fn) : wellBehaved fn := by
  intro i hh s hd hf hit
  obtain ⟨ops, e⟩ := h i hh s
  rw [e]
  exact applyOps_mutated pack ops s.1 hd hf hit

theorem traced_ops {U : Type} (pack : Pack) (fn : IterateFunc U)
    (h : mutatesByOps pack fn) : mutatesByOps pack (traced fn) := by
  intro i hh s
  exact h i hh (s.1, s.2.1)

theorem getElem?_filter_ge {α : Type} (q : α → Bool) :
    ∀ (l : List α) (p : Nat) (x : α), (l.filter q)[p]? = some x →
      ∃ p1, p ≤ p1 ∧ l[p1]? = some x := by
  intro l
  induction l with
  | nil => intro p x h; simp at h
  | cons a l ih =>
    intro p x h
    by_cases hq : q a = true
    · rw [List.filter_cons_of_pos hq] at h
      cases p with
      | zero => exact ⟨0, le_refl _, by simpa using h⟩
      | succ p0 =>
        obtain ⟨p1, hle, hp1⟩ := ih p0 x (by simpa using h)
        exact ⟨p1 + 1, by omega, by simpa using hp1⟩
    · rw [List.filter_cons_of_neg hq] at h
      obtain ⟨p1, hle, hp1⟩ := ih p x h
      exact ⟨p1 + 1, by omega, by simpa using hp1⟩

theorem isFinding_snd (m : Mem) :
    (isFindingIteratorsIndexFromRootRequired m).2.els = m.els ∧
    (isFindingIteratorsIndexFromRootRequired m).2.r.depth = m.r.depth ∧
    (isFindingIteratorsIndexFromRootRequired m).2.r.leafs = m.r.leafs ∧
    (isFindingIteratorsIndexFromRootRequired m).2.r.flags = m.r.flags ∧
    (isFindingIteratorsIndexFromRootRequired m).2.r.length = m.r.length ∧
    (m.r.iterators ≠ [] → (isFindingIteratorsIndexFromRootRequired m).2.r.iterators ≠ []) := by
  cases hb : (isFindingIteratorsIndexFromRootRequired m).1 with
  | true =>
    obtain ⟨a1, a2, a3, a4, a5, a6, _⟩ := isFinding_true m hb
    exact ⟨a1, a2, a3, a4, a5, fun _ => a6⟩
  | false =>
    by_cases hit : m.r.iterators = []
    · refine ⟨?_, ?_, ?_, ?_, ?_, fun h => absurd hit h⟩ <;>
        simp [isFindingIteratorsIndexFromRootRequired, hit]
    · rw [isFinding_false m hit hb]
      exact ⟨rfl, rfl, rfl, rfl, rfl, fun h => h⟩

theorem ascendSteps_traced {U : Type} (fn : IterateFunc U) (hfn : wellBehaved fn)
    (ls : List Nat) (hnd : ls.Nodup) :
    ∀ (N i : Nat) (m : Mem) (u : U) (T : List (Int × SHA256 × Mem)),
      m.r.depth = 0 → m.r.flags ≠ 0 → m.r.iterators ≠ [] → m.r.leafs = ls →
      T.length = i → traceOk T →
      (∀ e, some e ∈ T.map passedLeaf → ∀ p, (liveLeafs m ls)[p]? = some e → p < i) →
      traceOk (ascendSteps (traced fn) N (i : Int) (m, (u, T))).2.2.2 := by
  intro N
  induction N with
  | zero => intro i m u T _ _ _ _ _ hT _; exact hT
  | succ N ih =>
    intro i m u T hd hf hit hls hlen hT hJ
    unfold ascendSteps
    simp only []
    cases hat : leafAt m (i : Int) m.r.leafs with
    | none => exact hT
    | some e =>
      simp only []
      have hlive : (liveLeafs m ls)[i]? = some e := by
        rw [← leafAt_nat, ← hls]; exact hat
      have hmem : e ∈ liveLeafs m ls := List.getElem?_mem hlive
      have hdel : (m.el e).Deleted = false := ((liveLeafs_mem m ls e).mp hmem).2
      have hwb := hfn (i : Int) (m.el e).Hash (m, u) hd hf hit
      have hpl : passedLeaf ((i : Int), (m.el e).Hash, m) = some e := hat
      -- the extended trace
      have hT1 : traceOk (T ++ [((i : Int), (m.el e).Hash, m)]) := by
        refine ⟨?_, ?_⟩
        · intro k c hk
          by_cases hlt : k < T.length
          · rw [List.getElem?_append_left hlt] at hk
            exact hT.1 k c hk
          · have hge : T.length ≤ k := by omega
            rw [List.getElem?_append_right hge] at hk
            have hk0 : k - T.length = 0 := by
              by_contra hne
              have : ([((i : Int), (m.el e).Hash, m)] : List (Int × SHA256 × Mem))[k - T.length]? =
                  none := List.getElem?_eq_none (by simp; omega)
              rw [this] at hk
              cases hk
            rw [hk0] at hk
            simp only [List.getElem?_cons_zero, Option.some.injEq] at hk
            have hki : k = i := by omega
            subst hk
            subst hki
            refine ⟨rfl, e, ?_, hdel, rfl, hpl⟩
            simp only []
            rw [hls]
            exact hlive
        · rw [List.map_append, List.map_singleton, hpl]
          apply List.Nodup.append hT.2 (List.nodup_singleton _)
          intro x hx1 hx2
          rw [List.mem_singleton] at hx2
          subst hx2
          exact absurd (hJ e hx1 i hlive) (lt_irrefl i)
      have hres : traced fn (i : Int) (m.el e).Hash (m, (u, T)) =
          ((fn (i : Int) (m.el e).Hash (m, u)).1, ((fn (i : Int) (m.el e).Hash (m, u)).2.1,
            ((fn (i : Int) (m.el e).Hash (m, u)).2.2, T ++ [((i : Int), (m.el e).Hash, m)]))) := rfl
      rw [hres]
      generalize fn (i : Int) (m.el e).Hash (m, u) = res at hwb ⊢
      obtain ⟨err, m1, u1⟩ := res
      simp only [] at hwb ⊢
      cases err with
      | some er => exact hT1
      | none =>
        simp only []
        obtain ⟨wd, wl, wf, wi, wmono, _, _⟩ := hwb
        obtain ⟨d1, f1, i1⟩ := mutatedFrom_inv ⟨wd, wl, wf, wi, wmono, ‹_›, ‹_›⟩ hd hf hit
        obtain ⟨se, sd, sl, sf, _, sit⟩ := isFinding_snd m1
        have e2 : (i : Int) + 1 = ((i + 1 : Nat) : Int) := by push_cast; rfl
        rw [e2]
        apply ih (i + 1) _ u1 _ (by rw [sd]; exact d1) (by rw [sf]; exact f1) (sit i1)
          (by rw [sl, wl]; exact hls) (by simp [hlen]) hT1
        intro x hx p hp
        have hel : ∀ a, ((isFindingIteratorsIndexFromRootRequired m1).2.el a) = m1.el a := by
          intro a; simp only [Mem.el, se]
        have hmono2 : ∀ a, (m.el a).Deleted = true →
            ((isFindingIteratorsIndexFromRootRequired m1).2.el a).Deleted = true := by
          intro a ha; rw [hel]; exact wmono a ha
        rw [liveLeafs_mono m _ hmono2 ls] at hp
        obtain ⟨p1, hle, hp1⟩ := getElem?_filter_ge _ _ p x hp
        rw [List.map_append, List.mem_append] at hx
        cases hx with
        | inl hx1 =>
          have := hJ x hx1 p1 hp1
          omega
        | inr hx2 =>
          rw [List.map_singleton, hpl, List.mem_singleton, Option.some.injEq] at hx2
          subst hx2
          have hi_lt : i < (liveLeafs m ls).length := (List.getElem?_eq_some.mp hlive).1
          have := List.getElem?_inj hi_lt (liveLeafs_nodup m ls hnd) (hlive.trans hp1.symm)
          omega

theorem evenDelete_ops (pack : Pack) : mutatesByOps pack (evenDeleteFunc pack) := by
  intro i h s
  by_cases hi : i % 2 = 0
  · exact ⟨[RefsOp.delete i], by simp [evenDeleteFunc, hi, applyOps]⟩
  · exact ⟨[], by simp [evenDeleteFunc, hi, applyOps]⟩

/-- C25.  For every initialized `Refs` of depth 0 with at least one element
whose leaf list has no repetition, and every callback that changes the memory
only through `DeleteByIndex` and `SetHashByIndex`: `Ascend` (with fuel for
one round per leaf and two more) returns, and the record of its invocations
shows that invocation number `k` was given the index `k` and the hash of the
`k`-th non-deleted leaf of the tree as it was at that moment, that leaf not
being deleted, and that no leaf was passed twice. -/
theorem rewind_soundness {U : Type} (pack : Pack) (fn : IterateFunc U) (m : Mem) (u : U)
    (fuel : Nat) (hinit : m.r.flags ≠ 0) (hd : m.r.depth = 0) (hnd : m.r.leafs.Nodup)
    (hlen : 0 < m.r.length) (hops : mutatesByOps pack fn)
    (hfuel : m.r.leafs.length + 2 ≤ fuel) :
    ∃ r, Ascend fuel pack (traced fn) (m, (u, [])) = some r ∧
      (∀ (k : Nat) (c : Int × SHA256 × Mem), r.2.2.2[k]? = some c → c.1 = (k : Int) ∧
        ∃ e, (liveLeafs c.2.2 c.2.2.r.leafs)[k]? = some e ∧ (c.2.2.el e).Deleted = false ∧
          c.2.1 = (c.2.2.el e).Hash ∧ passedLeaf c = some e) ∧
      (r.2.2.2.map passedLeaf).Nodup := by
  have hwb := wellBehaved_of_ops pack (traced fn) (traced_ops pack fn hops)
  refine ⟨_, Ascend_steps pack (traced fn) hwb m (u, []) fuel hinit hd hlen hfuel, ?_⟩
  have := ascendSteps_traced fn (wellBehaved_of_ops pack fn hops) m.r.leafs hnd
    m.r.leafs.length 0 (startIterating m) u [] hd hinit (by simp [startIterating, Mem.setR])
    rfl rfl ⟨fun k c h => by simp at h, by simp⟩ (fun e h => by simp at h)
  exact this

/-- C25 at the flat `Refs` with leafs `7, 8, 9, 10` and the callback that
deletes at even indices: the invocations are `(0, 7)`, `(1, 9)`, `(2, 10)`. -/
theorem rewind_soundness_witness :
    (flatMem [7, 8, 9, 10] flagIsSet none).r.flags ≠ 0 ∧
    (flatMem [7, 8, 9, 10] flagIsSet none).r.depth = 0 ∧
    (flatMem [7, 8, 9, 10] flagIsSet none).r.leafs.Nodup ∧
    mutatesByOps emptyPack (evenDeleteFunc emptyPack) ∧
    (Ascend 6 emptyPack (traced (evenDeleteFunc emptyPack))
        (flatMem [7, 8, 9, 10] flagIsSet none, (0, []))).map
      (fun r => r.2.2.2.map (fun c => (c.1, c.2.1))) = some [(0, 7), (1, 9), (2, 10)] ∧
    ∃ r, Ascend 6 emptyPack (traced (evenDeleteFunc emptyPack))
        (flatMem [7, 8, 9, 10] flagIsSet none, (0, [])) = some r ∧
      (∀ (k : Nat) (c : Int × SHA256 × Mem), r.2.2.2[k]? = some c → c.1 = (k : Int) ∧
        ∃ e, (liveLeafs c.2.2 c.2.2.r.leafs)[k]? = some e ∧ (c.2.2.el e).Deleted = false ∧
          c.2.1 = (c.2.2.el e).Hash ∧ passedLeaf c = some e) ∧
      (r.2.2.2.map passedLeaf).Nodup :=
  ⟨by decide, by decide, by decide, evenDelete_ops emptyPack, by decide,
   rewind_soundness emptyPack (evenDeleteFunc emptyPack) (flatMem [7, 8, 9, 10] flagIsSet none) 0 6
     (by decide) (by decide) (by decide) (by decide) (evenDelete_ops emptyPack) (by decide)⟩

theorem evenDeleteRun_closed :
    ∀ (f i n : Nat), n ≤ i + f →
      evenDeleteRun f i n =
        if i % 2 = 0 then ((2 * (n - i) + 1) / 3, n - (n - i + 2) / 3)
        else ((2 * (n - i) + 2) / 3, n - (n - i + 1) / 3) := by
  intro f
  induction f with
  | zero =>
    intro i n h
    have : n - i = 0 := by omega
    simp [evenDeleteRun, this]
  | succ f ih =>
    intro i n h
    unfold evenDeleteRun
    by_cases hlt : i < n
    · rw [if_pos hlt]
      by_cases hev : i % 2 = 0
      · rw [if_pos hev, if_pos hev, ih (i + 1) (n - 1) (by omega)]
        have hodd : ¬ (i + 1) % 2 = 0 := by omega
        rw [if_neg hodd]
        ext
        · simp only []; omega
        · simp only []; omega
      · rw [if_neg hev, if_neg hev, ih (i + 1) n (by omega)]
        have hev1 : (i + 1) % 2 = 0 := by omega
        rw [if_pos hev1]
        ext
        · simp only []; omega
        · simp only []; omega
    · rw [if_neg hlt]
      have : n - i = 0 := by omega
      split <;> simp [this]

theorem flat_congr (m m1 : Mem) (he : m1.els = m.els) (hf : m1.r.flags = m.r.flags)
    (hd : m1.r.depth = m.r.depth) (hl : m1.r.length = m.r.length)
    (hls : m1.r.leafs = m.r.leafs) : m1.flat = m.flat := by
  have hel : ∀ a, m1.el a = m.el a := by intro a; simp only [Mem.el, he]
  have hlive : ∀ l, liveLeafs m1 l = liveLeafs m l := by
    intro l
    exact liveLeafs_same_deleted m m1 (fun a => by rw [hel]) l
  simp only [Mem.flat, hf, hd, hl, hls, hlive, he, hel]

theorem isFinding_flat (m : Mem) (h : m.flat = true) :
    (isFindingIteratorsIndexFromRootRequired m).2.flat = true ∧
    (isFindingIteratorsIndexFromRootRequired m).2.r.length = m.r.length := by
  obtain ⟨se, sd, sl, sf, sn, _⟩ := isFinding_snd m
  exact ⟨(flat_congr m _ se sf sd sn sl).trans h, sn⟩

theorem stopIterating_flat (m : Mem) (h : m.flat = true) :
    (stopIterating m).flat = true ∧ (stopIterating m).r.length = m.r.length := by
  unfold stopIterating
  split
  · exact ⟨(flat_congr m _ rfl rfl rfl rfl rfl).trans h, rfl⟩
  · exact ⟨(flat_congr m _ rfl rfl rfl rfl rfl).trans h, rfl⟩

theorem startIterating_flat (m : Mem) (h : m.flat = true) :
    (startIterating m).flat = true ∧ (startIterating m).r.length = m.r.length :=
  ⟨(flat_congr m _ rfl rfl rfl rfl rfl).trans h, rfl⟩

theorem ascendSteps_evenDelete (pack : Pack) :
    ∀ (N i n : Nat) (m : Mem) (c : Nat), m.flat = true → m.r.length = (n : Int) →
      (ascendSteps (evenDeleteFunc pack) N (i : Int) (m, c)).1 = none ∧
      (ascendSteps (evenDeleteFunc pack) N (i : Int) (m, c)).2.2 = c + (evenDeleteRun N i n).1 ∧
      (ascendSteps (evenDeleteFunc pack) N (i : Int) (m, c)).2.1.flat = true ∧
      (ascendSteps (evenDeleteFunc pack) N (i : Int) (m, c)).2.1.r.length =
        ((evenDeleteRun N i n).2 : Int) := by
  intro N
  induction N with
  | zero => intro i n m c hflat hn; exact ⟨rfl, rfl, hflat, hn⟩
  | succ N ih =>
    intro i n m c hflat hn
    obtain ⟨hinit, hd, hlen, hnd, hval⟩ := flat_facts m hflat
    have hcount : (liveLeafs m m.r.leafs).length = n := by
      rw [hn] at hlen; exact_mod_cast hlen.symm
    unfold ascendSteps evenDeleteRun
    simp only []
    rw [leafAt_nat]
    by_cases hlt : i < n
    · rw [if_pos hlt]
      have hi1 : i < (liveLeafs m m.r.leafs).length := by omega
      rw [List.getElem?_eq_getElem hi1]
      simp only []
      have hseq : i < m.liveSeq.length := by
        rw [liveSeq_flat m hd, List.length_map]; exact hi1
      by_cases hev : i % 2 = 0
      · have hev1 : (i : Int) % 2 = 0 := by omega
        obtain ⟨e, he, hdel⟩ := DeleteByIndex_flat pack m i hflat hseq
        obtain ⟨aflat, _, alen⟩ := after_delete m i e hflat he
        have hfn : evenDeleteFunc pack (i : Int) (m.el (liveLeafs m m.r.leafs)[i]).Hash (m, c) =
            (none, ((deleteElement e m).setR
              { (deleteElement e m).r with length := (deleteElement e m).r.length - 1 }, c + 1)) := by
          simp only [evenDeleteFunc, hev1, if_true, hdel]
        rw [hfn]
        simp only []
        obtain ⟨f2, l2⟩ := isFinding_flat _ aflat
        have hn2 : (isFindingIteratorsIndexFromRootRequired ((deleteElement e m).setR
              { (deleteElement e m).r with length := (deleteElement e m).r.length - 1 })).2.r.length
            = ((n - 1 : Nat) : Int) := by
          rw [l2, alen, hn]; omega
        have := ih (i + 1) (n - 1) _ (c + 1) f2 hn2
        rw [if_pos hev]
        have e2 : (i : Int) + 1 = ((i + 1 : Nat) : Int) := by push_cast; rfl
        rw [e2]
        refine ⟨this.1, ?_, this.2.2.1, this.2.2.2⟩
        rw [this.2.1]
        omega
      · have hev1 : ¬ (i : Int) % 2 = 0 := by omega
        have hfn : evenDeleteFunc pack (i : Int) (m.el (liveLeafs m m.r.leafs)[i]).Hash (m, c) =
            (none, (m, c + 1)) := by
          simp only [evenDeleteFunc, hev1, if_false]
        rw [hfn]
        simp only []
        obtain ⟨f2, l2⟩ := isFinding_flat _ hflat
        have := ih (i + 1) n _ (c + 1) f2 (by rw [l2]; exact hn)
        rw [if_neg hev]
        have e2 : (i : Int) + 1 = ((i + 1 : Nat) : Int) := by push_cast; rfl
        rw [e2]
        refine ⟨this.1, ?_, this.2.2.1, this.2.2.2⟩
        rw [this.2.1]
        omega
    · rw [if_neg hlt]
      rw [List.getElem?_eq_none (by omega)]
      exact ⟨rfl, rfl, hflat, hn⟩

/-- C24, amended.  For every well-formed `Refs` of depth 0 with `L >= 1` live
elements, `Ascend` (with fuel for one round per leaf and two more) with the
callback that calls `DeleteByIndex` on the index it is given when that index
is even returns nil, invokes the callback `(2 L + 1) / 3` times (rounded down)
and leaves a well-formed `Refs` of length `2 L / 3` (rounded down): after a
deletion at index `i` the traversal goes on with `i + 1` in the shrunk tree, so
the element that moved to position `i` is not visited. -/
theorem ascend_deleting_even_indices (pack : Pack) (m : Mem) (fuel : Nat)
    (hflat : m.flat = true) (hlen : 0 < m.r.length) (hfuel : m.r.leafs.length + 2 ≤ fuel) :
    ∃ m1, Ascend fuel pack (evenDeleteFunc pack) (m, 0) =
        some (none, (m1, (2 * m.liveSeq.length + 1) / 3)) ∧
      m1.flat = true ∧ m1.r.length = ((2 * m.liveSeq.length / 3 : Nat) : Int) := by
  obtain ⟨hinit, hd, hcount, hnd, hval⟩ := flat_facts m hflat
  have hwb := wellBehaved_of_ops pack (evenDeleteFunc pack) (evenDelete_ops pack)
  have hA := Ascend_steps pack (evenDeleteFunc pack) hwb m 0 fuel hinit hd hlen hfuel
  obtain ⟨sflat, slen⟩ := startIterating_flat m hflat
  have hE := ascendSteps_evenDelete pack m.r.leafs.length 0 (liveLeafs m m.r.leafs).length
    (startIterating m) 0 sflat (by rw [slen]; exact hcount)
  rw [Nat.cast_zero] at hE
  obtain ⟨h1, h2, h3, h4⟩ := hE
  have hle : (liveLeafs m m.r.leafs).length ≤ 0 + m.r.leafs.length := by
    rw [Nat.zero_add]; exact List.length_filter_le _ _
  rw [evenDeleteRun_closed _ _ _ hle] at h2 h4
  simp only [Nat.zero_mod, if_true, Nat.sub_zero, Nat.zero_add] at h2 h4
  have hseq : m.liveSeq.length = (liveLeafs m m.r.leafs).length := by
    rw [liveSeq_flat m hd, List.length_map]
  obtain ⟨tflat, tlen⟩ := stopIterating_flat _ h3
  refine ⟨stopIterating (ascendSteps (evenDeleteFunc pack) m.r.leafs.length 0
    (startIterating m, 0)).2.1, ?_, tflat, ?_⟩
  · rw [hA, h1, h2, hseq]
    simp
  · rw [tlen, h4, hseq]
    congr 1
    omega


/-- C24 as stated fails.  On the well-formed flat `Refs` with leafs
`7, 8, 9, 10` the callback is invoked 3 times, not 4 (the final length is 2,
the survivors are `8, 9`); on the one with the single leaf `7` it is invoked
once and the final length is 0, not 1. -/
theorem ascend_deleting_skips_elements :
    (flatMem [7, 8, 9, 10] flagIsSet none).wellFormed = true ∧
    (flatMem [7, 8, 9, 10] flagIsSet none).liveSeq = [7, 8, 9, 10] ∧
    (Ascend 6 emptyPack (evenDeleteFunc emptyPack)
        (flatMem [7, 8, 9, 10] flagIsSet none, 0)).map
      (fun r => (r.1, r.2.2, r.2.1.r.length, r.2.1.liveSeq)) = some (none, 3, 2, [8, 9]) ∧
    (flatMem [7] flagIsSet none).wellFormed = true ∧
    (Ascend 3 emptyPack (evenDeleteFunc emptyPack) (flatMem [7] flagIsSet none, 0)).map
      (fun r => (r.1, r.2.2, r.2.1.r.length, r.2.1.liveSeq)) = some (none, 1, 0, []) := by
  decide

/-- C24, amended, at the flat `Refs` with leafs `7, 8, 9, 10`. -/
theorem ascend_deleting_even_indices_witness :
    (flatMem [7, 8, 9, 10] flagIsSet none).flat = true ∧
    0 < (flatMem [7, 8, 9, 10] flagIsSet none).r.length ∧
    ∃ m1, Ascend 6 emptyPack (evenDeleteFunc emptyPack)
        (flatMem [7, 8, 9, 10] flagIsSet none, 0) =
        some (none, (m1, (2 * (flatMem [7, 8, 9, 10] flagIsSet none).liveSeq.length + 1) / 3)) ∧
      m1.flat = true ∧
      m1.r.length = ((2 * (flatMem [7, 8, 9, 10] flagIsSet none).liveSeq.length / 3 : Nat) : Int) :=
  ⟨by decide, by decide,
   ascend_deleting_even_indices emptyPack (flatMem [7, 8, 9, 10] flagIsSet none) 6
     (by decide) (by decide) (by decide)⟩

/-! ### The root hash under `DeleteByHash` -/

theorem isFinding_hash (m : Mem) :
    (isFindingIteratorsIndexFromRootRequired m).2.r.Hash = m.r.Hash := by
  unfold isFindingIteratorsIndexFromRootRequired
  simp only []
  split
  · rfl
  · split <;> rfl

theorem stopIterating_hash (m : Mem) : (stopIterating m).r.Hash = m.r.Hash := by
  unfold stopIterating
  split <;> rfl

theorem descendLeafsLoop_hash {U : Type} (fn : IterateFunc U)
    (hfn : ∀ i h s, (fn i h s).2.1.r.Hash = s.1.r.Hash) (l : List Nat) :
    ∀ (i si pass : Int) (s : Mem × U),
      (descendLeafsLoop fn l i si pass s).2.2.2.1.r.Hash = s.1.r.Hash := by
  induction l with
  | nil => intro i si pass s; rfl
  | cons el rest ih =>
    intro i si pass s
    unfold descendLeafsLoop
    split
    · exact ih i si pass s
    · split
      · exact ih i (si - 1) pass s
      · have hc := hfn i (s.1.el el).Hash s
        split
        · next err s1 he => rw [he] at hc; exact hc
        · next s1 he =>
          rw [he] at hc
          have hf := isFinding_hash s1.1
          split
          · next m2 hm => rw [hm] at hf; exact hf.trans hc
          · next m2 hm =>
            rw [hm] at hf
            rw [ih]
            exact hf.trans hc

theorem descendBranchesLoop_hash {U : Type} (pack : Pack) (depth : Nat) (upper : Option Nat)
    (sub : Int → Int → Nat → Mem × U → Int × Bool × Option Error × (Mem × U))
    (hsub : ∀ sj j br s, (sub sj j br s).2.2.2.1.r.Hash = s.1.r.Hash) (l : List Nat) :
    ∀ (i si pass : Int) (s : Mem × U),
      (descendBranchesLoop pack depth upper sub l i si pass s).2.2.2.1.r.Hash = s.1.r.Hash := by
  induction l with
  | nil => intro i si pass s; rfl
  | cons br rest ih =>
    intro i si pass s
    unfold descendBranchesLoop
    have hl := loadRefsNodeIfNeed_hash pack br depth upper s.1
    split
    · next err m1 he => rw [he] at hl; exact hl
    · next m1 he =>
      rw [he] at hl
      split
      · rw [ih]; exact hl
      · split
        · rw [ih]; exact hl
        · have hs := hsub si i br (m1, s.2)
          split
          next subpass rewind err s2 hc =>
          rw [hc] at hs
          split
          · exact hs.trans hl
          · rw [ih]; exact hs.trans hl

theorem descend_hash {U : Type} (pack : Pack) (fn : IterateFunc U)
    (hfn : ∀ i h s, (fn i h s).2.1.r.Hash = s.1.r.Hash) :
    ∀ (depth : Nat) (si i : Int) (upper : Option Nat) (leafs branches : List Nat) (s : Mem × U),
      (descend pack fn depth si i upper leafs branches s).2.2.2.1.r.Hash = s.1.r.Hash := by
  intro depth
  induction depth with
  | zero =>
    intro si i upper leafs branches s
    unfold descend descendLeafs
    exact descendLeafsLoop_hash fn hfn _ _ _ _ s
  | succ d ih =>
    intro si i upper leafs branches s
    unfold descend
    exact descendBranchesLoop_hash pack (d + 1) upper _
      (fun sj j br s1 => ih sj j (some br) _ _ s1) _ _ _ _ s

theorem descendFromLoop_hash {U : Type} (pack : Pack) (fn : IterateFunc U)
    (hfn : ∀ i h s, (fn i h s).2.1.r.Hash = s.1.r.Hash) (si : Int) :
    ∀ (fuel : Nat) (i : Int) (s : Mem × U) (r : Option Error × (Mem × U)),
      descendFromLoop pack fn si fuel i s = some r → r.2.1.r.Hash = s.1.r.Hash := by
  intro fuel
  induction fuel with
  | zero => intro i s r h; simp [descendFromLoop] at h
  | succ n ih =>
    intro i s r h
    unfold descendFromLoop at h
    have hd := descend_hash pack fn hfn s.1.r.depth si i none s.1.r.leafs s.1.r.branches s
    split at h
    · next pass _ s1 hc =>
      rw [hc] at hd
      exact (ih _ s1 r h).trans hd
    · next err s1 hc =>
      rw [hc] at hd
      simp only [Option.some.injEq] at h
      rw [← h]
      exact hd

theorem Descend_hash {U : Type} (fuel : Nat) (pack : Pack) (fn : IterateFunc U)
    (hfn : ∀ i h s, (fn i h s).2.1.r.Hash = s.1.r.Hash) (s : Mem × U) :
    ∀ r, Descend fuel pack fn s = some r → r.2.1.r.Hash = s.1.r.Hash := by
  intro r h
  unfold Descend at h
  have hi := initRefs_hash pack s.1
  split at h
  · next err m1 hc =>
    rw [hc] at hi
    simp only [Option.some.injEq] at h
    rw [← h]; exact hi
  · next m1 hc =>
    rw [hc] at hi
    unfold descendFrom at h
    simp only [] at h
    split at h
    · simp only [Option.some.injEq] at h
      rw [← h]; exact hi
    · split at h
      · simp only [Option.some.injEq] at h
        rw [← h]; exact hi
      · split at h
        · cases h
        · next err s2 hl =>
          have := descendFromLoop_hash pack fn hfn _ _ _ _ _ hl
          simp only [Option.some.injEq] at h
          rw [← h]
          simp only []
          rw [stopIterating_hash, this]
          exact hi

theorem bubbleLengths_hash :
    ∀ (fuel : Nat) (up : Option Nat) (m : Mem), (bubbleLengths fuel up m).r.Hash = m.r.Hash := by
  intro fuel
  induction fuel with
  | zero =>
    intro up m
    cases up with
    | none => rfl
    | some a => rfl
  | succ n ih =>
    intro up m
    cases up with
    | none => rfl
    | some a =>
      unfold bubbleLengths
      rw [ih]
      rfl

theorem delElementBubbling_hash (el : Nat) (m : Mem) :
    (delElementBubbling el m).r.Hash = m.r.Hash := by
  unfold delElementBubbling
  simp only []
  rw [deleteElement_hash]
  simp only [Mem.setR]
  exact bubbleLengths_hash _ _ m

theorem deleteByHashIndexLoop_hash (hash : SHA256) :
    ∀ (n k : Nat) (arr : List (Option Nat)) (m : Mem),
      (deleteByHashIndexLoop hash n k arr m).r.Hash = m.r.Hash := by
  intro n
  induction n with
  | zero => intro k arr m; rfl
  | succ n ih =>
    intro k arr m
    unfold deleteByHashIndexLoop
    split
    · rfl
    · simp only []
      rw [ih, delElementBubbling_hash]

theorem DeleteByHash_hash (fuel : Nat) (pack : Pack) (hash : SHA256) (m : Mem) :
    ∀ r, DeleteByHash fuel pack hash m = some r → r.2.r.Hash = m.r.Hash := by
  intro r h
  unfold DeleteByHash at h
  have hi := initRefs_hash pack m
  split at h
  · next err m1 hc =>
    rw [hc] at hi
    simp only [Option.some.injEq] at h
    rw [← h]; exact hi
  · next m1 hc =>
    rw [hc] at hi
    split at h
    · split at h
      · simp only [Option.some.injEq] at h
        rw [← h]; exact hi
      · simp only [Option.some.injEq] at h
        rw [← h]
        simp only []
        rw [deleteByHashIndexLoop_hash]
        exact hi
    · split at h
      · cases h
      · next err s1 hd =>
        have := Descend_hash fuel pack (deleteByHashFunc pack hash)
          (fun i hh s => by
            unfold deleteByHashFunc
            split
            · exact DeleteByIndex_hash pack i s.1
            · rfl) (m1, false) _ hd
        simp only [Option.some.injEq] at h
        rw [← h]
        exact this.trans hi

/-- C22, amended.  For every state, `SetHashByIndex`, `DeleteByIndex` and
`AppendHashes` leave the `Hash` field of the `Refs` as it was before the call,
whatever they change in the tree, and so does `DeleteByHash` whenever it
returns: no mutating operation recomputes the root hash. -/
theorem mutations_keep_root_hash (pack : Pack) (m : Mem) (i : Int) (hash : SHA256)
    (hashes : List SHA256) (fuel : Nat) :
    (SetHashByIndex pack i hash m).2.r.Hash = m.r.Hash ∧
    (DeleteByIndex pack i m).2.r.Hash = m.r.Hash ∧
    (AppendHashes pack hashes m).2.r.Hash = m.r.Hash ∧
    (∀ r, DeleteByHash fuel pack hash m = some r → r.2.r.Hash = m.r.Hash) :=
  ⟨SetHashByIndex_hash pack i hash m, DeleteByIndex_hash pack i m, AppendHashes_hash pack hashes m,
    DeleteByHash_hash fuel pack hash m⟩

/-- C32, evaluated where it fails.  The first operation on the `Refs` with root
hash `100` over `badDegreePack`, a `Len`, fails with `ErrInvalidEncodedRefs`
(degree 1).  The `Refs` then holds no element (its live sequence is empty),
yet the next `Len` returns `(3, nil)` and `HashByIndex(0)`, in range for that
length, returns `ErrInvalidRefs`: `load` stores the length of the record
before it validates it. -/
theorem failed_load_leaves_length_without_elements :
    (Len badDegreePack (blankMem 100)).2.1 = some Error.ErrInvalidEncodedRefs ∧
    (Len badDegreePack (blankMem 100)).2.2.liveSeq = [] ∧
    (Len badDegreePack (blankMem 100)).2.2.rootChildren = [] ∧
    (Len badDegreePack (Len badDegreePack (blankMem 100)).2.2).1 = 3 ∧
    (Len badDegreePack (Len badDegreePack (blankMem 100)).2.2).2.1 = none ∧
    (HashByIndex badDegreePack 0 (Len badDegreePack (blankMem 100)).2.2).2.1 =
      some Error.ErrInvalidRefs := by
  decide

/-- C33, evaluated where it fails.  `twoByTwo` is well-formed and fully loaded
with live sequence `11, 12, 13, 14`.  `DescendFrom(2)` invokes the callback with
`(2, 13)`, `(1, 11)` and stops, where `(2, 13)`, `(1, 12)`, `(0, 11)` are due,
and `DescendFrom(1)` does not invoke it at all; `DescendFrom(3)` is right.
After a branch that was entered in its middle the branch loop lowers `si` by
the number of elements passed, not by the length of the branch, and it enters
a branch also when `i == si - br.length`. -/
theorem descendFrom_misses_elements_below_the_root :
    twoByTwo.wellFormed = true ∧ twoByTwo.liveSeq = [11, 12, 13, 14] ∧
    (DescendFrom 5 emptyPack 2 logCalls (twoByTwo, [])).map (fun r => (r.1, r.2.2)) =
      some (none, [(2, 13), (1, 11)]) ∧
    (DescendFrom 5 emptyPack 1 logCalls (twoByTwo, [])).map (fun r => (r.1, r.2.2)) =
      some (none, []) ∧
    (DescendFrom 5 emptyPack 3 logCalls (twoByTwo, [])).map (fun r => (r.1, r.2.2)) =
      some (none, [(3, 14), (2, 13), (1, 12), (0, 11)]) := by
  decide

/-- C37, evaluated where it fails.  The flat `Refs` with leafs `7, 8, 9` is
inside an outer traversal (rewind stack `[false]`).  An inner `Ascend` whose
callback deletes the element it is given and returns nil ends with the outer
mark set (`[true]`).  If the callback returns `ErrStopIteration` or another
error after the deletion, the inner `Ascend` (and likewise `Descend`) returns
with the element deleted and the outer mark still `false`: the leaf loop
returns on an error before it looks at the rewind mark, and `stopIterating`
drops the mark of the inner traversal. -/
theorem inner_error_loses_the_rewind_mark :
    (startIterating (flatMem [7, 8, 9] flagIsSet none)).r.iterators = [false] ∧
    (Ascend 5 emptyPack (deleteAndReturn emptyPack none)
        (startIterating (flatMem [7, 8, 9] flagIsSet none), ())).map
      (fun r => (r.1, r.2.1.r.iterators, r.2.1.liveSeq)) = some (none, [true], [8]) ∧
    (Ascend 5 emptyPack (deleteAndReturn emptyPack (some Error.ErrStopIteration))
        (startIterating (flatMem [7, 8, 9] flagIsSet none), ())).map
      (fun r => (r.1, r.2.1.r.iterators, r.2.1.liveSeq)) = some (none, [false], [8, 9]) ∧
    (Ascend 5 emptyPack (deleteAndReturn emptyPack (some (Error.other 3)))
        (startIterating (flatMem [7, 8, 9] flagIsSet none), ())).map
      (fun r => (r.1, r.2.1.r.iterators, r.2.1.liveSeq)) =
      some (some (Error.other 3), [false], [8, 9]) ∧
    (Descend 5 emptyPack (deleteAndReturn emptyPack (some Error.ErrStopIteration))
        (startIterating (flatMem [7, 8, 9] flagIsSet none), ())).map
      (fun r => (r.1, r.2.1.r.iterators, r.2.1.liveSeq)) = some (none, [false], [7, 8]) := by
  decide

/-! ### The flags under initialization and mutation -/

theorem loadRootLeafs_flags (elements : List EncodedElement) :
    ∀ m : Mem, (loadRootLeafs elements m).r.flags = m.r.flags := by
  induction elements with
  | nil => intro m; rfl
  | cons e rest ih =>
    intro m
    unfold loadRootLeafs
    split
    · exact ih m
    · simp only [Mem.allocEl, Mem.setR]
      rw [ih]
      split
      · rw [(sameButIndex_fields (addElementToIndex_same _ _ _)).2.2.2.2.2]
      · rfl

theorem loadRootRefsNodesLoop_flags (pack : Pack) (depth : Nat) (elements : List EncodedElement) :
    ∀ m : Mem, (loadRootRefsNodesLoop pack depth elements m).2.r.flags = m.r.flags := by
  induction elements with
  | nil => intro m; rfl
  | cons e rest ih =>
    intro m
    unfold loadRootRefsNodesLoop
    split
    · exact ih m
    · have hs := (sameButIndex_fields (loadRefsNodes_same pack (depth - 1) none e.Hash m)).2.2.2.2.2
      split
      · next h1 => rw [h1] at hs; exact hs
      · next h1 =>
        rw [h1] at hs
        rw [ih]
        exact hs

theorem load_flags (pack : Pack) (m : Mem) : (load pack m).2.r.flags = m.r.flags := by
  unfold load
  cases h : pack.getRefs m.r.Hash with
  | error err => rfl
  | ok er =>
    simp only []
    split_ifs <;>
      first
      | rfl
      | (show (loadRootLeafs _ _).r.flags = _
         rw [loadRootLeafs_flags]
         simp only [Mem.setR, makeCap_r])
      | (unfold loadRootRefsNodes
         rw [loadRootRefsNodesLoop_flags]
         rfl)

theorem initRefs_flags (pack : Pack) (m : Mem) (h0 : m.r.flags = 0) :
    (initRefs pack m).2.r.flags = pack.flags ||| flagIsSet := by
  unfold initRefs
  rw [if_neg (by rw [h0]; simp)]
  simp only [Mem.setR]
  split
  · rfl
  · split
    · rw [load_flags]
    · rfl

theorem initRefs_done (pack : Pack) (m : Mem) (h : m.r.flags ≠ 0) : initRefs pack m = (none, m) := by
  unfold initRefs
  rw [if_pos h]

theorem lor_flagIsSet_ne_zero (x : Nat) : x ||| flagIsSet ≠ 0 := by
  intro h
  have := congrArg (fun n => n.testBit 0) h
  simp [flagIsSet, Nat.testBit_or] at this

theorem clear_flagIsSet (x : Nat) :
    (x ||| flagIsSet) ^^^ ((x ||| flagIsSet) &&& flagIsSet) = x ^^^ (x &&& flagIsSet) := by
  apply Nat.eq_of_testBit_eq
  intro i
  simp only [Nat.testBit_xor, Nat.testBit_and, Nat.testBit_or, flagIsSet]
  cases i with
  | zero => simp
  | succ n => simp [Nat.testBit_succ]

theorem sameButIndex_flags {m1 m2 : Mem} (h : sameButIndex m1 m2) : m2.r.flags = m1.r.flags :=
  (sameButIndex_fields h).2.2.2.2.2

theorem loadRefsNodeIfNeed_flags (pack : Pack) (rn depth : Nat) (upper : Option Nat) (m : Mem) :
    (loadRefsNodeIfNeed pack rn depth upper m).2.r.flags = m.r.flags := by
  unfold loadRefsNodeIfNeed
  split
  · have hs := sameButIndex_flags (loadRefsNodes_same pack depth upper (m.node rn).hash m)
    split
    · next h1 => rw [h1] at hs; exact hs
    · next h1 => rw [h1] at hs; exact hs
  · rfl

theorem setHashByIndexBranches_flags (pack : Pack) (depth : Nat) (upper : Option Nat)
    (sub : Int → Nat → Mem → Option Error × Mem)
    (hsub : ∀ j br m, (sub j br m).2.r.flags = m.r.flags) (branches : List Nat) :
    ∀ (i : Int) (m : Mem),
      (setHashByIndexBranches pack depth upper sub i branches m).2.r.flags = m.r.flags := by
  induction branches with
  | nil => intro i m; rfl
  | cons br rest ih =>
    intro i m
    unfold setHashByIndexBranches
    have hl := loadRefsNodeIfNeed_flags pack br depth upper m
    split
    · next h1 => rw [h1] at hl; exact hl
    · next h1 =>
      rw [h1] at hl
      split
      · rw [ih]; exact hl
      · rw [hsub]; exact hl

theorem setHashByIndex_flags (pack : Pack) (hash : SHA256) :
    ∀ (depth : Nat) (i : Int) (upper : Option Nat) (leafs branches : List Nat) (m : Mem),
      (setHashByIndex pack hash depth i upper leafs branches m).2.r.flags = m.r.flags := by
  intro depth
  induction depth with
  | zero =>
    intro i upper leafs branches m
    unfold setHashByIndex
    rw [setHashByIndexLeafs_eq]
    split
    · exact sameButIndex_flags (setLeafHash_same _ _ _)
    · rfl
  | succ d ih =>
    intro i upper leafs branches m
    unfold setHashByIndex
    exact setHashByIndexBranches_flags pack (d + 1) upper _
      (fun j br m1 => ih j (some br) _ _ m1) branches i m

theorem deleteByIndexBranches_flags (pack : Pack) (depth : Nat) (upper : Option Nat)
    (sub : Int → Nat → Mem → Option Error × Mem)
    (hsub : ∀ j br m, (sub j br m).2.r.flags = m.r.flags) (branches : List Nat) :
    ∀ (i : Int) (m : Mem),
      (deleteByIndexBranches pack depth upper sub i branches m).2.r.flags = m.r.flags := by
  induction branches with
  | nil => intro i m; rfl
  | cons br rest ih =>
    intro i m
    unfold deleteByIndexBranches
    have hl := loadRefsNodeIfNeed_flags pack br depth upper m
    split
    · next h1 => rw [h1] at hl; exact hl
    · next m1 h1 =>
      rw [h1] at hl
      split
      · rw [ih]; exact hl
      · have hs := hsub i br m1
        split
        · next h2 => rw [h2] at hs; rw [hs]; exact hl
        · next h2 =>
          rw [h2] at hs
          rw [ih]
          simp only [Mem.setNode]
          rw [hs]; exact hl

theorem deleteByIndex_flags (pack : Pack) :
    ∀ (depth : Nat) (i : Int) (upper : Option Nat) (leafs branches : List Nat) (m : Mem),
      (deleteByIndex pack depth i upper leafs branches m).2.r.flags = m.r.flags := by
  intro depth
  induction depth with
  | zero =>
    intro i upper leafs branches m
    unfold deleteByIndex
    rw [deleteByIndexLeafs_eq]
    split
    · exact (deleteElement_fields _ _).1
    · rfl
  | succ d ih =>
    intro i upper leafs branches m
    unfold deleteByIndex
    exact deleteByIndexBranches_flags pack (d + 1) upper _
      (fun j br m1 => ih j (some br) _ _ m1) branches i m

theorem SetHashByIndex_flags (pack : Pack) (i : Int) (hash : SHA256) (m : Mem)
    (h : m.r.flags ≠ 0) : (SetHashByIndex pack i hash m).2.r.flags = m.r.flags := by
  unfold SetHashByIndex
  rw [initRefs_done pack m h]
  simp only []
  split
  · rfl
  · rw [setHashByIndex_flags]

theorem DeleteByIndex_flags (pack : Pack) (i : Int) (m : Mem) (h : m.r.flags ≠ 0) :
    (DeleteByIndex pack i m).2.r.flags = m.r.flags := by
  unfold DeleteByIndex
  rw [initRefs_done pack m h]
  simp only []
  split
  · rfl
  · have hd := deleteByIndex_flags pack m.r.depth i none m.r.leafs m.r.branches m
    split
    · next h2 => rw [h2] at hd; exact hd
    · next h2 => rw [h2] at hd; exact hd

theorem AppendHashes_flags (pack : Pack) (hs : List SHA256) (m : Mem) (h : m.r.flags ≠ 0) :
    (AppendHashes pack hs m).2.r.flags = m.r.flags := by
  unfold AppendHashes
  rw [initRefs_done pack m h]

/-- C31.  Let a `Refs` be not yet initialized (`flags = 0`) and let its first
initialization be made with `pack1`, whether or not its load succeeds.  Then
the flags are `pack1.Flags() | flagIsSet`, which is not zero, so that every
later initialization, with any pack, returns nil and the memory it was given;
`Flags()` is the flags of `pack1` without the bit `flagIsSet`, it is kept by
a later initialization and by `SetHashByIndex`, `DeleteByIndex` and
`AppendHashes` made with any pack, and only `Clear` resets it, after which the
next initialization captures the flags of its own pack. -/
theorem initialize_freezes_flags (pack1 pack2 : Pack) (m : Mem) (i : Int) (hash : SHA256)
    (hashes : List SHA256) (hfirst : m.r.flags = 0) :
    (initRefs pack1 m).2.r.flags = pack1.flags ||| flagIsSet ∧
    (initRefs pack1 m).2.r.flags ≠ 0 ∧
    (∀ m1 : Mem, m1.r.flags ≠ 0 → initRefs pack2 m1 = (none, m1)) ∧
    initRefs pack2 (initRefs pack1 m).2 = (none, (initRefs pack1 m).2) ∧
    Flags (initRefs pack1 m).2 = pack1.flags ^^^ (pack1.flags &&& flagIsSet) ∧
    (pack1.flags &&& flagIsSet = 0 → Flags (initRefs pack1 m).2 = pack1.flags) ∧
    Flags (initRefs pack2 (initRefs pack1 m).2).2 = Flags (initRefs pack1 m).2 ∧
    Flags (SetHashByIndex pack2 i hash (initRefs pack1 m).2).2 = Flags (initRefs pack1 m).2 ∧
    Flags (DeleteByIndex pack2 i (initRefs pack1 m).2).2 = Flags (initRefs pack1 m).2 ∧
    Flags (AppendHashes pack2 hashes (initRefs pack1 m).2).2 = Flags (initRefs pack1 m).2 ∧
    Flags (Clear (initRefs pack1 m).2).2 = 0 ∧
    (initRefs pack2 (Clear (initRefs pack1 m).2).2).2.r.flags = pack2.flags ||| flagIsSet := by
  have hf := initRefs_flags pack1 m hfirst
  have hne : (initRefs pack1 m).2.r.flags ≠ 0 := by
    rw [hf]; exact lor_flagIsSet_ne_zero _
  have hF : Flags (initRefs pack1 m).2 = pack1.flags ^^^ (pack1.flags &&& flagIsSet) := by
    unfold Flags
    rw [hf]
    exact clear_flagIsSet _
  have hidem := initRefs_done pack2 _ hne
  refine ⟨hf, hne, fun m1 h1 => initRefs_done pack2 m1 h1, hidem, hF, ?_, by rw [hidem], ?_, ?_, ?_,
    ?_, ?_⟩
  · intro h0
    rw [hF, h0]
    exact Nat.xor_zero _
  · unfold Flags
    rw [SetHashByIndex_flags pack2 i hash _ hne]
  · unfold Flags
    rw [DeleteByIndex_flags pack2 i _ hne]
  · unfold Flags
    rw [AppendHashes_flags pack2 hashes _ hne]
  · simp [Flags, Clear, Mem.setR]
  · exact initRefs_flags pack2 _ (by simp [Clear, Mem.setR])

/-- C31 at the `Refs` with root hash `100`: its first initialization from
`badDegreePack` (no flags) fails in the load, from `indexPack` (flag
`HashTableIndex`) it succeeds; either way a second one from `depthOnePack`
(flag `EntireRefs`) returns nil and `Flags()` stays what it was. -/
theorem initialize_freezes_flags_witness :
    (blankMem 100).r.flags = 0 ∧
    (initRefs badDegreePack (blankMem 100)).1 = some Error.ErrInvalidEncodedRefs ∧
    (initRefs depthOnePack (initRefs badDegreePack (blankMem 100)).2).1 = none ∧
    Flags (initRefs depthOnePack (initRefs badDegreePack (blankMem 100)).2).2 = 0 ∧
    (initRefs indexPack (blankMem 100)).1 = none ∧
    Flags (initRefs depthOnePack (initRefs indexPack (blankMem 100)).2).2 = HashTableIndex ∧
    initRefs depthOnePack (initRefs indexPack (blankMem 100)).2 =
      (none, (initRefs indexPack (blankMem 100)).2) :=
  ⟨rfl, by decide, by decide, by decide, by decide, by decide,
   (initialize_freezes_flags indexPack depthOnePack (blankMem 100) 0 0 [] rfl).2.2.2.1⟩

theorem initRefs_nonempty_shape (pack : Pack) (m : Mem) (hne : m.r.length ≠ 0) :
    ∃ m1 : Mem, initRefs pack m = (none, m1) ∧ m1.r.flags ≠ 0 ∧ m1.els = m.els ∧
      m1.nodes = m.nodes ∧ m1.r.depth = m.r.depth ∧ m1.r.leafs = m.r.leafs ∧
      m1.r.branches = m.r.branches ∧ m1.r.length = m.r.length ∧
      m1.r.iterators = m.r.iterators := by
  by_cases hf : m.r.flags ≠ 0
  · exact ⟨m, initRefs_done pack m hf, hf, rfl, rfl, rfl, rfl, rfl, rfl, rfl⟩
  · refine ⟨m.setR { m.r with flags := pack.flags ||| flagIsSet }, ?_, lor_flagIsSet_ne_zero _,
      rfl, rfl, rfl, rfl, rfl, rfl, rfl⟩
    unfold initRefs
    rw [if_neg hf]
    simp only [Mem.setR]
    split_ifs <;> rfl

/-- C34.  For every `Refs` of depth 0 whose length is the number of its
non-deleted leafs (initialized or not) and every `i` with `0 <= i < Len`:
`HashByIndex(i)` returns a nil error, so never `ErrInvalidRefs`, and the hash
of the `i`-th non-deleted leaf, which is the `i`-th entry of the live
sequence. -/
theorem hashByIndex_at_depth_zero (pack : Pack) (m : Mem) (i : Nat) (hd : m.r.depth = 0)
    (hlen : m.r.length = ((liveLeafs m m.r.leafs).length : Int)) (hi : (i : Int) < m.r.length) :
    ∃ e, (liveLeafs m m.r.leafs)[i]? = some e ∧ (m.el e).Deleted = false ∧
      (HashByIndex pack i m).1 = (m.el e).Hash ∧ m.liveSeq[i]? = some (m.el e).Hash ∧
      (HashByIndex pack i m).2.1 = none ∧
      (HashByIndex pack i m).2.1 ≠ some Error.ErrInvalidRefs := by
  have hi1 : i < (liveLeafs m m.r.leafs).length := by rw [hlen] at hi; exact_mod_cast hi
  have hne : m.r.length ≠ 0 := by omega
  obtain ⟨m1, hinit, _, hels, _, hd1, hl1, _, hn1, _⟩ := initRefs_nonempty_shape pack m hne
  have he : (liveLeafs m m.r.leafs)[i]? = some (liveLeafs m m.r.leafs)[i] :=
    List.getElem?_eq_getElem hi1
  have hel : ∀ a, m1.el a = m.el a := by intro a; simp only [Mem.el, hels]
  have hv : validateIndex (i : Int) m1.r.length = none := by
    unfold validateIndex
    rw [if_neg (by omega)]
  have hrun : HashByIndex pack i m = ((m.el (liveLeafs m m.r.leafs)[i]).Hash, none, m1) := by
    unfold HashByIndex
    rw [hinit]
    simp only [hv, hd1, hd]
    unfold hashByIndex
    rw [hashByIndexLeafs_eq]
    have hl : leafAt m1 (i : Int) m1.r.leafs = some (liveLeafs m m.r.leafs)[i] := by
      rw [leafAt_nat, hl1, liveLeafs_same_deleted m m1 (fun a => by rw [hel])]
      exact he
    rw [hl]
    simp only [hel]
  refine ⟨_, he, ((liveLeafs_mem m _ _).mp (List.getElem_mem hi1)).2, by rw [hrun], ?_,
    by rw [hrun], by rw [hrun]; simp⟩
  rw [liveSeq_flat m hd, List.getElem?_map, he]
  rfl

/-- C34 at the `Refs` with leafs `7`, deleted, `9` and index 1. -/
theorem hashByIndex_at_depth_zero_witness :
    withHole.r.depth = 0 ∧
    withHole.r.length = ((liveLeafs withHole withHole.r.leafs).length : Int) ∧
    ((1 : Nat) : Int) < withHole.r.length ∧
    (HashByIndex emptyPack (1 : Nat) withHole).1 = 9 ∧
    ∃ e, (liveLeafs withHole withHole.r.leafs)[1]? = some e ∧ (withHole.el e).Deleted = false ∧
      (HashByIndex emptyPack (1 : Nat) withHole).1 = (withHole.el e).Hash ∧
      withHole.liveSeq[1]? = some (withHole.el e).Hash ∧
      (HashByIndex emptyPack (1 : Nat) withHole).2.1 = none ∧
      (HashByIndex emptyPack (1 : Nat) withHole).2.1 ≠ some Error.ErrInvalidRefs :=
  ⟨by decide, by decide, by decide, by decide,
   hashByIndex_at_depth_zero emptyPack withHole 1 (by decide) (by decide) (by decide)⟩

theorem sameButIndex_height {m1 m2 : Mem} (h : sameButIndex m1 m2) : m2.r.iterators.length = m1.r.iterators.length := by
  obtain ⟨idx, hr⟩ := h
  rw [hr]

theorem loadRootLeafs_height (elements : List EncodedElement) :
    ∀ m : Mem, (loadRootLeafs elements m).r.iterators.length = m.r.iterators.length := by
  induction elements with
  | nil => intro m; rfl
  | cons e rest ih =>
    intro m
    unfold loadRootLeafs
    split
    · exact ih m
    · simp only [Mem.allocEl, Mem.setR]
      rw [ih]
      split
      · rw [sameButIndex_height (addElementToIndex_same _ _ _)]
      · rfl

theorem loadRootRefsNodesLoop_height (pack : Pack) (depth : Nat) (elements : List EncodedElement) :
    ∀ m : Mem, (loadRootRefsNodesLoop pack depth elements m).2.r.iterators.length = m.r.iterators.length := by
  induction elements with
  | nil => intro m; rfl
  | cons e rest ih =>
    intro m
    unfold loadRootRefsNodesLoop
    split
    · exact ih m
    · have hs := sameButIndex_height (loadRefsNodes_same pack (depth - 1) none e.Hash m)
      split
      · next h1 => rw [h1] at hs; exact hs
      · next h1 =>
        rw [h1] at hs
        rw [ih]
        exact hs

theorem load_height (pack : Pack) (m : Mem) : (load pack m).2.r.iterators.length = m.r.iterators.length := by
  unfold load
  cases h : pack.getRefs m.r.Hash with
  | error err => rfl
  | ok er =>
    simp only []
    split_ifs <;>
      first
      | rfl
      | (show (loadRootLeafs _ _).r.iterators.length = _
         rw [loadRootLeafs_height]
         simp only [Mem.setR, makeCap_r])
      | (unfold loadRootRefsNodes
         rw [loadRootRefsNodesLoop_height]
         rfl)

theorem initRefs_height (pack : Pack) (m : Mem) : (initRefs pack m).2.r.iterators.length = m.r.iterators.length := by
  unfold initRefs
  split
  · rfl
  · simp only [Mem.setR]
    split
    · rfl
    · split
      · rw [load_height]
      · rfl

theorem loadRefsNodeIfNeed_height (pack : Pack) (rn depth : Nat) (upper : Option Nat) (m : Mem) :
    (loadRefsNodeIfNeed pack rn depth upper m).2.r.iterators.length = m.r.iterators.length := by
  unfold loadRefsNodeIfNeed
  split
  · have hs := sameButIndex_height (loadRefsNodes_same pack depth upper (m.node rn).hash m)
    split
    · next h1 => rw [h1] at hs; exact hs
    · next h1 => rw [h1] at hs; exact hs
  · rfl

theorem setHashByIndexBranches_height (pack : Pack) (depth : Nat) (upper : Option Nat)
    (sub : Int → Nat → Mem → Option Error × Mem)
    (hsub : ∀ j br m, (sub j br m).2.r.iterators.length = m.r.iterators.length) (branches : List Nat) :
    ∀ (i : Int) (m : Mem),
      (setHashByIndexBranches pack depth upper sub i branches m).2.r.iterators.length = m.r.iterators.length := by
  induction branches with
  | nil => intro i m; rfl
  | cons br rest ih =>
    intro i m
    unfold setHashByIndexBranches
    have hl := loadRefsNodeIfNeed_height pack br depth upper m
    split
    · next h1 => rw [h1] at hl; exact hl
    · next h1 =>
      rw [h1] at hl
      split
      · rw [ih]; exact hl
      · rw [hsub]; exact hl

theorem setHashByIndex_height (pack : Pack) (hash : SHA256) :
    ∀ (depth : Nat) (i : Int) (upper : Option Nat) (leafs branches : List Nat) (m : Mem),
      (setHashByIndex pack hash depth i upper leafs branches m).2.r.iterators.length = m.r.iterators.length := by
  intro depth
  induction depth with
  | zero =>
    intro i upper leafs branches m
    unfold setHashByIndex
    rw [setHashByIndexLeafs_eq]
    split
    · exact sameButIndex_height (setLeafHash_same _ _ _)
    · rfl
  | succ d ih =>
    intro i upper leafs branches m
    unfold setHashByIndex
    exact setHashByIndexBranches_height pack (d + 1) upper _
      (fun j br m1 => ih j (some br) _ _ m1) branches i m

theorem deleteElement_height (e : Nat) (m : Mem) :
    (deleteElement e m).r.iterators.length = m.r.iterators.length := by
  rw [deleteElement_iterators]
  split
  · rw [List.length_set]
  · rfl

theorem deleteByIndexBranches_height (pack : Pack) (depth : Nat) (upper : Option Nat)
    (sub : Int → Nat → Mem → Option Error × Mem)
    (hsub : ∀ j br m, (sub j br m).2.r.iterators.length = m.r.iterators.length) (branches : List Nat) :
    ∀ (i : Int) (m : Mem),
      (deleteByIndexBranches pack depth upper sub i branches m).2.r.iterators.length = m.r.iterators.length := by
  induction branches with
  | nil => intro i m; rfl
  | cons br rest ih =>
    intro i m
    unfold deleteByIndexBranches
    have hl := loadRefsNodeIfNeed_height pack br depth upper m
    split
    · next h1 => rw [h1] at hl; exact hl
    · next m1 h1 =>
      rw [h1] at hl
      split
      · rw [ih]; exact hl
      · have hs := hsub i br m1
        split
        · next h2 => rw [h2] at hs; rw [hs]; exact hl
        · next h2 =>
          rw [h2] at hs
          rw [ih]
          simp only [Mem.setNode]
          rw [hs]; exact hl

theorem deleteByIndex_height (pack : Pack) :
    ∀ (depth : Nat) (i : Int) (upper : Option Nat) (leafs branches : List Nat) (m : Mem),
      (deleteByIndex pack depth i upper leafs branches m).2.r.iterators.length = m.r.iterators.length := by
  intro depth
  induction depth with
  | zero =>
    intro i upper leafs branches m
    unfold deleteByIndex
    rw [deleteByIndexLeafs_eq]
    split
    · exact deleteElement_height _ _
    · rfl
  | succ d ih =>
    intro i upper leafs branches m
    unfold deleteByIndex
    exact deleteByIndexBranches_height pack (d + 1) upper _
      (fun j br m1 => ih j (some br) _ _ m1) branches i m

theorem SetHashByIndex_height (pack : Pack) (i : Int) (hash : SHA256) (m : Mem) :
    (SetHashByIndex pack i hash m).2.r.iterators.length = m.r.iterators.length := by
  unfold SetHashByIndex
  have hi := initRefs_height pack m
  split
  · next h1 => rw [h1] at hi; exact hi
  · next h1 =>
    rw [h1] at hi
    split
    · exact hi
    · rw [setHashByIndex_height]; exact hi

theorem DeleteByIndex_height (pack : Pack) (i : Int) (m : Mem) :
    (DeleteByIndex pack i m).2.r.iterators.length = m.r.iterators.length := by
  unfold DeleteByIndex
  have hi := initRefs_height pack m
  split
  · next h1 => rw [h1] at hi; exact hi
  · next m1 h1 =>
    rw [h1] at hi
    split
    · exact hi
    · have hd := deleteByIndex_height pack m1.r.depth i none m1.r.leafs m1.r.branches m1
      split
      · next h2 => rw [h2] at hd; rw [hd]; exact hi
      · next h2 => rw [h2] at hd; simp only [Mem.setR]; rw [hd]; exact hi

theorem AppendHashes_height (pack : Pack) (hs : List SHA256) (m : Mem) :
    (AppendHashes pack hs m).2.r.iterators.length = m.r.iterators.length := by
  unfold AppendHashes
  have hi := initRefs_height pack m
  split
  · next h1 => rw [h1] at hi; exact hi
  · next h1 => rw [h1] at hi; exact hi

theorem isFinding_height (m : Mem) :
    (isFindingIteratorsIndexFromRootRequired m).2.r.iterators.length = m.r.iterators.length := by
  cases hb : (isFindingIteratorsIndexFromRootRequired m).1 with
  | true =>
    obtain ⟨its1, e, hlen, _, _⟩ := isFinding_true_shape m hb
    rw [e]
    exact hlen
  | false =>
    by_cases hit : m.r.iterators = []
    · simp [isFindingIteratorsIndexFromRootRequired, hit]
    · rw [isFinding_false m hit hb]

theorem ascendLeafsLoop_inv {V : Type} (P : Mem × V → Prop) (g : IterateFunc V)
    (hg : ∀ i h s, P s → P (g i h s).2)
    (hfind : ∀ s : Mem × V, P s → P ((isFindingIteratorsIndexFromRootRequired s.1).2, s.2))
    (l : List Nat) :
    ∀ (i skip pass : Int) (s : Mem × V), P s →
      P (ascendLeafsLoop g l i skip pass s).2.2.2 := by
  induction l with
  | nil => intro i skip pass s hs; exact hs
  | cons el rest ih =>
    intro i skip pass s hs
    unfold ascendLeafsLoop
    split
    · exact ih i skip pass s hs
    · split
      · exact ih i (skip + 1) pass s hs
      · have hc := hg i (s.1.el el).Hash s hs
        split
        · next err s1 he => rw [he] at hc; exact hc
        · next s1 he =>
          rw [he] at hc
          have hf := hfind s1 hc
          split
          · next m2 hm => rw [hm] at hf; exact hf
          · next m2 hm =>
            rw [hm] at hf
            exact ih _ _ _ _ hf

theorem descendLeafsLoop_inv {V : Type} (P : Mem × V → Prop) (g : IterateFunc V)
    (hg : ∀ i h s, P s → P (g i h s).2)
    (hfind : ∀ s : Mem × V, P s → P ((isFindingIteratorsIndexFromRootRequired s.1).2, s.2))
    (l : List Nat) :
    ∀ (i si pass : Int) (s : Mem × V), P s →
      P (descendLeafsLoop g l i si pass s).2.2.2 := by
  induction l with
  | nil => intro i si pass s hs; exact hs
  | cons el rest ih =>
    intro i si pass s hs
    unfold descendLeafsLoop
    split
    · exact ih i si pass s hs
    · split
      · exact ih i (si - 1) pass s hs
      · have hc := hg i (s.1.el el).Hash s hs
        split
        · next err s1 he => rw [he] at hc; exact hc
        · next s1 he =>
          rw [he] at hc
          have hf := hfind s1 hc
          split
          · next m2 hm => rw [hm] at hf; exact hf
          · next m2 hm =>
            rw [hm] at hf
            exact ih _ _ _ _ hf

theorem ascendBranchesLoop_inv {V : Type} (P : Mem × V → Prop) (pack : Pack) (depth : Nat)
    (upper : Option Nat)
    (sub : Int → Nat → Mem × V → Int × Bool × Option Error × (Mem × V))
    (hsub : ∀ j br s, P s → P (sub j br s).2.2.2)
    (hload : ∀ br d up (s : Mem × V), P s → P ((loadRefsNodeIfNeed pack br d up s.1).2, s.2))
    (l : List Nat) :
    ∀ (i skip pass : Int) (s : Mem × V), P s →
      P (ascendBranchesLoop pack depth upper sub l i skip pass s).2.2.2 := by
  induction l with
  | nil => intro i skip pass s hs; exact hs
  | cons br rest ih =>
    intro i skip pass s hs
    unfold ascendBranchesLoop
    have hl := hload br depth upper s hs
    split
    · next err m1 he => rw [he] at hl; exact hl
    · next m1 he =>
      rw [he] at hl
      split
      · exact ih _ _ _ _ hl
      · split
        · exact ih _ _ _ _ hl
        · have hs2 := hsub i br (m1, s.2) hl
          split
          next subpass rewind err s2 hc =>
          rw [hc] at hs2
          split
          · exact hs2
          · exact ih _ _ _ _ hs2

theorem descendBranchesLoop_inv {V : Type} (P : Mem × V → Prop) (pack : Pack) (depth : Nat)
    (upper : Option Nat)
    (sub : Int → Int → Nat → Mem × V → Int × Bool × Option Error × (Mem × V))
    (hsub : ∀ sj j br s, P s → P (sub sj j br s).2.2.2)
    (hload : ∀ br d up (s : Mem × V), P s → P ((loadRefsNodeIfNeed pack br d up s.1).2, s.2))
    (l : List Nat) :
    ∀ (i si pass : Int) (s : Mem × V), P s →
      P (descendBranchesLoop pack depth upper sub l i si pass s).2.2.2 := by
  induction l with
  | nil => intro i si pass s hs; exact hs
  | cons br rest ih =>
    intro i si pass s hs
    unfold descendBranchesLoop
    have hl := hload br depth upper s hs
    split
    · next err m1 he => rw [he] at hl; exact hl
    · next m1 he =>
      rw [he] at hl
      split
      · exact ih _ _ _ _ hl
      · split
        · exact ih _ _ _ _ hl
        · have hs2 := hsub si i br (m1, s.2) hl
          split
          next subpass rewind err s2 hc =>
          rw [hc] at hs2
          split
          · exact hs2
          · exact ih _ _ _ _ hs2

theorem ascend_inv {V : Type} (P : Mem × V → Prop) (pack : Pack) (g : IterateFunc V)
    (hg : ∀ i h s, P s → P (g i h s).2)
    (hfind : ∀ s : Mem × V, P s → P ((isFindingIteratorsIndexFromRootRequired s.1).2, s.2))
    (hload : ∀ br d up (s : Mem × V), P s → P ((loadRefsNodeIfNeed pack br d up s.1).2, s.2)) :
    ∀ (depth : Nat) (i : Int) (upper : Option Nat) (leafs branches : List Nat) (s : Mem × V),
      P s → P (ascend pack g depth i upper leafs branches s).2.2.2 := by
  intro depth
  induction depth with
  | zero =>
    intro i upper leafs branches s hs
    unfold ascend ascendLeafs
    exact ascendLeafsLoop_inv P g hg hfind leafs i 0 0 s hs
  | succ d ih =>
    intro i upper leafs branches s hs
    unfold ascend
    exact ascendBranchesLoop_inv P pack (d + 1) upper _
      (fun j br s1 h1 => ih j (some br) _ _ s1 h1) hload branches i 0 0 s hs

theorem descend_inv {V : Type} (P : Mem × V → Prop) (pack : Pack) (g : IterateFunc V)
    (hg : ∀ i h s, P s → P (g i h s).2)
    (hfind : ∀ s : Mem × V, P s → P ((isFindingIteratorsIndexFromRootRequired s.1).2, s.2))
    (hload : ∀ br d up (s : Mem × V), P s → P ((loadRefsNodeIfNeed pack br d up s.1).2, s.2)) :
    ∀ (depth : Nat) (si i : Int) (upper : Option Nat) (leafs branches : List Nat) (s : Mem × V),
      P s → P (descend pack g depth si i upper leafs branches s).2.2.2 := by
  intro depth
  induction depth with
  | zero =>
    intro si i upper leafs branches s hs
    unfold descend descendLeafs
    exact descendLeafsLoop_inv P g hg hfind leafs.reverse i si 0 s hs
  | succ d ih =>
    intro si i upper leafs branches s hs
    unfold descend
    exact descendBranchesLoop_inv P pack (d + 1) upper _
      (fun sj j br s1 h1 => ih sj j (some br) _ _ s1 h1) hload branches.reverse i si 0 s hs

theorem ascendFromLoop_inv {V : Type} (P : Mem × V → Prop) (pack : Pack) (g : IterateFunc V)
    (hg : ∀ i h s, P s → P (g i h s).2)
    (hfind : ∀ s : Mem × V, P s → P ((isFindingIteratorsIndexFromRootRequired s.1).2, s.2))
    (hload : ∀ br d up (s : Mem × V), P s → P ((loadRefsNodeIfNeed pack br d up s.1).2, s.2)) :
    ∀ (fuel : Nat) (i : Int) (s : Mem × V) (r : Option Error × (Mem × V)),
      ascendFromLoop pack g fuel i s = some r → P s → P r.2 := by
  intro fuel
  induction fuel with
  | zero => intro i s r h; simp [ascendFromLoop] at h
  | succ n ih =>
    intro i s r h hs
    unfold ascendFromLoop at h
    have hd := ascend_inv P pack g hg hfind hload s.1.r.depth i none s.1.r.leafs s.1.r.branches s hs
    split at h
    · next pass _ s1 hc =>
      rw [hc] at hd
      exact ih _ s1 r h hd
    · next err s1 hc =>
      rw [hc] at hd
      simp only [Option.some.injEq] at h
      rw [← h]
      exact hd

theorem descendFromLoop_inv {V : Type} (P : Mem × V → Prop) (pack : Pack) (g : IterateFunc V)
    (hg : ∀ i h s, P s → P (g i h s).2)
    (hfind : ∀ s : Mem × V, P s → P ((isFindingIteratorsIndexFromRootRequired s.1).2, s.2))
    (hload : ∀ br d up (s : Mem × V), P s → P ((loadRefsNodeIfNeed pack br d up s.1).2, s.2))
    (si : Int) :
    ∀ (fuel : Nat) (i : Int) (s : Mem × V) (r : Option Error × (Mem × V)),
      descendFromLoop pack g si fuel i s = some r → P s → P r.2 := by
  intro fuel
  induction fuel with
  | zero => intro i s r h; simp [descendFromLoop] at h
  | succ n ih =>
    intro i s r h hs
    unfold descendFromLoop at h
    have hd := descend_inv P pack g hg hfind hload s.1.r.depth si i none s.1.r.leafs
      s.1.r.branches s hs
    split at h
    · next pass _ s1 hc =>
      rw [hc] at hd
      exact ih _ s1 r h hd
    · next err s1 hc =>
      rw [hc] at hd
      simp only [Option.some.injEq] at h
      rw [← h]
      exact hd


theorem stop_height (m : Mem) (n : Nat) (h : m.r.iterators.length = n + 1) :
    (stopIterating m).r.iterators.length = n := by
  unfold stopIterating
  rw [if_neg (by omega)]
  simp only [Mem.setR, List.length_dropLast, h]
  rfl

theorem balanced_steps {V : Type} (pack : Pack) (g : IterateFunc V) (Q : V → Prop) (n : Nat)
    (hg : ∀ i h s, s.1.r.iterators.length = n + 1 → Q s.2 →
      (g i h s).2.1.r.iterators.length = n + 1 ∧ Q (g i h s).2.2) :
    (∀ i h (s : Mem × V), (s.1.r.iterators.length = n + 1 ∧ Q s.2) →
      ((g i h s).2.1.r.iterators.length = n + 1 ∧ Q (g i h s).2.2)) ∧
    (∀ s : Mem × V, (s.1.r.iterators.length = n + 1 ∧ Q s.2) →
      ((isFindingIteratorsIndexFromRootRequired s.1).2.r.iterators.length = n + 1 ∧ Q s.2)) ∧
    (∀ br d up (s : Mem × V), (s.1.r.iterators.length = n + 1 ∧ Q s.2) →
      ((loadRefsNodeIfNeed pack br d up s.1).2.r.iterators.length = n + 1 ∧ Q s.2)) :=
  ⟨fun i h s hs => hg i h s hs.1 hs.2,
   fun s hs => ⟨by rw [isFinding_height]; exact hs.1, hs.2⟩,
   fun br d up s hs => ⟨by rw [loadRefsNodeIfNeed_height]; exact hs.1, hs.2⟩⟩

theorem ascendFrom_balanced {V : Type} (fuel : Nat) (pack : Pack) (start : Int)
    (g : IterateFunc V) (Q : V → Prop) (m : Mem) (v : V) (hQ : Q v)
    (hg : ∀ i h s, s.1.r.iterators.length = m.r.iterators.length + 1 → Q s.2 →
      (g i h s).2.1.r.iterators.length = m.r.iterators.length + 1 ∧ Q (g i h s).2.2) :
    ∀ r, ascendFrom fuel pack start g (m, v) = some r →
      r.2.1.r.iterators.length = m.r.iterators.length ∧ Q r.2.2 := by
  intro r hr
  unfold ascendFrom at hr
  have hi := initRefs_height pack m
  split at hr
  · next err m1 hc =>
    rw [hc] at hi
    simp only [Option.some.injEq] at hr
    rw [← hr]; exact ⟨hi, hQ⟩
  · next m1 hc =>
    rw [hc] at hi
    split at hr
    · simp only [Option.some.injEq] at hr
      rw [← hr]; exact ⟨hi, hQ⟩
    · split at hr
      · simp only [Option.some.injEq] at hr
        rw [← hr]; exact ⟨hi, hQ⟩
      · split at hr
        · cases hr
        · next err s2 hl =>
          obtain ⟨b1, b2, b3⟩ := balanced_steps pack g Q m.r.iterators.length hg
          have := ascendFromLoop_inv
            (fun s : Mem × V => s.1.r.iterators.length = m.r.iterators.length + 1 ∧ Q s.2)
            pack g b1 b2 b3 _ _ _ _ hl
            ⟨by simp only [startIterating, Mem.setR, List.length_append, List.length_singleton]
                rw [hi], hQ⟩
          simp only [Option.some.injEq] at hr
          rw [← hr]
          exact ⟨stop_height _ _ this.1, this.2⟩

theorem descendFrom_balanced {V : Type} (fuel : Nat) (pack : Pack) (start : Int)
    (g : IterateFunc V) (Q : V → Prop) (m : Mem) (v : V) (hQ : Q v)
    (hg : ∀ i h s, s.1.r.iterators.length = m.r.iterators.length + 1 → Q s.2 →
      (g i h s).2.1.r.iterators.length = m.r.iterators.length + 1 ∧ Q (g i h s).2.2) :
    ∀ r, descendFrom fuel pack start g (m, v) = some r →
      r.2.1.r.iterators.length = m.r.iterators.length ∧ Q r.2.2 := by
  intro r hr
  unfold descendFrom at hr
  simp only [] at hr
  split at hr
  · simp only [Option.some.injEq] at hr
    rw [← hr]; exact ⟨rfl, hQ⟩
  · split at hr
    · simp only [Option.some.injEq] at hr
      rw [← hr]; exact ⟨rfl, hQ⟩
    · split at hr
      · cases hr
      · next err s2 hl =>
        obtain ⟨b1, b2, b3⟩ := balanced_steps pack g Q m.r.iterators.length hg
        have := descendFromLoop_inv
          (fun s : Mem × V => s.1.r.iterators.length = m.r.iterators.length + 1 ∧ Q s.2)
          pack g b1 b2 b3 _ _ _ _ _ hl
          ⟨by simp only [startIterating, Mem.setR, List.length_append, List.length_singleton], hQ⟩
        simp only [Option.some.injEq] at hr
        rw [← hr]
        exact ⟨stop_height _ _ this.1, this.2⟩

theorem DescendFrom_balanced {V : Type} (fuel : Nat) (pack : Pack) (start : Int)
    (g : IterateFunc V) (Q : V → Prop) (m : Mem) (v : V) (hQ : Q v)
    (hg : ∀ i h s, s.1.r.iterators.length = m.r.iterators.length + 1 → Q s.2 →
      (g i h s).2.1.r.iterators.length = m.r.iterators.length + 1 ∧ Q (g i h s).2.2) :
    ∀ r, DescendFrom fuel pack start g (m, v) = some r →
      r.2.1.r.iterators.length = m.r.iterators.length ∧ Q r.2.2 := by
  intro r hr
  unfold DescendFrom at hr
  have hi := initRefs_height pack m
  split at hr
  · next err m1 hc =>
    rw [hc] at hi
    simp only [Option.some.injEq] at hr
    rw [← hr]; exact ⟨hi, hQ⟩
  · next m1 hc =>
    rw [hc] at hi
    simp only [] at hi
    have := descendFrom_balanced fuel pack start g Q m1 v hQ (by rw [hi]; exact hg) r hr
    rw [hi] at this
    exact this

theorem Descend_balanced {V : Type} (fuel : Nat) (pack : Pack)
    (g : IterateFunc V) (Q : V → Prop) (m : Mem) (v : V) (hQ : Q v)
    (hg : ∀ i h s, s.1.r.iterators.length = m.r.iterators.length + 1 → Q s.2 →
      (g i h s).2.1.r.iterators.length = m.r.iterators.length + 1 ∧ Q (g i h s).2.2) :
    ∀ r, Descend fuel pack g (m, v) = some r →
      r.2.1.r.iterators.length = m.r.iterators.length ∧ Q r.2.2 := by
  intro r hr
  unfold Descend at hr
  have hi := initRefs_height pack m
  split at hr
  · next err m1 hc =>
    rw [hc] at hi
    simp only [Option.some.injEq] at hr
    rw [← hr]; exact ⟨hi, hQ⟩
  · next m1 hc =>
    rw [hc] at hi
    simp only [] at hi
    have := descendFrom_balanced fuel pack _ g Q m1 v hQ (by rw [hi]; exact hg) r hr
    rw [hi] at this
    exact this

theorem heights_step {U : Type} (fn : IterateFunc U) (hfn : keepsHeight fn) (n : Nat) :
    ∀ i h (s : Mem × (U × List Nat)), s.1.r.iterators.length = n + 1 →
      (∀ x ∈ s.2.2, x = n + 1) →
      (heights fn i h s).2.1.r.iterators.length = n + 1 ∧
        ∀ x ∈ (heights fn i h s).2.2.2, x = n + 1 := by
  intro i h s h1 h2
  refine ⟨(hfn i h (s.1, s.2.1)).trans h1, ?_⟩
  intro x hx
  have : (heights fn i h s).2.2.2 = s.2.2 ++ [s.1.r.iterators.length] := rfl
  rw [this, List.mem_append, List.mem_singleton] at hx
  cases hx with
  | inl hx => exact h2 x hx
  | inr hx => rw [hx]; exact h1

theorem plain_step {U : Type} (fn : IterateFunc U) (hfn : keepsHeight fn) (n : Nat) :
    ∀ i h (s : Mem × U), s.1.r.iterators.length = n + 1 → True →
      (fn i h s).2.1.r.iterators.length = n + 1 ∧ True :=
  fun i h s h1 _ => ⟨(hfn i h s).trans h1, trivial⟩

/-- C38.  For every state of a `Refs` (any depth, initialized or not), every
pack and start index, and every callback that returns with the rewind stack as
high as it found it: whenever `Ascend`, `AscendFrom`, `Descend` or
`DescendFrom` returns, with whatever error, the rewind stack has as many
entries as at entry, and at every invocation of the callback it had exactly
one more (the record made by `heights`), so it never went below the number at
entry.  Callbacks made of the public operations are of that kind: the
traversals themselves, `DeleteByIndex`, `SetHashByIndex`, `Clear` and
`Rebuild` keep the number of entries. -/
theorem rewind_stack_is_balanced {U : Type} (pack : Pack) (fn : IterateFunc U) (m : Mem) (u : U)
    (fuel : Nat) (start : Int) (hfn : keepsHeight fn) :
    (∀ r, Ascend fuel pack (heights fn) (m, (u, [])) = some r →
      r.2.1.r.iterators.length = m.r.iterators.length ∧
      ∀ x ∈ r.2.2.2, x = m.r.iterators.length + 1) ∧
    (∀ r, AscendFrom fuel pack start (heights fn) (m, (u, [])) = some r →
      r.2.1.r.iterators.length = m.r.iterators.length ∧
      ∀ x ∈ r.2.2.2, x = m.r.iterators.length + 1) ∧
    (∀ r, Descend fuel pack (heights fn) (m, (u, [])) = some r →
      r.2.1.r.iterators.length = m.r.iterators.length ∧
      ∀ x ∈ r.2.2.2, x = m.r.iterators.length + 1) ∧
    (∀ r, DescendFrom fuel pack start (heights fn) (m, (u, [])) = some r →
      r.2.1.r.iterators.length = m.r.iterators.length ∧
      ∀ x ∈ r.2.2.2, x = m.r.iterators.length + 1) ∧
    (∀ r, Ascend fuel pack fn (m, u) = some r →
      r.2.1.r.iterators.length = m.r.iterators.length) ∧
    (∀ r, AscendFrom fuel pack start fn (m, u) = some r →
      r.2.1.r.iterators.length = m.r.iterators.length) ∧
    (∀ r, Descend fuel pack fn (m, u) = some r →
      r.2.1.r.iterators.length = m.r.iterators.length) ∧
    (∀ r, DescendFrom fuel pack start fn (m, u) = some r →
      r.2.1.r.iterators.length = m.r.iterators.length) ∧
    (∀ (i : Int) (hash : SHA256),
      (DeleteByIndex pack i m).2.r.iterators.length = m.r.iterators.length ∧
      (SetHashByIndex pack i hash m).2.r.iterators.length = m.r.iterators.length ∧
      (Clear m).2.r.iterators.length = m.r.iterators.length ∧
      (Rebuild pack m).2.r.iterators.length = m.r.iterators.length) := by
  have hh := heights_step fn hfn m.r.iterators.length
  have hp := plain_step fn hfn m.r.iterators.length
  have hq : ∀ x ∈ ((u, []) : U × List Nat).2, x = m.r.iterators.length + 1 :=
    fun x hx => absurd hx (List.not_mem_nil x)
  refine ⟨ascendFrom_balanced fuel pack 0 (heights fn)
      (fun v => ∀ x ∈ v.2, x = m.r.iterators.length + 1) m (u, []) hq hh,
    ascendFrom_balanced fuel pack start (heights fn)
      (fun v => ∀ x ∈ v.2, x = m.r.iterators.length + 1) m (u, []) hq hh,
    Descend_balanced fuel pack (heights fn)
      (fun v => ∀ x ∈ v.2, x = m.r.iterators.length + 1) m (u, []) hq hh,
    DescendFrom_balanced fuel pack start (heights fn)
      (fun v => ∀ x ∈ v.2, x = m.r.iterators.length + 1) m (u, []) hq hh,
    fun r hr => (ascendFrom_balanced fuel pack 0 fn (fun _ => True) m u trivial hp r hr).1,
    fun r hr => (ascendFrom_balanced fuel pack start fn (fun _ => True) m u trivial hp r hr).1,
    fun r hr => (Descend_balanced fuel pack fn (fun _ => True) m u trivial hp r hr).1,
    fun r hr => (DescendFrom_balanced fuel pack start fn (fun _ => True) m u trivial hp r hr).1,
    fun i hash => ⟨DeleteByIndex_height pack i m, SetHashByIndex_height pack i hash m, rfl, ?_⟩⟩
  unfold Rebuild
  split <;> rfl


theorem deleteAndReturn_keepsHeight (pack : Pack) (e : Option Error) :
    keepsHeight (deleteAndReturn pack e) :=
  fun i _ s => DeleteByIndex_height pack i s.1

/-- C38 at the flat `Refs` with leafs `7, 8, 9` inside an outer traversal
(one entry on the stack) and the callback that deletes the element it is
given: both invocations see two entries and one entry is left at the end. -/
theorem rewind_stack_is_balanced_witness :
    keepsHeight (deleteAndReturn emptyPack none) ∧
    (Ascend 5 emptyPack (heights (deleteAndReturn emptyPack none))
        (startIterating (flatMem [7, 8, 9] flagIsSet none), ((), []))).map
      (fun r => (r.2.1.r.iterators.length, r.2.2.2)) = some (1, [2, 2]) ∧
    (∀ r, Ascend 5 emptyPack (heights (deleteAndReturn emptyPack none))
        (startIterating (flatMem [7, 8, 9] flagIsSet none), ((), [])) = some r →
      r.2.1.r.iterators.length =
        (startIterating (flatMem [7, 8, 9] flagIsSet none)).r.iterators.length ∧
      ∀ x ∈ r.2.2.2,
        x = (startIterating (flatMem [7, 8, 9] flagIsSet none)).r.iterators.length + 1) :=
  ⟨deleteAndReturn_keepsHeight emptyPack none, by decide,
   (rewind_stack_is_balanced emptyPack (deleteAndReturn emptyPack none)
      (startIterating (flatMem [7, 8, 9] flagIsSet none)) () 5 0
      (deleteAndReturn_keepsHeight emptyPack none)).1⟩

theorem indexExact_iff (m : Mem) :
    m.indexExact ↔ ∀ h, (m.bucketList h).Perm (m.carriers h) ∧ m.bucket h ≠ some [] := by
  unfold Mem.indexExact Mem.bucketList Mem.carriers
  constructor
  · intro H h
    have := H h
    cases hb : m.bucket h with
    | none =>
      rw [hb] at this
      simp only [] at this
      have hnil : (liveLeafs m m.r.leafs).filter (fun a => decide ((m.el a).Hash = h)) = [] := by
        rw [List.filter_eq_nil_iff]
        intro a ha
        simpa using this a ha
      rw [hnil]
      exact ⟨List.Perm.refl _, by simp⟩
    | some l =>
      rw [hb] at this
      simp only [] at this
      exact ⟨this.2, by simpa using this.1⟩
  · intro H h
    obtain ⟨hp, hne⟩ := H h
    cases hb : m.bucket h with
    | none =>
      rw [hb] at hp
      simp only [Option.getD_none] at hp
      have hnil := List.Perm.eq_nil (List.Perm.symm hp)
      rw [List.filter_eq_nil_iff] at hnil
      intro a ha
      simpa using hnil a ha
    | some l =>
      rw [hb] at hp hne
      simp only [Option.getD_some] at hp
      exact ⟨by simpa using hne, hp⟩

theorem bucket_del_other (old : SHA256) (e : Nat) (m : Mem) (h : SHA256) (hne : h ≠ old) :
    (delElementFromIndex old e m).bucket h = m.bucket h := by
  unfold delElementFromIndex Mem.bucket
  cases hidx : m.r.index with
  | none => simp [hidx]
  | some idx =>
    simp only
    by_cases hz : (((idx old).getD []).erase e).length = 0
    · rw [if_pos hz]; simp [Mem.setR, hne]
    · rw [if_neg hz]; simp [Mem.setR, hne]

theorem bucketList_del (old : SHA256) (e : Nat) (m : Mem) (h : SHA256) :
    (delElementFromIndex old e m).bucketList h =
      if h = old then (m.bucketList old).erase e else m.bucketList h := by
  unfold Mem.bucketList
  by_cases hh : h = old
  · subst hh
    rw [if_pos rfl, delElementFromIndex_bucket_self]
    cases hb : m.bucket h with
    | none => simp
    | some l =>
      simp only [Option.getD_some]
      split
      · next hz => simp [List.length_eq_zero.mp hz]
      · rfl
  · rw [if_neg hh, bucket_del_other old e m h hh]

theorem bucket_del_nonempty (old : SHA256) (e : Nat) (m : Mem)
    (hm : ∀ h, m.bucket h ≠ some []) : ∀ h, (delElementFromIndex old e m).bucket h ≠ some [] := by
  intro h
  by_cases hh : h = old
  · subst hh
    rw [delElementFromIndex_bucket_self]
    cases hb : m.bucket h with
    | none => simp
    | some l =>
      simp only []
      split
      · simp
      · next hz =>
        intro hc
        simp only [Option.some.injEq] at hc
        rw [hc] at hz
        exact hz rfl
  · rw [bucket_del_other old e m h hh]
    exact hm h

theorem bucket_add (new : SHA256) (e : Nat) (m : Mem) (h : SHA256)
    (hidx : m.r.index.isSome = true) :
    (addElementToIndex new e m).bucket h =
      if h = new then some (m.bucketList new ++ [e]) else m.bucket h := by
  unfold addElementToIndex Mem.bucketList Mem.bucket
  cases hi : m.r.index with
  | none => rw [hi] at hidx; cases hidx
  | some idx =>
    simp only [Mem.setR]

theorem index_del_isSome (old : SHA256) (e : Nat) (m : Mem) (hidx : m.r.index.isSome = true) :
    (delElementFromIndex old e m).r.index.isSome = true := by
  unfold delElementFromIndex
  cases hi : m.r.index with
  | none => rw [hi] at hidx; cases hidx
  | some idx =>
    simp only []
    split <;> rfl

theorem count_filter_ite {α : Type} [DecidableEq α] (p : α → Bool) (l : List α) (a : α) :
    (l.filter p).count a = if p a = true then l.count a else 0 := by
  by_cases hp : p a = true
  · rw [if_pos hp, List.count_filter hp]
  · rw [if_neg hp, List.count_eq_zero]
    intro hmem
    exact hp (List.mem_filter.mp hmem).2


theorem delete_keeps_index_exact (m : Mem) (i e : Nat) (hnd : m.r.leafs.Nodup)
    (hval : ∀ a ∈ m.r.leafs, a < m.els.length)
    (hflag : m.r.flags &&& HashTableIndex ≠ 0) (hexact : m.indexExact)
    (he : (liveLeafs m m.r.leafs)[i]? = some e) :
    ((deleteElement e m).setR
      { (deleteElement e m).r with length := (deleteElement e m).r.length - 1 }).indexExact := by
  obtain ⟨ff, fd, fl, fb, fn⟩ := deleteElement_fields e m
  obtain ⟨hi, hget⟩ := List.getElem?_eq_some.mp he
  have hemem : e ∈ liveLeafs m m.r.leafs := hget ▸ List.getElem_mem hi
  have heleafs : e ∈ m.r.leafs := ((liveLeafs_mem m _ e).mp hemem).1
  have hev : e < m.els.length := hval e heleafs
  have hbk : ∀ h, ((deleteElement e m).setR
      { (deleteElement e m).r with length := (deleteElement e m).r.length - 1 }).bucket h =
      (delElementFromIndex (m.el e).Hash e m).bucket h := by
    intro h
    have : ((deleteElement e m).setR
      { (deleteElement e m).r with length := (deleteElement e m).r.length - 1 }).bucket h =
        (deleteElement e m).bucket h := rfl
    rw [this, deleteElement_bucket, if_pos hflag]
  generalize hm2 : (deleteElement e m).setR
      { (deleteElement e m).r with length := (deleteElement e m).r.length - 1 } = m2 at hbk ⊢
  have hel : ∀ a, m2.el a =
      if e = a then { m.el e with Deleted := true, Hash := 0 } else m.el a := by
    intro a
    have : m2.el a = (deleteElement e m).el a := by rw [← hm2]; rfl
    rw [this, deleteElement_el]
    simp [hev]
  have hdel : ∀ a, (m2.el a).Deleted = if e = a then true else (m.el a).Deleted := by
    intro a
    rw [hel a]
    split <;> rfl
  have hlive := liveLeafs_after_delete m m2 m.r.leafs i e hnd he hdel
  have hleafs : m2.r.leafs = m.r.leafs := by rw [← hm2]; exact fl
  have hnd1 := liveLeafs_nodup m m.r.leafs hnd
  have herase : (liveLeafs m m.r.leafs).eraseIdx i = (liveLeafs m m.r.leafs).erase e := by
    rw [← hget]
    exact (List.Nodup.erase_getElem hnd1 i hi).symm
  have hce : (liveLeafs m m.r.leafs).count e = 1 := List.count_eq_one_of_mem hnd1 hemem
  obtain hE := (indexExact_iff m).mp hexact
  rw [indexExact_iff]
  intro h
  constructor
  · rw [List.perm_iff_count]
    intro a
    have hb : m2.bucketList h = (delElementFromIndex (m.el e).Hash e m).bucketList h := by
      unfold Mem.bucketList; rw [hbk]
    rw [hb, bucketList_del]
    have hc : m2.carriers h = ((liveLeafs m m.r.leafs).erase e).filter
        (fun a => decide ((m2.el a).Hash = h)) := by
      unfold Mem.carriers; rw [hleafs, hlive, herase]
    rw [hc, count_filter_ite, List.count_erase]
    have hm := fun h1 => (List.perm_iff_count.mp (hE h1).1) a
    simp only [Mem.carriers, count_filter_ite] at hm
    by_cases hae : a = e
    · subst hae
      simp only [beq_self_eq_true, if_true, hce, Nat.sub_self, ite_self]
      split
      · rw [List.count_erase_self, hm, if_pos (by simp)]
        omega
      · next hne => rw [hm, if_neg (by simpa using Ne.symm hne)]
    · have hea : ¬ e = a := fun hc => hae hc.symm
      have hh2 : (m2.el a).Hash = (m.el a).Hash := by rw [hel a, if_neg hea]
      simp only [hh2, beq_iff_eq, hea, if_false, Nat.sub_zero]
      split
      · rw [List.count_erase_of_ne hae, hm]
        next hho => rw [hho]
      · rw [hm]
  · rw [hbk]
    exact bucket_del_nonempty _ e m (fun h1 => (hE h1).2) h


theorem setLeafHash_bucket (hash : SHA256) (e : Nat) (m : Mem) (h : SHA256) :
    (setLeafHash hash e m).bucket h =
      (if m.r.flags &&& HashTableIndex ≠ 0 then
        addElementToIndex hash e (delElementFromIndex (m.el e).Hash e m)
        else m).bucket h := by
  unfold setLeafHash
  simp only [Mem.setEl, Mem.bucket]

theorem index_isSome_of_carrier (m : Mem) (e : Nat) (hexact : m.indexExact)
    (hemem : e ∈ liveLeafs m m.r.leafs) : m.r.index.isSome = true := by
  have hx := hexact (m.el e).Hash
  cases hi : m.r.index with
  | some idx => rfl
  | none =>
    have hb : m.bucket (m.el e).Hash = none := by simp [Mem.bucket, hi]
    rw [hb] at hx
    exact absurd rfl (hx e hemem)

theorem set_keeps_index_exact (m : Mem) (new : SHA256) (e : Nat) (hnd : m.r.leafs.Nodup)
    (hval : ∀ a ∈ m.r.leafs, a < m.els.length)
    (hflag : m.r.flags &&& HashTableIndex ≠ 0) (hexact : m.indexExact)
    (hemem : e ∈ liveLeafs m m.r.leafs) :
    (setLeafHash new e m).indexExact := by
  have heleafs : e ∈ m.r.leafs := ((liveLeafs_mem m _ e).mp hemem).1
  have hev : e < m.els.length := hval e heleafs
  have hidx := index_isSome_of_carrier m e hexact hemem
  have hbk : ∀ h, (setLeafHash new e m).bucket h =
      if h = new then some ((delElementFromIndex (m.el e).Hash e m).bucketList new ++ [e])
      else (delElementFromIndex (m.el e).Hash e m).bucket h := by
    intro h
    rw [setLeafHash_bucket, if_pos hflag,
      bucket_add new e _ h (index_del_isSome _ e m hidx)]
  obtain ⟨f1, f2, f3, f4, f5, f6⟩ := sameButIndex_fields (setLeafHash_same new e m)
  have hel : ∀ a, (setLeafHash new e m).el a =
      if e = a then { m.el e with Hash := new } else m.el a := by
    intro a
    rw [setLeafHash_el]
    simp [hev]
  have hlive : liveLeafs (setLeafHash new e m) (setLeafHash new e m).r.leafs =
      liveLeafs m m.r.leafs := by
    rw [f1]
    unfold liveLeafs
    apply List.filter_congr
    intro a _
    rw [setLeafHash_deleted]
  have hnd1 := liveLeafs_nodup m m.r.leafs hnd
  have hce : (liveLeafs m m.r.leafs).count e = 1 := List.count_eq_one_of_mem hnd1 hemem
  obtain hE := (indexExact_iff m).mp hexact
  rw [indexExact_iff]
  intro h
  constructor
  · rw [List.perm_iff_count]
    intro a
    have hm := fun h1 => (List.perm_iff_count.mp (hE h1).1) a
    simp only [Mem.carriers, count_filter_ite] at hm
    have hb : (setLeafHash new e m).bucketList h =
        if h = new then (delElementFromIndex (m.el e).Hash e m).bucketList new ++ [e]
        else (delElementFromIndex (m.el e).Hash e m).bucketList h := by
      unfold Mem.bucketList
      rw [hbk]
      split <;> rfl
    have hc : (setLeafHash new e m).carriers h = (liveLeafs m m.r.leafs).filter
        (fun a => decide (((setLeafHash new e m).el a).Hash = h)) := by
      unfold Mem.carriers; rw [hlive]
    rw [hb, hc, count_filter_ite]
    by_cases hae : a = e
    · subst hae
      have hh2 : ((setLeafHash new a m).el a).Hash = new := by rw [hel a, if_pos rfl]
      simp only [hh2, decide_eq_true_eq, hce]
      by_cases hhn : h = new
      · subst hhn
        rw [if_pos rfl, if_pos rfl, List.count_append, bucketList_del]
        simp only [List.count_singleton_self]
        split
        · rw [List.count_erase_self, hm, if_pos (by simp), hce]
        · next hne => rw [hm, if_neg (by simpa using Ne.symm hne)]
      · rw [if_neg hhn, if_neg (fun hc => hhn hc.symm), bucketList_del]
        split
        · rw [List.count_erase_self, hm, if_pos (by simp), hce]
        · next hne => rw [hm, if_neg (by simpa using Ne.symm hne)]
    · have hea : ¬ e = a := fun hc => hae hc.symm
      have hh2 : ((setLeafHash new e m).el a).Hash = (m.el a).Hash := by rw [hel a, if_neg hea]
      have hdelc : ∀ h1, ((delElementFromIndex (m.el e).Hash e m).bucketList h1).count a =
          (m.bucketList h1).count a := by
        intro h1
        rw [bucketList_del]
        split
        · next hho => rw [List.count_erase_of_ne hae, hho]
        · rfl
      rw [hh2]
      split
      · next hhn =>
        have hz : List.count a [e] = 0 := List.count_eq_zero.mpr (by simpa using hae)
        rw [List.count_append, hdelc, hm, hz, hhn, Nat.add_zero]
      · rw [hdelc, hm]
  · rw [hbk]
    split
    · simp
    · exact bucket_del_nonempty _ e m (fun h1 => (hE h1).2) h


theorem leafAt_live (m : Mem) (leafs : List Nat) :
    ∀ (i : Int) (e : Nat), leafAt m i leafs = some e → e ∈ liveLeafs m leafs := by
  induction leafs with
  | nil => intro i e h; simp [leafAt] at h
  | cons el rest ih =>
    intro i e h
    unfold leafAt at h
    unfold liveLeafs
    rw [List.filter_cons]
    by_cases hdel : (m.el el).Deleted = true
    · rw [if_pos hdel] at h
      simp only [hdel, Bool.not_true, Bool.false_eq_true, if_false]
      exact ih i e h
    · rw [if_neg hdel] at h
      have hdel1 : (m.el el).Deleted = false := by simpa using hdel
      simp only [hdel1, Bool.not_false, if_true]
      by_cases hi : i = 0
      · rw [if_pos hi] at h
        simp only [Option.some.injEq] at h
        rw [h]
        exact List.mem_cons_self _ _
      · rw [if_neg hi] at h
        exact List.mem_cons_of_mem _ (ih (i - 1) e h)

theorem flags_ne_zero_of_bit (m : Mem) (hflag : m.r.flags &&& HashTableIndex ≠ 0) :
    m.r.flags ≠ 0 := by
  intro hc
  rw [hc, Nat.zero_and] at hflag
  exact hflag rfl

theorem SetHashByIndex_cases (pack : Pack) (i : Int) (hash : SHA256) (m : Mem)
    (hf : m.r.flags ≠ 0) (hd : m.r.depth = 0) :
    (SetHashByIndex pack i hash m).2 = m ∨
    ∃ e, e ∈ liveLeafs m m.r.leafs ∧ (SetHashByIndex pack i hash m).2 = setLeafHash hash e m := by
  have h0 : initRefs pack m = (none, m) := by simp [initRefs, hf]
  unfold SetHashByIndex
  rw [h0]
  simp only []
  split
  · exact Or.inl rfl
  · rw [hd]
    unfold setHashByIndex
    rw [setHashByIndexLeafs_eq]
    cases hl : leafAt m i m.r.leafs with
    | none => exact Or.inl rfl
    | some e => exact Or.inr ⟨e, leafAt_live m _ i e hl, rfl⟩

theorem DeleteByIndex_cases (pack : Pack) (i : Int) (m : Mem)
    (hf : m.r.flags ≠ 0) (hd : m.r.depth = 0) :
    (DeleteByIndex pack i m).2 = m ∨
    ∃ e, e ∈ liveLeafs m m.r.leafs ∧ (DeleteByIndex pack i m).2 =
      (deleteElement e m).setR
        { (deleteElement e m).r with length := (deleteElement e m).r.length - 1 } := by
  have h0 : initRefs pack m = (none, m) := by simp [initRefs, hf]
  unfold DeleteByIndex
  rw [h0]
  simp only []
  split
  · exact Or.inl rfl
  · rw [hd]
    unfold deleteByIndex
    rw [deleteByIndexLeafs_eq]
    cases hl : leafAt m i m.r.leafs with
    | none => exact Or.inl rfl
    | some e => exact Or.inr ⟨e, leafAt_live m _ i e hl, rfl⟩

theorem indexExact_entries (m : Mem) (hexact : m.indexExact) :
    (∀ h l, m.bucket h = some l →
      ∀ a ∈ l, a ∈ m.r.leafs ∧ (m.el a).Deleted = false ∧ (m.el a).Hash = h) ∧
    (∀ h, (∀ a ∈ m.r.leafs, (m.el a).Deleted = false → (m.el a).Hash ≠ h) →
      m.bucket h = none) := by
  constructor
  · intro h l hb a ha
    have hx := hexact h
    rw [hb] at hx
    have ha1 := (hx.2.mem_iff).mp ha
    simp only [List.mem_filter, decide_eq_true_eq] at ha1
    have ha2 := (liveLeafs_mem m _ a).mp ha1.1
    exact ⟨ha2.1, ha2.2, ha1.2⟩
  · intro h hno
    have hx := hexact h
    cases hb : m.bucket h with
    | none => rfl
    | some l =>
      rw [hb] at hx
      obtain ⟨a, ha⟩ := List.exists_mem_of_ne_nil l hx.1
      have ha1 := (hx.2.mem_iff).mp ha
      simp only [List.mem_filter, decide_eq_true_eq] at ha1
      have ha2 := (liveLeafs_mem m _ a).mp ha1.1
      exact absurd ha1.2 (hno a ha2.1 ha2.2)

/-- C40.  Let the `HashTableIndex` flag be set on an initialized `Refs` of
depth 0 whose leaf pointers are distinct and valid, and let the index hold
exactly the non-deleted leafs, each under its own hash.  Then for every index
`i` and hash the memory after `SetHashByIndex(i, hash)` and the memory after
`DeleteByIndex(i)`, whether the call succeeds or not, again has an index that
holds exactly the non-deleted leafs, each under its own hash, with flags, depth,
leaf list and store size as before.  In particular every member of a bucket is
a non-deleted leaf that carries the hash of the bucket, and a hash that no
non-deleted leaf carries has no entry. -/
theorem index_fidelity_is_preserved (pack : Pack) (m : Mem) (i : Int) (hash : SHA256)
    (hflag : m.r.flags &&& HashTableIndex ≠ 0) (hd : m.r.depth = 0)
    (hnd : m.r.leafs.Nodup) (hval : ∀ a ∈ m.r.leafs, a < m.els.length)
    (hexact : m.indexExact) :
    ∀ m1, (m1 = (SetHashByIndex pack i hash m).2 ∨ m1 = (DeleteByIndex pack i m).2) →
      m1.indexExact ∧
      (m1.r.flags = m.r.flags ∧ m1.r.depth = 0 ∧ m1.r.leafs = m.r.leafs ∧
        m1.els.length = m.els.length) ∧
      (∀ h l, m1.bucket h = some l →
        ∀ a ∈ l, a ∈ m1.r.leafs ∧ (m1.el a).Deleted = false ∧ (m1.el a).Hash = h) ∧
      (∀ h, (∀ a ∈ m1.r.leafs, (m1.el a).Deleted = false → (m1.el a).Hash ≠ h) →
        m1.bucket h = none) := by
  have hf := flags_ne_zero_of_bit m hflag
  have key : ∀ m1, (m1 = (SetHashByIndex pack i hash m).2 ∨ m1 = (DeleteByIndex pack i m).2) →
      m1.indexExact ∧
      (m1.r.flags = m.r.flags ∧ m1.r.depth = 0 ∧ m1.r.leafs = m.r.leafs ∧
        m1.els.length = m.els.length) := by
    intro m1 hm1
    rcases hm1 with hm1 | hm1
    · rcases SetHashByIndex_cases pack i hash m hf hd with hs | ⟨e, hemem, hs⟩
      · rw [hm1, hs]
        exact ⟨hexact, rfl, hd, rfl, rfl⟩
      · rw [hm1, hs]
        obtain ⟨f1, f2, f3, f4, f5, f6⟩ := sameButIndex_fields (setLeafHash_same hash e m)
        refine ⟨set_keeps_index_exact m hash e hnd hval hflag hexact hemem, f6, f3.trans hd, f1, ?_⟩
        rw [setLeafHash_els, List.length_set]
    · rcases DeleteByIndex_cases pack i m hf hd with hs | ⟨e, hemem, hs⟩
      · rw [hm1, hs]
        exact ⟨hexact, rfl, hd, rfl, rfl⟩
      · rw [hm1, hs]
        obtain ⟨n, hn⟩ := List.getElem?_of_mem hemem
        obtain ⟨ff, fd, fl, fb, fn⟩ := deleteElement_fields e m
        refine ⟨delete_keeps_index_exact m n e hnd hval hflag hexact hn, ff, fd.trans hd, fl, ?_⟩
        simp only [Mem.setR, (deleteElement_stores e m).1, List.length_set]
  intro m1 hm1
  obtain ⟨hx, hshape⟩ := key m1 hm1
  exact ⟨hx, hshape, (indexExact_entries m1 hx).1, (indexExact_entries m1 hx).2⟩

/-- The theorem of C40 at `sevenEightSeven`: overwriting the only carrier of `8`
with `7` and deleting it both leave an exact index without an entry for `8`. -/
theorem index_fidelity_is_preserved_witness :
    (sevenEightSeven.r.flags &&& HashTableIndex ≠ 0 ∧ sevenEightSeven.r.depth = 0 ∧
      sevenEightSeven.r.leafs.Nodup ∧
      (∀ a ∈ sevenEightSeven.r.leafs, a < sevenEightSeven.els.length)) ∧
    (SetHashByIndex emptyPack 1 7 sevenEightSeven).2.indexExact ∧
    (DeleteByIndex emptyPack 1 sevenEightSeven).2.indexExact ∧
    (SetHashByIndex emptyPack 1 7 sevenEightSeven).2.bucket 7 = some [0, 2, 1] ∧
    (SetHashByIndex emptyPack 1 7 sevenEightSeven).2.bucket 8 = none ∧
    (DeleteByIndex emptyPack 1 sevenEightSeven).2.bucket 8 = none ∧
    (DeleteByIndex emptyPack 0 sevenEightSeven).2.bucket 7 = some [2] :=
  ⟨⟨by decide, by decide, by decide, by decide⟩,
   (index_fidelity_is_preserved emptyPack sevenEightSeven 1 7 (by decide) (by decide)
      (by decide) (by decide) sevenEightSeven_indexExact _ (Or.inl rfl)).1,
   (index_fidelity_is_preserved emptyPack sevenEightSeven 1 7 (by decide) (by decide)
      (by decide) (by decide) sevenEightSeven_indexExact _ (Or.inr rfl)).1,
   by decide, by decide, by decide, by decide⟩

theorem liveHashes_liveAll (m : Mem) :
    ∀ (d : Nat) (leafs branches : List Nat),
      liveHashes m d leafs branches = (liveAll m d leafs branches).map (fun a => (m.el a).Hash) := by
  intro d
  induction d with
  | zero => intro leafs branches; rfl
  | succ d ih =>
    intro leafs branches
    simp only [liveHashes, liveAll, List.map_flatMap]
    congr 1
    funext b
    exact ih _ _

theorem liveAll_length (m : Mem) (d : Nat) (leafs branches : List Nat) :
    (liveAll m d leafs branches).length = (liveHashes m d leafs branches).length := by
  rw [liveHashes_liveAll, List.length_map]

theorem indexOf_flatMap (m : Mem) (re : Nat) (g : Nat → List Nat) :
    ∀ branches : List Nat,
      (∀ b ∈ branches, (m.node b).length = ((g b).length : Int)) →
      re ∈ branches.flatMap g →
      ∃ b ∈ branches, re ∈ g b ∧
        (((branches.flatMap g).indexOf re : Nat) : Int) =
          lengthsBefore m b branches + (((g b).indexOf re : Nat) : Int) := by
  intro branches
  induction branches with
  | nil => intro _ h; simp at h
  | cons br rest ih =>
    intro hlen hmem
    rw [List.flatMap_cons] at hmem ⊢
    by_cases hin : re ∈ g br
    · refine ⟨br, List.mem_cons_self _ _, hin, ?_⟩
      rw [List.indexOf_append_of_mem hin]
      simp [lengthsBefore]
    · have hmem1 : re ∈ rest.flatMap g := by
        rcases List.mem_append.mp hmem with h1 | h1
        · exact absurd h1 hin
        · exact h1
      obtain ⟨b, hb, hreb, hidx⟩ :=
        ih (fun b hb => hlen b (List.mem_cons_of_mem _ hb)) hmem1
      refine ⟨b, List.mem_cons_of_mem _ hb, hreb, ?_⟩
      have hne : ¬ br = b := by
        intro hc
        rw [hc] at hin
        exact hin hreb
      rw [List.indexOf_append_of_not_mem hin]
      unfold lengthsBefore
      rw [if_neg hne, hlen br (List.mem_cons_self _ _)]
      push_cast
      rw [hidx]
      ring

theorem chainTo_snoc (m : Mem) (parent : Option Nat) (b : Nat) :
    ∀ (ups : List Nat) (u : Nat), chainTo m (some b) u ups → (m.node b).upper = parent →
      chainTo m parent u (ups ++ [b]) := by
  intro ups
  induction ups with
  | nil => intro u h hb; exact ⟨h, hb⟩
  | cons c rest ih => intro u h hb; exact ⟨h.1, ih c h.2 hb⟩

theorem chainTop_snoc (b : Nat) :
    ∀ (ups : List Nat) (u : Nat), chainTop u (ups ++ [b]) = b := by
  intro ups
  induction ups with
  | nil => intro u; rfl
  | cons c rest ih => intro u; exact ih c

theorem chainOffset_snoc (m : Mem) (b : Nat) :
    ∀ (ups : List Nat) (u : Nat), chainOffset m u (ups ++ [b]) =
      chainOffset m u ups + lengthsBefore m (chainTop u ups) (m.node b).branches := by
  intro ups
  induction ups with
  | nil => intro u; simp [chainOffset, chainTop]
  | cons c rest ih =>
    intro u
    show lengthsBefore m u (m.node c).branches + chainOffset m c (rest ++ [b]) =
      lengthsBefore m u (m.node c).branches + chainOffset m c rest +
        lengthsBefore m (chainTop c rest) (m.node b).branches
    rw [ih c]
    ring

theorem climb_chain (m : Mem) :
    ∀ (ups : List Nat) (b : Nat) (fuel : Nat) (acc : Int), chainTo m none b ups →
      ups.length ≤ fuel →
      climb m fuel b (m.node b).upper acc = some (chainTop b ups, acc + chainOffset m b ups) := by
  intro ups
  induction ups with
  | nil =>
    intro b fuel acc h _
    simp only [chainTo] at h
    rw [h]
    cases fuel <;> simp [climb, chainTop, chainOffset]
  | cons c rest ih =>
    intro b fuel acc h hf
    obtain ⟨h1, h2⟩ := h
    rw [h1]
    cases fuel with
    | zero => simp at hf
    | succ f =>
      simp only [climb, chainTop, chainOffset]
      rw [ih c f _ h2 (by simpa using hf)]
      congr 2
      ring

theorem chainTo_tail_eq (m : Mem) :
    ∀ (s1 s2 : List Nat) (x : Nat), chainTo m none x s1 → chainTo m none x s2 → s1 = s2 := by
  intro s1
  induction s1 with
  | nil =>
    intro s2 x h1 h2
    cases s2 with
    | nil => rfl
    | cons c t =>
      simp only [chainTo] at h1
      rw [h2.1] at h1
      cases h1
  | cons c t ih =>
    intro s2 x h1 h2
    cases s2 with
    | nil =>
      simp only [chainTo] at h2
      rw [h1.1] at h2
      cases h2
    | cons c2 t2 =>
      have hc : c = c2 := by
        have := h1.1.symm.trans h2.1
        simpa using this
      subst hc
      rw [ih t2 c h1.2 h2.2]

theorem chainTo_suffix (m : Mem) :
    ∀ (pre : List Nat) (x y : Nat) (s : List Nat), chainTo m none x (pre ++ y :: s) →
      chainTo m none y s := by
  intro pre
  induction pre with
  | nil => intro x y s h; exact h.2
  | cons c t ih => intro x y s h; exact ih c y s h.2

theorem chainTo_nodup (m : Mem) :
    ∀ (ups : List Nat) (b : Nat), chainTo m none b ups → (b :: ups).Nodup := by
  intro ups
  induction ups with
  | nil => intro b _; simp
  | cons c rest ih =>
    intro b h
    rw [List.nodup_cons]
    refine ⟨?_, ih c h.2⟩
    intro hmem
    obtain ⟨pre, s, hsplit⟩ := List.append_of_mem hmem
    have hs : chainTo m none b s := by
      cases pre with
      | nil =>
        simp only [List.nil_append, List.cons.injEq] at hsplit
        obtain ⟨hcb, hrs⟩ := hsplit
        subst hcb
        rw [hrs] at h
        exact h.2
      | cons p t =>
        simp only [List.cons_append, List.cons.injEq] at hsplit
        obtain ⟨hcp, hrs⟩ := hsplit
        rw [hrs] at h
        exact chainTo_suffix m t c b s h.2
    have heq := chainTo_tail_eq m _ _ b h hs
    have hl := congrArg List.length heq
    rw [hsplit] at hl
    simp at hl
    omega

theorem node_in_range (m : Mem) (b : Nat)
    (h : (m.node b).leafs ≠ [] ∨ (m.node b).branches ≠ []) : b < m.nodes.length := by
  by_contra hc
  have hnone : m.nodes[b]? = none := List.getElem?_eq_none (by omega)
  have hdef : m.node b = default := by
    simp [Mem.node, List.getD_eq_getElem?_getD, hnone]
  rw [hdef] at h
  rcases h with h | h <;> exact h rfl

theorem length_le_of_nodup_lt (l : List Nat) (n : Nat) (hnd : l.Nodup)
    (hlt : ∀ x ∈ l, x < n) : l.length ≤ n := by
  have hsub : l ⊆ List.range n := fun x hx => List.mem_range.mpr (hlt x hx)
  have := (List.subperm_of_subset hnd hsub).length_le
  simpa using this

theorem locate_leaf (m : Mem) (re : Nat) :
    ∀ (d : Nat) (parent : Option Nat) (leafs branches : List Nat),
      linked m (d + 1) parent leafs branches = true →
      lengthsOk m (d + 1) branches = true →
      re ∈ liveAll m (d + 1) leafs branches →
      ∃ u ups, (m.el re).upper = some u ∧ re ∈ liveLeafs m (m.node u).leafs ∧
        chainTo m parent u ups ∧ ups.length = d ∧ chainTop u ups ∈ branches ∧
        (∀ x ∈ u :: ups, x < m.nodes.length) ∧
        (((liveAll m (d + 1) leafs branches).indexOf re : Nat) : Int) =
          (((liveLeafs m (m.node u).leafs).indexOf re : Nat) : Int) + chainOffset m u ups +
            lengthsBefore m (chainTop u ups) branches := by
  intro d
  induction d with
  | zero =>
    intro parent leafs branches hlink hlen hre
    simp only [linked, List.all_eq_true, Bool.and_eq_true, decide_eq_true_eq] at hlink
    simp only [lengthsOk, List.all_eq_true, Bool.and_eq_true, decide_eq_true_eq] at hlen
    simp only [liveAll] at hre ⊢
    obtain ⟨b, hb, hreb, hidx⟩ :=
      indexOf_flatMap m re (fun b => liveLeafs m (m.node b).leafs) branches
        (fun b hb => by
          rw [(hlen b hb).1]
          simp [liveHashes]) hre
    have hin : re ∈ (m.node b).leafs := ((liveLeafs_mem m _ re).mp hreb).1
    refine ⟨b, [], (hlink b hb).2 re hin, hreb, (hlink b hb).1, rfl, hb, ?_, ?_⟩
    · intro x hx
      simp only [List.mem_singleton] at hx
      rw [hx]
      exact node_in_range m b (Or.inl (List.ne_nil_of_mem hin))
    · rw [hidx]
      simp only [chainOffset, chainTop]
      ring
  | succ d ih =>
    intro parent leafs branches hlink hlen hre
    rw [linked] at hlink
    rw [lengthsOk] at hlen
    simp only [List.all_eq_true, Bool.and_eq_true, decide_eq_true_eq] at hlink hlen
    rw [liveAll] at hre ⊢
    obtain ⟨b, hb, hreb, hidx⟩ :=
      indexOf_flatMap m re
        (fun b => liveAll m (d + 1) (m.node b).leafs (m.node b).branches) branches
        (fun b hb => by
          rw [(hlen b hb).1, liveAll_length]) hre
    obtain ⟨u, ups, h1, h2, h3, h4, h5, h6, h7⟩ :=
      ih (some b) (m.node b).leafs (m.node b).branches (hlink b hb).2 (hlen b hb).2 hreb
    refine ⟨u, ups ++ [b], h1, h2, chainTo_snoc m parent b ups u h3 (hlink b hb).1, ?_, ?_, ?_, ?_⟩
    · simp [h4]
    · rw [chainTop_snoc]
      exact hb
    · intro x hx
      rw [← List.cons_append] at hx
      rcases List.mem_append.mp hx with hx1 | hx1
      · exact h6 x hx1
      · simp only [List.mem_singleton] at hx1
        rw [hx1]
        exact node_in_range m b (Or.inr (List.ne_nil_of_mem h5))
    · rw [hidx, h7, chainOffset_snoc, chainTop_snoc]
      ring

/-- C36.  Let the `Refs` have depth at least 1, let every branch record as its
length the number of non-deleted leafs below it, and let the `upper` links
agree with the child lists.  Then for every non-deleted leaf `re` of the tree
`indexOfLeaf(re)` returns a nil error and the position of `re` in the
left-to-right sequence of the non-deleted leafs, that is the number of
non-deleted leafs in front of it; the memory is untouched. -/
theorem indexOfLeaf_is_linear_index (m : Mem) (re : Nat)
    (hd : 1 ≤ m.r.depth)
    (hlen : lengthsOk m m.r.depth m.r.branches = true)
    (hlink : linked m m.r.depth none m.r.leafs m.r.branches = true)
    (hre : re ∈ liveAll m m.r.depth m.r.leafs m.r.branches) :
    indexOfLeaf re m =
      ((((liveAll m m.r.depth m.r.leafs m.r.branches).indexOf re : Nat) : Int), none, m) := by
  obtain ⟨d, hdd⟩ : ∃ d, m.r.depth = d + 1 := ⟨m.r.depth - 1, by omega⟩
  rw [hdd] at hlen hlink hre ⊢
  obtain ⟨u, ups, h1, h2, h3, h4, h5, h6, h7⟩ :=
    locate_leaf m re d none m.r.leafs m.r.branches hlink hlen hre
  have hnd := chainTo_nodup m ups u h3
  have hle := length_le_of_nodup_lt (u :: ups) m.nodes.length hnd h6
  have hfuel : ups.length ≤ m.nodes.length := by
    simp only [List.length_cons] at hle
    omega
  have hclimb := climb_chain m ups u m.nodes.length 0 h3 hfuel
  unfold indexOfLeaf
  rw [h1]
  simp only [indexInLeafs, indexInLeafsLoop_mem m re _ 0 h2, offsetOfNode, hclimb]
  rw [h7]
  congr 1
  ring

/-- The theorem of C36 at `twoByTwo`: the third leaf, the first one of the second
branch, has the linear index 2. -/
theorem indexOfLeaf_is_linear_index_witness :
    (1 ≤ twoByTwo.r.depth ∧ lengthsOk twoByTwo twoByTwo.r.depth twoByTwo.r.branches = true ∧
      linked twoByTwo twoByTwo.r.depth none twoByTwo.r.leafs twoByTwo.r.branches = true ∧
      2 ∈ liveAll twoByTwo twoByTwo.r.depth twoByTwo.r.leafs twoByTwo.r.branches) ∧
    (liveAll twoByTwo twoByTwo.r.depth twoByTwo.r.leafs twoByTwo.r.branches).indexOf 2 = 2 ∧
    indexOfLeaf 2 twoByTwo =
      ((((liveAll twoByTwo twoByTwo.r.depth twoByTwo.r.leafs twoByTwo.r.branches).indexOf 2 :
        Nat) : Int), none, twoByTwo) :=
  ⟨⟨by decide, by decide, by decide, by decide⟩, by decide,
   indexOfLeaf_is_linear_index twoByTwo 2 (by decide) (by decide) (by decide) (by decide)⟩

/-! ### A `Refs` of positive length has a root hash -/

theorem hashed_step (m m2 : Mem) (hh : m2.r.Hash = m.r.Hash)
    (hl : m2.r.length ≤ m.r.length) (h : m.hashedIfNonEmpty) : m2.hashedIfNonEmpty := by
  intro hp
  rw [hh]
  exact h (lt_of_lt_of_le hp hl)

theorem hashed_blank (hash : SHA256) : (blankMem hash).hashedIfNonEmpty := by
  intro h
  exact absurd h (lt_irrefl 0)

theorem sameButIndex_len {m1 m2 : Mem} (h : sameButIndex m1 m2) : m2.r.length = m1.r.length :=
  (sameButIndex_fields h).2.2.2.2.1

theorem loadRefsNodeIfNeed_len (pack : Pack) (rn depth : Nat) (upper : Option Nat) (m : Mem) :
    (loadRefsNodeIfNeed pack rn depth upper m).2.r.length = m.r.length := by
  unfold loadRefsNodeIfNeed
  split
  · have hs := sameButIndex_len (loadRefsNodes_same pack depth upper (m.node rn).hash m)
    split
    · next h1 => rw [h1] at hs; exact hs
    · next h1 => rw [h1] at hs; exact hs
  · rfl

theorem setHashByIndexBranches_len (pack : Pack) (depth : Nat) (upper : Option Nat)
    (sub : Int → Nat → Mem → Option Error × Mem)
    (hsub : ∀ j br m, (sub j br m).2.r.length = m.r.length) (branches : List Nat) :
    ∀ (i : Int) (m : Mem),
      (setHashByIndexBranches pack depth upper sub i branches m).2.r.length = m.r.length := by
  induction branches with
  | nil => intro i m; rfl
  | cons br rest ih =>
    intro i m
    unfold setHashByIndexBranches
    have hl := loadRefsNodeIfNeed_len pack br depth upper m
    split
    · next h1 => rw [h1] at hl; exact hl
    · next h1 =>
      rw [h1] at hl
      split
      · rw [ih]; exact hl
      · rw [hsub]; exact hl

theorem setHashByIndex_len (pack : Pack) (hash : SHA256) :
    ∀ (depth : Nat) (i : Int) (upper : Option Nat) (leafs branches : List Nat) (m : Mem),
      (setHashByIndex pack hash depth i upper leafs branches m).2.r.length = m.r.length := by
  intro depth
  induction depth with
  | zero =>
    intro i upper leafs branches m
    unfold setHashByIndex
    rw [setHashByIndexLeafs_eq]
    split
    · exact sameButIndex_len (setLeafHash_same _ _ _)
    · rfl
  | succ d ih =>
    intro i upper leafs branches m
    unfold setHashByIndex
    exact setHashByIndexBranches_len pack (d + 1) upper _
      (fun j br m1 => ih j (some br) _ _ m1) branches i m

theorem deleteByIndexBranches_len (pack : Pack) (depth : Nat) (upper : Option Nat)
    (sub : Int → Nat → Mem → Option Error × Mem)
    (hsub : ∀ j br m, (sub j br m).2.r.length = m.r.length) (branches : List Nat) :
    ∀ (i : Int) (m : Mem),
      (deleteByIndexBranches pack depth upper sub i branches m).2.r.length = m.r.length := by
  induction branches with
  | nil => intro i m; rfl
  | cons br rest ih =>
    intro i m
    unfold deleteByIndexBranches
    have hl := loadRefsNodeIfNeed_len pack br depth upper m
    split
    · next h1 => rw [h1] at hl; exact hl
    · next m1 h1 =>
      rw [h1] at hl
      split
      · rw [ih]; exact hl
      · have hs := hsub i br m1
        split
        · next h2 => rw [h2] at hs; rw [hs]; exact hl
        · next h2 =>
          rw [h2] at hs
          rw [ih]
          simp only [Mem.setNode]
          rw [hs]; exact hl

theorem deleteByIndex_len (pack : Pack) :
    ∀ (depth : Nat) (i : Int) (upper : Option Nat) (leafs branches : List Nat) (m : Mem),
      (deleteByIndex pack depth i upper leafs branches m).2.r.length = m.r.length := by
  intro depth
  induction depth with
  | zero =>
    intro i upper leafs branches m
    unfold deleteByIndex
    rw [deleteByIndexLeafs_eq]
    split
    · exact (deleteElement_fields _ _).2.2.2.2
    · rfl
  | succ d ih =>
    intro i upper leafs branches m
    unfold deleteByIndex
    exact deleteByIndexBranches_len pack (d + 1) upper _
      (fun j br m1 => ih j (some br) _ _ m1) branches i m

theorem isFinding_len (m : Mem) :
    (isFindingIteratorsIndexFromRootRequired m).2.r.length = m.r.length := by
  unfold isFindingIteratorsIndexFromRootRequired
  simp only []
  split
  · rfl
  · split <;> rfl

theorem stopIterating_len (m : Mem) : (stopIterating m).r.length = m.r.length := by
  unfold stopIterating
  split <;> rfl

theorem initRefs_hashed (pack : Pack) (m : Mem) (h : m.hashedIfNonEmpty) :
    (initRefs pack m).2.hashedIfNonEmpty := by
  by_cases hz : m.r.Hash = 0
  · have hl : (initRefs pack m).2.r.length = m.r.length := by
      unfold initRefs
      split
      · rfl
      · simp only [Mem.setR]
        rw [if_pos hz]
    exact hashed_step _ _ (initRefs_hash pack m) (le_of_eq hl) h
  · intro _
    rw [initRefs_hash]
    exact hz

theorem Len_hashed (pack : Pack) (m : Mem) (h : m.hashedIfNonEmpty) :
    (Len pack m).2.2.hashedIfNonEmpty := by
  have hi := initRefs_hashed pack m h
  unfold Len
  split
  · next h1 => rw [h1] at hi; exact hi
  · next h1 => rw [h1] at hi; exact hi

theorem hashByIndexBranches_same (pack : Pack) (depth : Nat) (upper : Option Nat)
    (sub : Int → Nat → Mem → SHA256 × Option Error × Mem)
    (hsub : ∀ j br m, (sub j br m).2.2.r.Hash = m.r.Hash ∧ (sub j br m).2.2.r.length = m.r.length)
    (branches : List Nat) :
    ∀ (i : Int) (m : Mem),
      (hashByIndexBranches pack depth upper sub i branches m).2.2.r.Hash = m.r.Hash ∧
      (hashByIndexBranches pack depth upper sub i branches m).2.2.r.length = m.r.length := by
  induction branches with
  | nil => intro i m; exact ⟨rfl, rfl⟩
  | cons br rest ih =>
    intro i m
    unfold hashByIndexBranches
    have hl := loadRefsNodeIfNeed_hash pack br depth upper m
    have hl2 := loadRefsNodeIfNeed_len pack br depth upper m
    split
    · next h1 => rw [h1] at hl hl2; exact ⟨hl, hl2⟩
    · next h1 =>
      rw [h1] at hl hl2
      split
      · rw [(ih _ _).1, (ih _ _).2]; exact ⟨hl, hl2⟩
      · rw [(hsub _ _ _).1, (hsub _ _ _).2]; exact ⟨hl, hl2⟩

theorem hashByIndex_same (pack : Pack) :
    ∀ (depth : Nat) (i : Int) (upper : Option Nat) (leafs branches : List Nat) (m : Mem),
      (hashByIndex pack depth i upper leafs branches m).2.2.r.Hash = m.r.Hash ∧
      (hashByIndex pack depth i upper leafs branches m).2.2.r.length = m.r.length := by
  intro depth
  induction depth with
  | zero =>
    intro i upper leafs branches m
    unfold hashByIndex
    exact ⟨rfl, rfl⟩
  | succ d ih =>
    intro i upper leafs branches m
    unfold hashByIndex
    exact hashByIndexBranches_same pack (d + 1) upper _
      (fun j br m1 => ih j (some br) _ _ m1) branches i m

theorem HashByIndex_hashed (pack : Pack) (i : Int) (m : Mem) (h : m.hashedIfNonEmpty) :
    (HashByIndex pack i m).2.2.hashedIfNonEmpty := by
  have hi := initRefs_hashed pack m h
  unfold HashByIndex
  split
  · next h1 => rw [h1] at hi; exact hi
  · next m1 h1 =>
    rw [h1] at hi
    split
    · exact hi
    · obtain ⟨a, b⟩ := hashByIndex_same pack m1.r.depth i none m1.r.leafs m1.r.branches m1
      exact hashed_step _ _ a (le_of_eq b) hi

theorem SetHashByIndex_hashed (pack : Pack) (i : Int) (hash : SHA256) (m : Mem)
    (h : m.hashedIfNonEmpty) : (SetHashByIndex pack i hash m).2.hashedIfNonEmpty := by
  have hi := initRefs_hashed pack m h
  unfold SetHashByIndex
  split
  · next h1 => rw [h1] at hi; exact hi
  · next m1 h1 =>
    rw [h1] at hi
    split
    · exact hi
    · exact hashed_step _ _ (setHashByIndex_hash pack hash _ _ _ _ _ _)
        (le_of_eq (setHashByIndex_len pack hash _ _ _ _ _ _)) hi

theorem DeleteByIndex_hashed (pack : Pack) (i : Int) (m : Mem)
    (h : m.hashedIfNonEmpty) : (DeleteByIndex pack i m).2.hashedIfNonEmpty := by
  have hi := initRefs_hashed pack m h
  unfold DeleteByIndex
  split
  · next h1 => rw [h1] at hi; exact hi
  · next m1 h1 =>
    rw [h1] at hi
    split
    · exact hi
    · have a := deleteByIndex_hash pack m1.r.depth i none m1.r.leafs m1.r.branches m1
      have b := deleteByIndex_len pack m1.r.depth i none m1.r.leafs m1.r.branches m1
      split
      · next h2 => rw [h2] at a b; exact hashed_step _ _ a (le_of_eq b) hi
      · next m2 h2 =>
        rw [h2] at a b
        refine hashed_step _ _ a ?_ hi
        show m2.r.length - 1 ≤ m1.r.length
        rw [b]
        omega

theorem AppendHashes_hashed (pack : Pack) (hs : List SHA256) (m : Mem)
    (h : m.hashedIfNonEmpty) : (AppendHashes pack hs m).2.hashedIfNonEmpty := by
  have hi := initRefs_hashed pack m h
  unfold AppendHashes
  split
  · next h1 => rw [h1] at hi; exact hi
  · next h1 => rw [h1] at hi; exact hi

theorem Clear_hashed (m : Mem) : (Clear m).2.hashedIfNonEmpty := by
  intro h
  exact absurd h (by simp [Clear, Mem.setR])

theorem Rebuild_hashed (pack : Pack) (m : Mem) (h : m.hashedIfNonEmpty) :
    (Rebuild pack m).2.hashedIfNonEmpty := by
  unfold Rebuild
  split <;> exact h

theorem Slice_hashed (pack : Pack) (i j : Int) (m : Mem) (h : m.hashedIfNonEmpty) :
    (Slice pack i j m).2.2.hashedIfNonEmpty ∧
    ∀ r, (Slice pack i j m).1 = some r → r.length = 0 := by
  have hi := initRefs_hashed pack m h
  unfold Slice
  split
  · next h1 =>
    rw [h1] at hi
    exact ⟨hi, fun r hr => by cases hr⟩
  · next m1 h1 =>
    rw [h1] at hi
    split
    · exact ⟨hi, fun r hr => by cases hr⟩
    · simp only [ite_self]
      refine ⟨hi, fun r hr => ?_⟩
      simp only [Option.some.injEq] at hr
      rw [← hr]


theorem hashed_steps {V : Type} (pack : Pack) :
    (∀ s : Mem × V, s.1.hashedIfNonEmpty →
      (isFindingIteratorsIndexFromRootRequired s.1).2.hashedIfNonEmpty) ∧
    (∀ br d up (s : Mem × V), s.1.hashedIfNonEmpty →
      (loadRefsNodeIfNeed pack br d up s.1).2.hashedIfNonEmpty) :=
  ⟨fun s hs => hashed_step _ _ (isFinding_hash s.1) (le_of_eq (isFinding_len s.1)) hs,
   fun br d up s hs => hashed_step _ _ (loadRefsNodeIfNeed_hash pack br d up s.1)
     (le_of_eq (loadRefsNodeIfNeed_len pack br d up s.1)) hs⟩

theorem ascendFrom_hashed {V : Type} (fuel : Nat) (pack : Pack) (start : Int)
    (g : IterateFunc V) (m : Mem) (v : V) (hm : m.hashedIfNonEmpty)
    (hg : ∀ i h s, s.1.hashedIfNonEmpty → (g i h s).2.1.hashedIfNonEmpty) :
    ∀ r, ascendFrom fuel pack start g (m, v) = some r → r.2.1.hashedIfNonEmpty := by
  intro r hr
  unfold ascendFrom at hr
  have hi := initRefs_hashed pack m hm
  split at hr
  · next err m1 hc =>
    rw [hc] at hi
    simp only [Option.some.injEq] at hr
    rw [← hr]; exact hi
  · next m1 hc =>
    rw [hc] at hi
    split at hr
    · simp only [Option.some.injEq] at hr
      rw [← hr]; exact hi
    · split at hr
      · simp only [Option.some.injEq] at hr
        rw [← hr]; exact hi
      · split at hr
        · cases hr
        · next err s2 hl =>
          obtain ⟨b2, b3⟩ := hashed_steps (V := V) pack
          have := ascendFromLoop_inv (fun s : Mem × V => s.1.hashedIfNonEmpty)
            pack g hg b2 b3 _ _ _ _ hl hi
          simp only [Option.some.injEq] at hr
          rw [← hr]
          exact hashed_step _ _ (stopIterating_hash _) (le_of_eq (stopIterating_len _)) this

theorem descendFrom_hashed {V : Type} (fuel : Nat) (pack : Pack) (start : Int)
    (g : IterateFunc V) (m : Mem) (v : V) (hm : m.hashedIfNonEmpty)
    (hg : ∀ i h s, s.1.hashedIfNonEmpty → (g i h s).2.1.hashedIfNonEmpty) :
    ∀ r, descendFrom fuel pack start g (m, v) = some r → r.2.1.hashedIfNonEmpty := by
  intro r hr
  unfold descendFrom at hr
  simp only [] at hr
  split at hr
  · simp only [Option.some.injEq] at hr
    rw [← hr]; exact hm
  · split at hr
    · simp only [Option.some.injEq] at hr
      rw [← hr]; exact hm
    · split at hr
      · cases hr
      · next err s2 hl =>
        obtain ⟨b2, b3⟩ := hashed_steps (V := V) pack
        have := descendFromLoop_inv (fun s : Mem × V => s.1.hashedIfNonEmpty)
          pack g hg b2 b3 _ _ _ _ _ hl hm
        simp only [Option.some.injEq] at hr
        rw [← hr]
        exact hashed_step _ _ (stopIterating_hash _) (le_of_eq (stopIterating_len _)) this

theorem DescendFrom_hashed {V : Type} (fuel : Nat) (pack : Pack) (start : Int)
    (g : IterateFunc V) (m : Mem) (v : V) (hm : m.hashedIfNonEmpty)
    (hg : ∀ i h s, s.1.hashedIfNonEmpty → (g i h s).2.1.hashedIfNonEmpty) :
    ∀ r, DescendFrom fuel pack start g (m, v) = some r → r.2.1.hashedIfNonEmpty := by
  intro r hr
  unfold DescendFrom at hr
  have hi := initRefs_hashed pack m hm
  split at hr
  · next err m1 hc =>
    rw [hc] at hi
    simp only [Option.some.injEq] at hr
    rw [← hr]; exact hi
  · next m1 hc =>
    rw [hc] at hi
    exact descendFrom_hashed fuel pack start g m1 v hi hg r hr

theorem Descend_hashed {V : Type} (fuel : Nat) (pack : Pack)
    (g : IterateFunc V) (m : Mem) (v : V) (hm : m.hashedIfNonEmpty)
    (hg : ∀ i h s, s.1.hashedIfNonEmpty → (g i h s).2.1.hashedIfNonEmpty) :
    ∀ r, Descend fuel pack g (m, v) = some r → r.2.1.hashedIfNonEmpty := by
  intro r hr
  unfold Descend at hr
  have hi := initRefs_hashed pack m hm
  split at hr
  · next err m1 hc =>
    rw [hc] at hi
    simp only [Option.some.injEq] at hr
    rw [← hr]; exact hi
  · next m1 hc =>
    rw [hc] at hi
    exact descendFrom_hashed fuel pack _ g m1 v hi hg r hr

theorem bubbleLengths_len :
    ∀ (fuel : Nat) (up : Option Nat) (m : Mem),
      (bubbleLengths fuel up m).r.length = m.r.length := by
  intro fuel
  induction fuel with
  | zero =>
    intro up m
    cases up with
    | none => rfl
    | some a => rfl
  | succ n ih =>
    intro up m
    cases up with
    | none => rfl
    | some a =>
      unfold bubbleLengths
      rw [ih]
      rfl

theorem delElementBubbling_len (el : Nat) (m : Mem) :
    (delElementBubbling el m).r.length = m.r.length - 1 := by
  unfold delElementBubbling
  simp only []
  rw [(deleteElement_fields _ _).2.2.2.2]
  simp only [Mem.setR]
  rw [bubbleLengths_len]

theorem deleteByHashIndexLoop_len (hash : SHA256) :
    ∀ (n k : Nat) (arr : List (Option Nat)) (m : Mem),
      (deleteByHashIndexLoop hash n k arr m).r.length ≤ m.r.length := by
  intro n
  induction n with
  | zero => intro k arr m; exact le_refl _
  | succ n ih =>
    intro k arr m
    unfold deleteByHashIndexLoop
    split
    · exact le_refl _
    · simp only []
      refine le_trans (ih _ _ _) ?_
      rw [delElementBubbling_len]
      omega

theorem DeleteByHash_hashed (fuel : Nat) (pack : Pack) (hash : SHA256) (m : Mem)
    (hm : m.hashedIfNonEmpty) :
    ∀ r, DeleteByHash fuel pack hash m = some r → r.2.hashedIfNonEmpty := by
  intro r hr
  unfold DeleteByHash at hr
  have hi := initRefs_hashed pack m hm
  split at hr
  · next err m1 hc =>
    rw [hc] at hi
    simp only [Option.some.injEq] at hr
    rw [← hr]; exact hi
  · next m1 hc =>
    rw [hc] at hi
    split at hr
    · split at hr
      · simp only [Option.some.injEq] at hr
        rw [← hr]; exact hi
      · simp only [Option.some.injEq] at hr
        rw [← hr]
        exact hashed_step _ _ (deleteByHashIndexLoop_hash hash _ _ _ m1)
          (deleteByHashIndexLoop_len hash _ _ _ m1) hi
    · split at hr
      · cases hr
      · next err s1 hd =>
        have := Descend_hashed fuel pack (deleteByHashFunc pack hash) m1 false hi
          (fun i hh s hs => by
            unfold deleteByHashFunc
            split
            · exact DeleteByIndex_hashed pack i s.1 hs
            · exact hs) _ hd
        simp only [Option.some.injEq] at hr
        rw [← hr]
        exact this

theorem HasHash_hashed (fuel : Nat) (pack : Pack) (hash : SHA256) (m : Mem)
    (hm : m.hashedIfNonEmpty) :
    ∀ r, HasHash fuel pack hash m = some r → r.2.2.hashedIfNonEmpty := by
  intro r hr
  unfold HasHash at hr
  have hi := initRefs_hashed pack m hm
  split at hr
  · next err m1 hc =>
    rw [hc] at hi
    simp only [Option.some.injEq] at hr
    rw [← hr]; exact hi
  · next m1 hc =>
    rw [hc] at hi
    split at hr
    · simp only [Option.some.injEq] at hr
      rw [← hr]; exact hi
    · split at hr
      · cases hr
      · next err s1 hd =>
        have := ascendFrom_hashed fuel pack 0 (hasHashFunc hash) m1 false hi
          (fun i hh s hs => by
            unfold hasHashFunc
            split
            · exact hs
            · exact hs) _ hd
        simp only [Option.some.injEq] at hr
        rw [← hr]
        exact this

theorem ValueByHash_hashed (fuel : Nat) (pack : Pack) (hash : SHA256) (m : Mem)
    (hm : m.hashedIfNonEmpty) :
    ∀ r, ValueByHash fuel pack hash m = some r → r.2.2.hashedIfNonEmpty := by
  intro r hr
  unfold ValueByHash at hr
  have hh := HasHash_hashed fuel pack hash m hm
  split at hr
  · cases hr
  · next err m1 hc =>
    have := hh _ hc
    simp only [Option.some.injEq] at hr
    rw [← hr]; exact this
  · next ok m1 hc =>
    have := hh _ hc
    split at hr
    · simp only [Option.some.injEq] at hr
      rw [← hr]; exact this
    · split at hr
      · simp only [Option.some.injEq] at hr
        rw [← hr]; exact this
      · split at hr
        · simp only [Option.some.injEq] at hr
          rw [← hr]; exact this
        · simp only [Option.some.injEq] at hr
          rw [← hr]; exact this

theorem indexOfLeaf_r (re : Nat) (m : Mem) : (indexOfLeaf re m).2.2.r = m.r := by
  unfold indexOfLeaf
  split
  · rfl
  · split
    · rfl
    · split <;> rfl

theorem indicesOfLeaf_r (re : Nat) (m : Mem) : (indicesOfLeaf re m).2.2.r = m.r := by
  unfold indicesOfLeaf
  split
  · rfl
  · split
    · rfl
    · split <;> rfl

theorem indicesByHashLoop_r :
    ∀ (res : List Nat) (is : List Int) (m : Mem), (indicesByHashLoop res is m).2.2.r = m.r := by
  intro res
  induction res with
  | nil => intro is m; rfl
  | cons re rest ih =>
    intro is m
    unfold indicesByHashLoop
    split
    · split
      · rfl
      · exact ih _ _
    · have h := indicesOfLeaf_r re m
      split
      · next h1 => rw [h1] at h; exact h
      · next h1 => rw [h1] at h; rw [ih]; exact h

theorem hashed_of_r (m m2 : Mem) (h : m2.r = m.r) (hm : m.hashedIfNonEmpty) :
    m2.hashedIfNonEmpty := by
  unfold Mem.hashedIfNonEmpty
  rw [h]
  exact hm

theorem IndexOfHash_hashed (fuel : Nat) (pack : Pack) (hash : SHA256) (m : Mem)
    (hm : m.hashedIfNonEmpty) :
    ∀ r, IndexOfHash fuel pack hash m = some r → r.2.2.hashedIfNonEmpty := by
  intro r hr
  unfold IndexOfHash at hr
  have hi := initRefs_hashed pack m hm
  split at hr
  · next err m1 hc =>
    rw [hc] at hi
    simp only [Option.some.injEq] at hr
    rw [← hr]; exact hi
  · next m1 hc =>
    rw [hc] at hi
    split at hr
    · split at hr
      · simp only [Option.some.injEq] at hr
        rw [← hr]; exact hi
      · split at hr
        · simp only [Option.some.injEq] at hr
          rw [← hr]; exact hi
        · split at hr
          · simp only [Option.some.injEq] at hr
            rw [← hr]; exact hi
          · simp only [Option.some.injEq] at hr
            rw [← hr]
            exact hashed_of_r _ _ (indexOfLeaf_r _ m1) hi
    · split at hr
      · cases hr
      · next err s1 hd =>
        have := ascendFrom_hashed fuel pack 0 (indexOfHashFunc hash) m1 (false, 0) hi
          (fun i hh s hs => by
            unfold indexOfHashFunc
            split
            · exact hs
            · exact hs) _ hd
        simp only [Option.some.injEq] at hr
        rw [← hr]
        exact this

theorem IndicesByHash_hashed (fuel : Nat) (pack : Pack) (hash : SHA256) (m : Mem)
    (hm : m.hashedIfNonEmpty) :
    ∀ r, IndicesByHash fuel pack hash m = some r → r.2.2.hashedIfNonEmpty := by
  intro r hr
  unfold IndicesByHash at hr
  have hi := initRefs_hashed pack m hm
  split at hr
  · next err m1 hc =>
    rw [hc] at hi
    simp only [Option.some.injEq] at hr
    rw [← hr]; exact hi
  · next m1 hc =>
    rw [hc] at hi
    split at hr
    · split at hr
      · simp only [Option.some.injEq] at hr
        rw [← hr]; exact hi
      · simp only [Option.some.injEq] at hr
        rw [← hr]
        exact hashed_of_r _ _ (indicesByHashLoop_r _ _ m1) hi
    · split at hr
      · cases hr
      · next err s1 hd =>
        have := ascendFrom_hashed fuel pack 0 (indicesByHashFunc hash) m1 [] hi
          (fun i hh s hs => by
            unfold indicesByHashFunc
            split
            · exact hs
            · exact hs) _ hd
        simp only [Option.some.injEq] at hr
        rw [← hr]
        exact this


theorem hashed_kept : keptByOperations Mem.hashedIfNonEmpty := by
  intro m hm pack i j hash hashes fuel
  refine ⟨initRefs_hashed pack m hm, Len_hashed pack m hm, HashByIndex_hashed pack i m hm,
    SetHashByIndex_hashed pack i hash m hm, DeleteByIndex_hashed pack i m hm,
    AppendHashes_hashed pack hashes m hm, Clear_hashed m, Rebuild_hashed pack m hm,
    (Slice_hashed pack i j m hm).1, HasHash_hashed fuel pack hash m hm,
    ValueByHash_hashed fuel pack hash m hm, IndexOfHash_hashed fuel pack hash m hm,
    IndicesByHash_hashed fuel pack hash m hm, DeleteByHash_hashed fuel pack hash m hm, ?_⟩
  intro U fn u hfn
  exact ⟨ascendFrom_hashed fuel pack 0 fn m u hm hfn,
    ascendFrom_hashed fuel pack i fn m u hm hfn,
    Descend_hashed fuel pack fn m u hm hfn,
    DescendFrom_hashed fuel pack i fn m u hm hfn⟩

/-- C23, amended.  A `Refs` of positive length has a non-zero root hash in
every state reachable through the public operations: this holds of every blank
`Refs`, whatever hash it is given (and of every `Refs` of length 0), every
public operation keeps it, and the new `Refs` that `Slice` returns has length
0; so whenever `Len` returns a positive number the root hash is not zero.  A
`Refs` of length 0 has zero hash, depth 0 and no children right after a
successful initialization from a blank state, but not in every reachable
state: `DeleteByIndex(i)` with `i` in range on a well-formed `Refs` of depth 0
succeeds, lowers the length by one and keeps the root hash, the depth and the
list of children, which is not empty, so that after the only element is
removed the length is 0 while hash and children stay. -/
theorem delete_keeps_hash_and_children (pack : Pack) (hash : SHA256) (m : Mem) (i : Nat)
    (hok : (initRefs pack (blankMem hash)).1 = none)
    (hflat : m.flat = true) (hi : i < m.liveSeq.length) :
    ((∀ h0, (blankMem h0).hashedIfNonEmpty) ∧ keptByOperations Mem.hashedIfNonEmpty ∧
      (∀ (pk : Pack) (j k : Int) (m1 : Mem) (r : Refs),
        (Slice pk j k m1).1 = some r → r.length = 0) ∧
      (∀ m1 : Mem, m1.r.length = 0 → m1.hashedIfNonEmpty) ∧
      (∀ (pk : Pack) (m1 : Mem), m1.hashedIfNonEmpty → 0 < (Len pk m1).1 →
        m1.r.Hash ≠ 0 ∧ (Len pk m1).2.2.r.Hash ≠ 0)) ∧
    (((initRefs pack (blankMem hash)).2.r.length = 0 →
        (initRefs pack (blankMem hash)).2.r.Hash = 0 ∧
        (initRefs pack (blankMem hash)).2.r.depth = 0 ∧
        (initRefs pack (blankMem hash)).2.rootChildren = []) ∧
      ((initRefs pack (blankMem hash)).2.r.length ≠ 0 →
        (initRefs pack (blankMem hash)).2.r.Hash ≠ 0)) ∧
    (DeleteByIndex pack i m).1 = none ∧
    (DeleteByIndex pack i m).2.r.length = m.r.length - 1 ∧
    (DeleteByIndex pack i m).2.r.Hash = m.r.Hash ∧
    (DeleteByIndex pack i m).2.r.depth = 0 ∧
    (DeleteByIndex pack i m).2.rootChildren = m.rootChildren ∧
    (DeleteByIndex pack i m).2.rootChildren ≠ [] := by
  refine ⟨⟨hashed_blank, hashed_kept, ?_, ?_, ?_⟩, initRefs_blank pack hash hok, ?_⟩
  · intro pk j k m1 r hr
    unfold Slice at hr
    split at hr
    · cases hr
    · split at hr
      · cases hr
      · simp only [ite_self, Option.some.injEq] at hr
        rw [← hr]
  · intro m1 h0 hp
    rw [h0] at hp
    exact absurd hp (lt_irrefl 0)
  · intro pk m1 h1 hpos
    have hi := initRefs_hashed pk m1 h1
    have hh := initRefs_hash pk m1
    unfold Len at hpos ⊢
    split at hpos
    · exact absurd hpos (lt_irrefl 0)
    · next m2 hc =>
      rw [hc] at hi hh
      simp only at hpos hi hh ⊢
      exact ⟨by rw [← hh]; exact hi hpos, hi hpos⟩
  obtain ⟨e, he, hdel⟩ := DeleteByIndex_flat pack m i hflat hi
  obtain ⟨_, hd, _, _, _⟩ := flat_facts m hflat
  obtain ⟨ff, fd, fl, fb, fn⟩ := deleteElement_fields e m
  have hmem : e ∈ m.r.leafs :=
    ((liveLeafs_mem m _ e).mp (List.getElem?_mem he)).1
  have hch : (DeleteByIndex pack i m).2.rootChildren = m.rootChildren := by
    rw [hdel]
    simp only [Mem.rootChildren, Mem.setR, fd, hd, fl]
  refine ⟨by rw [hdel], by rw [hdel]; simp only [Mem.setR]; rw [fn], DeleteByIndex_hash pack i m,
    by rw [hdel]; simp only [Mem.setR]; rw [fd, hd], hch, ?_⟩
  rw [hch]
  simp only [Mem.rootChildren, hd]
  exact List.ne_nil_of_mem hmem

/-- C23, amended, at the one-element `Refs` loaded from `onePack`: it has a
positive length and a non-zero hash, and after `DeleteByIndex(0)` the length
is 0 while the hash and the child are still there. -/
theorem delete_keeps_hash_and_children_witness :
    (initRefs onePack (blankMem 100)).1 = none ∧ oneLoaded.flat = true ∧
    0 < oneLoaded.liveSeq.length ∧
    oneLoaded.hashedIfNonEmpty ∧
    (DeleteByIndex onePack (0 : Nat) oneLoaded).2.hashedIfNonEmpty ∧
    (DeleteByIndex onePack (0 : Nat) oneLoaded).2.r.length = oneLoaded.r.length - 1 ∧
    (DeleteByIndex onePack (0 : Nat) oneLoaded).2.r.Hash = oneLoaded.r.Hash ∧
    (DeleteByIndex onePack (0 : Nat) oneLoaded).2.rootChildren ≠ [] :=
  ⟨by decide, by decide, by decide,
   ((delete_keeps_hash_and_children onePack 100 oneLoaded 0 (by decide) (by decide)
      (by decide)).1.2.1 (blankMem 100)
      ((delete_keeps_hash_and_children onePack 100 oneLoaded 0 (by decide) (by decide)
        (by decide)).1.1 100) onePack 0 0 0 [] 0).1,
   ((delete_keeps_hash_and_children onePack 100 oneLoaded 0 (by decide) (by decide)
      (by decide)).1.2.1 oneLoaded
      (fun _ => by decide) onePack 0 0 0 [] 0).2.2.2.2.1,
   (delete_keeps_hash_and_children onePack 100 oneLoaded 0 (by decide) (by decide)
      (by decide)).2.2.2.1,
   (delete_keeps_hash_and_children onePack 100 oneLoaded 0 (by decide) (by decide)
      (by decide)).2.2.2.2.1,
   (delete_keeps_hash_and_children onePack 100 oneLoaded 0 (by decide) (by decide)
      (by decide)).2.2.2.2.2.2.2⟩

end Registry
